import Mathlib

/-! The hy3 tiling tree engine: a shallow embedding of `src/Hy3Layout.cpp`.

The tree is an arena: `Hy3Layout::nodes` is a `std::list<Hy3Node>` whose elements have
stable addresses, and every reference between nodes (`parent`, `children`,
`focused_child`) is a raw pointer into it.  A pointer is a natural number, `0` is `nullptr`,
and a node carries its own address in the field `addr`.

Operations return `Option`: `none` stands for undefined behaviour of the C++ code
(a null or dangling dereference, an invalid iterator, a wrong variant access) or for a loop
that does not come to an end within its fuel.

`Hy3Node.hpp` / `Hy3Node.cpp` are not part of the sources.  The node type is rebuilt from
the fields the layout code reads and writes and from section 3 of the specification; the
node methods the layout code calls are either parameters (`NodeOps`) or definitions marked
`Modelled from the spec:`.
-/

namespace Hy3

/-! ## Data model -/

/-- A raw pointer to a node: an address in `Hy3Layout::nodes`, `0` for `nullptr`. -/
abbrev Ptr := Nat

/-- The null pointer. -/
def nullptr : Ptr := 0

/-- Layout mode of a group (`Hy3GroupLayout`). -/
inductive Hy3GroupLayout where
  | SplitH
  | SplitV
  | Tabbed
  deriving DecidableEq, Repr

/-- Direction of a shift or focus movement (`Hy3Layout.hpp`, `enum class ShiftDirection`). -/
inductive ShiftDirection where
  | Left
  | Up
  | Down
  | Right
  deriving DecidableEq, Repr

/-- Argument of the group constructors (`Hy3Layout.hpp`, `enum class GroupEphemeralityOption`). -/
inductive GroupEphemeralityOption where
  | Ephemeral
  | Standard
  | ForceEphemeral
  deriving DecidableEq, Repr

/-- Expansion state of a group (`ExpandFocusType`). -/
inductive ExpandFocusType where
  | NotExpanded
  | Latch
  | Stack
  deriving DecidableEq, Repr

/-- A pair of doubles (`Vector2D`); the doubles are idealised as rationals. -/
structure Vector2D where
  x : Rat
  y : Rat
  deriving DecidableEq, Repr

/-- Payload of a group node (`Hy3GroupData`).  `ephemeral` is read as a boolean by the
layout code (`group.ephemeral || ...`). -/
structure Hy3GroupData where
  layout : Hy3GroupLayout
  previous_nontab_layout : Hy3GroupLayout
  children : List Ptr
  group_focused : Bool
  focused_child : Ptr
  expand_focused : ExpandFocusType
  ephemeral : Bool
  locked : Bool
  containment : Bool
  deriving DecidableEq, Repr

/-- Payload of a node (`Hy3NodeData`): a window handle or a group. -/
inductive Hy3NodeData where
  | window (w : Nat)
  | group (g : Hy3GroupData)
  deriving DecidableEq, Repr

/-- A node of the tree (`Hy3Node`).  `addr` is the address of the node inside
`Hy3Layout::nodes`; `workspace` is the identity of its workspace and `layout` the identity of
the owning `Hy3Layout` instance. -/
structure Hy3Node where
  addr : Ptr
  parent : Ptr
  data : Hy3NodeData
  position : Vector2D
  size : Vector2D
  workspace : Nat
  layout : Nat
  reparenting : Bool
  size_ratio : Rat
  hidden : Bool
  deriving DecidableEq, Repr

/-- A window of the compositor as the layout sees it (`PHLWINDOW`): `handle` is the identity
of the window object, `0` for an empty handle. -/
structure CWindow where
  handle : Nat
  m_isFloating : Bool
  m_isMapped : Bool
  m_workspace : Nat
  deriving DecidableEq, Repr

/-- A monitor: position, size and the reserved insets. -/
structure CMonitor where
  m_position : Vector2D
  m_size : Vector2D
  reservedLeft : Rat
  reservedTop : Rat
  reservedRight : Rat
  reservedBottom : Rat
  deriving DecidableEq, Repr

/-- The configuration values read through `ConfigValue<...>` in the layout code. -/
structure Config where
  tab_first_window : Int
  at_enable : Int
  at_ephemeral : Int
  at_trigger_width : Int
  at_trigger_height : Int
  autotile_raw_workspaces : String
  node_collapse_policy : Int

/-- What the layout code asks of the compositor during one call. -/
structure Compositor where
  config : Config
  -- `valid(workspace)`
  valid : Nat → Bool
  -- `workspace->m_monitor`
  monitor : Nat → CMonitor
  -- `Desktop::focusState()->window()`
  focusWindow : CWindow
  -- `g_pCompositor->vectorToWindowUnified(mouse coordinates, ...)`
  mouseWindow : CWindow
  -- `getMonitorInDirection(d)->m_activeWorkspace->getLastFocusedWindow()`, an empty handle
  -- when there is no such monitor, workspace or window
  monitorLastWindow : ShiftDirection → CWindow
  -- `workspace->m_id`
  m_id : Nat → Int

/-- The methods of `Hy3Node` that the layout code calls and whose bodies are not part of the
sources, as far as they only read the tree or only write geometry.
`geometry ns root n` is the rectangle that `root->recalcSizePosRecursive()` assigns to the
node at address `n` in the tree `ns`. -/
structure NodeOps where
  getExpandActor : List Hy3Node → Ptr → Ptr
  getPlacementActor : List Hy3Node → Ptr → Ptr
  geometry : List Hy3Node → Ptr → Ptr → Vector2D × Vector2D
  -- the node that `removeFromParentRecursive` stores through its `expand_actor` argument
  removalExpandActor : List Hy3Node → Ptr → Ptr

/-- The autotile workspace filter of one `Hy3Layout` instance (`Hy3Layout.hpp`, `autotile`). -/
structure Autotile where
  raw_workspaces : String
  workspace_blacklist : Bool
  workspaces : List Int

/-- The state of the layout: the shared node collection, the filter of this instance and the
identity of this instance (`this`). -/
structure Hy3Layout where
  nodes : List Hy3Node
  autotile : Autotile
  self : Nat

/-! ## Accessors and arena primitives -/

/-- Variant test `data.is_window()`. -/
def Hy3NodeData.is_window : Hy3NodeData → Bool
  | .window _ => true
  | .group _ => false

/-- Variant test `data.is_group()`. -/
def Hy3NodeData.is_group : Hy3NodeData → Bool
  | .window _ => false
  | .group _ => true

/-- Variant access `data.as_window()`: undefined on a group. -/
def Hy3NodeData.as_window : Hy3NodeData → Option Nat
  | .window w => some w
  | .group _ => none

/-- Variant access `data.as_group()`: undefined on a window. -/
def Hy3NodeData.as_group : Hy3NodeData → Option Hy3GroupData
  | .window _ => none
  | .group g => some g

/-- Dereference a pointer: the node stored at address `p`, if there is one. -/
def getNode (ns : List Hy3Node) (p : Ptr) : Option Hy3Node :=
  ns.find? (fun n => n.addr == p)

/-- Write through a pointer: apply `f` to the node at address `p`. -/
def modifyNode (ns : List Hy3Node) (p : Ptr) (f : Hy3Node → Hy3Node) : List Hy3Node :=
  ns.map (fun n => if n.addr = p then f n else n)

/-- Apply `f` to the payload of a group. -/
def Hy3Node.mapGroup (n : Hy3Node) (f : Hy3GroupData → Hy3GroupData) : Hy3Node :=
  match n.data with
  | .group g => { n with data := .group (f g) }
  | .window _ => n

/-- Write through `p->data.as_group()`. -/
def modifyGroup (ns : List Hy3Node) (p : Ptr) (f : Hy3GroupData → Hy3GroupData) :
    List Hy3Node :=
  modifyNode ns p (fun n => n.mapGroup f)

/-- The address `nodes.push_back` gives to the next element: one that no live node has. -/
def freshAddr (ns : List Hy3Node) : Ptr :=
  (ns.map (fun n => n.addr)).foldr max 0 + 1

/-- Removal `nodes.remove(*p)`: the node at address `p` leaves the collection. -/
def eraseNode (ns : List Hy3Node) (p : Ptr) : List Hy3Node :=
  ns.filter (fun n => n.addr != p)

/-- Children of a payload; a window has none. -/
def Hy3NodeData.children : Hy3NodeData → List Ptr
  | .window _ => []
  | .group g => g.children

/-- List insertion `list.insert(iter, x)` with the iterator given as a position. -/
def insertAt (l : List Ptr) (i : Nat) (x : Ptr) : List Ptr :=
  l.take i ++ x :: l.drop i

/-- Search `std::find(l.begin(), l.end(), x)` as a position; `l.length` stands for `end()`. -/
def findIdx (l : List Ptr) (x : Ptr) : Nat :=
  l.indexOf x

/-! ## Node methods (`Hy3Node.cpp` is not part of the sources) -/

/-- Modelled from the spec: the constructor of `Hy3GroupData` from a layout, which is not in
the sources.  A new group has no children and no focused child, is not expanded, locked,
ephemeral or containing, and remembers its layout as the one to restore when un-tabbing
(section 3); it starts as the focus target itself, which is why the root wrap of
`shiftOrGetFocus` resets `group_focused` after filling it. -/
def Hy3GroupData.ofLayout (l : Hy3GroupLayout) : Hy3GroupData :=
  { layout := l
    previous_nontab_layout := if l = .Tabbed then .SplitH else l
    children := []
    group_focused := true
    focused_child := 0
    expand_focused := .NotExpanded
    ephemeral := false
    locked := false
    containment := false }

/-- Modelled from the spec: `Hy3GroupData::setLayout`, not in the sources.  Sets the layout;
`previous_nontab_layout` "remembers the layout to restore when un-tabbing" (section 3), so it
follows every layout that is not `Tabbed`. -/
def Hy3GroupData.setLayout (g : Hy3GroupData) (l : Hy3GroupLayout) : Hy3GroupData :=
  { g with layout := l
           previous_nontab_layout := if l = .Tabbed then g.previous_nontab_layout else l }

/-- Modelled from the spec: `Hy3GroupData::setEphemeral`, not in the sources.  The field is
read as a boolean by the layout code; `Standard` clears it and the two ephemeral options
set it (section 3). -/
def Hy3GroupData.setEphemeral (g : Hy3GroupData) (e : GroupEphemeralityOption) :
    Hy3GroupData :=
  { g with ephemeral := decide (e ≠ .Standard) }

/-- The geometry engine `recalcSizePosRecursive`, whose body is not in the sources: it
assigns `position` and `size` (section 3: "mutated only by the Geometry Engine") and nothing
else.  Which rectangle each node gets is the parameter `O.geometry`. -/
def recalcSizePosRecursive (O : NodeOps) (ns : List Hy3Node) (root : Ptr) : List Hy3Node :=
  ns.map (fun n =>
    { n with position := (O.geometry ns root n.addr).1
             size := (O.geometry ns root n.addr).2 })

/-- Redirect the `parent` of every child of the node at `p` to `p`. -/
def reparentChildren (ns : List Hy3Node) (p : Ptr) : List Hy3Node :=
  match getNode ns p with
  | some n => ns.map (fun m => if m.addr ∈ n.data.children then { m with parent := p } else m)
  | none => ns

/-- Modelled from the spec: `Hy3Node::swapData(a, b)`, not in the sources.  The two nodes
exchange their payloads (window or group) and keep everything else; the children of a group
payload follow it, so that every child's `parent` is the node whose children sequence
contains it (invariant 1 of section 3).  This is what the callers in the sources rely on:
after `swapData(*break_parent, *newChild)` the root wrap treats `newChild` as the holder of
the former root's children. -/
def swapData (ns : List Hy3Node) (a b : Ptr) : Option (List Hy3Node) := do
  let na ← getNode ns a
  let nb ← getNode ns b
  let ns1 := modifyNode ns a (fun n => { n with data := nb.data })
  let ns2 := modifyNode ns1 b (fun n => { n with data := na.data })
  some (reparentChildren (reparentChildren ns2 a) b)

/-- Modelled from the spec: `Hy3Node::intoGroup(layout, ephemeral)`, not in the sources.
The spec has the anchor "wrapped in a new group" (4.3); the callers in `insertNode` use the
receiver as the group afterwards and the returned pointer as the wrapped node, which is the
wrap that `shiftOrGetFocus` spells out for the root: a new node is pushed, takes over the
payload of the receiver through `swapData`, and becomes the only and focused child of the
receiver, which now is a group of the requested layout. -/
def intoGroup (O : NodeOps) (ns : List Hy3Node) (self : Ptr) (layout : Hy3GroupLayout)
    (ephemeral : GroupEphemeralityOption) : Option (List Hy3Node × Ptr) := do
  let n ← getNode ns self
  let a := freshAddr ns
  let ns1 := ns ++ [{ addr := a, parent := self, data := .group (Hy3GroupData.ofLayout layout),
                      position := n.position, size := n.size, workspace := n.workspace,
                      layout := n.layout, reparenting := false, size_ratio := 1,
                      hidden := false }]
  let ns2 ← swapData ns1 self a
  let g0 := (Hy3GroupData.ofLayout layout).setEphemeral ephemeral
  let ns3 := modifyNode ns2 self (fun m =>
    { m with data := .group { g0 with children := [a], group_focused := false,
                                      focused_child := a } })
  some (recalcSizePosRecursive O ns3 self, a)

/-- The loop of `removeFromParentRecursive`: `child` is taken out of its parent; a group
emptied by that is taken out of its own parent and destroyed, and so on upwards. -/
def removeFromParentLoop : Nat → List Hy3Node → Ptr → Ptr → Option (List Hy3Node × Ptr)
  | 0, _, _, _ => none
  | fuel + 1, ns, self, child => do
    let c ← getNode ns child
    if c.parent = 0 then
      some (if child = self then ns else eraseNode ns child, 0)
    else
      let p ← getNode ns c.parent
      let g ← p.data.as_group
      let rest := g.children.filter (fun x => x != child)
      let ns1 := modifyGroup ns c.parent (fun g =>
        { g with children := rest
                 focused_child := if g.focused_child = child then rest.headD 0
                                   else g.focused_child })
      let ns2 := if child = self then modifyNode ns1 child (fun n => { n with parent := 0 })
                 else eraseNode ns1 child
      if rest.isEmpty then removeFromParentLoop fuel ns2 self c.parent
      else some (ns2, c.parent)

/-- Modelled from the spec: `Hy3Node::removeFromParentRecursive`, not in the sources.
"Detach node from its parent" (4.5): the node leaves the children sequence of its parent and
has no parent afterwards; the result is the group it was taken out of, which is what the
callers test next.  A group's children sequence "is never empty as a stable end-state"
(invariant 2), so a group emptied by the removal is removed in turn, and the result then is
the first group that keeps a child (`nullptr` when none is left).  A focused child that
leaves is replaced by a remaining one (invariant 4). -/
def removeFromParentRecursive (ns : List Hy3Node) (self : Ptr) :
    Option (List Hy3Node × Ptr) :=
  removeFromParentLoop (ns.length + 1) ns self self

/-- Modelled from the spec: `Hy3Node::swallowGroups(into)`, not in the sources.  A swallow is
"the act of replacing a single-child group with that child in its own parent's slot"
(glossary): the group node keeps its address, hence its slot, and takes over the payload of
its only child, whose node is destroyed; this is what `shiftNode` does by hand for an only
child.  It reports whether it did so.  A locked `Tabbed` group is exempt (section 3). -/
def swallowGroups (ns : List Hy3Node) (into : Ptr) : Option (List Hy3Node × Bool) :=
  if into = 0 then some (ns, false)
  else do
    let n ← getNode ns into
    match n.data with
    | .window _ => some (ns, false)
    | .group g =>
      match g.children with
      | [c] =>
        if g.layout = .Tabbed ∧ g.locked = true then some (ns, false)
        else do
          let ns1 ← swapData ns into c
          some (eraseNode ns1 c, true)
      | _ => some (ns, false)

/-- The upward walk of `markFocused`. -/
def markFocusedUp : Nat → List Hy3Node → Ptr → Option (List Hy3Node)
  | 0, _, _ => none
  | fuel + 1, ns, p => do
    let n ← getNode ns p
    if n.parent = 0 then some ns
    else
      markFocusedUp fuel
        (modifyGroup ns n.parent (fun g => { g with focused_child := p, group_focused := false }))
        n.parent

/-- Modelled from the spec: `Hy3Node::markFocused`, not in the sources.  "Focusing a leaf
sets `focused_child`/`group_focused` up its entire ancestor chain" (4.6): every ancestor gets
the node below it as focused child and stops being the focus target itself; a focused group
becomes the focus target. -/
def markFocused (ns : List Hy3Node) (p : Ptr) : Option (List Hy3Node) :=
  markFocusedUp (ns.length + 1)
    (modifyGroup ns p (fun g => { g with group_focused := true })) p

/-- Modelled from the spec: `Hy3Node::focus(warp)`, not in the sources.  Inside the tree it
is `markFocused`; handing the input focus to the window and warping the cursor happen in the
compositor. -/
def focus (ns : List Hy3Node) (p : Ptr) : Option (List Hy3Node) :=
  markFocused ns p

/-- Modelled from the spec: `Hy3GroupData::hasChild`, not in the sources: whether the node is
a descendant of the group (4.3, step 3), searched through the children sequences. -/
def hasChild : Nat → List Hy3Node → List Ptr → Ptr → Bool
  | 0, _, _, _ => false
  | fuel + 1, ns, children, x =>
    children.any (fun c => c == x ||
      match getNode ns c with
      | some n => hasChild fuel ns n.data.children x
      | none => false)

/-- Modelled from the spec: `Hy3Node::getFocusedNode(ignore_group_focus, stop_at_expanded)`,
not in the sources.  The focused node is "derivable by following
`focused_child`/`group_focused` from the root" (invariant 5): a window is its own focused
node, a group is unless it has a focused child to follow and is not the focus target itself;
the sources walk the same chain by hand in `focusTab` and `mouseButtonHook`. -/
def getFocusedNode : Nat → List Hy3Node → Ptr → Bool → Bool → Option Ptr
  | 0, _, _, _, _ => none
  | fuel + 1, ns, p, ignore_group_focus, stop_at_expanded => do
    let n ← getNode ns p
    match n.data with
    | .window _ => some p
    | .group g =>
      if g.focused_child = 0 ∨ (ignore_group_focus = false ∧ g.group_focused = true)
          ∨ (stop_at_expanded = true ∧ g.expand_focused ≠ .NotExpanded) then some p
      else getFocusedNode fuel ns g.focused_child ignore_group_focus stop_at_expanded

/-! ## Lookups of `Hy3Layout` -/

/-- The lookup `Hy3Layout::getNodeFromWindow`: the first node wrapping the window, `nullptr`
when there is none. -/
def getNodeFromWindow (ns : List Hy3Node) (window : Nat) : Ptr :=
  match ns.find? (fun n => n.data.is_window && n.data.as_window == some window) with
  | some n => n.addr
  | none => 0

/-- The lookup `Hy3Layout::getWorkspaceRootGroup`: the first parentless group of the
workspace that is not being reparented. -/
def getWorkspaceRootGroup (ns : List Hy3Node) (workspace : Nat) : Ptr :=
  match ns.find? (fun n => n.workspace == workspace && n.parent == 0 && n.data.is_group
      && !n.reparenting) with
  | some n => n.addr
  | none => 0

/-! ## Directions -/

/-- The opposite direction (`reverse`). -/
def reverse : ShiftDirection → ShiftDirection
  | .Left => .Right
  | .Right => .Left
  | .Up => .Down
  | .Down => .Up

/-- Whether the direction goes towards the end of a children sequence (`shiftIsForward`). -/
def shiftIsForward (direction : ShiftDirection) : Bool :=
  direction == .Right || direction == .Down

/-- Whether the direction is vertical (`shiftIsVertical`). -/
def shiftIsVertical (direction : ShiftDirection) : Bool :=
  direction == .Up || direction == .Down

/-- Whether a group of this layout is oriented along the direction (`shiftMatchesLayout`). -/
def shiftMatchesLayout (layout : Hy3GroupLayout) (direction : ShiftDirection) : Bool :=
  (layout == .SplitV && shiftIsVertical direction)
    || (layout != .SplitV && !shiftIsVertical direction)

/-! ## Autotile workspace filter -/

/-- The characters matched by `\s` or `,` in the regular expression `[\s,]+`. -/
def isDelimiter (c : Char) : Bool :=
  c.toNat == 32 || c.toNat == 9 || c.toNat == 10 || c.toNat == 13 || c.toNat == 11
    || c.toNat == 12 || c.toNat == 44

/-- The conversion `std::stoi` on a token: an optional sign and the longest run of decimal
digits after it; `none` when it throws (no digit, or a value outside `int`). -/
def stoi (cs : List Char) : Option Int :=
  let body : Bool × List Char :=
    match cs with
    | '-' :: r => (true, r)
    | '+' :: r => (false, r)
    | r => (false, r)
  let ds := body.2.takeWhile Char.isDigit
  if ds.isEmpty then none
  else
    let v : Int := ((ds.foldl (fun a c => 10 * a + (c.toNat - 48)) 0 : Nat) : Int)
    let v := if body.1 then -v else v
    if -2147483648 ≤ v ∧ v ≤ 2147483647 then some v else none

/-- Whether the raw string starts with `not:` (`rfind("not:", 0) == 0`). -/
def startsWithNot : List Char → Bool
  | 'n' :: 'o' :: 't' :: ':' :: _ => true
  | _ => false

/-- The update `Hy3Layout::updateAutotileWorkspaces`.  The tokens between the runs of
delimiters are converted one by one; a token that `std::stoi` rejects is logged and skipped,
so the empty tokens next to a delimiter leave no trace. -/
def updateAutotileWorkspaces (C : Compositor) (a : Autotile) : Autotile :=
  let raw := C.config.autotile_raw_workspaces
  if raw = a.raw_workspaces then a
  else if raw = "all" then { a with raw_workspaces := raw, workspaces := [] }
  else
    let blacklist := startsWithNot raw.toList
    let filtered := if blacklist then raw.toList.drop 4 else raw.toList
    let ids := (filtered.splitOnP isDelimiter).filterMap stoi
    { raw_workspaces := raw
      workspace_blacklist := blacklist
      workspaces := ids.foldl (fun acc i => if i ∈ acc then acc else acc ++ [i]) [] }

/-- The conversion of a 64-bit `WORKSPACEID` to `int`, which the call
`std::set<int>::contains(workspace->m_id)` makes on its argument: the value modulo `2^32` in
the range of `int`. -/
def narrowToInt (id : Int) : Int :=
  (id + 2147483648) % 4294967296 - 2147483648

/-- The test `Hy3Layout::shouldAutotileWorkspace` on the id of the workspace; the set holds
`int` keys (`std::set<int>`, `Hy3Layout.hpp`), so the id is looked up as an `int`. -/
def shouldAutotileWorkspace (a : Autotile) (id : Int) : Bool :=
  if a.workspace_blacklist then !(a.workspaces.contains (narrowToInt id))
  else a.workspaces.isEmpty || a.workspaces.contains (narrowToInt id)

/-- The ids that `updateAutotileWorkspaces` reads from a raw string other than `all` (lines
2057-2078), in the order of the string. -/
def parsedIds (raw : String) : List Int :=
  ((if startsWithNot raw.toList then raw.toList.drop 4 else raw.toList).splitOnP
    isDelimiter).filterMap stoi

/-- The filter of an instance after a sequence of calls of `updateAutotileWorkspaces`, one for
each configuration in turn. -/
def updatesFrom (a : Autotile) : List Compositor → Autotile
  | [] => a
  | C :: rest => updatesFrom (updateAutotileWorkspaces C a) rest

/-- The filter of a new `Hy3Layout` instance: the string and the set are empty, and the flag
`workspace_blacklist`, which has no initialiser, has either value. -/
def Autotile.initial (blacklist : Bool) : Autotile := ⟨"", blacklist, []⟩

/-- The decimal numeral of an integer: a minus sign for a negative number and the digits of
the absolute value, most significant first. -/
def decimal (i : Int) : List Char :=
  if i < 0 then '-' :: Nat.toDigits 10 i.natAbs else Nat.toDigits 10 i.natAbs

/-- A list of integer ids as it is written in the configuration: the numeral of the first id,
and for every further id a separator and its numeral. -/
def idList (first : Int) (more : List (List Char × Int)) : List Char :=
  decimal first ++ (more.map (fun x => x.1 ++ decimal x.2)).flatten

/-! ## Insertion -/

/-- Modelled from the spec: the default member values of `Hy3Node` for the fields a
designated initialiser leaves out (`Hy3Node.hpp` is not in the sources): no parent, not
reparenting, not hidden, the neutral `size_ratio` 1.0 (section 3) and an empty rectangle. -/
def Hy3Node.init (addr : Ptr) (data : Hy3NodeData) (workspace layout : Nat) : Hy3Node :=
  { addr := addr, parent := 0, data := data, position := ⟨0, 0⟩, size := ⟨0, 0⟩,
    workspace := workspace, layout := layout, reparenting := false, size_ratio := 1,
    hidden := false }

/-- The part of `insertNode` that picks the anchor `opening_after` (lines 446-492). -/
def insertNodeAnchor (O : NodeOps) (C : Compositor) (ns : List Hy3Node) (node : Ptr) :
    Option (List Hy3Node × Ptr) := do
  let n ← getNode ns node
  let root := getWorkspaceRootGroup ns n.workspace
  let r1 ← (if root ≠ 0 then do
      let f ← getFocusedNode (ns.length + 1) ns root false false
      let oa := if f ≠ 0 then O.getPlacementActor ns f else f
      if oa = root then intoGroup O ns oa .SplitH .Standard else some (ns, oa)
    else some (ns, 0) : Option (List Hy3Node × Ptr))
  let ns1 := r1.1
  let oa2 ← (if r1.2 = 0 then do
      let n1 ← getNode ns1 node
      let last_window := C.focusWindow
      let mouse_window := C.mouseWindow
      let c1 := decide (last_window.handle ≠ 0) && last_window.m_workspace == n1.workspace
        && !last_window.m_isFloating
      let c2 ← (if c1 then
          (if n1.data.is_window then some true
           else n1.data.as_window.map (fun w => last_window.handle != w))
        else some false : Option Bool)
      let found :=
        if c1 && c2 && last_window.m_isMapped then getNodeFromWindow ns1 last_window.handle
        else if mouse_window.handle ≠ 0 ∧ mouse_window.m_workspace = n1.workspace then
          getNodeFromWindow ns1 mouse_window.handle
        else 0
      some (if found ≠ 0 then O.getPlacementActor ns1 found else found)
    else some r1.2 : Option Ptr)
  let oa3 ← (if oa2 ≠ 0 then do
      let n2 ← getNode ns1 node
      if n2.data.is_group
          && (oa2 == node || hasChild (ns1.length + 1) ns1 n2.data.children oa2) then some 0
      else do
        let a ← getNode ns1 oa2
        some (if a.reparenting then 0 else oa2)
    else some oa2 : Option Ptr)
  some (ns1, oa3)

/-- The part of `insertNode` that picks the group `opening_into` and creates the root when
the workspace has none (lines 494-531). -/
def insertNodeTarget (C : Compositor) (self : Nat) (ns : List Hy3Node) (node : Ptr)
    (opening_after : Ptr) : Option (List Hy3Node × Ptr) :=
  if opening_after ≠ 0 then do
    let a ← getNode ns opening_after
    some (ns, a.parent)
  else do
    let n ← getNode ns node
    let root := getWorkspaceRootGroup ns n.workspace
    if root ≠ 0 then some (ns, root)
    else
      let monitor := C.monitor n.workspace
      let width := monitor.m_size.x - monitor.reservedRight - monitor.reservedLeft
      let height := monitor.m_size.y - monitor.reservedBottom - monitor.reservedTop
      let position : Vector2D :=
        ⟨monitor.m_position.x + monitor.reservedLeft, monitor.m_position.y + monitor.reservedTop⟩
      let size : Vector2D :=
        ⟨monitor.m_size.x - monitor.reservedLeft - monitor.reservedRight,
         monitor.m_size.y - monitor.reservedTop - monitor.reservedBottom⟩
      let a := freshAddr ns
      let rootNode : Hy3Node :=
        { Hy3Node.init a (.group (Hy3GroupData.ofLayout
            (if height > width then .SplitV else .SplitH))) n.workspace self with
          position := position, size := size }
      let ns1 := ns ++ [rootNode]
      if C.config.tab_first_window ≠ 0 then
        let b := freshAddr ns1
        let tabNode : Hy3Node :=
          { Hy3Node.init b (.group (Hy3GroupData.ofLayout .Tabbed)) n.workspace self with
            parent := a, position := position, size := size }
        let ns2 := ns1 ++ [tabNode]
        some (modifyGroup ns2 a (fun g => { g with children := g.children ++ [b] }), b)
      else some (ns1, a)

/-- The outer condition of the autotile block (lines 561-563). -/
def autotileApplies (C : Compositor) (atl : Autotile) (oi : Hy3Node)
    (target_group : Hy3GroupData) (opening_after : Ptr) : Bool :=
  decide (C.config.at_enable ≠ 0) && decide (opening_after ≠ 0)
    && decide (target_group.children.length > 1) && target_group.layout != .Tabbed
    && shouldAutotileWorkspace atl (C.m_id oi.workspace)

/-- The trigger of the autotile block: `trigger_width` for a horizontal group,
`trigger_height` otherwise (line 566). -/
def autotileTrigger (C : Compositor) (target_group : Hy3GroupData) : Int :=
  if target_group.layout = .SplitH then C.config.at_trigger_width
  else C.config.at_trigger_height

/-- The size a child would have after one more is added (lines 567-568): the size of the
group along its axis divided by the number of children plus one. -/
def sizeAfterAddition (oi : Hy3Node) (target_group : Hy3GroupData) : Rat :=
  (if target_group.layout = .SplitH then oi.size.x else oi.size.y)
    / ((target_group.children.length + 1 : Nat) : Rat)

/-- The inner condition of the autotile block (line 570). -/
def autotileSplits (C : Compositor) (oi : Hy3Node) (target_group : Hy3GroupData) : Bool :=
  decide (autotileTrigger C target_group ≥ 0
    ∧ (autotileTrigger C target_group = 0
        ∨ sizeAfterAddition oi target_group < (autotileTrigger C target_group : Rat)))

/-- The autotile block of `insertNode` (lines 550-579); the result is the tree with the new
`opening_into` and `opening_after`. -/
def insertNodeAutotile (O : NodeOps) (C : Compositor) (atl : Autotile) (ns : List Hy3Node)
    (opening_into opening_after : Ptr) : Option (List Hy3Node × Ptr × Ptr) := do
  let oi ← getNode ns opening_into
  let target_group ← oi.data.as_group
  if autotileApplies C atl oi target_group opening_after
      && autotileSplits C oi target_group then do
    let r ← intoGroup O ns opening_after
      (if target_group.layout = .SplitH then .SplitV else .SplitH)
      (if C.config.at_ephemeral ≠ 0 then .Ephemeral else .Standard)
    some (r.1, opening_after, r.2)
  else some (ns, opening_into, opening_after)

/-- The splice of `insertNode` (lines 581-603). -/
def insertNodeSplice (O : NodeOps) (ns : List Hy3Node) (node opening_into opening_after : Ptr) :
    Option (List Hy3Node) := do
  let ns1 := modifyNode ns node (fun n => { n with parent := opening_into, reparenting := false })
  let oi ← getNode ns1 opening_into
  let g ← oi.data.as_group
  let children ← (if opening_after = 0 then some (g.children ++ [node])
    else
      let i := findIdx g.children opening_after
      if i < g.children.length then some (insertAt g.children (i + 1) node) else none :
        Option (List Ptr))
  let ns2 := modifyGroup ns1 opening_into (fun g => { g with children := children })
  let ns3 ← markFocused ns2 node
  some (recalcSizePosRecursive O ns3 opening_into)

/-- The placement of `insertNode` (lines 550-603): the autotile block and the splice. -/
def insertNodePlace (O : NodeOps) (C : Compositor) (atl : Autotile) (ns : List Hy3Node)
    (node opening_into opening_after : Ptr) : Option (List Hy3Node) := do
  let r ← insertNodeAutotile O C atl ns opening_into opening_after
  insertNodeSplice O r.1 node r.2.1 r.2.2

/-- The insertion `Hy3Layout::insertNode`. -/
def insertNode (O : NodeOps) (C : Compositor) (L : Hy3Layout) (node : Ptr) :
    Option Hy3Layout := do
  let n ← getNode L.nodes node
  if n.parent ≠ 0 then some L
  else if C.valid n.workspace = false then some L
  else do
    let ns0 := modifyNode L.nodes node (fun n => { n with reparenting := true, size_ratio := 1 })
    let r1 ← insertNodeAnchor O C ns0 node
    let r2 ← insertNodeTarget C L.self r1.1 node r1.2
    let oi ← getNode r2.1 r2.2
    if oi.data.is_window then some { L with nodes := r2.1 }
    else do
      let atl := updateAutotileWorkspaces C L.autotile
      let ns4 ← insertNodePlace O C atl r2.1 node r2.2 r1.2
      some { nodes := ns4, autotile := atl, self := L.self }

/-- The handler `Hy3Layout::onWindowCreatedTiling`. -/
def onWindowCreatedTiling (O : NodeOps) (C : Compositor) (L : Hy3Layout) (window : CWindow) :
    Option Hy3Layout :=
  if window.handle = 0 then some L
  else if window.m_isFloating then some L
  else if getNodeFromWindow L.nodes window.handle ≠ 0 then some L
  else
    let a := freshAddr L.nodes
    insertNode O C
      { L with nodes := L.nodes ++ [Hy3Node.init a (.window window.handle) window.m_workspace
                                      L.self] } a

/-! ## Geometry of the roots -/

/-- The rectangle `recalculate` assigns to a root group (lines 272-273): the area of the
monitor inside its reserved insets. -/
def recalculateRect (monitor : CMonitor) : Vector2D × Vector2D :=
  (⟨monitor.m_position.x + monitor.reservedLeft, monitor.m_position.y + monitor.reservedTop⟩,
   ⟨monitor.m_size.x - monitor.reservedLeft - monitor.reservedRight,
    monitor.m_size.y - monitor.reservedTop - monitor.reservedBottom⟩)

/-- The body of the loop of `recalculate` for the node at `a` (lines 267-277).  The monitor
of the workspace is taken as present, as in `insertNode`. -/
def recalculateNode (O : NodeOps) (C : Compositor) (thisWorkspace : Option Nat)
    (ns : List Hy3Node) (a : Ptr) : List Hy3Node :=
  match getNode ns a with
  | some node =>
    if node.parent = 0 ∧ node.data.is_group = true ∧ node.reparenting = false then
      if thisWorkspace.isSome = true ∧ some node.workspace ≠ thisWorkspace then ns
      else
        recalcSizePosRecursive O
          (modifyNode ns a (fun m =>
            { m with position := (recalculateRect (C.monitor node.workspace)).1
                     size := (recalculateRect (C.monitor node.workspace)).2 })) a
    else ns
  | none => ns

/-- The method `Hy3Layout::recalculate`: every root group of the workspace of this instance
(of every workspace when it is not known) gets the usable area of its monitor and is laid
out again. -/
def recalculate (O : NodeOps) (C : Compositor) (thisWorkspace : Option Nat)
    (ns : List Hy3Node) : List Hy3Node :=
  (ns.map (fun n => n.addr)).foldl (recalculateNode O C thisWorkspace) ns

/-! ## Removal -/

/-- The lambda `node_is_collapsible` of `onWindowRemovedTiling`: whether the node is a group
that may be collapsed under `node_collapse_policy`. -/
def node_is_collapsible (C : Compositor) (ns : List Hy3Node) (node : Ptr) : Option Bool := do
  let n ← getNode ns node
  if n.data.is_window then some false
  else if C.config.node_collapse_policy = 0 then some true
  else if C.config.node_collapse_policy = 1 then some false
  else do
    let p ← getNode ns n.parent
    let g ← p.data.as_group
    some (g.layout != .Tabbed)

/-- The condition under which `onWindowRemovedTiling` runs the swallow pass on the former
parent (lines 644-645). -/
def collapseCondition (C : Compositor) (ns : List Hy3Node) (parent : Ptr) : Option Bool := do
  let p ← getNode ns parent
  let group ← p.data.as_group
  if group.children.length = 1 then
    if group.ephemeral then some true
    else do
      let front ← group.children.head?
      node_is_collapsible C ns front
  else some false

/-- The swallow pass
`while (target_parent != nullptr && swallowGroups(target_parent)) target_parent = target_parent->parent;`
with the final value of `target_parent`. -/
def swallowLoop : Nat → List Hy3Node → Ptr → Option (List Hy3Node × Ptr)
  | 0, _, _ => none
  | fuel + 1, ns, target_parent =>
    if target_parent = 0 then some (ns, 0)
    else do
      let r ← swallowGroups ns target_parent
      if r.2 then do
        let t ← getNode r.1 target_parent
        swallowLoop fuel r.1 t.parent
      else some (r.1, target_parent)

/-- The first part of `onWindowRemovedTiling` (lines 627-634): the node is taken out of its
parent and out of the collection, and the expand actor and the former parent are
recalculated.  The expand actor that `removeFromParentRecursive` hands back is only
recalculated; which node it is, is the parameter `O.removalExpandActor`.  The result is the
tree and the former parent. -/
def detachWindowNode (O : NodeOps) (ns : List Hy3Node) (node : Ptr) :
    Option (List Hy3Node × Ptr) := do
  let expand_actor := O.removalExpandActor ns node
  let r ← removeFromParentRecursive ns node
  let ns1 := eraseNode r.1 node
  let ns2 := if expand_actor ≠ 0 then recalcSizePosRecursive O ns1 expand_actor else ns1
  some (if r.2 ≠ 0 then recalcSizePosRecursive O ns2 r.2 else ns2, r.2)

/-- The swallow pass of `onWindowRemovedTiling` (lines 647-653): `swallowGroups` is applied
to the former parent and then upwards for as long as it succeeds. -/
def swallowPass (O : NodeOps) (ns : List Hy3Node) (parent : Ptr) : Option (List Hy3Node) := do
  let r ← swallowLoop (ns.length + 1) ns parent
  some (if r.2 ≠ parent ∧ r.2 ≠ 0 then recalcSizePosRecursive O r.1 r.2 else r.1)

/-- The handler `Hy3Layout::onWindowRemovedTiling`. -/
def onWindowRemovedTiling (O : NodeOps) (C : Compositor) (ns : List Hy3Node) (window : Nat) :
    Option (List Hy3Node) :=
  let node := getNodeFromWindow ns window
  if node = 0 then some ns
  else do
    let r ← detachWindowNode O ns node
    if r.2 ≠ 0 then do
      let c ← collapseCondition C r.1 r.2
      if c then swallowPass O r.1 r.2 else some r.1
    else some r.1

/-! ## Shift and directional focus -/

/-- The query `Hy3Layout::focusMonitor`: the node of the window last focused on the monitor
in the given direction is focused and returned. -/
def focusMonitor (C : Compositor) (ns : List Hy3Node) (direction : ShiftDirection) :
    Option (List Hy3Node × Ptr) :=
  let target_window := C.monitorLastWindow direction
  if target_window.handle ≠ 0 then
    let found_node := getNodeFromWindow ns target_window.handle
    if found_node ≠ 0 then (focus ns found_node).map (fun ns1 => (ns1, found_node))
    else some (ns, 0)
  else some (ns, 0)

/-- The layout a group gets when it is made to follow the direction. -/
def axisLayout (direction : ShiftDirection) : Hy3GroupLayout :=
  if shiftIsVertical direction then .SplitV else .SplitH

/-- How the first loop of `shiftOrGetFocus` ends: with a `return`, or with the values of
`break_origin`, `break_parent` and `has_broken_once` at its `break`. -/
inductive BreakOutcome where
  | ret (ns : List Hy3Node) (result : Ptr)
  | go (ns : List Hy3Node) (break_origin break_parent : Ptr) (has_broken_once : Bool)

/-- The group takes the new child as its last and focused child (lines 1875-1877). -/
def Hy3GroupData.adopt (g : Hy3GroupData) (newChild : Ptr) : Hy3GroupData :=
  { g with children := g.children ++ [newChild], group_focused := false,
           focused_child := newChild }

/-- The root wrap of `shiftOrGetFocus` (lines 1862-1879): a new node takes over the payload
of the root and becomes the only child of the root, which gets the axis of the direction. -/
def wrapRoot (self : Nat) (ns : List Hy3Node) (direction : ShiftDirection)
    (break_parent : Ptr) : Option (List Hy3Node × Ptr) := do
  let bp ← getNode ns break_parent
  let newChild := freshAddr ns
  let ns1 := ns ++ [{ Hy3Node.init newChild (.group (Hy3GroupData.ofLayout (axisLayout direction)))
                        bp.workspace self with
                      parent := break_parent, position := bp.position, size := bp.size }]
  let ns2 ← swapData ns1 break_parent newChild
  let b ← getNode ns2 break_parent
  let _ ← b.data.as_group
  some (modifyGroup ns2 break_parent (fun g => g.adopt newChild), newChild)

/-- The first loop of `shiftOrGetFocus` (lines 1822-1886): break out of the parents until a
group oriented along the direction is found, or the root is reached. -/
def breakLoop (C : Compositor) (self : Nat) (direction : ShiftDirection)
    (shift once visible : Bool) (shift_actor : Ptr) :
    Nat → List Hy3Node → Ptr → Ptr → Bool → Option BreakOutcome
  | 0, _, _, _, _ => none
  | fuel + 1, ns, break_origin, break_parent, has_broken_once =>
    if break_parent = 0 then some (.ret ns 0)
    else do
      let bp ← getNode ns break_parent
      let group ← bp.data.as_group
      let r ← (if shiftMatchesLayout group.layout direction
            && (!visible || group.layout != .Tabbed) then
          if once && shift && has_broken_once then some (true, has_broken_once)
          else
            let hbo := if break_origin ≠ shift_actor then true else has_broken_once
            if hbo && once && shift then some (true, hbo)
            else do
              let edge ← if shiftIsForward direction then group.children.getLast?
                         else group.children.head?
              some (edge != break_origin, hbo)
        else some (false, has_broken_once) : Option (Bool × Bool))
      if r.1 then some (.go ns break_origin break_parent r.2)
      else if bp.parent = 0 then
        if !shift then (focusMonitor C ns direction).map (fun x => .ret x.1 x.2)
        else if group.layout != .Tabbed && shiftMatchesLayout group.layout direction then
          some (.go ns break_origin break_parent r.2)
        else if group.layout != .Tabbed && group.children.length == 2
            && group.children.contains shift_actor then
          some (.go (modifyGroup ns break_parent (fun g => g.setLayout (axisLayout direction)))
            break_origin break_parent r.2)
        else do
          let w ← wrapRoot self ns direction break_parent
          some (.go w.1 w.2 break_parent r.2)
      else
        breakLoop C self direction shift once visible shift_actor fuel ns break_parent bp.parent r.2

/-- The test on the neighbour `*iter` at lines 1905-1908: a window, or a group that is
expanded or locked, is not entered. -/
def Hy3NodeData.isDirectTarget : Hy3NodeData → Bool
  | .window _ => true
  | .group g => g.expand_focused != .NotExpanded || g.locked

/-- The test on `*iter` at lines 1977-1979: the descent ends at a window or an expanded
group. -/
def Hy3NodeData.isLeafOrExpanded : Hy3NodeData → Bool
  | .window _ => true
  | .group g => g.expand_focused != .NotExpanded

/-- How the search for the insertion point ends: with a `return`, or with `target_group`
and the position `insert` in its children sequence. -/
inductive InsertOutcome where
  | ret (result : Ptr)
  | place (target_group : Ptr) (insert : Nat)

/-- The choice of `iter` inside the group that is entered (lines 1930-1969): the position of
the child the descent continues with, and `shift_after`. -/
def breakIntoSelect (direction : ShiftDirection) (shift visible : Bool)
    (group_data : Hy3GroupData) : Nat × Bool :=
  if !shift && group_data.layout == .Tabbed && group_data.focused_child != 0 then
    (findIdx group_data.children group_data.focused_child, false)
  else if visible && group_data.layout == .Tabbed && group_data.focused_child != 0 then
    (findIdx group_data.children group_data.focused_child, true)
  else if shiftMatchesLayout group_data.layout direction
      || (visible && group_data.layout == .Tabbed) then
    if shiftIsForward direction then (0, false)
    else (group_data.children.length - 1, true)
  else if group_data.focused_child != 0 then
    (findIdx group_data.children group_data.focused_child, true)
  else (0, false)

/-- The iterator `insert` for a chosen `iter`: `std::next(iter)` when `shift_after` is set,
which is undefined for `end()`, and `iter` otherwise. -/
def insertPos (children : List Ptr) (sel : Nat × Bool) : Option Nat :=
  if sel.2 then (if sel.1 < children.length then some (sel.1 + 1) else none)
  else some sel.1

/-- The second loop of `shiftOrGetFocus` (lines 1922-1989): break into the neighbouring
groups, starting at `*iter`, until a window or an expanded group is hit. -/
def breakInto (direction : ShiftDirection) (shift once visible : Bool) :
    Nat → List Hy3Node → Ptr → Option InsertOutcome
  | 0, _, _ => none
  | fuel + 1, ns, target_group => do
    let tg ← getNode ns target_group
    let group_data ← tg.data.as_group
    if group_data.children.isEmpty then some (.ret 0)
    else
      let sel := breakIntoSelect direction shift visible group_data
      if shift && once then
        (insertPos group_data.children sel).map (fun i => .place target_group i)
      else do
        let c ← group_data.children[sel.1]?
        let cn ← getNode ns c
        if cn.data.isLeafOrExpanded then
          if shift then (insertPos group_data.children sel).map (fun i => .place target_group i)
          else (getFocusedNode (ns.length + 1) ns c false false).map (fun r => .ret r)
        else breakInto direction shift once visible fuel ns c

/-- The neighbour of `break_origin` in the direction (lines 1901-1903): `std::next` or
`std::prev` of its position, undefined past the ends. -/
def neighbourIdx (direction : ShiftDirection) (children : List Ptr) (break_origin : Ptr) :
    Option Nat :=
  let found := findIdx children break_origin
  if shiftIsForward direction then
    (if found < children.length then some (found + 1) else none)
  else (if 0 < found then some (found - 1) else none)

/-- The search for the insertion point in `shiftOrGetFocus` (lines 1888-1991). -/
def findInsert (direction : ShiftDirection) (shift once visible : Bool) (ns : List Hy3Node)
    (shift_actor break_origin break_parent : Ptr) (has_broken_once : Bool) :
    Option InsertOutcome := do
  let bp ← getNode ns break_parent
  let parent_group ← bp.data.as_group
  let front ← parent_group.children.head?
  if break_origin = front ∧ shiftIsForward direction = false then
    if shift then some (.place break_parent 0) else some (.ret 0)
  else do
    let back ← parent_group.children.getLast?
    if break_origin = back ∧ shiftIsForward direction = true then
      if shift then some (.place break_parent parent_group.children.length) else some (.ret 0)
    else do
      let iter ← neighbourIdx direction parent_group.children break_origin
      let c ← parent_group.children[iter]?
      let cn ← getNode ns c
      if cn.data.isDirectTarget || (shift && once && has_broken_once) then
        if shift then do
          let sa ← getNode ns shift_actor
          if break_parent = sa.parent then
            some (.place break_parent (if shiftIsForward direction then iter + 1 else iter))
          else
            some (.place break_parent (if shiftIsForward direction then iter else iter + 1))
        else (getFocusedNode (ns.length + 1) ns c false false).map (fun r => .ret r)
      else breakInto direction shift once visible (ns.length + 1) ns c

/-- The move inside one children sequence (lines 1998-2002): the slot of the node is
overwritten with `nullptr`, the node is inserted before `insert`, and the `nullptr` entries
are removed. -/
def reposition (children : List Ptr) (insert : Nat) (shift_actor : Ptr) : List Ptr :=
  (insertAt (children.set (findIdx children shift_actor) 0) insert shift_actor).filter
    (fun x => x != 0)

/-- The splice of `shiftOrGetFocus` (lines 1993-2036): the shifted node is put at `insert`
in `target_group`. -/
def spliceShift (O : NodeOps) (ns : List Hy3Node) (node shift_actor target_group : Ptr)
    (insert : Nat) : Option (List Hy3Node) := do
  let tg ← getNode ns target_group
  let group_data ← tg.data.as_group
  let sa ← getNode ns shift_actor
  if target_group = sa.parent then
    if findIdx group_data.children shift_actor < group_data.children.length then
      let children := reposition group_data.children insert shift_actor
      some (recalcSizePosRecursive O
        (modifyGroup ns target_group (fun g => { g with children := children })) target_group)
    else none
  else do
    let ns1 := modifyGroup ns target_group (fun g =>
      { g with children := insertAt g.children insert shift_actor })
    let r ← removeFromParentRecursive ns1 shift_actor
    let ns2 := modifyNode r.1 shift_actor (fun n =>
      { n with parent := target_group, size_ratio := 1 })
    let old_parent := r.2
    let ns3 ← (if old_parent ≠ 0 then do
        let op ← getNode ns2 old_parent
        let group ← op.data.as_group
        let ns' ← (if op.parent ≠ 0 ∧ group.ephemeral = true ∧ group.children.length = 1
              ∧ hasChild (ns2.length + 1) ns2 group.children shift_actor = false then
            (swallowGroups ns2 old_parent).map (fun x => x.1)
          else some ns2 : Option (List Hy3Node))
        some (recalcSizePosRecursive O ns' old_parent)
      else some ns2 : Option (List Hy3Node))
    let ns4 := recalcSizePosRecursive O ns3 target_group
    let tg2 ← getNode ns4 target_group
    let r2 ← swallowLoop (ns4.length + 1) ns4 tg2.parent
    let ns5 ← focus r2.1 node
    some (if r2.2 ≠ target_group ∧ r2.2 ≠ 0 then recalcSizePosRecursive O ns5 r2.2 else ns5)

/-- The algorithm `Hy3Layout::shiftOrGetFocus`: the tree afterwards and the returned node. -/
def shiftOrGetFocus (O : NodeOps) (C : Compositor) (self : Nat) (ns : List Hy3Node)
    (node : Ptr) (direction : ShiftDirection) (shift once visible : Bool) :
    Option (List Hy3Node × Ptr) := do
  let node := O.getExpandActor ns node
  let break_origin := O.getPlacementActor ns node
  let shift_actor := break_origin
  let bo ← getNode ns break_origin
  let b ← breakLoop C self direction shift once visible shift_actor (ns.length + 1) ns
    break_origin bo.parent false
  match b with
  | .ret ns1 r => some (ns1, r)
  | .go ns1 break_origin break_parent has_broken_once => do
    let i ← findInsert direction shift once visible ns1 shift_actor break_origin break_parent
      has_broken_once
    match i with
    | .ret r => some (ns1, r)
    | .place target_group insert =>
      (spliceShift O ns1 node shift_actor target_group insert).map (fun ns2 => (ns2, 0))

/-- The command `Hy3Layout::shiftNode`. -/
def shiftNode (O : NodeOps) (C : Compositor) (self : Nat) (ns : List Hy3Node) (node : Ptr)
    (direction : ShiftDirection) (once visible : Bool) : Option (List Hy3Node) := do
  let onlyChild ← (if once then do
      let n := O.getPlacementActor ns node
      let nn ← getNode ns n
      if nn.parent ≠ 0 then do
        let p ← getNode ns nn.parent
        let g ← p.data.as_group
        if g.children.length = 1 then
          if p.parent = 0 then
            some (some (recalcSizePosRecursive O
              (modifyGroup ns nn.parent (fun g => g.setLayout .SplitH)) nn.parent))
          else do
            let ns1 ← swapData ns n nn.parent
            some (some (recalcSizePosRecursive O (eraseNode ns1 n) nn.parent))
        else some none
      else some none
    else some none : Option (Option (List Hy3Node)))
  match onlyChild with
  | some ns1 => some ns1
  | none => (shiftOrGetFocus O C self ns node direction true once visible).map (fun x => x.1)

/-! ## Expand -/

/-- The argument `ExpandOption` of `expand` (`Hy3Layout.hpp`). -/
inductive ExpandOption where
  | Expand
  | Shrink
  | Base
  | Maximize
  | Fullscreen
  deriving DecidableEq, Repr

/-- The argument `ExpandFullscreenOption` of `expand` (`Hy3Layout.hpp`). -/
inductive ExpandFullscreenOption where
  | MaximizeOnly
  | MaximizeIntermediate
  | MaximizeAsFullscreen
  deriving DecidableEq, Repr

/-- The lookup `Hy3Layout::getWorkspaceFocusedNode`: the focused node below the root group of
the workspace, `nullptr` when the workspace has no root group. -/
def getWorkspaceFocusedNode (ns : List Hy3Node) (workspace : Nat)
    (ignore_group_focus stop_at_expanded : Bool) : Option Ptr :=
  let rootNode := getWorkspaceRootGroup ns workspace
  if rootNode = 0 then some 0
  else getFocusedNode (ns.length + 1) ns rootNode ignore_group_focus stop_at_expanded

/-- Modelled from the spec: `Hy3GroupData::collapseExpansions`, not in the sources: "base
recursively clears all expansion in a subtree" (4.6): the group and every group below it get
`expand_focused = NotExpanded`. -/
def collapseExpansions : Nat → List Hy3Node → Ptr → List Hy3Node
  | 0, ns, _ => ns
  | fuel + 1, ns, p =>
    let ns1 := modifyGroup ns p (fun g => { g with expand_focused := .NotExpanded })
    match getNode ns p with
    | some n => n.data.children.foldl (fun acc c => collapseExpansions fuel acc c) ns1
    | none => ns1

/-- The case `ExpandOption::Expand` of `expand` for a node with a parent (lines 1412-1419):
a group that is not the focus target gets `Stack`, the parent gets the node as focused child
and `Latch`, and the parent is recalculated.  The `switch` on the fullscreen option that
follows (lines 1421-1427) returns in each of its cases and nothing comes after it. -/
def expandNode (O : NodeOps) (ns : List Hy3Node) (node : Ptr) : Option (List Hy3Node) := do
  let n ← getNode ns node
  let ns1 := match n.data with
    | .group g =>
      if g.group_focused = false then
        modifyGroup ns node (fun g => { g with expand_focused := .Stack })
      else ns
    | .window _ => ns
  let p ← getNode ns1 n.parent
  let _ ← p.data.as_group
  let ns2 := modifyGroup ns1 n.parent
    (fun g => { g with focused_child := node, expand_focused := .Latch })
  some (recalcSizePosRecursive O ns2 n.parent)

/-- The case `ExpandOption::Shrink` of `expand` (lines 1430-1438). -/
def shrinkNode (O : NodeOps) (ns : List Hy3Node) (node : Ptr) : Option (List Hy3Node) := do
  let n ← getNode ns node
  match n.data with
  | .group group => do
    let ns1 := modifyGroup ns node (fun g => { g with expand_focused := .NotExpanded })
    let fc ← getNode ns1 group.focused_child
    let ns2 := if fc.data.is_group then
        modifyGroup ns1 group.focused_child (fun g => { g with expand_focused := .Latch })
      else ns1
    some (recalcSizePosRecursive O ns2 node)
  | .window _ => some ns

/-- The command `Hy3Layout::expand`. -/
def expand (O : NodeOps) (ns : List Hy3Node) (workspace : Nat) (option : ExpandOption)
    (fs_option : ExpandFullscreenOption) : Option (List Hy3Node) := do
  let node ← getWorkspaceFocusedNode ns workspace false true
  if node = 0 then some ns
  else do
    let n ← getNode ns node
    match option with
    | .Expand =>
      if n.parent = 0 then
        match fs_option with
        | .MaximizeAsFullscreen => some ns
        | .MaximizeIntermediate => some ns
        | .MaximizeOnly => some ns
      else expandNode O ns node
    | .Shrink => shrinkNode O ns node
    | .Base =>
      if n.data.is_group then
        some (recalcSizePosRecursive O (collapseExpansions (ns.length + 1) ns node) node)
      else some ns
    | .Maximize => some ns
    | .Fullscreen => some ns

/-! ## Tab bar hit test -/

/-- One entry of a tab bar (`Hy3TabBarEntry`, `TabGroup.hpp`, not in the sources): the current
values of its animated `offset` and `width`, as fractions of the bar. -/
structure Hy3TabBarEntry where
  offset : Rat
  width : Rat
  deriving DecidableEq, Repr

/-- The tab bar of a group (`Hy3TabGroup`): the current values of its animated position and
size, and its entries. -/
structure Hy3TabGroup where
  pos : Vector2D
  size : Vector2D
  entries : List Hy3TabBarEntry
  deriving DecidableEq, Repr

/-- What `findTabBarAt` reads besides the tree: the inset
`tabs:height + tabs:padding + gaps_in.top` for the workspace of a node, the field
`gap_topleft_offset` of a node, and the tab bar a group owns (`tab_bar`, `none` for
`nullptr`). -/
structure TabView where
  inset : Nat → Rat
  gap_topleft_offset : Ptr → Vector2D
  tab_bar : Ptr → Option Hy3TabGroup

/-- The loop over the entries of a tab bar and the children of its group (lines 1235-1246):
the child at the position of the first entry that contains `x`. -/
def tabHit (x sizeX : Rat) : List Hy3TabBarEntry → List Ptr → Option Ptr
  | tab :: tabs, c :: cs =>
    if x > tab.offset * sizeX ∧ x < (tab.offset + tab.width) * sizeX then some c
    else tabHit x sizeX tabs cs
  | _, _ => none

/-- The loop `for (auto child: group.children) if (findTabBarAt(*child, ...)) return child;`
(lines 1254-1256), over the recursive call `f`; `out` is the value of `*focused_node`. -/
def findTabBarLoop (f : Ptr → Option (Ptr × Option Ptr)) :
    List Ptr → Option Ptr → Option (Ptr × Option Ptr)
  | [], out => some (0, out)
  | child :: rest, out => do
    let r ← f child
    let out1 := if r.2.isSome then r.2 else out
    if r.1 ≠ 0 then some (child, out1) else findTabBarLoop f rest out1

/-- The function `findTabBarAt`: the returned node (`0` for `nullptr`) and what was written
to `*focused_node`, if anything. -/
def findTabBarAt (V : TabView) : Nat → List Hy3Node → Ptr → Vector2D →
    Option (Ptr × Option Ptr)
  | 0, _, _, _ => none
  | fuel + 1, ns, node, pos => do
    let n ← getNode ns node
    match n.data with
    | .window _ => some (0, none)
    | .group group =>
      if n.hidden then some (0, none)
      else if n.position.x > pos.x ∨ n.position.y > pos.y ∨ n.position.x + n.size.x < pos.x
          ∨ n.position.y + n.size.y < pos.y then some (0, none)
      else
        match (if group.layout = .Tabbed then V.tab_bar node else none) with
        | some tab_bar =>
          let hit :=
            if pos.y < n.position.y + (V.gap_topleft_offset node).y + V.inset n.workspace then
              tabHit (pos.x - tab_bar.pos.x) tab_bar.size.x tab_bar.entries group.children
            else none
          match hit with
          | some c => some (node, some c)
          | none =>
            if group.focused_child ≠ 0 then findTabBarAt V fuel ns group.focused_child pos
            else some (0, none)
        | none =>
          findTabBarLoop (fun child => findTabBarAt V fuel ns child pos) group.children none

/-! ## Group commands -/

/-- The command `Hy3Layout::makeGroupOn`; the tab bars that `updateTabBarRecursive` redraws
are not part of the tree. -/
def makeGroupOn (O : NodeOps) (ns : List Hy3Node) (node : Ptr) (layout : Hy3GroupLayout)
    (ephemeral : GroupEphemeralityOption) : Option (List Hy3Node) :=
  if node = 0 then some ns
  else do
    let n ← getNode ns node
    let single ← (if n.parent ≠ 0 then do
        let p ← getNode ns n.parent
        let group ← p.data.as_group
        some (decide (group.children.length = 1))
      else some false : Option Bool)
    if single then
      some (recalcSizePosRecursive O
        (modifyGroup ns n.parent (fun g => (g.setLayout layout).setEphemeral ephemeral))
        n.parent)
    else (intoGroup O ns node layout ephemeral).map (fun r => r.1)

/-- The three writes of the toggle branch of `makeGroupOnWorkspace` (lines 722-724):
`group.children.clear()`, `swapData(*node, *parent)` and `nodes.remove(*node)`. -/
def makeGroupDissolve (ns : List Hy3Node) (node : Ptr) : Option (List Hy3Node) := do
  let n ← getNode ns node
  let ns1 := modifyGroup ns n.parent (fun g => { g with children := [] })
  let ns2 ← swapData ns1 node n.parent
  some (eraseNode ns2 node)

/-- The command `Hy3Layout::makeGroupOnWorkspace`.  `parent->data` is read without a test of
`parent` (line 719), and `node->parent->parent` is read after `nodes.remove(*node)`
(line 726): both are reads through `getNode`, which fail for a pointer that is null or
dangling. -/
def makeGroupOnWorkspace (O : NodeOps) (ns : List Hy3Node) (workspace : Nat)
    (layout : Hy3GroupLayout) (ephemeral : GroupEphemeralityOption) (toggle : Bool) :
    Option (List Hy3Node) := do
  let f ← getWorkspaceFocusedNode ns workspace false false
  let node := if f ≠ 0 then O.getPlacementActor ns f else f
  if node ≠ 0 ∧ toggle = true then do
    let n ← getNode ns node
    let parent ← getNode ns n.parent
    let group ← parent.data.as_group
    if group.children.length = 1 ∧ group.layout = layout then do
      let ns3 ← makeGroupDissolve ns node
      let n1 ← getNode ns3 node
      let p1 ← getNode ns3 n1.parent
      some (if p1.parent ≠ 0 then recalcSizePosRecursive O ns3 p1.parent else ns3)
    else makeGroupOn O ns node layout ephemeral
  else makeGroupOn O ns node layout ephemeral

/-- The command `Hy3Layout::changeGroupOn`. -/
def changeGroupOn (O : NodeOps) (ns : List Hy3Node) (node : Ptr) (layout : Hy3GroupLayout) :
    Option (List Hy3Node) := do
  let n ← getNode ns node
  if n.parent = 0 then makeGroupOn O ns node layout .Ephemeral
  else do
    let p ← getNode ns n.parent
    let _ ← p.data.as_group
    some (recalcSizePosRecursive O (modifyGroup ns n.parent (fun g => g.setLayout layout))
      n.parent)

/-- The command `Hy3Layout::untabGroupOn`. -/
def untabGroupOn (O : NodeOps) (ns : List Hy3Node) (node : Ptr) : Option (List Hy3Node) := do
  let n ← getNode ns node
  if n.parent = 0 then some ns
  else do
    let p ← getNode ns n.parent
    let group ← p.data.as_group
    if group.layout ≠ .Tabbed then some ns
    else changeGroupOn O ns node group.previous_nontab_layout

/-- The command `Hy3Layout::toggleTabGroupOn`. -/
def toggleTabGroupOn (O : NodeOps) (ns : List Hy3Node) (node : Ptr) :
    Option (List Hy3Node) := do
  let n ← getNode ns node
  if n.parent = 0 then some ns
  else do
    let p ← getNode ns n.parent
    let group ← p.data.as_group
    if group.layout ≠ .Tabbed then changeGroupOn O ns node .Tabbed
    else changeGroupOn O ns node group.previous_nontab_layout

/-! ## Tab lock and equalize -/

/-- The argument `TabLockMode` of `setTabLock` (`Hy3Layout.hpp`). -/
inductive TabLockMode where
  | Lock
  | Unlock
  | Toggle
  deriving DecidableEq, Repr

/-- The loop of `setTabLock` (lines 1484-1486): upwards from `node` to the first node that is
a `Tabbed` group or has no parent. -/
def tabLockTarget : Nat → List Hy3Node → Ptr → Option Ptr
  | 0, _, _ => none
  | fuel + 1, ns, node => do
    let n ← getNode ns node
    let goesOn :=
      match n.data with
      | .window _ => true
      | .group g => g.layout != .Tabbed
    if n.parent ≠ 0 ∧ goesOn = true then tabLockTarget fuel ns n.parent else some node

/-- The value `setTabLock` writes to `locked`. -/
def TabLockMode.apply (mode : TabLockMode) (locked : Bool) : Bool :=
  match mode with
  | .Lock => true
  | .Unlock => false
  | .Toggle => !locked

/-- The command `Hy3Layout::setTabLock`. -/
def setTabLock (ns : List Hy3Node) (workspace : Nat) (mode : TabLockMode) :
    Option (List Hy3Node) := do
  let f ← getWorkspaceFocusedNode ns workspace false false
  if f = 0 then some ns
  else do
    let n ← getNode ns f
    if n.parent = 0 then some ns
    else do
      let t ← tabLockTarget (ns.length + 1) ns n.parent
      if t = 0 then some ns
      else do
        let tn ← getNode ns t
        let _ ← tn.data.as_group
        some (modifyGroup ns t (fun g => { g with locked := mode.apply g.locked }))

/-- The function `equalizeRecursive`. -/
def equalizeRecursive : Nat → List Hy3Node → Ptr → Bool → Option (List Hy3Node)
  | 0, _, _, _ => none
  | fuel + 1, ns, node, recursive => do
    let n ← getNode ns node
    let ns1 := modifyNode ns node (fun m => { m with size_ratio := 1 })
    if recursive && n.data.is_group then
      n.data.children.foldlM (fun acc child => equalizeRecursive fuel acc child true) ns1
    else some ns1

/-- The command `Hy3Layout::equalize`. -/
def equalize (O : NodeOps) (ns : List Hy3Node) (workspace : Nat) (recursive : Bool) :
    Option (List Hy3Node) := do
  let focused ← getWorkspaceFocusedNode ns workspace false false
  if focused = 0 then some ns
  else if recursive then
    let target := getWorkspaceRootGroup ns workspace
    if target ≠ 0 then do
      let ns1 ← equalizeRecursive (ns.length + 1) ns target true
      some (recalcSizePosRecursive O ns1 target)
    else some ns
  else do
    let f ← getNode ns focused
    if f.parent = 0 then some ns
    else do
      let ns1 ← equalizeRecursive (ns.length + 1) ns f.parent false
      some (recalcSizePosRecursive O ns1 f.parent)

/-! ## Observations on a tree -/

/-- The children sequence of the node at `p`; a window has none. -/
def childrenAt (ns : List Hy3Node) (p : Ptr) : Option (List Ptr) :=
  (getNode ns p).map (fun n => n.data.children)

/-- The parent of the node at `p`. -/
def parentAt (ns : List Hy3Node) (p : Ptr) : Option Ptr :=
  (getNode ns p).map (fun n => n.parent)

/-- The layout of the group at `p`. -/
def layoutAt (ns : List Hy3Node) (p : Ptr) : Option Hy3GroupLayout :=
  (getNode ns p).bind (fun n => n.data.as_group.map (fun g => g.layout))

/-- The addresses of the live nodes, in the order of the collection. -/
def addrs (ns : List Hy3Node) : List Ptr :=
  ns.map (fun n => n.addr)

/-- The shape of a node: its address, its parent, and its window or, for a group, its layout
and children sequence. -/
def Hy3Node.shape (n : Hy3Node) : Ptr × Ptr × (Nat ⊕ (Hy3GroupLayout × List Ptr)) :=
  (n.addr, n.parent,
    match n.data with
    | .window w => .inl w
    | .group g => .inr (g.layout, g.children))

/-- The shape of the tree: which nodes there are, every node's parent, and every group's
layout and children sequence. -/
def treeShape (ns : List Hy3Node) : List (Ptr × Ptr × (Nat ⊕ (Hy3GroupLayout × List Ptr))) :=
  ns.map Hy3Node.shape

/-- The content of the node at `p`: its window or, for a group, its layout and children
sequence. -/
def contentAt (ns : List Hy3Node) (p : Ptr) : Option (Nat ⊕ (Hy3GroupLayout × List Ptr)) :=
  (getNode ns p).map (fun n => n.shape.2.2)

/-- The flags of the node at `p` that the insertion sets: `reparenting` and `size_ratio`. -/
def flagsAt (ns : List Hy3Node) (p : Ptr) : Option (Bool × Rat) :=
  (getNode ns p).map (fun n => (n.reparenting, n.size_ratio))

/-- The rectangle and the workspace of the node at `p`. -/
def placeAt (ns : List Hy3Node) (p : Ptr) : Option (Vector2D × Vector2D × Nat) :=
  (getNode ns p).map (fun n => (n.position, n.size, n.workspace))

/-- The node at `x` is live, with this parent and this payload. -/
def NodeIs (ns : List Hy3Node) (x parent : Ptr) (data : Hy3NodeData) : Prop :=
  ∃ n, getNode ns x = some n ∧ n.parent = parent ∧ n.data = data

/-- A well-formed tree (invariants 1 and 3 of section 3): the addresses are distinct and not
null; the parent of a node is a live group that lists the node; every child a group lists is
a live node whose parent is that group; and no node is its own ancestor, which `rank`
witnesses by decreasing from every node to its parent. -/
structure WellFormed (ns : List Hy3Node) (rank : Ptr → Nat) : Prop where
  nodup : (addrs ns).Nodup
  nonnull : (0 : Ptr) ∉ addrs ns
  parent_ok : ∀ x par dat, NodeIs ns x par dat → par ≠ 0 →
    ∃ pp g, NodeIs ns par pp (.group g) ∧ x ∈ g.children ∧ rank par < rank x
  children_ok : ∀ p pp g, NodeIs ns p pp (.group g) → ∀ x ∈ g.children,
    ∃ dat, NodeIs ns x p dat

/-- A check of `WellFormed` for a given tree and rank, node by node. -/
def wellFormedCheck (ns : List Hy3Node) (rank : Ptr → Nat) : Bool :=
  decide (addrs ns).Nodup && !(addrs ns).contains 0 &&
  ns.all (fun n =>
    (n.parent == 0 ||
      match getNode ns n.parent with
      | some P =>
        (match P.data with
         | .group g => g.children.contains n.addr && decide (rank n.parent < rank n.addr)
         | .window _ => false)
      | none => false)
    && n.data.children.all (fun c =>
      match getNode ns c with
      | some X => X.parent == n.addr
      | none => false))

/-- The number of group nodes of the collection. -/
def groupCount (ns : List Hy3Node) : Nat :=
  ns.countP (fun n => n.data.is_group)

/-- The chain of parents above `p`, from the parent of `p` up to a parentless node. -/
def parentChain (ns : List Hy3Node) : Ptr → List Ptr → Prop
  | p, [] => parentAt ns p = some 0
  | p, q :: rest => parentAt ns p = some q ∧ q ≠ 0 ∧ parentChain ns q rest

/-- The first loop of `shiftOrGetFocus` goes past a group of this layout without looking at
its children (the test at lines 1827-1828 fails): the group is not oriented along the
direction, or it is `Tabbed` and only visible nodes count. -/
def stepsOver (visible : Bool) (direction : ShiftDirection) (g : Hy3GroupData) : Bool :=
  !(shiftMatchesLayout g.layout direction && (!visible || g.layout != .Tabbed))

/-- The groups from `p` up to the root, given as `p` and the list of the groups above it: each
is a live group that the first loop of `shiftOrGetFocus` goes past, each has the next one as
its parent, and the last one has no parent. -/
def climbsToRoot (ns : List Hy3Node) (visible : Bool) (direction : ShiftDirection) :
    Ptr → List Ptr → Prop
  | p, [] => p ≠ 0 ∧ ∃ P g, getNode ns p = some P ∧ P.data = .group g ∧ P.parent = 0
      ∧ stepsOver visible direction g = true
  | p, q :: rest => p ≠ 0 ∧ (∃ P g, getNode ns p = some P ∧ P.data = .group g ∧ P.parent = q
      ∧ stepsOver visible direction g = true) ∧ climbsToRoot ns visible direction q rest

/-- Whether the node at `p` is a live group node. -/
def isGroupAt (ns : List Hy3Node) (p : Ptr) : Bool :=
  match getNode ns p with
  | some n => n.data.is_group
  | none => false

/-- The collapse condition as the specification words it (4.5): the group has exactly one
child, and either the group is ephemeral or the child is collapsible per
`node_collapse_policy`, where 0 (`AlwaysCollapse`) collapses, 1 (`NeverCollapse`) does not,
and any other value collapses unless the parent group is `Tabbed`.  It is compared with
`collapseCondition`, which is the condition of the code. -/
def specCollapseCondition (policy : Int) (g : Hy3GroupData) : Bool :=
  decide (g.children.length = 1)
    && (g.ephemeral
        || (if policy = 0 then true else if policy = 1 then false else g.layout != .Tabbed))

/-- The windows wrapped by the nodes of the collection, one entry per window node. -/
def windowsOf (ns : List Hy3Node) : List Nat :=
  ns.filterMap (fun n => n.data.as_window)

/-- No step from `ns` to `ns1` gives a node the null address or adds a node for a window:
for every window, `ns1` has at most as many nodes wrapping it as `ns`. -/
def WindowsKept (ns ns1 : List Hy3Node) : Prop :=
  ((0 : Ptr) ∉ addrs ns → (0 : Ptr) ∉ addrs ns1)
    ∧ ∀ w, (windowsOf ns1).count w ≤ (windowsOf ns).count w

/-- A sequence of `onWindowCreatedTiling` calls, each with the state of the compositor at
that call. -/
def runCreated (O : NodeOps) : Hy3Layout → List (Compositor × CWindow) → Option Hy3Layout
  | L, [] => some L
  | L, c :: cs => (onWindowCreatedTiling O c.1 L c.2).bind (fun L1 => runCreated O L1 cs)

/-! ## Example trees -/

/-- Node methods for the examples: every node is its own actor, geometry is not computed. -/
def O0 : NodeOps :=
  { getExpandActor := fun _ p => p
    getPlacementActor := fun _ p => p
    geometry := fun _ _ _ => (⟨0, 0⟩, ⟨0, 0⟩)
    removalExpandActor := fun _ _ => 0 }

/-- Node methods with a geometry engine that leaves every rectangle as it is. -/
def OKeep : NodeOps :=
  { O0 with geometry := fun ns _ x =>
      match getNode ns x with
      | some n => (n.position, n.size)
      | none => (⟨0, 0⟩, ⟨0, 0⟩) }

/-- An empty window handle. -/
def noWindow : CWindow := ⟨0, false, false, 0⟩

/-- Configuration of the examples: autotile off, `node_collapse_policy` 0 (always collapse). -/
def cfg0 : Config :=
  { tab_first_window := 0, at_enable := 0, at_ephemeral := 0, at_trigger_width := 0,
    at_trigger_height := 0, autotile_raw_workspaces := "all", node_collapse_policy := 0 }

/-- Compositor of the examples: one 900x600 monitor, nothing focused, no neighbour monitor. -/
def C0 : Compositor :=
  { config := cfg0, valid := fun _ => true,
    monitor := fun _ => ⟨⟨0, 0⟩, ⟨900, 600⟩, 0, 0, 0, 0⟩,
    focusWindow := noWindow, mouseWindow := noWindow, monitorLastWindow := fun _ => noWindow,
    m_id := fun w => w }

/-- A window leaf of workspace 1. -/
def leaf (addr parent : Ptr) (w : Nat) : Hy3Node :=
  { Hy3Node.init addr (.window w) 1 7 with parent := parent }

/-- A group of workspace 1 with the given focused child. -/
def grp (addr parent : Ptr) (l : Hy3GroupLayout) (children : List Ptr) (focused : Ptr) :
    Hy3Node :=
  { Hy3Node.init addr (.group { Hy3GroupData.ofLayout l with
      children := children, group_focused := false, focused_child := focused }) 1 7 with
    parent := parent }

/-- The tree `root(SplitH)[A, B]`: the root group at 2, window A at 1, window B at 3. -/
def exTwo : List Hy3Node :=
  [leaf 1 2 101, grp 2 0 .SplitH [1, 3] 3, leaf 3 2 102]

/-- The tree `root(SplitH)[G(SplitH)[A, B], C]`: the root at 2, the group G at 4, the windows
A at 1, B at 3 and C at 5. -/
def exNested : List Hy3Node :=
  [leaf 1 4 101, grp 2 0 .SplitH [4, 5] 4, leaf 3 4 102, grp 4 2 .SplitH [1, 3] 1, leaf 5 2 103]

/-- The tree `root(SplitH)[B, A]`: the root at 2, window B at 3, window A at 1. -/
def exBA : List Hy3Node :=
  [leaf 1 2 101, grp 2 0 .SplitH [3, 1] 1, leaf 3 2 102]

/-- The tree `root(SplitH)[A, B, C]`: the root at 2, the windows A at 1, B at 3 and C at 4. -/
def exThree : List Hy3Node :=
  [leaf 1 2 101, grp 2 0 .SplitH [1, 3, 4] 1, leaf 3 2 102, leaf 4 2 103]

/-- The tree `root(SplitH)[A]`: the root at 2 and its only child, window A at 1. -/
def exOne : List Hy3Node :=
  [leaf 1 2 101, grp 2 0 .SplitH [1] 1]

/-- The tree `root(SplitH)[A]` with A focused, and the new window node B at 3, which has no
parent yet. -/
def exOneBefore : List Hy3Node :=
  [leaf 1 2 101, grp 2 0 .SplitH [1] 1, leaf 3 0 102]

/-- Compositor of the autotile example: autotile enabled on all workspaces, trigger width
300, no trigger height. -/
def CAuto : Compositor :=
  { C0 with config := { cfg0 with at_enable := 1, at_trigger_width := 300 } }

/-- The root group of the autotile example: horizontal, with the children 1, 3 and 4, the
last of them focused. -/
def groupAuto : Hy3GroupData :=
  { Hy3GroupData.ofLayout .SplitH with
    children := [1, 3, 4], group_focused := false, focused_child := 4 }

/-- The root of the autotile example: the group `groupAuto` at 2, 900 wide. -/
def rootAuto : Hy3Node :=
  { Hy3Node.init 2 (.group groupAuto) 1 7 with size := ⟨900, 600⟩ }

/-- The autotile example before the insertion: `root(SplitH, 900 wide)[A, B, C]` and the new
window node at 5, which has no parent yet. -/
def exAutoBefore : List Hy3Node :=
  [leaf 1 2 101, rootAuto, leaf 3 2 102, leaf 4 2 103, leaf 5 0 104]

/-- The autotile example at the placement: as `exAutoBefore`, with the new node marked as
being reparented (line 443). -/
def exAuto : List Hy3Node :=
  [leaf 1 2 101, rootAuto, leaf 3 2 102, leaf 4 2 103,
    { leaf 5 0 104 with reparenting := true }]

/-- The tree `root(SplitH)[G(SplitH, Stack)[H(SplitV)[A, B]], C]`: the root at 2, the expanded
group G at 4 with its focused child H at 6, the windows A at 1, B at 3 and C at 5. -/
def exExpanded : List Hy3Node :=
  [leaf 1 6 101, grp 2 0 .SplitH [4, 5] 4, leaf 3 6 102,
    (grp 4 2 .SplitH [6] 6).mapGroup (fun g => { g with expand_focused := .Stack }),
    leaf 5 2 103, grp 6 4 .SplitV [1, 3] 1]

/-- A node with the rectangle from (0, 0) to (900, 600). -/
def fullScreen (n : Hy3Node) : Hy3Node :=
  { n with position := ⟨0, 0⟩, size := ⟨900, 600⟩ }

/-- The tree `root(SplitH)[S(SplitV)[T(Tabbed)[A, B]]]`, every node with the rectangle of the
monitor: the root at 2, the split group S at 4, the tab group T at 6, the windows A at 1 and
B at 3. -/
def exTabs : List Hy3Node :=
  [fullScreen (leaf 1 6 101), fullScreen (grp 2 0 .SplitH [4] 4), fullScreen (leaf 3 6 102),
    fullScreen (grp 4 2 .SplitV [6] 6), fullScreen (grp 6 4 .Tabbed [1, 3] 1)]

/-- The tab view of `exTabs`: the tab group at 6 has a bar across the top of the monitor with
one entry for each half, and the strip is 20 high. -/
def viewTabs : TabView :=
  { inset := fun _ => 20
    gap_topleft_offset := fun _ => ⟨0, 0⟩
    tab_bar := fun p => if p = 6 then some ⟨⟨0, 0⟩, ⟨900, 20⟩, [⟨0, 1/2⟩, ⟨1/2, 1/2⟩]⟩
      else none }

/-- The tree `root(SplitH)[G(SplitH)[H(SplitV)[X, Y]], P(SplitV, ephemeral)[B, A]]`: the root
at 2, the groups G at 4, H at 8 and P at 6, the windows X at 1, Y at 7, B at 3 and A at 5. -/
def exRemoval : List Hy3Node :=
  [leaf 1 8 101, grp 2 0 .SplitH [4, 6] 6, leaf 3 6 102, grp 4 2 .SplitH [8] 8, leaf 5 6 105,
    (grp 6 2 .SplitV [3, 5] 5).mapGroup (fun g => { g with ephemeral := true }),
    leaf 7 8 107, grp 8 4 .SplitV [1, 7] 1]

/-- The depth of the nodes of `exRemoval`. -/
def rankRemoval (p : Ptr) : Nat :=
  if p = 2 then 0 else if p = 4 ∨ p = 6 then 1 else if p = 8 ∨ p = 3 ∨ p = 5 then 2 else 3

/-- The compositor of the examples with the window 104 holding the input focus. -/
def CFocused : Compositor :=
  { C0 with focusWindow := ⟨104, false, true, 1⟩ }

/-- A layout instance over the given nodes, with an autotile filter that was never set. -/
def layoutOver (ns : List Hy3Node) : Hy3Layout :=
  { nodes := ns, autotile := ⟨"", false, []⟩, self := 7 }

/-- A mapped, tiled window of workspace 1. -/
def tiledWindow (handle : Nat) : CWindow := ⟨handle, false, true, 1⟩

/-- The tree `root(SplitH)[A, B]` with the root itself as the focus target. -/
def exRootFocused : List Hy3Node :=
  [leaf 1 2 101, (grp 2 0 .SplitH [1, 3] 3).mapGroup (fun g => { g with group_focused := true }),
    leaf 3 2 102]

/-- The tree `root(SplitH)[G(SplitV)[A], B]`: the root at 2, the group G at 4 with its only
child, the focused window A at 1, and the window B at 3. -/
def exDeep : List Hy3Node :=
  [leaf 1 4 101, grp 2 0 .SplitH [4, 3] 4, leaf 3 2 102, grp 4 2 .SplitV [1] 1]

/-- The depth of the nodes of the small examples: the root at 2, the group at 4 below it. -/
def rankSmall (p : Ptr) : Nat :=
  if p = 2 then 0 else if p = 4 ∨ p = 3 then 1 else 2

/-- The node `x` is in the subtree of the node `a`: it is `a`, or it is in the subtree of a
child that the group `a` lists. -/
inductive Below (ns : List Hy3Node) : Ptr → Ptr → Prop where
  | self (a : Ptr) : Below ns a a
  | child (a pa c x : Ptr) (g : Hy3GroupData) : NodeIs ns a pa (.group g) → c ∈ g.children →
      Below ns c x → Below ns a x

/-- Two collections hold the same tree: the same addresses, every node with the same parent
and payload. -/
def SameTree (ns ns1 : List Hy3Node) : Prop :=
  addrs ns1 = addrs ns ∧ ∀ x par dat, NodeIs ns1 x par dat ↔ NodeIs ns x par dat

/-- The tree `exNested`, `root(SplitH)[G(SplitH)[A, B], C]`, with the `size_ratio` 2 at every
node. -/
def exRatios : List Hy3Node :=
  exNested.map (fun n => { n with size_ratio := 2 })

/-- The depth of the nodes of `exNested`. -/
def rankNested (p : Ptr) : Nat :=
  if p = 2 then 0 else if p = 4 ∨ p = 5 then 1 else 2

/-- The group payload of the example node `grp addr parent l children focused`. -/
def grpData (l : Hy3GroupLayout) (children : List Ptr) (focused : Ptr) : Hy3GroupData :=
  { Hy3GroupData.ofLayout l with
    children := children, group_focused := false, focused_child := focused }

/-! ## Tab focus -/

/-- The argument `TabFocus` of `focusTab` (`Hy3Layout.hpp`). -/
inductive TabFocus where
  | MouseLocation
  | Left
  | Right
  | Index
  deriving DecidableEq, Repr

/-- The argument `TabFocusMousePriority` of `focusTab` (`Hy3Layout.hpp`). -/
inductive TabFocusMousePriority where
  | Ignore
  | Prioritize
  | Require
  deriving DecidableEq, Repr

/-- What `focusTab` asks of the seat and the input manager: the window that owns the surface
under the pointer (`none` when no surface has the pointer focus, the resource has no
`CWLSurface`, or its view is not a window) and the mouse coordinates. -/
structure PointerState where
  window : Option CWindow
  mouse_pos : Vector2D

/-- The loop of `focusTab` at lines 1297-1301: upwards from the focused node while the node is
a window or a group that is not `Tabbed`, and has a parent. -/
def tabNodeUp : Nat → List Hy3Node → Ptr → Option Ptr
  | 0, _, _ => none
  | fuel + 1, ns, tab_node => do
    let n ← getNode ns tab_node
    let goesOn :=
      match n.data with
      | .window _ => true
      | .group g => g.layout != .Tabbed
    if goesOn = true ∧ n.parent ≠ 0 then tabNodeUp fuel ns n.parent else some tab_node

/-- The loop for `TabFocus::Index` (lines 1316-1325): the counter `i` starts at 1 and the
first child whose count equals `index` is taken. -/
def tabIndexLoop (index : Int) : List Ptr → Int → Option Ptr
  | [], _ => none
  | node :: rest, i => if i = index then some node else tabIndexLoop index rest (i + 1)

/-- The branch for `TabFocus::Left` and `TabFocus::Right` (lines 1329-1345): `std::find` of
the focused child, then one step with or without wrapping; `none` is the `return`. -/
def tabCycle (target : TabFocus) (wrap_scroll : Bool) (children : List Ptr)
    (focused_child : Ptr) : Option Ptr :=
  let node_iter := children.indexOf focused_child
  if node_iter = children.length then none
  else if target = .Left then
    if node_iter = 0 then
      if wrap_scroll then children[children.length - 1]? else none
    else children[node_iter - 1]?
  else
    if node_iter = children.length - 1 then
      if wrap_scroll then children[0]? else none
    else children[node_iter + 1]?

/-- The loop of `focusTab` at lines 1351-1353: downwards along `focused_child` while the node
is a group that is not the focus target and has a focused child. -/
def focusDescend : Nat → List Hy3Node → Ptr → Option Ptr
  | 0, _, _ => none
  | fuel + 1, ns, focus => do
    let n ← getNode ns focus
    match n.data with
    | .window _ => some focus
    | .group g =>
      if g.group_focused = false ∧ g.focused_child ≠ 0 then
        focusDescend fuel ns g.focused_child
      else some focus

/-- The end of `focusTab` (lines 1350-1358): the descent from the selected node, `focus(false)`
on the node reached, and the geometry pass on the tab node. -/
def focusTabFinish (O : NodeOps) (ns : List Hy3Node) (tab_node tab_focused_node : Ptr) :
    Option (List Hy3Node) := do
  let f ← focusDescend (ns.length + 1) ns tab_focused_node
  let ns1 ← focus ns f
  some (recalcSizePosRecursive O ns1 tab_node)

/-- The part of `focusTab` from the label `hastab` on (lines 1310-1358), for the tab node
`tab_node` and the value of `tab_focused_node` at the label (`none` when nothing was written
to it). -/
def focusTabAt (O : NodeOps) (ns : List Hy3Node) (target : TabFocus) (wrap_scroll : Bool)
    (index : Int) (tab_node : Ptr) (tab_focused_node : Option Ptr) : Option (List Hy3Node) :=
  if target ≠ .MouseLocation then do
    let t ← getNode ns tab_node
    let group ← t.data.as_group
    if group.focused_child = 0 ∨ group.children.length < 2 then some ns
    else
      match (if target = .Index then tabIndexLoop index group.children 1
        else tabCycle target wrap_scroll group.children group.focused_child) with
      | none => some ns
      | some x => focusTabFinish O ns tab_node x
  else do
    let x ← tab_focused_node
    focusTabFinish O ns tab_node x

/-- The part of `focusTab` that starts from the focused node of the workspace (lines
1293-1307) and goes on at the label `hastab`. -/
def focusTabFocused (O : NodeOps) (ns : List Hy3Node) (workspace : Nat) (target : TabFocus)
    (wrap_scroll : Bool) (index : Int) : Option (List Hy3Node) := do
  let f ← getWorkspaceFocusedNode ns workspace false false
  if f = 0 then some ns
  else do
    let t ← tabNodeUp (ns.length + 1) ns f
    let tn ← getNode ns t
    match tn.data with
    | .window _ => some ns
    | .group g =>
      if g.layout ≠ .Tabbed then some ns
      else focusTabAt O ns target wrap_scroll index t none

/-- The command `Hy3Layout::focusTab`. -/
def focusTab (O : NodeOps) (V : TabView) (P : PointerState) (ns : List Hy3Node)
    (workspace : Nat) (target : TabFocus) (mouse : TabFocusMousePriority)
    (wrap_scroll : Bool) (index : Int) : Option (List Hy3Node) :=
  let node := getWorkspaceRootGroup ns workspace
  if node = 0 then some ns
  else if target = .MouseLocation ∨ mouse ≠ .Ignore then
    match P.window with
    | none => some ns
    | some window =>
      if window.m_isFloating then some ns
      else do
        let r ← findTabBarAt V (ns.length + 1) ns node P.mouse_pos
        if r.1 ≠ 0 then focusTabAt O ns target wrap_scroll index r.1 r.2
        else if target = .MouseLocation ∨ mouse = .Require then some ns
        else focusTabFocused O ns workspace target wrap_scroll index
  else focusTabFocused O ns workspace target wrap_scroll index

/-- The focused child of the group at `p`. -/
def focusedChildAt (ns : List Hy3Node) (p : Ptr) : Option Ptr :=
  (getNode ns p).bind (fun n => n.data.as_group.map (fun g => g.focused_child))

/-- The depth of the nodes of `exTabs`. -/
def rankTabs (p : Ptr) : Nat :=
  if p = 2 then 0 else if p = 4 then 1 else if p = 6 then 2 else 3

/-- The pointer over no window. -/
def P0 : PointerState :=
  { window := none, mouse_pos := ⟨0, 0⟩ }

/-! ## Layout messages -/

/-- The function `Hy3Layout::layoutMsg` (lines 352-377): the message `togglesplit` flips the
layout of the parent of the focused window between `SplitH` and `SplitV` by writing the field
`layout` itself (lines 364 and 368), not through `setLayout`; any other message does
nothing. -/
def layoutMsg (O : NodeOps) (C : Compositor) (ns : List Hy3Node) (content : String) :
    Option (List Hy3Node) :=
  if content = "togglesplit" then
    if C.focusWindow.handle ≠ 0 then
      let node := getNodeFromWindow ns C.focusWindow.handle
      if node ≠ 0 then do
        let n ← getNode ns node
        if n.parent ≠ 0 then do
          let p ← getNode ns n.parent
          let group ← p.data.as_group
          match group.layout with
          | .SplitH =>
            some (recalcSizePosRecursive O
              (modifyGroup ns n.parent (fun g => { g with layout := .SplitV })) n.parent)
          | .SplitV =>
            some (recalcSizePosRecursive O
              (modifyGroup ns n.parent (fun g => { g with layout := .SplitH })) n.parent)
          | .Tabbed => some ns
        else some ns
      else some ns
    else some ns
  else some ns

/-- The compositor of the examples with the window 101 holding the input focus. -/
def CFocusA : Compositor :=
  { C0 with focusWindow := ⟨101, false, true, 1⟩ }

/-! ## Payloads up to the focus marks -/

/-- The payload without the focus marks `focused_child` and `group_focused`, which `focus`
rewrites along the chain of parents. -/
def Hy3NodeData.unfocus : Hy3NodeData → Hy3NodeData
  | .window w => .window w
  | .group g => .group { g with focused_child := 0, group_focused := false }

/-- The node at `x` is live, has the parent `parent` and, up to the focus marks, the payload
`data`. -/
def NodeLike (ns : List Hy3Node) (x parent : Ptr) (data : Hy3NodeData) : Prop :=
  ∃ n, getNode ns x = some n ∧ n.parent = parent ∧ n.data.unfocus = data.unfocus

/-- The tree `root(SplitH)[A, G(SplitV)[X, Y], B]`: the root at 2, the group G at 4 with X
focused, the windows A at 1, B at 3, X at 5 and Y at 6. -/
def exSide : List Hy3Node :=
  [leaf 1 2 101, grp 2 0 .SplitH [1, 4, 3] 1, leaf 3 2 102, grp 4 2 .SplitV [5, 6] 5,
    leaf 5 4 103, leaf 6 4 104]

/-- The tree `root(SplitH)[A, G(SplitH)[X, Y], B]`: as `exSide`, with G oriented like the
root. -/
def exSideH : List Hy3Node :=
  [leaf 1 2 101, grp 2 0 .SplitH [1, 4, 3] 1, leaf 3 2 102, grp 4 2 .SplitH [5, 6] 5,
    leaf 5 4 103, leaf 6 4 104]

/-! ## Arena lemmas -/

theorem getNode_addr {ns : List Hy3Node} {p : Ptr} {n : Hy3Node} (h : getNode ns p = some n) :
    n.addr = p := by
  have := List.find?_some h
  simpa using this

theorem getNode_mem {ns : List Hy3Node} {p : Ptr} {n : Hy3Node} (h : getNode ns p = some n) :
    n ∈ ns :=
  List.mem_of_find?_eq_some h

theorem getNode_map (ns : List Hy3Node) (f : Hy3Node → Hy3Node) (hf : ∀ n, (f n).addr = n.addr)
    (p : Ptr) : getNode (ns.map f) p = (getNode ns p).map f := by
  have : ((fun n : Hy3Node => n.addr == p) ∘ f) = (fun n : Hy3Node => n.addr == p) := by
    funext n; simp [hf]
  simp [getNode, List.find?_map, this]

theorem getNode_modifyNode (ns : List Hy3Node) (p q : Ptr) (f : Hy3Node → Hy3Node)
    (hf : ∀ n, (f n).addr = n.addr) :
    getNode (modifyNode ns p f) q = if q = p then (getNode ns q).map f else getNode ns q := by
  have hg : ∀ n : Hy3Node, (if n.addr = p then f n else n).addr = n.addr := by
    intro n; split <;> simp [hf]
  unfold modifyNode
  rw [getNode_map ns _ hg q]
  cases h : getNode ns q with
  | none => simp
  | some n =>
    have ha := getNode_addr h
    by_cases hq : q = p
    · simp [hq, ha ▸ hq]
    · have : ¬ n.addr = p := by rw [ha]; exact hq
      simp [hq, this]

theorem mapGroup_addr (n : Hy3Node) (f : Hy3GroupData → Hy3GroupData) :
    (n.mapGroup f).addr = n.addr := by
  unfold Hy3Node.mapGroup; split <;> rfl

theorem getNode_modifyGroup (ns : List Hy3Node) (p q : Ptr) (f : Hy3GroupData → Hy3GroupData) :
    getNode (modifyGroup ns p f) q
      = if q = p then (getNode ns q).map (fun n => n.mapGroup f) else getNode ns q :=
  getNode_modifyNode ns p q _ (fun n => mapGroup_addr n f)

theorem getNode_eraseNode (ns : List Hy3Node) (p q : Ptr) :
    getNode (eraseNode ns p) q = if q = p then none else getNode ns q := by
  induction ns with
  | nil => simp [getNode, eraseNode]
  | cons a t ih =>
    simp only [getNode, eraseNode] at ih
    simp only [getNode, eraseNode, List.filter_cons]
    by_cases hp : a.addr = p
    · have h1 : (a.addr != p) = false := by simp [hp]
      rw [h1]
      simp only [Bool.false_eq_true, if_false]
      rw [ih]
      by_cases hq : q = p
      · simp [hq]
      · have : (a.addr == q) = false := by
          simp only [beq_eq_false_iff_ne]; rw [hp]; exact fun e => hq e.symm
        simp [hq, List.find?_cons, this]
    · have h1 : (a.addr != p) = true := by simp [hp]
      rw [h1]
      simp only [if_true, List.find?_cons]
      by_cases h : a.addr = q
      · have : ¬ q = p := fun e => hp (h.trans e)
        simp [h, this]
      · have h2 : (a.addr == q) = false := by simpa using h
        rw [h2]
        exact ih

theorem getNode_recalc (O : NodeOps) (ns : List Hy3Node) (root p : Ptr) :
    getNode (recalcSizePosRecursive O ns root) p
      = (getNode ns p).map (fun n =>
          { n with position := (O.geometry ns root n.addr).1
                   size := (O.geometry ns root n.addr).2 }) := by
  unfold recalcSizePosRecursive
  apply getNode_map
  intro n
  rfl

theorem getNode_append (ns : List Hy3Node) (x : Hy3Node) (p : Ptr) :
    getNode (ns ++ [x]) p
      = match getNode ns p with
        | some n => some n
        | none => if x.addr = p then some x else none := by
  simp only [getNode, List.find?_append]
  cases List.find? (fun n => n.addr == p) ns with
  | some n => rfl
  | none => simp [List.find?_cons]; split <;> simp_all

theorem lt_freshAddr {ns : List Hy3Node} {n : Hy3Node} (h : n ∈ ns) :
    Nat.lt n.addr (freshAddr ns) := by
  induction ns with
  | nil => cases h
  | cons a t ih =>
    simp only [freshAddr, List.map, List.foldr] at ih ⊢
    rcases List.mem_cons.1 h with rfl | h
    · exact Nat.lt_succ_of_le (Nat.le_max_left _ _)
    · exact Nat.lt_succ_of_le (Nat.le_trans (Nat.le_of_lt_succ (ih h)) (Nat.le_max_right _ _))

theorem getNode_freshAddr (ns : List Hy3Node) : getNode ns (freshAddr ns) = none := by
  cases h : getNode ns (freshAddr ns) with
  | none => rfl
  | some n =>
    have h1 := lt_freshAddr (getNode_mem h)
    have h2 := getNode_addr h
    rw [h2] at h1
    exact absurd h1 (Nat.lt_irrefl _)

/-! ## List lemmas for the iterator arithmetic -/

theorem findIdx_append_cons (pre post : List Ptr) (x : Ptr) (h : x ∉ pre) :
    findIdx (pre ++ x :: post) x = pre.length := by
  induction pre with
  | nil => simp [findIdx, List.indexOf_cons]
  | cons a t ih =>
    have h1 : ¬ a = x := fun e => h (e ▸ List.mem_cons_self _ _)
    have h2 : x ∉ t := fun e => h (List.mem_cons_of_mem _ e)
    simp only [findIdx] at ih
    simp [findIdx, List.indexOf_cons, h1, ih h2]

theorem insertAt_append (pre l : List Ptr) (k : Nat) (x : Ptr) :
    insertAt (pre ++ l) (pre.length + k) x = pre ++ insertAt l k x := by
  simp [insertAt, List.take_append, List.drop_append]

theorem set_append_right (pre l : List Ptr) (k : Nat) (x : Ptr) :
    (pre ++ l).set (pre.length + k) x = pre ++ l.set k x := by
  induction pre with
  | nil => simp
  | cons a t ih => simp [Nat.succ_add, ih]

theorem filter_ne_zero_of_not_mem (l : List Ptr) (h : (0 : Ptr) ∉ l) :
    l.filter (fun x => x != 0) = l := by
  apply List.filter_eq_self.2
  intro a ha
  have : a ≠ 0 := fun e => h (e ▸ ha)
  simpa using this

/-! ## Observations through the primitives -/

theorem mapGroup_parent (n : Hy3Node) (f : Hy3GroupData → Hy3GroupData) :
    (n.mapGroup f).parent = n.parent := by
  unfold Hy3Node.mapGroup; split <;> rfl

theorem addrs_modifyNode (ns : List Hy3Node) (p : Ptr) (f : Hy3Node → Hy3Node)
    (hf : ∀ n, (f n).addr = n.addr) : addrs (modifyNode ns p f) = addrs ns := by
  simp only [addrs, modifyNode, List.map_map]
  apply List.map_congr_left
  intro a _
  simp only [Function.comp]
  split <;> simp [hf]

theorem addrs_modifyGroup (ns : List Hy3Node) (p : Ptr) (f : Hy3GroupData → Hy3GroupData) :
    addrs (modifyGroup ns p f) = addrs ns :=
  addrs_modifyNode ns p _ (fun n => mapGroup_addr n f)

theorem addrs_recalc (O : NodeOps) (ns : List Hy3Node) (root : Ptr) :
    addrs (recalcSizePosRecursive O ns root) = addrs ns := by
  simp [addrs, recalcSizePosRecursive, List.map_map, Function.comp]

theorem childrenAt_recalc (O : NodeOps) (ns : List Hy3Node) (root p : Ptr) :
    childrenAt (recalcSizePosRecursive O ns root) p = childrenAt ns p := by
  simp only [childrenAt, getNode_recalc]
  cases getNode ns p <;> rfl

theorem parentAt_recalc (O : NodeOps) (ns : List Hy3Node) (root p : Ptr) :
    parentAt (recalcSizePosRecursive O ns root) p = parentAt ns p := by
  simp only [parentAt, getNode_recalc]
  cases getNode ns p <;> rfl

theorem layoutAt_recalc (O : NodeOps) (ns : List Hy3Node) (root p : Ptr) :
    layoutAt (recalcSizePosRecursive O ns root) p = layoutAt ns p := by
  simp only [layoutAt, getNode_recalc]
  cases getNode ns p <;> rfl

theorem parentAt_modifyGroup (ns : List Hy3Node) (p q : Ptr) (f : Hy3GroupData → Hy3GroupData) :
    parentAt (modifyGroup ns p f) q = parentAt ns q := by
  simp only [parentAt, getNode_modifyGroup]
  split
  · cases getNode ns q with
    | none => rfl
    | some n => simp [mapGroup_parent]
  · rfl

theorem childrenAt_modifyGroup_self (ns : List Hy3Node) (p : Ptr) (P : Hy3Node)
    (g : Hy3GroupData) (f : Hy3GroupData → Hy3GroupData)
    (hP : getNode ns p = some P) (hPg : P.data = .group g) :
    childrenAt (modifyGroup ns p f) p = some (f g).children := by
  simp [childrenAt, getNode_modifyGroup, hP, Hy3Node.mapGroup, hPg, Hy3NodeData.children]

theorem layoutAt_modifyGroup_self (ns : List Hy3Node) (p : Ptr) (P : Hy3Node)
    (g : Hy3GroupData) (f : Hy3GroupData → Hy3GroupData)
    (hP : getNode ns p = some P) (hPg : P.data = .group g) :
    layoutAt (modifyGroup ns p f) p = some (f g).layout := by
  simp [layoutAt, getNode_modifyGroup, hP, Hy3Node.mapGroup, hPg, Hy3NodeData.as_group]

/-- The first loop stops at once in a parent that is oriented along the direction when the
node is not at the edge of that parent in the direction of travel. -/
theorem breakLoop_stop (C : Compositor) (self : Nat) (d : ShiftDirection)
    (shift once visible : Bool)
    (ns : List Hy3Node) (n p : Ptr) (P : Hy3Node) (g : Hy3GroupData) (e : Ptr) (fuel : Nat)
    (hp0 : p ≠ 0) (hP : getNode ns p = some P) (hPg : P.data = .group g)
    (hm : shiftMatchesLayout g.layout d = true)
    (hv : visible = false ∨ g.layout ≠ .Tabbed)
    (hedge : (if shiftIsForward d then g.children.getLast? else g.children.head?) = some e)
    (hne : e ≠ n) :
    breakLoop C self d shift once visible n (fuel + 1) ns n p false
      = some (.go ns n p false) := by
  cases hf : shiftIsForward d <;> simp only [hf, if_true, Bool.false_eq_true, if_false] at hedge <;>
    simp [breakLoop, hp0, hP, hPg, Hy3NodeData.as_group, hm, hv, hf, hedge, hne]

theorem getLast?_after (pre post : List Ptr) (n s : Ptr)
    (hnd : (pre ++ n :: s :: post).Nodup) :
    ∃ b, (pre ++ n :: s :: post).getLast? = some b ∧ b ≠ n := by
  have h1 : (pre ++ n :: s :: post).getLast? = (s :: post).getLast? := by
    rw [show pre ++ n :: s :: post = (pre ++ [n]) ++ (s :: post) by simp]
    rw [List.getLast?_append_of_ne_nil _ (by simp)]
  have hne : s :: post ≠ [] := by simp
  refine ⟨(s :: post).getLast hne, ?_, ?_⟩
  · rw [h1, List.getLast?_eq_getLast _ hne]
  · intro e
    have hmem : n ∈ s :: post := e ▸ List.getLast_mem hne
    have h2 := (List.nodup_append.1 hnd).2.1
    exact (List.nodup_cons.1 h2).1 hmem

theorem head?_before (pre post : List Ptr) (n s : Ptr)
    (hnd : (pre ++ s :: n :: post).Nodup) :
    ∃ f, (pre ++ s :: n :: post).head? = some f ∧ f ≠ n := by
  cases pre with
  | nil =>
    refine ⟨s, rfl, ?_⟩
    intro e
    have := (List.nodup_cons.1 hnd).1
    exact this (e ▸ List.mem_cons_self _ _)
  | cons a t =>
    refine ⟨a, rfl, ?_⟩
    intro e
    have := (List.nodup_cons.1 hnd).1
    apply this
    rw [e]
    simp

theorem not_mem_pre_of_nodup (pre post : List Ptr) (n : Ptr)
    (hnd : (pre ++ n :: post).Nodup) : n ∉ pre := by
  intro h
  have := (List.nodup_append.1 hnd).2.2
  exact this h (List.mem_cons_self _ _)

/-- The search for the insertion point next to a window leaf inside the parent of the shifted
node, with the positions given abstractly. -/
theorem findInsert_direct_same_parent (d : ShiftDirection) (once visible : Bool)
    (ns : List Hy3Node)
    (n p s : Ptr) (N P S : Hy3Node) (g : Hy3GroupData) (f b : Ptr) (iter : Nat)
    (hN : getNode ns n = some N) (hNp : N.parent = p)
    (hP : getNode ns p = some P) (hPg : P.data = .group g)
    (hfr : g.children.head? = some f) (hb : g.children.getLast? = some b)
    (hedge : if shiftIsForward d then b ≠ n else f ≠ n)
    (hiter : neighbourIdx d g.children n = some iter)
    (hget : g.children[iter]? = some s)
    (hS : getNode ns s = some S) (hSw : S.data.isDirectTarget = true) :
    findInsert d true once visible ns n n p false
      = some (.place p (if shiftIsForward d then iter + 1 else iter)) := by
  cases hf : shiftIsForward d
  · simp only [hf, Bool.false_eq_true, if_false] at hedge
    simp only [findInsert, hP, hPg, Hy3NodeData.as_group, hfr, hb, hf, Option.bind_eq_bind,
      Option.some_bind, Bool.false_eq_true, if_false, hiter, hget, hS, hSw, hN, hNp,
      and_false, and_true, Ne.symm hedge, if_true, Bool.true_or]
  · simp only [hf, if_true] at hedge
    simp only [findInsert, hP, hPg, Hy3NodeData.as_group, hfr, hb, hf, Option.bind_eq_bind,
      Option.some_bind, Bool.true_eq_false, if_false, hiter, hget, hS, hSw, hN, hNp,
      and_false, and_true, Ne.symm hedge, if_true, Bool.true_or]

/-- The splice inside the parent of the shifted node. -/
theorem spliceShift_same_parent (O : NodeOps) (ns : List Hy3Node) (node n p : Ptr)
    (N P : Hy3Node) (g : Hy3GroupData) (insert : Nat)
    (hN : getNode ns n = some N) (hNp : N.parent = p)
    (hP : getNode ns p = some P) (hPg : P.data = .group g)
    (hmem : n ∈ g.children) :
    spliceShift O ns node n p insert
      = some (recalcSizePosRecursive O (modifyGroup ns p (fun g0 =>
          { g0 with children := reposition g.children insert n })) p) := by
  have hlt : findIdx g.children n < g.children.length := List.indexOf_lt_length.2 hmem
  simp [spliceShift, hP, hPg, Hy3NodeData.as_group, hN, hNp, hlt]

theorem reposition_forward (pre post : List Ptr) (n s : Ptr)
    (hnd : (pre ++ n :: s :: post).Nodup) (h0 : (0 : Ptr) ∉ pre ++ n :: s :: post) :
    reposition (pre ++ n :: s :: post) (pre.length + 2) n = pre ++ s :: n :: post := by
  have hpre : n ∉ pre := not_mem_pre_of_nodup pre _ n hnd
  have h0' : (0 : Ptr) ∉ pre ++ s :: n :: post := by
    intro h; apply h0; simp at h ⊢; tauto
  have hn0 : n ≠ 0 := by
    intro e; apply h0; simp [e]
  unfold reposition
  rw [findIdx_append_cons _ _ _ hpre]
  have e1 : (pre ++ n :: s :: post).set pre.length 0 = pre ++ 0 :: s :: post := by
    simp
  rw [e1]
  have e2 : insertAt (pre ++ 0 :: s :: post) (pre.length + 2) n = pre ++ 0 :: s :: n :: post := by
    rw [insertAt_append]; rfl
  rw [e2]
  have e3 : (pre ++ 0 :: s :: n :: post).filter (fun x => x != 0)
      = (pre ++ s :: n :: post).filter (fun x => x != 0) := by
    simp [List.filter_append, List.filter_cons]
  rw [e3]
  exact filter_ne_zero_of_not_mem _ h0'

theorem reposition_backward (pre post : List Ptr) (n s : Ptr)
    (hnd : (pre ++ s :: n :: post).Nodup) (h0 : (0 : Ptr) ∉ pre ++ s :: n :: post) :
    reposition (pre ++ s :: n :: post) pre.length n = pre ++ n :: s :: post := by
  have hpre : n ∉ pre ++ [s] := by
    apply not_mem_pre_of_nodup (pre ++ [s]) post n
    simpa using hnd
  have h0' : (0 : Ptr) ∉ pre ++ n :: s :: post := by
    intro h; apply h0; simp at h ⊢; tauto
  unfold reposition
  have hidx : findIdx (pre ++ s :: n :: post) n = pre.length + 1 := by
    have := findIdx_append_cons (pre ++ [s]) post n hpre
    simpa using this
  rw [hidx]
  have e1 : (pre ++ s :: n :: post).set (pre.length + 1) 0 = pre ++ s :: 0 :: post := by
    simp
  rw [e1]
  have e2 : insertAt (pre ++ s :: 0 :: post) pre.length n = pre ++ n :: s :: 0 :: post := by
    simp [insertAt]
  rw [e2]
  have e3 : (pre ++ n :: s :: 0 :: post).filter (fun x => x != 0)
      = (pre ++ n :: s :: post).filter (fun x => x != 0) := by
    simp [List.filter_append, List.filter_cons]
  rw [e3]
  exact filter_ne_zero_of_not_mem _ h0'

/-- The children sequence `pre ++ [n, s] ++ post` when going forward and
`pre ++ [s, n] ++ post` when going backward: `s` is the neighbour of `n` in the direction. -/
theorem adjacent_facts (d : ShiftDirection) (pre post : List Ptr) (n s : Ptr) (l : List Ptr)
    (hch : l = if shiftIsForward d then pre ++ n :: s :: post else pre ++ s :: n :: post)
    (hnd : l.Nodup) :
    ∃ f b iter, l.head? = some f ∧ l.getLast? = some b
      ∧ (if shiftIsForward d then b ≠ n else f ≠ n)
      ∧ neighbourIdx d l n = some iter
      ∧ l[iter]? = some s
      ∧ (if shiftIsForward d then iter + 1 else iter) = (if shiftIsForward d then pre.length + 2
          else pre.length)
      ∧ n ∈ l := by
  unfold neighbourIdx
  cases hf : shiftIsForward d
  · simp only [hf, Bool.false_eq_true, if_false] at hch ⊢
    subst hch
    obtain ⟨f, hfr, hfn⟩ := head?_before pre post n s hnd
    have hpre : n ∉ pre ++ [s] := by
      apply not_mem_pre_of_nodup (pre ++ [s]) post n
      simpa using hnd
    have hidx : findIdx (pre ++ s :: n :: post) n = pre.length + 1 := by
      have := findIdx_append_cons (pre ++ [s]) post n hpre
      simpa using this
    have hlast : ∃ b, (pre ++ s :: n :: post).getLast? = some b := by
      cases h : (pre ++ s :: n :: post).getLast? with
      | none => simp at h
      | some b => exact ⟨b, rfl⟩
    obtain ⟨b, hb⟩ := hlast
    refine ⟨f, b, pre.length, hfr, hb, hfn, ?_, ?_, rfl, ?_⟩
    · rw [hidx]; simp
    · rw [List.getElem?_append_right (Nat.le_refl _)]; simp
    · simp
  · simp only [hf, if_true] at hch ⊢
    subst hch
    obtain ⟨b, hb, hbn⟩ := getLast?_after pre post n s hnd
    have hpre : n ∉ pre := not_mem_pre_of_nodup pre _ n hnd
    have hidx : findIdx (pre ++ n :: s :: post) n = pre.length := findIdx_append_cons _ _ _ hpre
    have hhead : ∃ f, (pre ++ n :: s :: post).head? = some f := by
      cases pre <;> simp
    obtain ⟨f, hfr⟩ := hhead
    refine ⟨f, b, pre.length + 1, hfr, hb, hbn, ?_, ?_, rfl, ?_⟩
    · rw [hidx]; simp
    · rw [List.getElem?_append_right (Nat.le_succ _)]; simp
    · simp

theorem reposition_adjacent (d : ShiftDirection) (pre post : List Ptr) (n s : Ptr)
    (l : List Ptr)
    (hch : l = if shiftIsForward d then pre ++ n :: s :: post else pre ++ s :: n :: post)
    (hnd : l.Nodup) (h0 : (0 : Ptr) ∉ l) :
    reposition l (if shiftIsForward d then pre.length + 2 else pre.length) n
      = if shiftIsForward d then pre ++ s :: n :: post else pre ++ n :: s :: post := by
  cases hf : shiftIsForward d
  · simp only [hf, Bool.false_eq_true, if_false] at hch ⊢
    subst hch
    exact reposition_backward pre post n s hnd h0
  · simp only [hf, if_true] at hch ⊢
    subst hch
    exact reposition_forward pre post n s hnd h0

/-- Shifting a node whose neighbour in the direction is a window leaf, inside a parent
oriented along the direction: the result is the tree in which the two have changed places,
recalculated from the parent. -/
theorem shiftOrGetFocus_swap (O : NodeOps) (C : Compositor) (self : Nat) (ns : List Hy3Node)
    (d : ShiftDirection) (once visible : Bool) (n p s : Ptr) (N P S : Hy3Node)
    (g : Hy3GroupData) (pre post : List Ptr)
    (hact : O.getPlacementActor ns (O.getExpandActor ns n) = n)
    (hN : getNode ns n = some N) (hNp : N.parent = p) (hp0 : p ≠ 0)
    (hP : getNode ns p = some P) (hPg : P.data = .group g)
    (hm : shiftMatchesLayout g.layout d = true)
    (hv : visible = false ∨ g.layout ≠ .Tabbed)
    (hch : g.children
      = if shiftIsForward d then pre ++ n :: s :: post else pre ++ s :: n :: post)
    (hnd : g.children.Nodup) (h0 : (0 : Ptr) ∉ g.children)
    (hS : getNode ns s = some S) (hSw : S.data.isDirectTarget = true) :
    shiftOrGetFocus O C self ns n d true once visible
      = some (recalcSizePosRecursive O (modifyGroup ns p (fun g0 =>
          { g0 with children :=
              if shiftIsForward d then pre ++ s :: n :: post else pre ++ n :: s :: post })) p,
          0) := by
  obtain ⟨f, b, iter, hfr, hb, hedge, hiter, hget, hins, hmem⟩ :=
    adjacent_facts d pre post n s g.children hch hnd
  have hedge' : (if shiftIsForward d then g.children.getLast? else g.children.head?)
      = some (if shiftIsForward d then b else f) := by
    cases shiftIsForward d <;> simp [hfr, hb]
  have hne : (if shiftIsForward d then b else f) ≠ n := by
    cases hf : shiftIsForward d <;> simp [hf] at hedge ⊢ <;> exact hedge
  have h1 := breakLoop_stop C self d true once visible ns n p P g _ ns.length hp0 hP hPg hm hv
    hedge' hne
  have h2 := findInsert_direct_same_parent d once visible ns n p s N P S g f b iter hN hNp hP hPg
    hfr hb hedge hiter hget hS hSw
  have h3 := spliceShift_same_parent O ns (O.getExpandActor ns n) n p N P g
    (if shiftIsForward d then iter + 1 else iter) hN hNp hP hPg hmem
  rw [hins, reposition_adjacent d pre post n s g.children hch hnd h0] at h3
  rw [hins] at h2
  simp only [shiftOrGetFocus, hact, hN, hNp, Option.bind_eq_bind, Option.some_bind, h1, h2, h3,
    Option.map_some']

/-! ## Shift past an adjacent leaf -/

/-- C4: in a group oriented along the direction, shifting a child `n` whose neighbour `s` in
that direction is a window leaf (`shift = true`, `once = false`, `visible = false`) returns
`nullptr` and leaves the tree with the children sequence of the group equal to the original
one with `n` and `s` exchanged, the parent of `n` unchanged, and the same nodes as before.
The node is its own placement actor, as in every tree without an active expansion. -/
theorem shift_past_adjacent_leaf (O : NodeOps) (C : Compositor) (self : Nat)
    (ns : List Hy3Node) (d : ShiftDirection) (n p s : Ptr) (N P S : Hy3Node)
    (g : Hy3GroupData) (w : Nat) (pre post : List Ptr)
    (hact : O.getPlacementActor ns (O.getExpandActor ns n) = n)
    (hN : getNode ns n = some N) (hNp : N.parent = p) (hp0 : p ≠ 0)
    (hP : getNode ns p = some P) (hPg : P.data = .group g)
    (hm : shiftMatchesLayout g.layout d = true)
    (hch : g.children
      = if shiftIsForward d then pre ++ n :: s :: post else pre ++ s :: n :: post)
    (hnd : g.children.Nodup) (h0 : (0 : Ptr) ∉ g.children)
    (hS : getNode ns s = some S) (hSw : S.data = .window w) :
    ∃ ns1, shiftOrGetFocus O C self ns n d true false false = some (ns1, 0)
      ∧ childrenAt ns1 p
          = some (if shiftIsForward d then pre ++ s :: n :: post else pre ++ n :: s :: post)
      ∧ parentAt ns1 n = parentAt ns n
      ∧ addrs ns1 = addrs ns := by
  have hd : S.data.isDirectTarget = true := by rw [hSw]; rfl
  refine ⟨_, shiftOrGetFocus_swap O C self ns d false false n p s N P S g pre post hact hN hNp
    hp0 hP hPg hm (Or.inl rfl) hch hnd h0 hS hd, ?_, ?_, ?_⟩
  · rw [childrenAt_recalc, childrenAt_modifyGroup_self ns p P g _ hP hPg]
  · rw [parentAt_recalc, parentAt_modifyGroup]
  · rw [addrs_recalc, addrs_modifyGroup]

/-- Witness for C4: in `root(SplitH)[A, B]`, shifting B to the left gives `[B, A]`. -/
theorem shift_past_adjacent_leaf_witness :
    ∃ ns1, shiftOrGetFocus O0 C0 7 exTwo 3 .Left true false false = some (ns1, 0)
      ∧ childrenAt ns1 2 = some [3, 1]
      ∧ parentAt ns1 3 = parentAt exTwo 3
      ∧ addrs ns1 = addrs exTwo :=
  shift_past_adjacent_leaf O0 C0 7 exTwo .Left 3 2 1 (leaf 3 2 102) (grp 2 0 .SplitH [1, 3] 3)
    (leaf 1 2 101) _ 101 [] [] rfl rfl rfl (by decide) rfl rfl rfl rfl (by decide) (by decide)
    rfl rfl

/-! ## Round trip of a shift -/

theorem shiftIsForward_reverse (d : ShiftDirection) :
    shiftIsForward (reverse d) = !shiftIsForward d := by
  cases d <;> rfl

theorem shiftMatchesLayout_reverse (l : Hy3GroupLayout) (d : ShiftDirection) :
    shiftMatchesLayout l (reverse d) = shiftMatchesLayout l d := by
  cases d <;> cases l <;> rfl

theorem mapGroup_isDirectTarget (n : Hy3Node) (c : List Ptr) :
    (n.mapGroup (fun g => { g with children := c })).data.isDirectTarget
      = n.data.isDirectTarget := by
  unfold Hy3Node.mapGroup
  split
  · next g h => rw [h]; rfl
  · rfl

/-- Shifting with `shiftNode` a node whose neighbour in the direction is not entered (a window
leaf, or an expanded or locked group), inside a parent oriented along the direction: the two
change places. -/
theorem shiftNode_swap (O : NodeOps) (C : Compositor) (self : Nat) (ns : List Hy3Node)
    (d : ShiftDirection) (once visible : Bool) (n p s : Ptr) (N P S : Hy3Node)
    (g : Hy3GroupData) (pre post : List Ptr)
    (hpa : O.getPlacementActor ns n = n)
    (hact : O.getPlacementActor ns (O.getExpandActor ns n) = n)
    (hN : getNode ns n = some N) (hNp : N.parent = p) (hp0 : p ≠ 0)
    (hP : getNode ns p = some P) (hPg : P.data = .group g)
    (hm : shiftMatchesLayout g.layout d = true)
    (hv : visible = false ∨ g.layout ≠ .Tabbed)
    (hch : g.children
      = if shiftIsForward d then pre ++ n :: s :: post else pre ++ s :: n :: post)
    (hnd : g.children.Nodup) (h0 : (0 : Ptr) ∉ g.children)
    (hS : getNode ns s = some S) (hSw : S.data.isDirectTarget = true) :
    shiftNode O C self ns n d once visible
      = some (recalcSizePosRecursive O (modifyGroup ns p (fun g0 =>
          { g0 with children :=
              if shiftIsForward d then pre ++ s :: n :: post else pre ++ n :: s :: post })) p)
    := by
  have hlen : g.children.length ≠ 1 := by
    rw [hch]; cases shiftIsForward d <;> simp <;> omega
  have h := shiftOrGetFocus_swap O C self ns d once visible n p s N P S g pre post hact hN hNp
    hp0 hP hPg hm hv hch hnd h0 hS hSw
  cases once <;>
    simp [shiftNode, hpa, hN, hNp, hp0, hP, hPg, Hy3NodeData.as_group, hlen, h]

/-! ## Queries do not change the shape of the tree -/

theorem mapGroup_shape (n : Hy3Node) (f : Hy3GroupData → Hy3GroupData)
    (hf : ∀ g, (f g).layout = g.layout ∧ (f g).children = g.children) :
    (n.mapGroup f).shape = n.shape := by
  unfold Hy3Node.mapGroup
  split
  · next g h => simp [Hy3Node.shape, h, hf g]
  · rfl

theorem treeShape_modifyGroup (ns : List Hy3Node) (p : Ptr) (f : Hy3GroupData → Hy3GroupData)
    (hf : ∀ g, (f g).layout = g.layout ∧ (f g).children = g.children) :
    treeShape (modifyGroup ns p f) = treeShape ns := by
  simp only [treeShape, modifyGroup, modifyNode, List.map_map]
  apply List.map_congr_left
  intro a _
  simp only [Function.comp]
  split
  · exact mapGroup_shape a f hf
  · rfl

theorem treeShape_recalc (O : NodeOps) (ns : List Hy3Node) (root : Ptr) :
    treeShape (recalcSizePosRecursive O ns root) = treeShape ns := by
  simp only [treeShape, recalcSizePosRecursive, List.map_map]
  apply List.map_congr_left
  intro a _
  rfl

theorem treeShape_markFocusedUp (fuel : Nat) (ns ns1 : List Hy3Node) (p : Ptr)
    (h : markFocusedUp fuel ns p = some ns1) : treeShape ns1 = treeShape ns := by
  induction fuel generalizing ns p with
  | zero => simp [markFocusedUp] at h
  | succ k ih =>
    simp only [markFocusedUp, Option.bind_eq_bind, Option.bind_eq_some] at h
    obtain ⟨n, _, h⟩ := h
    split at h
    · cases h; rfl
    · rw [ih _ _ h]
      exact treeShape_modifyGroup _ _ _ (fun g => ⟨rfl, rfl⟩)

theorem treeShape_focus (ns ns1 : List Hy3Node) (p : Ptr) (h : focus ns p = some ns1) :
    treeShape ns1 = treeShape ns := by
  simp only [focus, markFocused] at h
  rw [treeShape_markFocusedUp _ _ _ _ h]
  exact treeShape_modifyGroup _ _ _ (fun g => ⟨rfl, rfl⟩)

theorem treeShape_focusMonitor (C : Compositor) (ns : List Hy3Node) (d : ShiftDirection)
    (r : List Hy3Node × Ptr) (h : focusMonitor C ns d = some r) :
    treeShape r.1 = treeShape ns := by
  simp only [focusMonitor] at h
  split at h
  · split at h
    · simp only [Option.map_eq_some'] at h
      obtain ⟨ns1, h1, rfl⟩ := h
      exact treeShape_focus _ _ _ h1
    · cases h; rfl
  · cases h; rfl

/-- With `shift = false` the first loop never touches the tree except through
`focusMonitor`. -/
theorem breakLoop_query (C : Compositor) (self : Nat) (d : ShiftDirection)
    (once visible : Bool) (shift_actor : Ptr) (fuel : Nat) (ns : List Hy3Node)
    (break_origin break_parent : Ptr) (hbo : Bool) :
    ∀ o, breakLoop C self d false once visible shift_actor fuel ns break_origin break_parent hbo
        = some o →
      (∀ ns1 x, o = .ret ns1 x → treeShape ns1 = treeShape ns)
        ∧ (∀ ns1 a b c, o = .go ns1 a b c → ns1 = ns) := by
  induction fuel generalizing break_origin break_parent hbo with
  | zero => intro o h; simp [breakLoop] at h
  | succ k ih =>
    intro o h
    simp only [breakLoop] at h
    split at h
    · cases h
      exact ⟨fun _ _ e => (by cases e; rfl), fun _ _ _ _ e => (by cases e)⟩
    · simp only [Option.bind_eq_bind, Option.bind_eq_some] at h
      obtain ⟨bp, _, g, _, r, _, h⟩ := h
      split at h
      · cases h
        exact ⟨fun _ _ e => (by cases e), fun _ _ _ _ e => (by cases e; rfl)⟩
      · split at h
        · simp only [Bool.not_false, if_true, Option.map_eq_some'] at h
          obtain ⟨x, hx, rfl⟩ := h
          exact ⟨fun _ _ e => by cases e; exact treeShape_focusMonitor C ns d x hx,
            fun _ _ _ _ e => by cases e⟩
        · exact ih _ _ _ o h

/-- With `shift = false` the descent into the neighbouring groups ends with a `return`. -/
theorem breakInto_query (d : ShiftDirection) (once visible : Bool) (fuel : Nat)
    (ns : List Hy3Node) (target : Ptr) :
    ∀ o, breakInto d false once visible fuel ns target = some o → ∃ r, o = .ret r := by
  induction fuel generalizing target with
  | zero => intro o h; simp [breakInto] at h
  | succ k ih =>
    intro o h
    unfold breakInto at h
    simp only [Option.bind_eq_bind, Option.bind_eq_some] at h
    obtain ⟨tg, _, g, _, h⟩ := h
    split at h
    · cases h; exact ⟨_, rfl⟩
    · simp only [Bool.false_and, Bool.false_eq_true, if_false, Option.bind_eq_some] at h
      obtain ⟨c, _, cn, _, h⟩ := h
      split at h
      · simp only [Option.map_eq_some'] at h
        obtain ⟨r, _, rfl⟩ := h
        exact ⟨_, rfl⟩
      · exact ih _ o h

/-- With `shift = false` the search for the insertion point ends with a `return`. -/
theorem findInsert_query (d : ShiftDirection) (once visible : Bool) (ns : List Hy3Node)
    (shift_actor break_origin break_parent : Ptr) (hbo : Bool) (o : InsertOutcome)
    (h : findInsert d false once visible ns shift_actor break_origin break_parent hbo = some o) :
    ∃ r, o = .ret r := by
  unfold findInsert at h
  generalize ns.length + 1 = fuel at h
  simp only [Option.bind_eq_bind, Option.bind_eq_some, Bool.false_eq_true, if_false,
    Bool.false_and, Bool.or_false] at h
  obtain ⟨bp, _, g, _, front, _, h⟩ := h
  by_cases h1 : break_origin = front ∧ shiftIsForward d = false
  · rw [if_pos h1] at h
    cases h; exact ⟨_, rfl⟩
  · rw [if_neg h1] at h
    simp only [Option.bind_eq_some] at h
    obtain ⟨back, _, h⟩ := h
    by_cases h2 : break_origin = back ∧ shiftIsForward d = true
    · rw [if_pos h2] at h
      cases h; exact ⟨_, rfl⟩
    · rw [if_neg h2] at h
      simp only [Option.bind_eq_some] at h
      obtain ⟨iter, _, c, _, cn, _, h⟩ := h
      by_cases h3 : cn.data.isDirectTarget = true
      · rw [if_pos h3] at h
        simp only [Option.map_eq_some'] at h
        obtain ⟨r, _, rfl⟩ := h
        exact ⟨_, rfl⟩
      · rw [if_neg h3] at h
        exact breakInto_query d once visible fuel ns c o h

/-- C2: a call of `shiftOrGetFocus` with `shift = false` that returns leaves the shape of the
tree as it was: the same nodes, the same parent for every node, and the same layout and
children sequence for every group; this holds for every node, direction and value of `once`
and `visible`. -/
theorem shiftOrGetFocus_query_pure (O : NodeOps) (C : Compositor) (self : Nat)
    (ns : List Hy3Node) (node : Ptr) (d : ShiftDirection) (once visible : Bool)
    (r : List Hy3Node × Ptr)
    (h : shiftOrGetFocus O C self ns node d false once visible = some r) :
    treeShape r.1 = treeShape ns := by
  unfold shiftOrGetFocus at h
  simp only [Option.bind_eq_bind, Option.bind_eq_some] at h
  obtain ⟨bo, _, b, hb, h⟩ := h
  have hq := breakLoop_query C self d once visible _ _ ns _ _ _ b hb
  cases b with
  | ret ns1 x =>
    simp only at h
    cases h
    exact hq.1 _ _ rfl
  | go ns1 bo1 bp1 hbo1 =>
    simp only at h
    have := hq.2 _ _ _ _ rfl
    subst this
    simp only [Option.bind_eq_some] at h
    obtain ⟨i, hi, h⟩ := h
    obtain ⟨x, rfl⟩ := findInsert_query d once visible _ _ _ _ _ i hi
    simp only at h
    cases h
    rfl

/-- Witness for C2: in `root(SplitH)[A, B]` the query from B to the left returns A and the
shape of the tree is the same. -/
theorem shiftOrGetFocus_query_pure_witness :
    shiftOrGetFocus O0 C0 7 exTwo 3 .Left false false false = some (exTwo, 1)
      ∧ treeShape (exTwo, (1 : Ptr)).1 = treeShape exTwo :=
  ⟨rfl, shiftOrGetFocus_query_pure O0 C0 7 exTwo 3 .Left false false (exTwo, 1) rfl⟩

/-! ## Insert precondition -/

/-- C9: `insertNode` on a node whose parent is already set, or whose workspace is not valid,
returns with the whole state as it was: the node collection with every field of every node
(children sequences, parents, `reparenting`, `size_ratio`) and the autotile filter. -/
theorem insertNode_precondition (O : NodeOps) (C : Compositor) (L : Hy3Layout) (node : Ptr)
    (n : Hy3Node) (hn : getNode L.nodes node = some n)
    (h : n.parent ≠ 0 ∨ C.valid n.workspace = false) :
    insertNode O C L node = some L := by
  unfold insertNode
  simp only [hn, Option.bind_eq_bind, Option.some_bind]
  rcases h with h | h
  · rw [if_pos h]
  · by_cases hp : n.parent ≠ 0
    · rw [if_pos hp]
    · rw [if_neg hp, if_pos h]

/-- Witness for C9: in `root(SplitH)[A, B]`, inserting A again, whose parent is the root,
changes nothing. -/
theorem insertNode_precondition_witness :
    insertNode O0 C0 (layoutOver exTwo) 1 = some (layoutOver exTwo) :=
  insertNode_precondition O0 C0 (layoutOver exTwo) 1 (leaf 1 2 101) rfl (Or.inl (by decide))

/-! ## Window nodes are never duplicated -/

theorem windowsKept_refl (ns : List Hy3Node) : WindowsKept ns ns :=
  ⟨id, fun _ => Nat.le_refl _⟩

theorem windowsKept_trans {a b c : List Hy3Node} (h1 : WindowsKept a b) (h2 : WindowsKept b c) :
    WindowsKept a c :=
  ⟨fun h => h2.1 (h1.1 h), fun w => Nat.le_trans (h2.2 w) (h1.2 w)⟩

theorem windowsOf_map (ns : List Hy3Node) (f : Hy3Node → Hy3Node)
    (hf : ∀ n, (f n).data.as_window = n.data.as_window) :
    windowsOf (ns.map f) = windowsOf ns := by
  simp only [windowsOf, List.filterMap_map]
  congr 1
  funext n
  exact hf n

theorem addrs_map (ns : List Hy3Node) (f : Hy3Node → Hy3Node)
    (hf : ∀ n, (f n).addr = n.addr) : addrs (ns.map f) = addrs ns := by
  simp only [addrs, List.map_map]
  apply List.map_congr_left
  intro a _
  exact hf a

theorem windowsKept_of_map (ns : List Hy3Node) (f : Hy3Node → Hy3Node)
    (ha : ∀ n, (f n).addr = n.addr)
    (hf : ∀ n, (f n).data.as_window = n.data.as_window) :
    WindowsKept ns (ns.map f) := by
  refine ⟨fun h => ?_, fun w => ?_⟩
  · rw [addrs_map ns f ha]; exact h
  · rw [windowsOf_map ns f hf]

theorem windowsKept_modifyNode (ns : List Hy3Node) (p : Ptr) (f : Hy3Node → Hy3Node)
    (ha : ∀ n, (f n).addr = n.addr)
    (hf : ∀ n, (f n).data.as_window = n.data.as_window) :
    WindowsKept ns (modifyNode ns p f) := by
  unfold modifyNode
  apply windowsKept_of_map
  · intro n; split <;> simp [ha]
  · intro n; split <;> simp [hf]

theorem mapGroup_as_window (n : Hy3Node) (f : Hy3GroupData → Hy3GroupData) :
    (n.mapGroup f).data.as_window = n.data.as_window := by
  unfold Hy3Node.mapGroup
  split
  · next g h => rw [h]; rfl
  · rfl

theorem windowsKept_modifyGroup (ns : List Hy3Node) (p : Ptr)
    (f : Hy3GroupData → Hy3GroupData) : WindowsKept ns (modifyGroup ns p f) :=
  windowsKept_modifyNode ns p _ (fun n => mapGroup_addr n f) (fun n => mapGroup_as_window n f)

theorem windowsKept_recalc (O : NodeOps) (ns : List Hy3Node) (root : Ptr) :
    WindowsKept ns (recalcSizePosRecursive O ns root) := by
  unfold recalcSizePosRecursive
  exact windowsKept_of_map ns _ (fun _ => rfl) (fun _ => rfl)

theorem windowsKept_reparentChildren (ns : List Hy3Node) (p : Ptr) :
    WindowsKept ns (reparentChildren ns p) := by
  unfold reparentChildren
  split
  · apply windowsKept_of_map
    · intro n; split <;> rfl
    · intro n; split <;> rfl
  · exact windowsKept_refl ns

theorem windowsKept_markFocusedUp (fuel : Nat) (ns ns1 : List Hy3Node) (p : Ptr)
    (h : markFocusedUp fuel ns p = some ns1) : WindowsKept ns ns1 := by
  induction fuel generalizing ns p with
  | zero => simp [markFocusedUp] at h
  | succ k ih =>
    simp only [markFocusedUp, Option.bind_eq_bind, Option.bind_eq_some] at h
    obtain ⟨n, _, h⟩ := h
    split at h
    · cases h; exact windowsKept_refl _
    · exact windowsKept_trans (windowsKept_modifyGroup ns _ _) (ih _ _ h)

theorem windowsKept_markFocused (ns ns1 : List Hy3Node) (p : Ptr)
    (h : markFocused ns p = some ns1) : WindowsKept ns ns1 := by
  simp only [markFocused] at h
  exact windowsKept_trans (windowsKept_modifyGroup ns _ _) (windowsKept_markFocusedUp _ _ _ _ h)

theorem freshAddr_ne_zero (ns : List Hy3Node) : freshAddr ns ≠ 0 :=
  Nat.succ_ne_zero _

theorem windowsKept_append_group (ns : List Hy3Node) (x : Hy3Node) (g : Hy3GroupData)
    (hx : x.data = .group g) (ha : x.addr ≠ 0) : WindowsKept ns (ns ++ [x]) := by
  refine ⟨fun h => ?_, fun w => ?_⟩
  · simp only [addrs, List.map_append, List.map_cons, List.map_nil, List.mem_append,
      List.mem_singleton, not_or] at h ⊢
    exact ⟨h, fun e => ha e.symm⟩
  · simp [windowsOf, List.filterMap_append, hx, Hy3NodeData.as_window]

/-- Taking the payload away from the nodes at one address and counting it once again does not
raise the number of nodes of any window. -/
theorem count_without_addr (ns : List Hy3Node) (self : Ptr) (na : Hy3Node) (w : Nat)
    (hmem : na ∈ ns) (haddr : na.addr = self) :
    (ns.filterMap (fun n => if n.addr = self then none else n.data.as_window)).count w
        + (if na.data.as_window = some w then 1 else 0)
      ≤ (windowsOf ns).count w := by
  induction ns with
  | nil => cases hmem
  | cons a t ih =>
    have hle : ∀ l : List Hy3Node,
        (l.filterMap (fun n => if n.addr = self then none else n.data.as_window)).count w
          ≤ (windowsOf l).count w := by
      intro l
      induction l with
      | nil => simp [windowsOf]
      | cons b u ihu =>
        simp only [windowsOf, List.filterMap_cons] at ihu ⊢
        by_cases hb : b.addr = self
        · simp only [hb, if_true]
          cases hbw : b.data.as_window with
          | none => simpa using ihu
          | some v =>
            simp only [List.count_cons]
            omega
        · simp only [hb, if_false]
          cases hbw : b.data.as_window with
          | none => simpa using ihu
          | some v =>
            simp only [List.count_cons]
            omega
    rcases List.mem_cons.1 hmem with rfl | hm
    · simp only [windowsOf, List.filterMap_cons, haddr, if_true]
      have := hle t
      simp only [windowsOf] at this
      cases hw : na.data.as_window with
      | none => simpa using this
      | some v =>
        simp only [List.count_cons, Option.some.injEq]
        by_cases hv : v = w
        · simp [hv]; omega
        · simp [hv]; omega
    · have := ih hm
      simp only [windowsOf, List.filterMap_cons] at this ⊢
      by_cases hb : a.addr = self
      · simp only [hb, if_true]
        cases hbw : a.data.as_window with
        | none => simpa using this
        | some v =>
          simp only [List.count_cons]
          omega
      · simp only [hb, if_false]
        cases hbw : a.data.as_window with
        | none => simpa using this
        | some v =>
          simp only [List.count_cons]
          omega

theorem count_filterMap_weaken (ns : List Hy3Node) (f : Hy3Node → Hy3Node)
    (hf : ∀ n, (f n).data.as_window = n.data.as_window ∨ (f n).data.as_window = none)
    (w : Nat) : (windowsOf (ns.map f)).count w ≤ (windowsOf ns).count w := by
  induction ns with
  | nil => simp [windowsOf]
  | cons a t ih =>
    simp only [windowsOf, List.map_cons, List.filterMap_cons] at ih ⊢
    rcases hf a with h | h
    · rw [h]
      cases a.data.as_window with
      | none => simpa using ih
      | some v => simp only [List.count_cons]; omega
    · rw [h]
      cases a.data.as_window with
      | none => simpa using ih
      | some v => simp only [List.count_cons]; omega

theorem windowsKept_modifyNode_weak (ns : List Hy3Node) (p : Ptr) (f : Hy3Node → Hy3Node)
    (ha : ∀ n, (f n).addr = n.addr)
    (hf : ∀ n, (f n).data.as_window = n.data.as_window ∨ (f n).data.as_window = none) :
    WindowsKept ns (modifyNode ns p f) := by
  unfold modifyNode
  refine ⟨fun h => ?_, fun w => ?_⟩
  · rw [addrs_map ns _ (by intro n; split <;> simp [ha])]; exact h
  · apply count_filterMap_weaken
    intro n
    split
    · exact hf n
    · exact Or.inl rfl

/-- The payload exchange with a fresh group node: the first two writes of `swapData`. -/
theorem windowsKept_swap_fresh (ns : List Hy3Node) (self : Ptr) (n x : Hy3Node)
    (g : Hy3GroupData) (hn : getNode ns self = some n)
    (hxa : x.addr = freshAddr ns) (hxg : x.data = .group g) :
    WindowsKept ns
      (modifyNode (modifyNode (ns ++ [x]) self (fun m => { m with data := x.data }))
        (freshAddr ns) (fun m => { m with data := n.data })) := by
  have hself : self ≠ freshAddr ns := by
    intro e
    have := getNode_freshAddr ns
    rw [← e, hn] at this
    cases this
  have hne : ∀ m ∈ ns, m.addr ≠ freshAddr ns := by
    intro m hm e
    have := lt_freshAddr hm
    rw [e] at this
    exact Nat.lt_irrefl _ this
  refine ⟨fun h => ?_, fun w => ?_⟩
  · have hset : ∀ (Y : List Hy3Node) (q : Ptr) (dd : Hy3NodeData),
        addrs (modifyNode Y q (fun m => { m with data := dd })) = addrs Y :=
      fun Y q dd => addrs_modifyNode Y q _ (fun _ => rfl)
    rw [hset, hset]
    simp only [addrs, List.map_append, List.map_cons, List.map_nil, List.mem_append,
      List.mem_singleton, not_or] at h ⊢
    exact ⟨h, fun e => freshAddr_ne_zero ns (hxa ▸ e.symm)⟩
  · have key : windowsOf
        (modifyNode (modifyNode (ns ++ [x]) self (fun m => { m with data := x.data }))
          (freshAddr ns) (fun m => { m with data := n.data }))
        = ns.filterMap (fun m => if m.addr = self then none else m.data.as_window)
            ++ (match n.data.as_window with
                | some v => [v]
                | none => []) := by
      simp only [windowsOf, modifyNode, List.map_append, List.map_map, List.filterMap_append,
        List.filterMap_map, List.map_cons, List.map_nil, List.filterMap_cons,
        List.filterMap_nil]
      congr 1
      · apply List.filterMap_congr
        intro m hm
        simp only [Function.comp]
        by_cases hs : m.addr = self
        · simp [hs, hself, hxg, Hy3NodeData.as_window]
        · simp [hs, hne m hm]
      · have h1 : ¬ freshAddr ns = self := fun e => hself e.symm
        simp only [hxa, h1, if_false, if_true]
        cases n.data.as_window <;> rfl
    rw [key, List.count_append]
    have := count_without_addr ns self n w (getNode_mem hn) (getNode_addr hn)
    cases hw : n.data.as_window with
    | none =>
      rw [hw] at this
      simp only [List.count_nil]
      simpa using this
    | some v =>
      rw [hw] at this
      simp only [Option.some.injEq] at this
      by_cases hv : v = w
      · simp only [hv, if_true, List.count_singleton_self] at this ⊢
        exact this
      · have hc : List.count w [v] = 0 := by
          simp [List.count_cons, hv]
        simp only [hv, if_false] at this
        rw [hc]
        exact this

theorem windowsKept_swapData_fresh (ns ns2 : List Hy3Node) (self : Ptr) (x : Hy3Node)
    (g : Hy3GroupData) (n : Hy3Node) (hn : getNode ns self = some n)
    (hxa : x.addr = freshAddr ns) (hxg : x.data = .group g)
    (h : swapData (ns ++ [x]) self (freshAddr ns) = some ns2) :
    WindowsKept ns ns2 := by
  have h1 : getNode (ns ++ [x]) self = some n := by
    rw [getNode_append, hn]
  have h2 : getNode (ns ++ [x]) (freshAddr ns) = some x := by
    rw [getNode_append, getNode_freshAddr]
    simp [hxa]
  simp only [swapData, h1, h2, Option.bind_eq_bind, Option.some_bind, Option.some.injEq] at h
  subst h
  exact windowsKept_trans (windowsKept_swap_fresh ns self n x g hn hxa hxg)
    (windowsKept_trans (windowsKept_reparentChildren _ _) (windowsKept_reparentChildren _ _))

theorem windowsKept_intoGroup (O : NodeOps) (ns : List Hy3Node) (self : Ptr)
    (l : Hy3GroupLayout) (e : GroupEphemeralityOption) (r : List Hy3Node × Ptr)
    (h : intoGroup O ns self l e = some r) : WindowsKept ns r.1 := by
  unfold intoGroup at h
  simp only [Option.bind_eq_bind, Option.bind_eq_some] at h
  obtain ⟨n, hn, ns2, h2, h⟩ := h
  simp only [Option.some.injEq] at h
  subst h
  have k := windowsKept_swapData_fresh ns ns2 self _ _ n hn rfl rfl h2
  have k2 : ∀ (Y : List Hy3Node) (q : Ptr) (gg : Hy3GroupData),
      WindowsKept Y (modifyNode Y q (fun m => { m with data := .group gg })) :=
    fun Y q gg => windowsKept_modifyNode_weak Y q _ (fun _ => rfl) (fun _ => Or.inr rfl)
  exact windowsKept_trans k (windowsKept_trans (k2 ns2 self _) (windowsKept_recalc O _ _))

theorem windowsKept_insertNodeAnchor (O : NodeOps) (C : Compositor) (ns : List Hy3Node)
    (node : Ptr) (r : List Hy3Node × Ptr) (h : insertNodeAnchor O C ns node = some r) :
    WindowsKept ns r.1 := by
  unfold insertNodeAnchor at h
  generalize ns.length + 1 = fuel at h
  simp only [Option.bind_eq_bind, Option.bind_eq_some] at h
  obtain ⟨n, _, r1, h1, oa2, _, oa3, _, h⟩ := h
  simp only [Option.some.injEq] at h
  subst h
  show WindowsKept ns r1.1
  by_cases hr : getWorkspaceRootGroup ns n.workspace ≠ 0
  · rw [if_pos hr] at h1
    simp only [Option.bind_eq_some] at h1
    obtain ⟨f, _, h1⟩ := h1
    generalize (if f ≠ 0 then O.getPlacementActor ns f else f) = oa at h1
    by_cases ho : oa = getWorkspaceRootGroup ns n.workspace
    · rw [if_pos ho] at h1
      exact windowsKept_intoGroup O ns _ _ _ r1 h1
    · rw [if_neg ho] at h1
      cases h1; exact windowsKept_refl _
  · rw [if_neg hr] at h1
    cases h1; exact windowsKept_refl _

theorem windowsKept_insertNodeTarget (C : Compositor) (self : Nat) (ns : List Hy3Node)
    (node opening_after : Ptr) (r : List Hy3Node × Ptr)
    (h : insertNodeTarget C self ns node opening_after = some r) : WindowsKept ns r.1 := by
  unfold insertNodeTarget at h
  by_cases ha : opening_after ≠ 0
  · rw [if_pos ha] at h
    simp only [Option.bind_eq_bind, Option.bind_eq_some] at h
    obtain ⟨a, _, h⟩ := h
    cases h; exact windowsKept_refl _
  · rw [if_neg ha] at h
    simp only [Option.bind_eq_bind, Option.bind_eq_some] at h
    obtain ⟨n, _, h⟩ := h
    by_cases hr : getWorkspaceRootGroup ns n.workspace ≠ 0
    · rw [if_pos hr] at h
      cases h; exact windowsKept_refl _
    · rw [if_neg hr] at h
      by_cases ht : C.config.tab_first_window ≠ 0
      · rw [if_pos ht] at h
        cases h
        refine windowsKept_trans (windowsKept_append_group ns _ _ rfl (freshAddr_ne_zero ns))
          (windowsKept_trans (windowsKept_append_group _ _ _ rfl (freshAddr_ne_zero _))
            (windowsKept_modifyGroup _ _ _))
      · rw [if_neg ht] at h
        cases h
        exact windowsKept_append_group ns _ _ rfl (freshAddr_ne_zero ns)

theorem windowsKept_insertNodeAutotile (O : NodeOps) (C : Compositor) (atl : Autotile)
    (ns : List Hy3Node) (opening_into opening_after : Ptr) (r : List Hy3Node × Ptr × Ptr)
    (h : insertNodeAutotile O C atl ns opening_into opening_after = some r) :
    WindowsKept ns r.1 := by
  unfold insertNodeAutotile at h
  simp only [Option.bind_eq_bind, Option.bind_eq_some] at h
  obtain ⟨oi, _, g, _, h⟩ := h
  by_cases hc : (autotileApplies C atl oi g opening_after && autotileSplits C oi g) = true
  · rw [if_pos hc] at h
    simp only [Option.bind_eq_some] at h
    obtain ⟨r1, h1, h⟩ := h
    cases h
    exact windowsKept_intoGroup O ns _ _ _ r1 h1
  · rw [if_neg hc] at h
    cases h; exact windowsKept_refl _

theorem windowsKept_insertNodeSplice (O : NodeOps) (ns : List Hy3Node)
    (node opening_into opening_after : Ptr) (r : List Hy3Node)
    (h : insertNodeSplice O ns node opening_into opening_after = some r) :
    WindowsKept ns r := by
  unfold insertNodeSplice at h
  simp only [Option.bind_eq_bind, Option.bind_eq_some] at h
  obtain ⟨oi, _, g, _, ch, _, ns3, h3, h⟩ := h
  cases h
  have k1 : ∀ (Y : List Hy3Node) (q v : Ptr),
      WindowsKept Y (modifyNode Y q (fun m => { m with parent := v, reparenting := false })) :=
    fun Y q v => windowsKept_modifyNode Y q _ (fun _ => rfl) (fun _ => rfl)
  exact windowsKept_trans (k1 ns node opening_into)
    (windowsKept_trans (windowsKept_modifyGroup _ _ _)
      (windowsKept_trans (windowsKept_markFocused _ _ _ h3) (windowsKept_recalc O _ _)))

theorem windowsKept_insertNode (O : NodeOps) (C : Compositor) (L L1 : Hy3Layout) (node : Ptr)
    (h : insertNode O C L node = some L1) : WindowsKept L.nodes L1.nodes := by
  unfold insertNode at h
  simp only [Option.bind_eq_bind, Option.bind_eq_some] at h
  obtain ⟨n, _, h⟩ := h
  by_cases hp : n.parent ≠ 0
  · rw [if_pos hp] at h
    cases h; exact windowsKept_refl _
  · rw [if_neg hp] at h
    by_cases hv : C.valid n.workspace = false
    · rw [if_pos hv] at h
      cases h; exact windowsKept_refl _
    · rw [if_neg hv] at h
      simp only [Option.bind_eq_some] at h
      obtain ⟨r1, h1, r2, h2, oi, _, h⟩ := h
      have k0 : ∀ (Y : List Hy3Node) (q : Ptr),
          WindowsKept Y (modifyNode Y q (fun m => { m with reparenting := true, size_ratio := 1 }))
          := fun Y q => windowsKept_modifyNode Y q _ (fun _ => rfl) (fun _ => rfl)
      have k12 := windowsKept_trans (k0 L.nodes node)
        (windowsKept_trans (windowsKept_insertNodeAnchor O C _ _ r1 h1)
          (windowsKept_insertNodeTarget C _ _ _ _ r2 h2))
      by_cases hw : oi.data.is_window = true
      · rw [if_pos hw] at h
        cases h; exact k12
      · rw [if_neg hw] at h
        simp only [Option.bind_eq_some] at h
        obtain ⟨ns4, h4, h⟩ := h
        cases h
        unfold insertNodePlace at h4
        simp only [Option.bind_eq_bind, Option.bind_eq_some] at h4
        obtain ⟨r3, h3, h4⟩ := h4
        exact windowsKept_trans k12
          (windowsKept_trans (windowsKept_insertNodeAutotile O C _ _ _ _ r3 h3)
            (windowsKept_insertNodeSplice O _ _ _ _ ns4 h4))

/-- A window without a node in a collection free of null addresses is wrapped by no node. -/
theorem count_eq_zero_of_getNodeFromWindow (ns : List Hy3Node) (w : Nat)
    (h0 : (0 : Ptr) ∉ addrs ns) (h : getNodeFromWindow ns w = 0) :
    (windowsOf ns).count w = 0 := by
  unfold getNodeFromWindow at h
  cases hf : ns.find? (fun n => n.data.is_window && n.data.as_window == some w) with
  | some n =>
    rw [hf] at h
    simp only at h
    exact absurd (h ▸ List.mem_map_of_mem (fun n => n.addr) (List.mem_of_find?_eq_some hf)) h0
  | none =>
    rw [List.count_eq_zero]
    intro hmem
    simp only [windowsOf, List.mem_filterMap] at hmem
    obtain ⟨n, hn, hw⟩ := hmem
    have := List.find?_eq_none.1 hf n hn
    apply this
    cases hd : n.data with
    | window v => rw [hd] at hw; simp [Hy3NodeData.as_window] at hw; simp [Hy3NodeData.is_window, Hy3NodeData.as_window, hw]
    | group g => rw [hd] at hw; cases hw

/-- The invariant of the node collection that `onWindowCreatedTiling` keeps: no node has the
null address and no window is wrapped by two nodes. -/
theorem onWindowCreatedTiling_keeps (O : NodeOps) (C : Compositor) (L L1 : Hy3Layout)
    (window : CWindow) (h : onWindowCreatedTiling O C L window = some L1)
    (h0 : (0 : Ptr) ∉ addrs L.nodes) (hnd : (windowsOf L.nodes).Nodup) :
    (0 : Ptr) ∉ addrs L1.nodes ∧ (windowsOf L1.nodes).Nodup := by
  unfold onWindowCreatedTiling at h
  split at h
  · cases h; exact ⟨h0, hnd⟩
  · split at h
    · cases h; exact ⟨h0, hnd⟩
    · split at h
      · cases h; exact ⟨h0, hnd⟩
      · next _ _ hnone =>
        have hz : getNodeFromWindow L.nodes window.handle = 0 := by
          by_contra hc; exact hnone hc
        have k := windowsKept_insertNode O C _ L1 _ h
        simp only at k
        have h0' : (0 : Ptr) ∉ addrs (L.nodes ++
            [Hy3Node.init (freshAddr L.nodes) (.window window.handle) window.m_workspace L.self])
            := by
          simp only [addrs, List.map_append, List.map_cons, List.map_nil, List.mem_append,
            List.mem_singleton, not_or] at h0 ⊢
          exact ⟨h0, fun e => freshAddr_ne_zero L.nodes e.symm⟩
        refine ⟨k.1 h0', ?_⟩
        rw [List.nodup_iff_count_le_one]
        intro w
        refine Nat.le_trans (k.2 w) ?_
        have hw : windowsOf (L.nodes ++
            [Hy3Node.init (freshAddr L.nodes) (.window window.handle) window.m_workspace L.self])
            = windowsOf L.nodes ++ [window.handle] := by
          simp [windowsOf, List.filterMap_append, Hy3Node.init, Hy3NodeData.as_window]
        rw [hw, List.count_append]
        by_cases e : window.handle = w
        · subst e
          rw [count_eq_zero_of_getNodeFromWindow L.nodes _ h0 hz]
          simp
        · have : List.count w [window.handle] = 0 := by simp [List.count_cons, e]
          rw [this]
          exact List.nodup_iff_count_le_one.1 hnd w

theorem runCreated_keeps (O : NodeOps) (calls : List (Compositor × CWindow)) :
    ∀ (L L1 : Hy3Layout), runCreated O L calls = some L1 →
      (0 : Ptr) ∉ addrs L.nodes → (windowsOf L.nodes).Nodup →
      (0 : Ptr) ∉ addrs L1.nodes ∧ (windowsOf L1.nodes).Nodup := by
  induction calls with
  | nil =>
    intro L L1 h h0 hnd
    simp only [runCreated, Option.some.injEq] at h
    subst h
    exact ⟨h0, hnd⟩
  | cons c cs ih =>
    intro L L1 h h0 hnd
    simp only [runCreated, Option.bind_eq_some] at h
    obtain ⟨L2, h2, h⟩ := h
    obtain ⟨h0', hnd'⟩ := onWindowCreatedTiling_keeps O c.1 L L2 c.2 h2 h0 hnd
    exact ih L2 L1 h h0' hnd'

/-! ## Already tiled windows -/

/-- C10: `onWindowCreatedTiling` with a floating window, or with a window that already has a
node in the collection, returns with the whole state as it was (no node added, no node
changed); and a sequence of `onWindowCreatedTiling` calls, started on a collection in which
no window has two nodes (the empty collection in particular), ends with a collection in which
no window has two nodes. -/
theorem onWindowCreatedTiling_already_tiled (O : NodeOps) :
    (∀ (C : Compositor) (L : Hy3Layout) (window : CWindow),
        (window.m_isFloating = true ∨ getNodeFromWindow L.nodes window.handle ≠ 0) →
        onWindowCreatedTiling O C L window = some L)
    ∧ (∀ (L0 L1 : Hy3Layout) (calls : List (Compositor × CWindow)),
        (0 : Ptr) ∉ addrs L0.nodes → (windowsOf L0.nodes).Nodup →
        runCreated O L0 calls = some L1 → (windowsOf L1.nodes).Nodup) := by
  constructor
  · intro C L window h
    unfold onWindowCreatedTiling
    by_cases h1 : window.handle = 0
    · rw [if_pos h1]
    · rw [if_neg h1]
      by_cases h2 : window.m_isFloating = true
      · rw [if_pos h2]
      · rw [if_neg h2]
        rcases h with h | h
        · exact absurd h h2
        · rw [if_pos h]
  · intro L0 L1 calls h0 hnd h
    exact (runCreated_keeps O calls L0 L1 h h0 hnd).2

/-- Witness for C10: in `root(SplitH)[A, B]` a second call for window A changes nothing, and
the calls for A, B, A on the empty collection leave one node for A and one for B. -/
theorem onWindowCreatedTiling_already_tiled_witness :
    onWindowCreatedTiling O0 C0 (layoutOver exTwo) (tiledWindow 101) = some (layoutOver exTwo)
    ∧ (∃ L1, runCreated O0 (layoutOver [])
          [(C0, tiledWindow 101), (C0, tiledWindow 102), (C0, tiledWindow 101)] = some L1
        ∧ windowsOf L1.nodes = [101, 102] ∧ (windowsOf L1.nodes).Nodup) :=
  ⟨(onWindowCreatedTiling_already_tiled O0).1 C0 (layoutOver exTwo) (tiledWindow 101)
      (Or.inr (by decide)),
    ⟨_, rfl, rfl,
      (onWindowCreatedTiling_already_tiled O0).2 (layoutOver []) _
        [(C0, tiledWindow 101), (C0, tiledWindow 102), (C0, tiledWindow 101)]
        (by decide) (by decide) rfl⟩⟩

/-! ## Collapse policy -/

/-- The condition of the code, spelled out: the value of `collapseCondition` on a group whose
children are live nodes pointing back to it. -/
theorem collapseCondition_eq (C : Compositor) (ns : List Hy3Node) (parent : Ptr) (P : Hy3Node)
    (g : Hy3GroupData) (hP : getNode ns parent = some P) (hPg : P.data = .group g)
    (hwf : ∀ c ∈ g.children, parentAt ns c = some parent) :
    collapseCondition C ns parent
      = some (decide (g.children.length = 1)
          && (g.ephemeral
              || (isGroupAt ns (g.children.headD 0)
                  && (decide (C.config.node_collapse_policy = 0)
                      || (decide (C.config.node_collapse_policy ≠ 1)
                          && g.layout != .Tabbed))))) := by
  unfold collapseCondition
  simp only [hP, hPg, Hy3NodeData.as_group, Option.bind_eq_bind, Option.some_bind]
  by_cases hl : g.children.length = 1
  · rw [if_pos hl]
    obtain ⟨c, hc⟩ := List.length_eq_one.1 hl
    cases he : g.ephemeral
    · have hpc := hwf c (by rw [hc]; simp)
      simp only [parentAt, Option.map_eq_some'] at hpc
      obtain ⟨n, hn, hnp⟩ := hpc
      simp only [hc, List.head?_cons, Option.some_bind, List.headD_cons, Bool.false_eq_true,
        if_false, List.length_singleton, decide_True, Bool.true_and, Bool.false_or]
      unfold node_is_collapsible isGroupAt
      simp only [hn, Option.bind_eq_bind, Option.some_bind, hnp, hP, hPg, Hy3NodeData.as_group]
      cases hd : n.data with
      | window w => simp [Hy3NodeData.is_window, Hy3NodeData.is_group]
      | group gg =>
        simp only [Hy3NodeData.is_window, Hy3NodeData.is_group, Bool.false_eq_true, if_false,
          Bool.true_and]
        by_cases h0 : C.config.node_collapse_policy = 0
        · simp [h0]
        · by_cases h1 : C.config.node_collapse_policy = 1
          · simp [h0, h1]
          · simp [h0, h1]
    · simp [hl]
  · rw [if_neg hl]
    simp [hl]

/-- C7 (amended): in `onWindowRemovedTiling`, once the node is detached, the swallow pass is
run on the former parent group if and only if that group has exactly one child and either the
group is ephemeral or the remaining child is a group and `node_collapse_policy` lets it
collapse: 0 always, 1 never, any other value exactly when the layout of the parent group is
not `Tabbed`.  A remaining window leaf is never collapsible.  Otherwise the result is the
tree as it is after the detachment. -/
theorem onWindowRemovedTiling_collapse_iff (O : NodeOps) (C : Compositor)
    (ns : List Hy3Node) (window : Nat) (ns3 : List Hy3Node) (parent : Ptr) (P : Hy3Node)
    (g : Hy3GroupData)
    (hnode : getNodeFromWindow ns window ≠ 0)
    (hdet : detachWindowNode O ns (getNodeFromWindow ns window) = some (ns3, parent))
    (hp0 : parent ≠ 0)
    (hP : getNode ns3 parent = some P) (hPg : P.data = .group g)
    (hwf : ∀ c ∈ g.children, parentAt ns3 c = some parent) :
    ((g.children.length = 1
        ∧ (g.ephemeral = true
            ∨ (isGroupAt ns3 (g.children.headD 0) = true
                ∧ (C.config.node_collapse_policy = 0
                    ∨ (C.config.node_collapse_policy ≠ 1 ∧ g.layout ≠ .Tabbed))))) →
        onWindowRemovedTiling O C ns window = swallowPass O ns3 parent)
    ∧ (¬ (g.children.length = 1
        ∧ (g.ephemeral = true
            ∨ (isGroupAt ns3 (g.children.headD 0) = true
                ∧ (C.config.node_collapse_policy = 0
                    ∨ (C.config.node_collapse_policy ≠ 1 ∧ g.layout ≠ .Tabbed))))) →
        onWindowRemovedTiling O C ns window = some ns3) := by
  have hc := collapseCondition_eq C ns3 parent P g hP hPg hwf
  constructor
  · intro h
    have : collapseCondition C ns3 parent = some true := by
      rw [hc]; congr 1
      simp only [Bool.and_eq_true, Bool.or_eq_true, decide_eq_true_eq, bne_iff_ne, ne_eq]
      exact h
    unfold onWindowRemovedTiling
    simp only [hnode, if_false, hdet, Option.bind_eq_bind, Option.some_bind, ne_eq, hp0,
      not_false_eq_true, if_true, this]
  · intro h
    have : collapseCondition C ns3 parent = some false := by
      rw [hc]; congr 1
      rw [Bool.eq_false_iff]
      intro ht
      apply h
      simp only [Bool.and_eq_true, Bool.or_eq_true, decide_eq_true_eq, bne_iff_ne, ne_eq] at ht
      exact ht
    unfold onWindowRemovedTiling
    simp only [hnode, if_false, hdet, Option.bind_eq_bind, Option.some_bind, ne_eq, hp0,
      not_false_eq_true, if_true, this, Bool.false_eq_true]

/-- Witness for C7 (amended): in `root[G[A, B], C]` with policy 0, removing A leaves G with
the single window B; G is not ephemeral and B is not a group, so no swallow pass is run. -/
theorem onWindowRemovedTiling_collapse_iff_witness :
    onWindowRemovedTiling O0 C0 exNested 101
      = some [grp 2 0 .SplitH [4, 5] 4, leaf 3 4 102, grp 4 2 .SplitH [3] 3, leaf 5 2 103] :=
  (onWindowRemovedTiling_collapse_iff O0 C0 exNested 101
    [grp 2 0 .SplitH [4, 5] 4, leaf 3 4 102, grp 4 2 .SplitH [3] 3, leaf 5 2 103] 4
    (grp 4 2 .SplitH [3] 3) _ (by decide) rfl (by decide) rfl rfl (by decide)).2 (by decide)

/-- C7 (counterexample): in `root[G[A, B], C]` with `node_collapse_policy` 0
(`AlwaysCollapse`), removing A leaves the non-ephemeral group G with exactly one child, the
window B.  The condition of the claim holds for G, yet `onWindowRemovedTiling` returns the
tree as it is after the detachment, G still holding B, while a swallow pass on G would have
removed a node. -/
theorem collapse_policy_counterexample :
    ∃ ns3 P g ns4,
      detachWindowNode O0 exNested (getNodeFromWindow exNested 101) = some (ns3, 4)
      ∧ getNode ns3 4 = some P ∧ P.data = .group g
      ∧ specCollapseCondition C0.config.node_collapse_policy g = true
      ∧ onWindowRemovedTiling O0 C0 exNested 101 = some ns3
      ∧ childrenAt ns3 4 = some [3] ∧ isGroupAt ns3 4 = true ∧ isGroupAt ns3 3 = false
      ∧ swallowPass O0 ns3 4 = some ns4 ∧ addrs ns4 ≠ addrs ns3 :=
  ⟨_, _, _, _, rfl, rfl, rfl, rfl, rfl, rfl, rfl, rfl, rfl, by decide⟩

/-! ## Removal from a root with two leaves -/

/-- Removal of the last of two children: the node leaves the children sequence of its parent,
its own parent is cleared, and the parent is returned. -/
theorem removeFromParentRecursive_second (ns : List Hy3Node) (a b r : Ptr) (A R : Hy3Node)
    (g : Hy3GroupData)
    (hA : getNode ns a = some A) (hAp : A.parent = r) (hr0 : r ≠ 0)
    (hR : getNode ns r = some R) (hRg : R.data = .group g)
    (hch : g.children = [b, a]) (hba : b ≠ a) :
    removeFromParentRecursive ns a
      = some (modifyNode (modifyGroup ns r (fun g0 =>
            { g0 with children := [b]
                      focused_child := if g0.focused_child = a then b else g0.focused_child }))
          a (fun n => { n with parent := 0 }), r) := by
  have hrest : g.children.filter (fun x => x != a) = [b] := by
    rw [hch]; simp [List.filter_cons, hba]
  unfold removeFromParentRecursive
  simp only [removeFromParentLoop, hA, hAp, hr0, hR, hRg, Hy3NodeData.as_group,
    Option.bind_eq_bind, Option.some_bind, if_false, hrest, if_true, List.isEmpty_cons,
    Bool.false_eq_true, List.headD_cons]

/-- C8 (amended): for a root group that is not ephemeral and holds exactly the two window
leaves `[B, A]`, removing A succeeds under every collapse policy and leaves the root as a
group, with its layout, whose only child is B; B is still a window leaf with the root as its
parent, and the node of A is gone.  No swallow is attempted, because the remaining child is a
window leaf. -/
theorem remove_second_of_two_leaves (O : NodeOps) (C : Compositor) (ns : List Hy3Node)
    (a b r : Ptr) (A B R : Hy3Node) (g : Hy3GroupData) (wa wb : Nat)
    (hfind : getNodeFromWindow ns wa = a) (ha0 : a ≠ 0)
    (hA : getNode ns a = some A) (hAp : A.parent = r) (hr0 : r ≠ 0)
    (hB : getNode ns b = some B) (hBp : B.parent = r) (hBw : B.data = .window wb)
    (hR : getNode ns r = some R) (hRg : R.data = .group g)
    (hch : g.children = [b, a]) (heph : g.ephemeral = false)
    (hba : b ≠ a) (hra : r ≠ a) :
    ∃ ns1, onWindowRemovedTiling O C ns wa = some ns1
      ∧ childrenAt ns1 r = some [b]
      ∧ layoutAt ns1 r = some g.layout
      ∧ parentAt ns1 b = some r
      ∧ isGroupAt ns1 b = false
      ∧ getNode ns1 a = none := by
  have hrem := removeFromParentRecursive_second ns a b r A R g hA hAp hr0 hR hRg hch hba
  have hbr : b ≠ r := by
    intro e
    rw [e, hR] at hB
    cases hB
    rw [hRg] at hBw
    cases hBw
  -- the tree after the detachment, before the recalculations
  generalize hX : modifyNode (modifyGroup ns r (fun g0 =>
      { g0 with children := [b]
                focused_child := if g0.focused_child = a then b else g0.focused_child }))
      a (fun n => { n with parent := 0 }) = X at hrem
  have hXr : ∃ R1 g1, getNode (eraseNode X a) r = some R1 ∧ R1.data = .group g1
      ∧ g1.children = [b] ∧ g1.layout = g.layout ∧ g1.ephemeral = false := by
    rw [← hX, getNode_eraseNode, if_neg hra,
      getNode_modifyNode _ a r (fun n : Hy3Node => { n with parent := 0 }) (fun _ => rfl),
      if_neg hra, getNode_modifyGroup, if_pos rfl, hR]
    simp [Hy3Node.mapGroup, hRg, heph]
  have hXb : ∃ B1, getNode (eraseNode X a) b = some B1 ∧ B1.parent = r
      ∧ B1.data = .window wb := by
    rw [← hX, getNode_eraseNode, if_neg hba,
      getNode_modifyNode _ a b (fun n : Hy3Node => { n with parent := 0 }) (fun _ => rfl),
      if_neg hba, getNode_modifyGroup, if_neg hbr, hB]
    exact ⟨_, rfl, hBp, hBw⟩
  have hXa : getNode (eraseNode X a) a = none := by
    rw [getNode_eraseNode, if_pos rfl]
  -- the recalculations keep all of this
  generalize hY : (if O.removalExpandActor ns a ≠ 0 then
      recalcSizePosRecursive O (eraseNode X a) (O.removalExpandActor ns a)
    else eraseNode X a) = Y
  have hYX : ∀ q, (getNode Y q).map (fun n => (n.parent, n.data))
      = (getNode (eraseNode X a) q).map (fun n => (n.parent, n.data)) := by
    intro q
    rw [← hY]
    split
    · rw [getNode_recalc]; cases getNode (eraseNode X a) q <;> rfl
    · rfl
  have hZ : ∀ q, (getNode (recalcSizePosRecursive O Y r) q).map (fun n => (n.parent, n.data))
      = (getNode (eraseNode X a) q).map (fun n => (n.parent, n.data)) := by
    intro q
    rw [getNode_recalc, ← hYX q]
    cases getNode Y q <;> rfl
  generalize hns3 : recalcSizePosRecursive O Y r = ns3 at hZ
  have hdet : detachWindowNode O ns a = some (ns3, r) := by
    unfold detachWindowNode
    simp only [hrem, Option.bind_eq_bind, Option.some_bind, hY, ne_eq, hr0, not_false_eq_true,
      if_true, hns3]
  obtain ⟨R1, g1, hR1, hR1g, hg1c, hg1l, hg1e⟩ := hXr
  obtain ⟨B1, hB1, hB1p, hB1w⟩ := hXb
  obtain ⟨R3, hR3, hR3p, hR3d⟩ : ∃ R3, getNode ns3 r = some R3 ∧ R3.parent = R1.parent
      ∧ R3.data = R1.data := by
    have := hZ r
    rw [hR1] at this
    cases h : getNode ns3 r with
    | none => rw [h] at this; cases this
    | some R3 =>
      rw [h] at this
      simp only [Option.map_some', Option.some.injEq, Prod.mk.injEq] at this
      exact ⟨R3, rfl, this.1, this.2⟩
  obtain ⟨B3, hB3, hB3p, hB3d⟩ : ∃ B3, getNode ns3 b = some B3 ∧ B3.parent = B1.parent
      ∧ B3.data = B1.data := by
    have := hZ b
    rw [hB1] at this
    cases h : getNode ns3 b with
    | none => rw [h] at this; cases this
    | some B3 =>
      rw [h] at this
      simp only [Option.map_some', Option.some.injEq, Prod.mk.injEq] at this
      exact ⟨B3, rfl, this.1, this.2⟩
  have ha3 : getNode ns3 a = none := by
    have := hZ a
    rw [hXa] at this
    cases h : getNode ns3 a with
    | none => rfl
    | some x => rw [h] at this; cases this
  have hcond : collapseCondition C ns3 r = some false := by
    unfold collapseCondition node_is_collapsible
    simp only [hR3, hR3d, hR1g, Hy3NodeData.as_group, Option.bind_eq_bind, Option.some_bind,
      hg1c, List.length_singleton, if_true, hg1e, Bool.false_eq_true, if_false,
      List.head?_cons, hB3, hB3d, hB1w, Hy3NodeData.is_window]
  refine ⟨ns3, ?_, ?_, ?_, ?_, ?_, ha3⟩
  · unfold onWindowRemovedTiling
    simp only [hfind, ha0, if_false, hdet, Option.bind_eq_bind, Option.some_bind, ne_eq, hr0,
      not_false_eq_true, if_true, hcond, Bool.false_eq_true]
  · simp [childrenAt, hR3, hR3d, hR1g, Hy3NodeData.children, hg1c]
  · simp [layoutAt, hR3, hR3d, hR1g, Hy3NodeData.as_group, hg1l]
  · simp [parentAt, hB3, hB3p, hB1p]
  · simp [isGroupAt, hB3, hB3d, hB1w, Hy3NodeData.is_group]

/-- Witness for C8 (amended): in `root(SplitH)[B, A]`, removing A leaves `root(SplitH)[B]`. -/
theorem remove_second_of_two_leaves_witness :
    ∃ ns1, onWindowRemovedTiling O0 C0 exBA 101 = some ns1
      ∧ childrenAt ns1 2 = some [3]
      ∧ layoutAt ns1 2 = some .SplitH
      ∧ parentAt ns1 3 = some 2
      ∧ isGroupAt ns1 3 = false
      ∧ getNode ns1 1 = none :=
  remove_second_of_two_leaves O0 C0 exBA 1 3 2 (leaf 1 2 101) (leaf 3 2 102)
    (grp 2 0 .SplitH [3, 1] 1) _ 101 102 rfl (by decide) rfl rfl (by decide) rfl rfl rfl rfl rfl
    rfl rfl (by decide) (by decide)

/-- C8 (counterexample): in `root(SplitH)[B, A]` with `node_collapse_policy` 0
(`AlwaysCollapse`), removing A does not dissolve the root: afterwards the root is still a
group, B is its only child and has the root as its parent, so B is not a parentless root
leaf. -/
theorem remove_root_leaf_counterexample :
    ∃ ns1, onWindowRemovedTiling O0 C0 exBA 101 = some ns1
      ∧ C0.config.node_collapse_policy = 0
      ∧ isGroupAt ns1 2 = true
      ∧ childrenAt ns1 2 = some [3]
      ∧ parentAt ns1 3 = some 2
      ∧ parentAt ns1 3 ≠ some 0 :=
  ⟨_, rfl, rfl, rfl, rfl, rfl, by decide⟩

/-! ## Root axis flip -/

/-- At a root group that is not `Tabbed`, is not oriented along the direction and has exactly
two children, one of them the shifted node, the first loop flips the layout of the root. -/
theorem breakLoop_flip (C : Compositor) (self : Nat) (d : ShiftDirection)
    (once visible : Bool) (ns : List Hy3Node) (n bo r : Ptr) (R : Hy3Node) (g : Hy3GroupData)
    (hbo : Bool) (fuel : Nat)
    (hr0 : r ≠ 0) (hR : getNode ns r = some R) (hRp : R.parent = 0)
    (hRg : R.data = .group g)
    (hm : shiftMatchesLayout g.layout d = false) (ht : g.layout ≠ .Tabbed)
    (hlen : g.children.length = 2) (hmem : n ∈ g.children) :
    breakLoop C self d true once visible n (fuel + 1) ns bo r hbo
      = some (.go (modifyGroup ns r (fun g0 => g0.setLayout (axisLayout d))) bo r hbo) := by
  simp [breakLoop, hr0, hR, hRg, Hy3NodeData.as_group, hm, hRp, ht, hlen, hmem]

/-- The insertion point for a node that is already at the edge of its parent in the direction
of travel is that edge. -/
theorem findInsert_edge (d : ShiftDirection) (once visible : Bool) (ns : List Hy3Node)
    (sa n r : Ptr) (R : Hy3Node) (g : Hy3GroupData) (hbo : Bool) (f b : Ptr)
    (hR : getNode ns r = some R) (hRg : R.data = .group g)
    (hfr : g.children.head? = some f) (hb : g.children.getLast? = some b)
    (hedge : if shiftIsForward d then n = b ∧ n ≠ f else n = f) :
    findInsert d true once visible ns sa n r hbo
      = some (.place r (if shiftIsForward d then g.children.length else 0)) := by
  unfold findInsert
  cases hf : shiftIsForward d
  · simp only [hf, Bool.false_eq_true, if_false] at hedge
    simp only [hR, hRg, Hy3NodeData.as_group, Option.bind_eq_bind, Option.some_bind, hfr, hedge,
      and_self, if_true, Bool.false_eq_true, if_false]
  · simp only [hf, if_true] at hedge
    simp only [hR, hRg, Hy3NodeData.as_group, Option.bind_eq_bind, Option.some_bind, hfr, hb,
      hedge.1, and_self, if_true, Bool.true_eq_false, and_false, if_false]

theorem reposition_front (n s : Ptr) (hn0 : n ≠ 0) (hs0 : s ≠ 0) :
    reposition [n, s] 0 n = [n, s] := by
  simp [reposition, findIdx, insertAt, List.filter_cons, hn0, hs0]

theorem reposition_back (n s : Ptr) (hns : n ≠ s) (hn0 : n ≠ 0) (hs0 : s ≠ 0) :
    reposition [s, n] 2 n = [s, n] := by
  have h : ¬ s = n := fun e => hns e.symm
  simp [reposition, findIdx, insertAt, List.filter_cons, hn0, hs0, List.indexOf_cons, h]

theorem setLayout_isDirectTarget (n : Hy3Node) (l : Hy3GroupLayout) :
    (n.mapGroup (fun g => g.setLayout l)).data.isDirectTarget = n.data.isDirectTarget := by
  unfold Hy3Node.mapGroup
  split
  · next g h => rw [h]; rfl
  · rfl

/-- C5 (amended): when `shiftOrGetFocus` with `shift = true` is applied to a node `n` that is
a direct child of a root group that is not `Tabbed`, is not oriented along the direction and
has exactly the two children `n` and `s`, and `s` is not entered (it is a window leaf or an
expanded or locked group, or `n` already lies at the edge in the direction of travel), then
the call succeeds, the layout of the root becomes the axis of the direction, the children of
the root are the same two nodes, with `n` last when going forward and first when going
backward, `n` keeps the root as parent and no node is created or removed. -/
theorem root_axis_flip (O : NodeOps) (C : Compositor) (self : Nat) (ns : List Hy3Node)
    (d : ShiftDirection) (once visible : Bool) (n s r : Ptr) (N R : Hy3Node)
    (g : Hy3GroupData)
    (hact : O.getPlacementActor ns (O.getExpandActor ns n) = n)
    (hN : getNode ns n = some N) (hNp : N.parent = r) (hr0 : r ≠ 0)
    (hR : getNode ns r = some R) (hRp : R.parent = 0) (hRg : R.data = .group g)
    (hm : shiftMatchesLayout g.layout d = false) (ht : g.layout ≠ .Tabbed)
    (hch : g.children = [n, s] ∨ g.children = [s, n])
    (hns : n ≠ s) (hn0 : n ≠ 0) (hs0 : s ≠ 0)
    (hstop : (g.children = (if shiftIsForward d then [s, n] else [n, s]))
      ∨ (∃ S, getNode ns s = some S ∧ S.data.isDirectTarget = true)) :
    ∃ ns1, shiftOrGetFocus O C self ns n d true once visible = some (ns1, 0)
      ∧ layoutAt ns1 r = some (axisLayout d)
      ∧ childrenAt ns1 r = some (if shiftIsForward d then [s, n] else [n, s])
      ∧ parentAt ns1 n = some r
      ∧ addrs ns1 = addrs ns := by
  have hlen : g.children.length = 2 := by rcases hch with h | h <;> rw [h] <;> rfl
  have hmem : n ∈ g.children := by rcases hch with h | h <;> rw [h] <;> simp
  have hnr : n ≠ r := by
    intro e
    rw [e, hR] at hN
    cases hN
    exact hr0 (hNp ▸ hRp)
  have h1 := breakLoop_flip C self d once visible ns n n r R g false ns.length hr0 hR hRp hRg hm
    ht hlen hmem
  -- the tree after the flip
  generalize hX : modifyGroup ns r (fun g0 => g0.setLayout (axisLayout d)) = X at h1
  have hXr : getNode X r = some (R.mapGroup (fun g0 => g0.setLayout (axisLayout d))) := by
    rw [← hX, getNode_modifyGroup, if_pos rfl, hR]; rfl
  have hXrg : (R.mapGroup (fun g0 => g0.setLayout (axisLayout d))).data
      = .group (g.setLayout (axisLayout d)) := by
    simp [Hy3Node.mapGroup, hRg]
  have hXn : getNode X n = some N := by
    rw [← hX, getNode_modifyGroup, if_neg hnr, hN]
  have hgc : (g.setLayout (axisLayout d)).children = g.children := rfl
  have hgl : (g.setLayout (axisLayout d)).layout = axisLayout d := rfl
  -- the position found and the children sequence after the move
  have key : ∃ ins, findInsert d true once visible X n n r false = some (.place r ins)
      ∧ reposition g.children ins n = (if shiftIsForward d then [s, n] else [n, s]) := by
    rcases hstop with hedge | ⟨S, hS, hSd⟩
    · cases hf : shiftIsForward d
      · simp only [hf, Bool.false_eq_true, if_false] at hedge ⊢
        refine ⟨0, ?_, ?_⟩
        · have := findInsert_edge d once visible X n n r _ _ false n s hXr hXrg
            (by rw [hgc, hedge]; rfl) (by rw [hgc, hedge]; rfl) (by simp [hf])
          simpa [hf] using this
        · rw [hedge]; exact reposition_front n s hn0 hs0
      · simp only [hf, if_true] at hedge ⊢
        refine ⟨2, ?_, ?_⟩
        · have := findInsert_edge d once visible X n n r _ _ false s n hXr hXrg
            (by rw [hgc, hedge]; rfl) (by rw [hgc, hedge]; rfl) (by simp [hf, hns])
          simpa [hf, hgc, hlen] using this
        · rw [hedge]; exact reposition_back n s hns hn0 hs0
    · by_cases hedge : g.children = (if shiftIsForward d then [s, n] else [n, s])
      · cases hf : shiftIsForward d
        · simp only [hf, Bool.false_eq_true, if_false] at hedge ⊢
          refine ⟨0, ?_, ?_⟩
          · have := findInsert_edge d once visible X n n r _ _ false n s hXr hXrg
              (by rw [hgc, hedge]; rfl) (by rw [hgc, hedge]; rfl) (by simp [hf])
            simpa [hf] using this
          · rw [hedge]; exact reposition_front n s hn0 hs0
        · simp only [hf, if_true] at hedge ⊢
          refine ⟨2, ?_, ?_⟩
          · have := findInsert_edge d once visible X n n r _ _ false s n hXr hXrg
              (by rw [hgc, hedge]; rfl) (by rw [hgc, hedge]; rfl) (by simp [hf, hns])
            simpa [hf, hgc, hlen] using this
          · rw [hedge]; exact reposition_back n s hns hn0 hs0
      · have hadj : g.children
            = if shiftIsForward d then [] ++ n :: s :: [] else [] ++ s :: n :: [] := by
          cases hf : shiftIsForward d
          · simp only [hf, Bool.false_eq_true, if_false] at hedge ⊢
            rcases hch with h | h
            · exact absurd h hedge
            · exact h
          · simp only [hf, if_true] at hedge ⊢
            rcases hch with h | h
            · exact h
            · exact absurd h hedge
        have hnd : g.children.Nodup := by
          rcases hch with h | h <;> rw [h] <;> simp [hns, Ne.symm hns]
        have h0 : (0 : Ptr) ∉ g.children := by
          rcases hch with h | h <;> rw [h] <;> simp [Ne.symm hn0, Ne.symm hs0]
        obtain ⟨f, b, iter, hfr, hb, hedge', hiter, hget, hins, _⟩ :=
          adjacent_facts d [] [] n s g.children hadj hnd
        obtain ⟨S1, hS1, hS1d⟩ : ∃ S1, getNode X s = some S1 ∧ S1.data.isDirectTarget = true := by
          rw [← hX, getNode_modifyGroup]
          by_cases hsr : s = r
          · rw [if_pos hsr, hS]
            exact ⟨_, rfl, by rw [setLayout_isDirectTarget]; exact hSd⟩
          · rw [if_neg hsr, hS]
            exact ⟨_, rfl, hSd⟩
        have h2 := findInsert_direct_same_parent d once visible X n r s N _ S1
          (g.setLayout (axisLayout d)) f b iter hXn hNp hXr hXrg hfr hb hedge' hiter hget hS1 hS1d
        refine ⟨_, h2, ?_⟩
        rw [hins, reposition_adjacent d [] [] n s g.children hadj hnd h0]
        cases shiftIsForward d <;> rfl
  obtain ⟨ins, h2, hrep⟩ := key
  have h3 := spliceShift_same_parent O X (O.getExpandActor ns n) n r N _
    (g.setLayout (axisLayout d)) ins hXn hNp hXr hXrg (by rw [hgc]; exact hmem)
  rw [hgc, hrep] at h3
  refine ⟨recalcSizePosRecursive O (modifyGroup X r (fun g0 =>
    { g0 with children := if shiftIsForward d then [s, n] else [n, s] })) r, ?_, ?_, ?_, ?_, ?_⟩
  · simp only [shiftOrGetFocus, hact, hN, hNp, Option.bind_eq_bind, Option.some_bind, h1, h2, h3,
      Option.map_some']
  · rw [layoutAt_recalc, layoutAt_modifyGroup_self X r _ _ _ hXr hXrg]
    rfl
  · rw [childrenAt_recalc, childrenAt_modifyGroup_self X r _ _ _ hXr hXrg]
  · rw [parentAt_recalc, parentAt_modifyGroup]
    simp [parentAt, hXn, hNp]
  · rw [addrs_recalc, addrs_modifyGroup, ← hX, addrs_modifyGroup]

/-- Witness for C5 (amended): in `root(SplitH)[A, B]`, shifting B upwards flips the root to
`SplitV` and puts B first. -/
theorem root_axis_flip_witness :
    ∃ ns1, shiftOrGetFocus O0 C0 7 exTwo 3 .Up true false false = some (ns1, 0)
      ∧ layoutAt ns1 2 = some .SplitV
      ∧ childrenAt ns1 2 = some [3, 1]
      ∧ parentAt ns1 3 = some 2
      ∧ addrs ns1 = addrs exTwo :=
  root_axis_flip O0 C0 7 exTwo .Up false false 3 1 2 (leaf 3 2 102) (grp 2 0 .SplitH [1, 3] 3) _
    rfl rfl rfl (by decide) rfl rfl rfl rfl (by decide) (Or.inr rfl) (by decide) (by decide)
    (by decide) (Or.inr ⟨leaf 1 2 101, rfl, rfl⟩)

/-- C5 (counterexample): in `root(SplitH)[N, G(SplitH)[X, Y]]`, shifting N downwards flips
the root and then takes N into the neighbouring group G; the root, left with G alone,
swallows it.  Afterwards the layout of the root is not `SplitV`, the node of G is gone, and
the root has three children. -/
theorem root_axis_flip_counterexample :
    ∃ ns1, shiftOrGetFocus O0 C0 7
        [leaf 1 2 101, grp 2 0 .SplitH [1, 4] 1, leaf 3 4 102, grp 4 2 .SplitH [3, 5] 3,
          leaf 5 4 103] 1 .Down true false false = some (ns1, 0)
      ∧ axisLayout .Down = .SplitV
      ∧ layoutAt ns1 2 = some .SplitH
      ∧ childrenAt ns1 2 = some [3, 1, 5]
      ∧ addrs ns1 = [1, 2, 3, 5] :=
  ⟨_, rfl, rfl, rfl, rfl, rfl⟩

/-! ## Following single nodes through the primitives -/

theorem nodeIs_recalc (O : NodeOps) (ns : List Hy3Node) (root x par : Ptr) (dat : Hy3NodeData)
    (h : NodeIs ns x par dat) : NodeIs (recalcSizePosRecursive O ns root) x par dat := by
  obtain ⟨n, hn, hp, hd⟩ := h
  refine ⟨{ n with position := (O.geometry ns root n.addr).1
                   size := (O.geometry ns root n.addr).2 }, ?_, hp, hd⟩
  rw [getNode_recalc, hn]
  rfl

theorem nodeIs_modifyNode_ne (ns : List Hy3Node) (p x par : Ptr) (dat : Hy3NodeData)
    (f : Hy3Node → Hy3Node) (hf : ∀ n, (f n).addr = n.addr) (hx : x ≠ p)
    (h : NodeIs ns x par dat) : NodeIs (modifyNode ns p f) x par dat := by
  obtain ⟨n, hn, hp, hd⟩ := h
  exact ⟨n, by rw [getNode_modifyNode ns p x f hf, if_neg hx, hn], hp, hd⟩

theorem nodeIs_modifyNode_self (ns : List Hy3Node) (p par par1 : Ptr) (dat dat1 : Hy3NodeData)
    (f : Hy3Node → Hy3Node) (hf : ∀ n, (f n).addr = n.addr)
    (hfv : ∀ n, n.parent = par → n.data = dat → (f n).parent = par1 ∧ (f n).data = dat1)
    (h : NodeIs ns p par dat) : NodeIs (modifyNode ns p f) p par1 dat1 := by
  obtain ⟨n, hn, hp, hd⟩ := h
  exact ⟨f n, by rw [getNode_modifyNode ns p p f hf, if_pos rfl, hn]; rfl, (hfv n hp hd).1,
    (hfv n hp hd).2⟩

theorem nodeIs_modifyGroup_ne (ns : List Hy3Node) (p x par : Ptr) (dat : Hy3NodeData)
    (f : Hy3GroupData → Hy3GroupData) (hx : x ≠ p) (h : NodeIs ns x par dat) :
    NodeIs (modifyGroup ns p f) x par dat :=
  nodeIs_modifyNode_ne ns p x par dat _ (fun n => mapGroup_addr n f) hx h

theorem nodeIs_modifyGroup_self (ns : List Hy3Node) (p par : Ptr) (g : Hy3GroupData)
    (f : Hy3GroupData → Hy3GroupData) (h : NodeIs ns p par (.group g)) :
    NodeIs (modifyGroup ns p f) p par (.group (f g)) := by
  apply nodeIs_modifyNode_self ns p par par (.group g) (.group (f g)) _
    (fun n => mapGroup_addr n f) _ h
  intro n hp hd
  simp [Hy3Node.mapGroup, hd, hp]

theorem nodeIs_modifyGroup_window (ns : List Hy3Node) (p x par : Ptr) (w : Nat)
    (f : Hy3GroupData → Hy3GroupData) (h : NodeIs ns x par (.window w)) :
    NodeIs (modifyGroup ns p f) x par (.window w) := by
  obtain ⟨n, hn, hp, hd⟩ := h
  refine ⟨n.mapGroup f, ?_, ?_, ?_⟩
  · rw [getNode_modifyGroup, hn]
    split
    · rfl
    · simp [Hy3Node.mapGroup, hd]
  · rw [mapGroup_parent]; exact hp
  · simp [Hy3Node.mapGroup, hd]

theorem nodeIs_eraseNode_ne (ns : List Hy3Node) (p x par : Ptr) (dat : Hy3NodeData)
    (hx : x ≠ p) (h : NodeIs ns x par dat) : NodeIs (eraseNode ns p) x par dat := by
  obtain ⟨n, hn, hp, hd⟩ := h
  exact ⟨n, by rw [getNode_eraseNode, if_neg hx, hn], hp, hd⟩

theorem nodeIs_append (ns : List Hy3Node) (z : Hy3Node) (x par : Ptr) (dat : Hy3NodeData)
    (h : NodeIs ns x par dat) : NodeIs (ns ++ [z]) x par dat := by
  obtain ⟨n, hn, hp, hd⟩ := h
  exact ⟨n, by rw [getNode_append, hn], hp, hd⟩

theorem nodeIs_append_fresh (ns : List Hy3Node) (z : Hy3Node) (hz : z.addr = freshAddr ns) :
    NodeIs (ns ++ [z]) (freshAddr ns) z.parent z.data := by
  refine ⟨z, ?_, rfl, rfl⟩
  rw [getNode_append, getNode_freshAddr]
  simp [hz]

theorem getNode_reparentChildren (ns : List Hy3Node) (p x : Ptr) (P : Hy3Node)
    (hP : getNode ns p = some P) :
    getNode (reparentChildren ns p) x
      = (getNode ns x).map (fun m =>
          if m.addr ∈ P.data.children then { m with parent := p } else m) := by
  unfold reparentChildren
  rw [hP]
  apply getNode_map
  intro n
  split <;> rfl

theorem nodeIs_reparentChildren (ns : List Hy3Node) (p x par pp : Ptr)
    (dat pd : Hy3NodeData) (hP : NodeIs ns p pp pd) (h : NodeIs ns x par dat) :
    NodeIs (reparentChildren ns p) x (if x ∈ pd.children then p else par) dat := by
  obtain ⟨P, hPn, _, hPd⟩ := hP
  obtain ⟨n, hn, hp, hd⟩ := h
  have ha := getNode_addr hn
  by_cases hx : x ∈ pd.children
  · refine ⟨{ n with parent := p }, ?_, ?_, hd⟩
    · rw [getNode_reparentChildren ns p x P hPn, hn]
      simp [ha, hPd, hx]
    · simp [hx]
  · refine ⟨n, ?_, ?_, hd⟩
    · rw [getNode_reparentChildren ns p x P hPn, hn]
      simp [ha, hPd, hx]
    · simp [hx, hp]

theorem addrs_reparentChildren (ns : List Hy3Node) (p : Ptr) :
    addrs (reparentChildren ns p) = addrs ns := by
  unfold reparentChildren
  split
  · apply addrs_map
    intro n
    split <;> rfl
  · rfl

theorem addrs_append (ns : List Hy3Node) (z : Hy3Node) : addrs (ns ++ [z]) = addrs ns ++ [z.addr] := by
  simp [addrs]

theorem addrs_eraseNode (ns : List Hy3Node) (p : Ptr) :
    addrs (eraseNode ns p) = (addrs ns).filter (fun x => x != p) := by
  simp only [addrs, eraseNode, List.filter_map]
  rfl

theorem childrenAt_of_nodeIs (ns : List Hy3Node) (x par : Ptr) (g : Hy3GroupData)
    (h : NodeIs ns x par (.group g)) : childrenAt ns x = some g.children := by
  obtain ⟨n, hn, _, hd⟩ := h
  simp [childrenAt, hn, hd, Hy3NodeData.children]

theorem layoutAt_of_nodeIs (ns : List Hy3Node) (x par : Ptr) (g : Hy3GroupData)
    (h : NodeIs ns x par (.group g)) : layoutAt ns x = some g.layout := by
  obtain ⟨n, hn, _, hd⟩ := h
  simp [layoutAt, hn, hd, Hy3NodeData.as_group]

theorem parentAt_of_nodeIs (ns : List Hy3Node) (x par : Ptr) (dat : Hy3NodeData)
    (h : NodeIs ns x par dat) : parentAt ns x = some par := by
  obtain ⟨n, hn, hp, _⟩ := h
  simp [parentAt, hn, hp]

/-! ## The observations depend on the shape of the tree only -/

theorem shape_getNode (ns : List Hy3Node) (x : Ptr) :
    (getNode ns x).map Hy3Node.shape = (treeShape ns).find? (fun s => s.1 == x) := by
  induction ns with
  | nil => rfl
  | cons a t ih =>
    simp only [getNode, treeShape, List.map_cons, List.find?_cons] at ih ⊢
    have : (a.shape.1 == x) = (a.addr == x) := rfl
    rw [this]
    cases a.addr == x
    · exact ih
    · rfl

theorem childrenAt_of_shape (a b : List Hy3Node) (h : treeShape a = treeShape b) (x : Ptr) :
    childrenAt a x = childrenAt b x := by
  have e : ∀ ns : List Hy3Node, childrenAt ns x
      = ((getNode ns x).map Hy3Node.shape).map (fun s =>
          match s.2.2 with
          | .inl _ => []
          | .inr v => v.2) := by
    intro ns
    simp only [childrenAt, Option.map_map]
    congr 1
    funext n
    simp only [Function.comp, Hy3Node.shape]
    cases n.data <;> rfl
  rw [e a, e b, shape_getNode, shape_getNode, h]

theorem layoutAt_of_shape (a b : List Hy3Node) (h : treeShape a = treeShape b) (x : Ptr) :
    layoutAt a x = layoutAt b x := by
  have e : ∀ ns : List Hy3Node, layoutAt ns x
      = ((getNode ns x).map Hy3Node.shape).bind (fun s =>
          match s.2.2 with
          | .inl _ => none
          | .inr v => some v.1) := by
    intro ns
    simp only [layoutAt]
    cases getNode ns x with
    | none => rfl
    | some n =>
      simp only [Option.map_some', Option.some_bind, Hy3Node.shape]
      cases n.data <;> rfl
  rw [e a, e b, shape_getNode, shape_getNode, h]

theorem parentAt_of_shape (a b : List Hy3Node) (h : treeShape a = treeShape b) (x : Ptr) :
    parentAt a x = parentAt b x := by
  have e : ∀ ns : List Hy3Node, parentAt ns x
      = ((getNode ns x).map Hy3Node.shape).map (fun s => s.2.1) := by
    intro ns
    simp only [parentAt, Option.map_map]
    rfl
  rw [e a, e b, shape_getNode, shape_getNode, h]

theorem addrs_of_shape (a b : List Hy3Node) (h : treeShape a = treeShape b) :
    addrs a = addrs b := by
  have e : ∀ ns : List Hy3Node, addrs ns = (treeShape ns).map (fun s => s.1) := by
    intro ns
    simp only [addrs, treeShape, List.map_map]
    rfl
  rw [e a, e b, h]

/-! ## `markFocused` comes to an end on a finite chain of parents -/

theorem parentChain_of_parentAt (a b : List Hy3Node) (h : ∀ x, parentAt b x = parentAt a x)
    (chain : List Ptr) : ∀ p, parentChain a p chain → parentChain b p chain := by
  induction chain with
  | nil => intro p hp; simp only [parentChain] at hp ⊢; rw [h]; exact hp
  | cons q rest ih =>
    intro p hp
    simp only [parentChain] at hp ⊢
    exact ⟨by rw [h]; exact hp.1, hp.2.1, ih q hp.2.2⟩

theorem markFocusedUp_succeeds (chain : List Ptr) :
    ∀ (ns : List Hy3Node) (p : Ptr) (fuel : Nat), parentChain ns p chain →
      chain.length < fuel → ∃ ns1, markFocusedUp fuel ns p = some ns1 := by
  induction chain with
  | nil =>
    intro ns p fuel hp hf
    cases fuel with
    | zero => cases hf
    | succ k =>
      simp only [parentChain, parentAt, Option.map_eq_some'] at hp
      obtain ⟨n, hn, hnp⟩ := hp
      exact ⟨ns, by simp [markFocusedUp, hn, hnp]⟩
  | cons q rest ih =>
    intro ns p fuel hp hf
    cases fuel with
    | zero => cases hf
    | succ k =>
      simp only [parentChain] at hp
      obtain ⟨hpq, hq0, hrest⟩ := hp
      simp only [parentAt, Option.map_eq_some'] at hpq
      obtain ⟨n, hn, hnp⟩ := hpq
      have hrest' := parentChain_of_parentAt ns
        (modifyGroup ns q (fun g => { g with focused_child := p, group_focused := false }))
        (fun x => parentAt_modifyGroup ns q x _) rest q hrest
      obtain ⟨ns1, h1⟩ := ih _ q k hrest' (Nat.lt_of_succ_lt_succ hf)
      exact ⟨ns1, by simp [markFocusedUp, hn, hnp, hq0, h1]⟩

theorem markFocused_succeeds (ns : List Hy3Node) (p : Ptr) (chain : List Ptr)
    (hc : parentChain ns p chain) (hlen : chain.length ≤ ns.length) :
    ∃ ns1, markFocused ns p = some ns1 ∧ treeShape ns1 = treeShape ns := by
  have hc' := parentChain_of_parentAt ns
    (modifyGroup ns p (fun g => { g with group_focused := true }))
    (fun x => parentAt_modifyGroup ns p x _) chain p hc
  obtain ⟨ns1, h1⟩ := markFocusedUp_succeeds chain _ p (ns.length + 1) hc'
    (Nat.lt_succ_of_le hlen)
  have h : markFocused ns p = some ns1 := by
    unfold markFocused
    exact h1
  exact ⟨ns1, h, treeShape_focus ns ns1 p h⟩

/-! ## Root wrap -/

theorem stepsOver_not_oriented (visible : Bool) (d : ShiftDirection) (g : Hy3GroupData)
    (h : stepsOver visible d g = true) :
    (g.layout != .Tabbed && shiftMatchesLayout g.layout d) = false := by
  unfold stepsOver at h
  cases hm : shiftMatchesLayout g.layout d
  · simp
  · cases hl : (g.layout != .Tabbed)
    · simp
    · rw [hm, hl] at h
      simp at h

/-- The first loop climbs over groups that it goes past and, at a root where the flip does not
apply, wraps the root. -/
theorem breakLoop_climb_wrap (C : Compositor) (self : Nat) (d : ShiftDirection)
    (once visible : Bool) (n : Ptr) (ns : List Hy3Node) (r : Ptr)
    (hnoflip : ∀ R g, getNode ns r = some R → R.data = .group g →
      ¬ (g.layout ≠ .Tabbed ∧ g.children.length = 2 ∧ n ∈ g.children))
    (chain : List Ptr) :
    ∀ (p bo : Ptr) (fuel : Nat), climbsToRoot ns visible d p chain →
      (p :: chain).getLast? = some r → chain.length < fuel →
      breakLoop C self d true once visible n fuel ns bo p false
        = (wrapRoot self ns d r).bind (fun w => some (.go w.1 w.2 r false)) := by
  induction chain with
  | nil =>
    intro p bo fuel hc hl hf
    cases fuel with
    | zero => cases hf
    | succ k =>
      simp only [List.getLast?_singleton, Option.some.injEq] at hl
      subst hl
      simp only [climbsToRoot] at hc
      obtain ⟨hp0, P, g, hP, hPg, hPp, hs⟩ := hc
      have hs1 : (shiftMatchesLayout g.layout d && (!visible || g.layout != .Tabbed)) = false := by
        unfold stepsOver at hs
        cases hx : (shiftMatchesLayout g.layout d && (!visible || g.layout != .Tabbed))
        · rfl
        · rw [hx] at hs; cases hs
      have hs2 := stepsOver_not_oriented visible d g hs
      have hnf := hnoflip P g hP hPg
      have hs3 : (g.layout != .Tabbed && g.children.length == 2 && g.children.contains n)
          = false := by
        rw [Bool.eq_false_iff]
        intro h
        apply hnf
        simpa [Bool.and_eq_true, and_assoc] using h
      simp only [breakLoop, hp0, if_false, hP, hPg, Hy3NodeData.as_group, Option.bind_eq_bind,
        Option.some_bind, hs1, Bool.false_eq_true, hPp, if_true, Bool.not_true, hs2, hs3]
  | cons q rest ih =>
    intro p bo fuel hc hl hf
    cases fuel with
    | zero => cases hf
    | succ k =>
      simp only [climbsToRoot] at hc
      obtain ⟨hp0, ⟨P, g, hP, hPg, hPp, hs⟩, hrest⟩ := hc
      have hq0 : q ≠ 0 := by
        cases rest with
        | nil => simp only [climbsToRoot] at hrest; exact hrest.1
        | cons _ _ => simp only [climbsToRoot] at hrest; exact hrest.1
      have hs1 : (shiftMatchesLayout g.layout d && (!visible || g.layout != .Tabbed)) = false := by
        unfold stepsOver at hs
        cases hx : (shiftMatchesLayout g.layout d && (!visible || g.layout != .Tabbed))
        · rfl
        · rw [hx] at hs; cases hs
      have hl' : (q :: rest).getLast? = some r := by
        rw [List.getLast?_cons_cons] at hl; exact hl
      have := ih q p k hrest hl' (Nat.lt_of_succ_lt_succ hf)
      simp only [breakLoop, hp0, if_false, hP, hPg, Hy3NodeData.as_group, Option.bind_eq_bind,
        Option.some_bind, hs1, Bool.false_eq_true, hPp, hq0, this]

/-- What the root wrap leaves behind: the root keeps its address and parent and is a group of
the axis of the direction whose only child is the new node; the new node holds the payload of
the former root; the children of the former root have the new node as their parent; every
other node is as it was. -/
theorem wrapRoot_spec (self : Nat) (ns : List Hy3Node) (d : ShiftDirection) (r : Ptr)
    (R : Hy3Node) (g : Hy3GroupData) (hR : getNode ns r = some R) (hRg : R.data = .group g)
    (hrc : r ∉ g.children) (hfresh : freshAddr ns ∉ g.children) :
    ∃ W, wrapRoot self ns d r = some (W, freshAddr ns)
      ∧ addrs W = addrs ns ++ [freshAddr ns]
      ∧ NodeIs W r R.parent
          (.group ((Hy3GroupData.ofLayout (axisLayout d)).adopt (freshAddr ns)))
      ∧ NodeIs W (freshAddr ns) r (.group g)
      ∧ ∀ x par dat, x ≠ r → x ≠ freshAddr ns → NodeIs ns x par dat →
          NodeIs W x (if x ∈ g.children then freshAddr ns else par) dat := by
  have hrc' : r ≠ freshAddr ns := by
    intro e
    have := getNode_freshAddr ns
    rw [← e, hR] at this
    cases this
  -- the new node
  generalize hz : ({ Hy3Node.init (freshAddr ns)
      (.group (Hy3GroupData.ofLayout (axisLayout d))) R.workspace self with
      parent := r, position := R.position, size := R.size } : Hy3Node) = z
  have hza : z.addr = freshAddr ns := by rw [← hz]; try rfl
  have hzp : z.parent = r := by rw [← hz]; try rfl
  have hzd : z.data = .group (Hy3GroupData.ofLayout (axisLayout d)) := by rw [← hz]; try rfl
  have g1 : getNode (ns ++ [z]) r = some R := by rw [getNode_append, hR]
  have g2 : getNode (ns ++ [z]) (freshAddr ns) = some z := by
    rw [getNode_append, getNode_freshAddr]; simp [hza]
  -- the four steps of `swapData`
  generalize hY1 : modifyNode (ns ++ [z]) r (fun m => { m with data := z.data }) = Y1
  generalize hY2 : modifyNode Y1 (freshAddr ns) (fun m => { m with data := R.data }) = Y2
  have hswap : swapData (ns ++ [z]) r (freshAddr ns)
      = some (reparentChildren (reparentChildren Y2 r) (freshAddr ns)) := by
    simp only [swapData, g1, g2, Option.bind_eq_bind, Option.some_bind, hY1, hY2]
  have setData : ∀ (Y : List Hy3Node) (p x par : Ptr) (dat dd : Hy3NodeData), x ≠ p →
      NodeIs Y x par dat → NodeIs (modifyNode Y p (fun m => { m with data := dd })) x par dat :=
    fun Y p x par dat dd hx h => nodeIs_modifyNode_ne Y p x par dat _ (fun _ => rfl) hx h
  have setDataSelf : ∀ (Y : List Hy3Node) (p par : Ptr) (dat dd : Hy3NodeData),
      NodeIs Y p par dat → NodeIs (modifyNode Y p (fun m => { m with data := dd })) p par dd :=
    fun Y p par dat dd h => nodeIs_modifyNode_self Y p par par dat dd _ (fun _ => rfl)
      (fun n hp _ => ⟨hp, rfl⟩) h
  -- the root through the steps
  have r0 : NodeIs (ns ++ [z]) r R.parent R.data := ⟨R, g1, rfl, rfl⟩
  have r1 : NodeIs Y1 r R.parent z.data := by rw [← hY1]; exact setDataSelf _ _ _ _ _ r0
  have r2 : NodeIs Y2 r R.parent z.data := by rw [← hY2]; exact setData _ _ _ _ _ _ hrc' r1
  have c0 : NodeIs (ns ++ [z]) (freshAddr ns) r z.data := ⟨z, g2, hzp, rfl⟩
  have c1 : NodeIs Y1 (freshAddr ns) r z.data := by
    rw [← hY1]; exact setData _ _ _ _ _ _ (Ne.symm hrc') c0
  have c2 : NodeIs Y2 (freshAddr ns) r R.data := by rw [← hY2]; exact setDataSelf _ _ _ _ _ c1
  have r3 : NodeIs (reparentChildren Y2 r) r R.parent z.data := by
    have := nodeIs_reparentChildren Y2 r r R.parent R.parent z.data z.data r2 r2
    rw [hzd] at this ⊢
    simpa [Hy3NodeData.children, Hy3GroupData.ofLayout] using this
  have c3 : NodeIs (reparentChildren Y2 r) (freshAddr ns) r R.data := by
    have := nodeIs_reparentChildren Y2 r (freshAddr ns) r R.parent R.data z.data r2 c2
    rw [hzd] at this
    simpa [Hy3NodeData.children, Hy3GroupData.ofLayout] using this
  generalize hY3 : reparentChildren Y2 r = Y3 at hswap r3 c3
  have r4 : NodeIs (reparentChildren Y3 (freshAddr ns)) r R.parent z.data := by
    have := nodeIs_reparentChildren Y3 (freshAddr ns) r R.parent r z.data R.data c3 r3
    rw [hRg] at this
    simpa [Hy3NodeData.children, hrc] using this
  have c4 : NodeIs (reparentChildren Y3 (freshAddr ns)) (freshAddr ns) r R.data := by
    have := nodeIs_reparentChildren Y3 (freshAddr ns) (freshAddr ns) r r R.data R.data c3 c3
    rw [hRg] at this ⊢
    simpa [Hy3NodeData.children, hfresh] using this
  have other : ∀ x par dat, x ≠ r → x ≠ freshAddr ns → NodeIs ns x par dat →
      NodeIs (reparentChildren Y3 (freshAddr ns)) x (if x ∈ g.children then freshAddr ns else par)
        dat := by
    intro x par dat hxr hxc h
    have x0 : NodeIs (ns ++ [z]) x par dat := nodeIs_append ns z x par dat h
    have x1 : NodeIs Y1 x par dat := by rw [← hY1]; exact setData _ _ _ _ _ _ hxr x0
    have x2 : NodeIs Y2 x par dat := by rw [← hY2]; exact setData _ _ _ _ _ _ hxc x1
    have x3 : NodeIs Y3 x par dat := by
      have := nodeIs_reparentChildren Y2 r x par R.parent dat z.data r2 x2
      rw [hzd] at this
      rw [← hY3]
      simpa [Hy3NodeData.children, Hy3GroupData.ofLayout] using this
    have := nodeIs_reparentChildren Y3 (freshAddr ns) x par r dat R.data c3 x3
    rw [hRg] at this
    simpa [Hy3NodeData.children] using this
  generalize hY4 : reparentChildren Y3 (freshAddr ns) = Y4 at hswap r4 c4 other
  have hadd : addrs Y4 = addrs ns ++ [freshAddr ns] := by
    have hset : ∀ (Y : List Hy3Node) (q : Ptr) (dd : Hy3NodeData),
        addrs (modifyNode Y q (fun m => { m with data := dd })) = addrs Y :=
      fun Y q dd => addrs_modifyNode Y q _ (fun _ => rfl)
    rw [← hY4, addrs_reparentChildren, ← hY3, addrs_reparentChildren, ← hY2, hset, ← hY1, hset,
      addrs_append, hza]
  obtain ⟨B, hB, hBp, hBd⟩ := r4
  refine ⟨modifyGroup Y4 r (fun g0 => g0.adopt (freshAddr ns)), ?_, ?_, ?_, ?_, ?_⟩
  · unfold wrapRoot
    simp only [hR, Option.bind_eq_bind, Option.some_bind, hz, hswap, hB, hBd, hzd,
      Hy3NodeData.as_group]
  · rw [addrs_modifyGroup, hadd]
  · exact nodeIs_modifyGroup_self Y4 r R.parent (Hy3GroupData.ofLayout (axisLayout d))
      (fun g0 => g0.adopt (freshAddr ns)) ⟨B, hB, hBp, by rw [hBd, hzd]⟩
  · rw [← hRg]
    exact nodeIs_modifyGroup_ne Y4 r _ _ _ _ (Ne.symm hrc') c4
  · intro x par dat hxr hxc h
    exact nodeIs_modifyGroup_ne Y4 r _ _ _ _ hxr (other x par dat hxr hxc h)

/-! ## The splice into another group -/

/-- Removal of a node that leaves a sibling behind: the node leaves the children sequence of
its parent, its own parent is cleared, the parent is returned, and nothing else changes. -/
theorem removeFromParentRecursive_sibling (ns : List Hy3Node) (n q pq : Ptr)
    (dn : Hy3NodeData) (gq : Hy3GroupData)
    (hn : NodeIs ns n q dn) (hq : NodeIs ns q pq (.group gq)) (hq0 : q ≠ 0) (hnq : n ≠ q)
    (hrest : gq.children.filter (fun x => x != n) ≠ []) :
    ∃ X, removeFromParentRecursive ns n = some (X, q) ∧ addrs X = addrs ns
      ∧ NodeIs X n 0 dn
      ∧ (∃ g1, NodeIs X q pq (.group g1)
          ∧ g1.children = gq.children.filter (fun x => x != n)
          ∧ g1.layout = gq.layout ∧ g1.ephemeral = gq.ephemeral)
      ∧ ∀ x par dat, x ≠ n → x ≠ q → NodeIs ns x par dat → NodeIs X x par dat := by
  obtain ⟨N, hN, hNp, hNd⟩ := hn
  obtain ⟨Q, hQ, hQp, hQd⟩ := hq
  obtain ⟨c, tl, hh⟩ := List.exists_cons_of_ne_nil hrest
  have hrem : removeFromParentRecursive ns n
      = some (modifyNode (modifyGroup ns q (fun g0 =>
            { g0 with children := c :: tl
                      focused_child := if g0.focused_child = n then c else g0.focused_child }))
          n (fun m => { m with parent := 0 }), q) := by
    unfold removeFromParentRecursive
    simp only [removeFromParentLoop, hN, hNp, hq0, hQ, hQd, Hy3NodeData.as_group,
      Option.bind_eq_bind, Option.some_bind, if_false, hh, if_true, List.isEmpty_cons,
      Bool.false_eq_true, List.headD_cons]
  generalize hX1 : modifyGroup ns q (fun g0 =>
      { g0 with children := c :: tl
                focused_child := if g0.focused_child = n then c else g0.focused_child })
      = X1 at hrem
  have clr : ∀ (Y : List Hy3Node) (x par : Ptr) (dat : Hy3NodeData), x ≠ n →
      NodeIs Y x par dat → NodeIs (modifyNode Y n (fun m => { m with parent := 0 })) x par dat :=
    fun Y x par dat hx h => nodeIs_modifyNode_ne Y n x par dat _ (fun _ => rfl) hx h
  have clrSelf : ∀ (Y : List Hy3Node) (par : Ptr) (dat : Hy3NodeData),
      NodeIs Y n par dat → NodeIs (modifyNode Y n (fun m => { m with parent := 0 })) n 0 dat :=
    fun Y par dat h => nodeIs_modifyNode_self Y n par 0 dat dat _ (fun _ => rfl)
      (fun m _ hd => ⟨rfl, hd⟩) h
  have clrAddrs : ∀ (Y : List Hy3Node),
      addrs (modifyNode Y n (fun m => { m with parent := 0 })) = addrs Y :=
    fun Y => addrs_modifyNode Y n _ (fun _ => rfl)
  refine ⟨_, hrem, ?_, ?_, ?_, ?_⟩
  · rw [clrAddrs, ← hX1, addrs_modifyGroup]
  · apply clrSelf X1 q dn
    rw [← hX1]
    exact nodeIs_modifyGroup_ne ns q n q dn _ hnq ⟨N, hN, hNp, hNd⟩
  · have hq1 := nodeIs_modifyGroup_self ns q pq gq (fun g0 =>
      { g0 with children := c :: tl
                focused_child := if g0.focused_child = n then c else g0.focused_child })
      ⟨Q, hQ, hQp, hQd⟩
    rw [hX1] at hq1
    exact ⟨_, clr X1 q pq _ (Ne.symm hnq) hq1, hh.symm, rfl, rfl⟩
  · intro x par dat hxn hxq h
    apply clr X1 x par dat hxn
    rw [← hX1]
    exact nodeIs_modifyGroup_ne ns q x par dat _ hxq h

theorem length_of_addrs (a b : List Hy3Node) (h : addrs a = addrs b) : a.length = b.length := by
  have := congrArg List.length h
  simpa [addrs] using this

theorem swallowLoop_null (ns : List Hy3Node) (fuel : Nat) :
    swallowLoop (fuel + 1) ns 0 = some (ns, 0) := by
  simp [swallowLoop]

/-- The splice of a node into a parentless group that is not its parent, when the node leaves
a sibling behind in a group that is not swallowed: the node is inserted at the position, its
parent becomes the target group, its former parent keeps its remaining children and its
layout, and no node is created or destroyed. -/
theorem spliceShift_other_parent (O : NodeOps) (Y : List Hy3Node) (n t q pq : Ptr) (i : Nat)
    (gt gq : Hy3GroupData) (dn : Hy3NodeData)
    (ht : NodeIs Y t 0 (.group gt)) (hn : NodeIs Y n q dn) (hq : NodeIs Y q pq (.group gq))
    (ht0 : t ≠ 0) (hq0 : q ≠ 0) (hqt : q ≠ t) (hnt : n ≠ t) (hnq : n ≠ q)
    (hrest : gq.children.filter (fun x => x != n) ≠ [])
    (hkeep : ¬ (gq.ephemeral = true ∧ (gq.children.filter (fun x => x != n)).length = 1)) :
    ∃ Z, spliceShift O Y n n t i = some Z ∧ addrs Z = addrs Y
      ∧ layoutAt Z t = some gt.layout
      ∧ childrenAt Z t = some (insertAt gt.children i n)
      ∧ parentAt Z t = some 0 ∧ parentAt Z n = some t
      ∧ parentAt Z q = some pq ∧ layoutAt Z q = some gq.layout
      ∧ childrenAt Z q = some (gq.children.filter (fun x => x != n))
      ∧ ∀ x par dat, x ≠ n → x ≠ q → x ≠ t → NodeIs Y x par dat →
          parentAt Z x = some par ∧ childrenAt Z x = some dat.children
            ∧ layoutAt Z x = dat.as_group.map (fun g => g.layout) := by
  generalize hY1 : modifyGroup Y t (fun g => { g with children := insertAt g.children i n })
    = Y1
  have t1 : NodeIs Y1 t 0 (.group { gt with children := insertAt gt.children i n }) := by
    rw [← hY1]; exact nodeIs_modifyGroup_self Y t 0 gt _ ht
  have n1 : NodeIs Y1 n q dn := by
    rw [← hY1]; exact nodeIs_modifyGroup_ne Y t n q dn _ hnt hn
  have q1 : NodeIs Y1 q pq (.group gq) := by
    rw [← hY1]; exact nodeIs_modifyGroup_ne Y t q pq _ _ hqt hq
  have a1 : addrs Y1 = addrs Y := by rw [← hY1, addrs_modifyGroup]
  obtain ⟨X, hrem, aX, nX, ⟨g1, qX, hg1c, hg1l, hg1e⟩, oX⟩ :=
    removeFromParentRecursive_sibling Y1 n q pq dn gq n1 q1 hq0 hnq hrest
  have tX := oX t 0 _ (Ne.symm hnt) (Ne.symm hqt) t1
  generalize hY2 : modifyNode X n (fun m => { m with parent := t, size_ratio := 1 }) = Y2
  have n2 : NodeIs Y2 n t dn := by
    rw [← hY2]
    exact nodeIs_modifyNode_self X n 0 t dn dn _ (fun _ => rfl) (fun m _ hd => ⟨rfl, hd⟩) nX
  have t2 : NodeIs Y2 t 0 (.group { gt with children := insertAt gt.children i n }) := by
    rw [← hY2]; exact nodeIs_modifyNode_ne X n t 0 _ _ (fun _ => rfl) (Ne.symm hnt) tX
  have q2 : NodeIs Y2 q pq (.group g1) := by
    rw [← hY2]; exact nodeIs_modifyNode_ne X n q pq _ _ (fun _ => rfl) (Ne.symm hnq) qX
  have a2 : addrs Y2 = addrs Y := by
    have := addrs_modifyNode X n (fun m : Hy3Node => { m with parent := t, size_ratio := 1 })
      (fun _ => rfl)
    rw [← hY2, this, aX, a1]
  generalize hY4 : recalcSizePosRecursive O (recalcSizePosRecursive O Y2 q) t = Y4
  have n4 : NodeIs Y4 n t dn := by
    rw [← hY4]; exact nodeIs_recalc O _ t _ _ _ (nodeIs_recalc O Y2 q n t dn n2)
  have t4 : NodeIs Y4 t 0 (.group { gt with children := insertAt gt.children i n }) := by
    rw [← hY4]; exact nodeIs_recalc O _ t _ _ _ (nodeIs_recalc O Y2 q t 0 _ t2)
  have q4 : NodeIs Y4 q pq (.group g1) := by
    rw [← hY4]; exact nodeIs_recalc O _ t _ _ _ (nodeIs_recalc O Y2 q q pq _ q2)
  have a4 : addrs Y4 = addrs Y := by rw [← hY4, addrs_recalc, addrs_recalc, a2]
  have hlen : [t].length ≤ Y4.length := by
    obtain ⟨T, hT, _, _⟩ := t4
    have := List.length_pos_of_mem (getNode_mem hT)
    exact this
  obtain ⟨Z, hZ, hshape⟩ := markFocused_succeeds Y4 n [t]
    ⟨parentAt_of_nodeIs Y4 n t dn n4, ht0, parentAt_of_nodeIs Y4 t 0 _ t4⟩ hlen
  have hcond : ∀ (p : Ptr) (b : Prop),
      ¬ (p ≠ 0 ∧ g1.ephemeral = true ∧ g1.children.length = 1 ∧ b) := by
    intro p b h
    apply hkeep
    rw [← hg1e, ← hg1c]
    exact ⟨h.2.1, h.2.2.1⟩
  have others : ∀ x par dat, x ≠ n → x ≠ q → x ≠ t → NodeIs Y x par dat →
      NodeIs Y4 x par dat := by
    intro x par dat hxn hxq hxt h
    have x1 : NodeIs Y1 x par dat := by
      rw [← hY1]; exact nodeIs_modifyGroup_ne Y t x par dat _ hxt h
    have x2 : NodeIs Y2 x par dat := by
      rw [← hY2]
      exact nodeIs_modifyNode_ne X n x par dat _ (fun _ => rfl) hxn (oX x par dat hxn hxq x1)
    rw [← hY4]
    exact nodeIs_recalc O _ t _ _ _ (nodeIs_recalc O Y2 q x par dat x2)
  refine ⟨Z, ?_, ?_, ?_, ?_, ?_, ?_, ?_, ?_, ?_, ?_⟩
  · obtain ⟨T, hT, hTp, hTd⟩ := ht
    obtain ⟨N, hN, hNp, hNd⟩ := hn
    obtain ⟨Q2, hQ2, hQ2p, hQ2d⟩ := q2
    obtain ⟨T4, hT4, hT4p, hT4d⟩ := t4
    unfold spliceShift
    simp only [hT, hTd, hN, hNp, Hy3NodeData.as_group, Option.bind_eq_bind, Option.some_bind,
      if_neg (Ne.symm hqt), hY1, hrem, hY2, if_pos hq0, hQ2, hQ2d, if_neg (hcond _ _), hY4,
      hT4, hT4p, swallowLoop_null, focus, hZ]
    simp
  · rw [addrs_of_shape Z Y4 hshape, a4]
  · rw [layoutAt_of_shape Z Y4 hshape, layoutAt_of_nodeIs Y4 t 0 _ t4]
  · rw [childrenAt_of_shape Z Y4 hshape, childrenAt_of_nodeIs Y4 t 0 _ t4]
  · rw [parentAt_of_shape Z Y4 hshape, parentAt_of_nodeIs Y4 t 0 _ t4]
  · rw [parentAt_of_shape Z Y4 hshape, parentAt_of_nodeIs Y4 n t _ n4]
  · rw [parentAt_of_shape Z Y4 hshape, parentAt_of_nodeIs Y4 q pq _ q4]
  · rw [layoutAt_of_shape Z Y4 hshape, layoutAt_of_nodeIs Y4 q pq _ q4, hg1l]
  · rw [childrenAt_of_shape Z Y4 hshape, childrenAt_of_nodeIs Y4 q pq _ q4, hg1c]
  · intro x par dat hxn hxq hxt h
    have x4 := others x par dat hxn hxq hxt h
    refine ⟨by rw [parentAt_of_shape Z Y4 hshape, parentAt_of_nodeIs Y4 x par dat x4], ?_, ?_⟩
    · rw [childrenAt_of_shape Z Y4 hshape]
      obtain ⟨m, hm, _, hd⟩ := x4
      simp [childrenAt, hm, hd]
    · rw [layoutAt_of_shape Z Y4 hshape]
      obtain ⟨m, hm, _, hd⟩ := x4
      simp [layoutAt, hm, hd]

/-- The insertion point next to an only child is the edge of the group in the direction of
travel. -/
theorem findInsert_only (d : ShiftDirection) (once visible : Bool) (ns : List Hy3Node)
    (sa c r par : Ptr) (g : Hy3GroupData) (hbo : Bool)
    (hR : NodeIs ns r par (.group g)) (hch : g.children = [c]) :
    findInsert d true once visible ns sa c r hbo
      = some (.place r (if shiftIsForward d then 1 else 0)) := by
  obtain ⟨R, hR, _, hRg⟩ := hR
  unfold findInsert
  cases hf : shiftIsForward d
  · simp only [hR, hRg, Hy3NodeData.as_group, Option.bind_eq_bind, Option.some_bind, hch,
      List.head?_cons, and_self, if_true, Bool.false_eq_true, if_false]
  · simp only [hR, hRg, Hy3NodeData.as_group, Option.bind_eq_bind, Option.some_bind, hch,
      List.head?_cons, List.getLast?_singleton, and_self, if_true, Bool.true_eq_false,
      and_false, if_false, List.length_singleton]

/-- The root of a chain of groups that the first loop climbs is a live parentless group. -/
theorem climbsToRoot_last (ns : List Hy3Node) (visible : Bool) (d : ShiftDirection) (r : Ptr)
    (chain : List Ptr) : ∀ p, climbsToRoot ns visible d p chain →
      (p :: chain).getLast? = some r →
      r ≠ 0 ∧ ∃ R g, getNode ns r = some R ∧ R.data = .group g ∧ R.parent = 0 := by
  induction chain with
  | nil =>
    intro p hc hl
    simp only [List.getLast?_singleton, Option.some.injEq] at hl
    subst hl
    simp only [climbsToRoot] at hc
    obtain ⟨hp0, P, g, hP, hPg, hPp, _⟩ := hc
    exact ⟨hp0, P, g, hP, hPg, hPp⟩
  | cons q rest ih =>
    intro p hc hl
    simp only [climbsToRoot] at hc
    rw [List.getLast?_cons_cons] at hl
    exact ih q hc.2.2 hl

theorem getNode_of_mem_addrs (ns : List Hy3Node) (x : Ptr) (h : x ∈ addrs ns) :
    ∃ X, getNode ns x = some X := by
  unfold addrs at h
  obtain ⟨m, hm, hma⟩ := List.mem_map.1 h
  cases hg : getNode ns x with
  | some X => exact ⟨X, rfl⟩
  | none =>
    unfold getNode at hg
    have := List.find?_eq_none.1 hg m hm
    simp [hma] at this

theorem climbsToRoot_head (ns : List Hy3Node) (visible : Bool) (d : ShiftDirection) (p : Ptr)
    (chain : List Ptr) (h : climbsToRoot ns visible d p chain) : p ≠ 0 := by
  cases chain with
  | nil => simp only [climbsToRoot] at h; exact h.1
  | cons _ _ => simp only [climbsToRoot] at h; exact h.1

/-- C6 (amended): when a shift (`shift = true`) of a node `n` that is its own actor climbs
from the parent of `n` to the root `r` over groups that `shiftOrGetFocus` goes past, the flip
case does not apply, and `n` leaves a sibling behind in a parent group that is not swallowed
(not an ephemeral group left with one child), then the call succeeds, exactly one node is
created, the root is still the same parentless node, it has the axis of the direction and
exactly two children: `n` and the new node, with `n` first when going backward (Left/Up) and
last when going forward (Right/Down); the new node holds the layout of the former root and
its children without `n`, and those children have the new node as their parent. -/
theorem root_wrap (O : NodeOps) (C : Compositor) (self : Nat) (ns : List Hy3Node)
    (n r : Ptr) (d : ShiftDirection) (once visible : Bool) (N R Q : Hy3Node)
    (g gq : Hy3GroupData) (chain : List Ptr)
    (hE : O.getExpandActor ns n = n) (hPl : O.getPlacementActor ns n = n)
    (hN : getNode ns n = some N)
    (hclimb : climbsToRoot ns visible d N.parent chain)
    (hlast : (N.parent :: chain).getLast? = some r)
    (hchain : chain.length ≤ ns.length)
    (hR : getNode ns r = some R) (hRg : R.data = .group g)
    (hnoflip : ¬ (g.layout ≠ .Tabbed ∧ g.children.length = 2 ∧ n ∈ g.children))
    (hQ : getNode ns N.parent = some Q) (hQg : Q.data = .group gq)
    (hself : N.parent ≠ n)
    (hmem : n ∈ g.children ↔ N.parent = r)
    (hrc : r ∉ g.children) (hlive : ∀ x ∈ g.children, x ∈ addrs ns)
    (hrest : gq.children.filter (fun x => x != n) ≠ [])
    (hkeep : ¬ (gq.ephemeral = true ∧ (gq.children.filter (fun x => x != n)).length = 1)) :
    ∃ Z, shiftOrGetFocus O C self ns n d true once visible = some (Z, 0)
      ∧ addrs Z = addrs ns ++ [freshAddr ns]
      ∧ parentAt Z r = some 0
      ∧ layoutAt Z r = some (axisLayout d)
      ∧ childrenAt Z r
          = some (if shiftIsForward d then [freshAddr ns, n] else [n, freshAddr ns])
      ∧ parentAt Z n = some r
      ∧ parentAt Z (freshAddr ns) = some r
      ∧ layoutAt Z (freshAddr ns) = some g.layout
      ∧ childrenAt Z (freshAddr ns) = some (g.children.filter (fun x => x != n))
      ∧ ∀ x ∈ g.children, x ≠ n → parentAt Z x = some (freshAddr ns) := by
  obtain ⟨hr0, R1, g1, hR1, hR1g, hRp⟩ := climbsToRoot_last ns visible d r chain N.parent
    hclimb hlast
  rw [hR] at hR1
  cases hR1
  have hq0 : N.parent ≠ 0 := climbsToRoot_head ns visible d N.parent chain hclimb
  have hfresh : freshAddr ns ∉ g.children := by
    intro h
    obtain ⟨X, hX⟩ := getNode_of_mem_addrs ns _ (hlive _ h)
    rw [getNode_freshAddr] at hX
    cases hX
  have hnr : n ≠ r := by
    intro e
    rw [e, hR] at hN
    cases hN
    exact hq0 hRp
  have hnc : n ≠ freshAddr ns := by
    intro e
    have := getNode_freshAddr ns
    rw [← e, hN] at this
    cases this
  have hqc : N.parent ≠ freshAddr ns := by
    intro e
    have := getNode_freshAddr ns
    rw [← e, hQ] at this
    cases this
  have hrc1 : r ≠ freshAddr ns := by
    intro e
    have := getNode_freshAddr ns
    rw [← e, hR] at this
    cases this
  -- the first loop
  have hloop := breakLoop_climb_wrap C self d once visible n ns r
    (fun R2 g2 h2 h2g => by
      rw [hR] at h2
      cases h2
      rw [hRg] at h2g
      cases h2g
      exact hnoflip)
    chain N.parent n (ns.length + 1) hclimb hlast (Nat.lt_succ_of_le hchain)
  obtain ⟨W, hW, aW, rW, cW, oW⟩ := wrapRoot_spec self ns d r R g hR hRg hrc hfresh
  rw [hW] at hloop
  rw [hRp] at rW
  have hins := findInsert_only d once visible W n (freshAddr ns) r 0 _ false rW rfl
  have nW := oW n N.parent N.data hnr hnc ⟨N, hN, rfl, rfl⟩
  -- the splice, when the parent of the node is the former root and when it is not
  have hsplice : ∃ Z, spliceShift O W n n r (if shiftIsForward d then 1 else 0) = some Z
      ∧ addrs Z = addrs W
      ∧ layoutAt Z r = some (axisLayout d)
      ∧ childrenAt Z r
          = some (insertAt [freshAddr ns] (if shiftIsForward d then 1 else 0) n)
      ∧ parentAt Z r = some 0 ∧ parentAt Z n = some r
      ∧ parentAt Z (freshAddr ns) = some r
      ∧ layoutAt Z (freshAddr ns) = some g.layout
      ∧ childrenAt Z (freshAddr ns) = some (g.children.filter (fun x => x != n))
      ∧ ∀ x ∈ g.children, x ≠ n → parentAt Z x = some (freshAddr ns) := by
    by_cases hq : N.parent = r
    · -- the node is a direct child of the former root
      have hng : n ∈ g.children := hmem.2 hq
      rw [if_pos hng] at nW
      have hQR : gq = g := by
        rw [hq, hR] at hQ
        cases hQ
        rw [hRg] at hQg
        cases hQg
        rfl
      subst hQR
      obtain ⟨Z, hZ, aZ, lr, cr, pr, pn, pc, lc, cc, oZ⟩ :=
        spliceShift_other_parent O W n r (freshAddr ns) r (if shiftIsForward d then 1 else 0)
          _ gq N.data rW nW cW hr0 (freshAddr_ne_zero ns)
          (Ne.symm hrc1) hnr hnc hrest hkeep
      refine ⟨Z, hZ, aZ, lr, cr, pr, pn, pc, lc, cc, ?_⟩
      intro x hx hxn
      have hxr : x ≠ r := fun e => hrc (e ▸ hx)
      have hxc : x ≠ freshAddr ns := fun e => hfresh (e ▸ hx)
      obtain ⟨X, hX⟩ := getNode_of_mem_addrs ns x (hlive x hx)
      have xW := oW x X.parent X.data hxr hxc ⟨X, hX, rfl, rfl⟩
      rw [if_pos hx] at xW
      exact (oZ x _ _ hxn hxc hxr xW).1
    · -- the node lies deeper
      have hng : n ∉ g.children := fun h => hq (hmem.1 h)
      rw [if_neg hng] at nW
      have qW := oW N.parent Q.parent (.group gq) hq hqc ⟨Q, hQ, rfl, hQg⟩
      obtain ⟨Z, hZ, aZ, lr, cr, pr, pn, pq, _, _, oZ⟩ :=
        spliceShift_other_parent O W n r N.parent _ (if shiftIsForward d then 1 else 0)
          _ gq N.data rW nW qW hr0 hq0 hq hnr (Ne.symm hself) hrest hkeep
      have cZ := oZ (freshAddr ns) r (.group g) (Ne.symm hnc) (Ne.symm hqc) (Ne.symm hrc1) cW
      have hfilter : g.children.filter (fun x => x != n) = g.children := by
        rw [List.filter_eq_self]
        intro a ha
        have : a ≠ n := fun e => hng (e ▸ ha)
        simpa using this
      refine ⟨Z, hZ, aZ, lr, cr, pr, pn, cZ.1, ?_, ?_, ?_⟩
      · exact cZ.2.2
      · rw [hfilter]; exact cZ.2.1
      · intro x hx hxn
        have hxr : x ≠ r := fun e => hrc (e ▸ hx)
        have hxc : x ≠ freshAddr ns := fun e => hfresh (e ▸ hx)
        by_cases hxq : x = N.parent
        · rw [hxq, pq, if_pos (hxq ▸ hx)]
        · obtain ⟨X, hX⟩ := getNode_of_mem_addrs ns x (hlive x hx)
          have xW := oW x X.parent X.data hxr hxc ⟨X, hX, rfl, rfl⟩
          rw [if_pos hx] at xW
          exact (oZ x _ _ hxn hxq hxr xW).1
  obtain ⟨Z, hZ, aZ, lr, cr, pr, pn, pc, lc, cc, oZ⟩ := hsplice
  refine ⟨Z, ?_, by rw [aZ, aW], pr, lr, ?_, pn, pc, lc, cc, oZ⟩
  · unfold shiftOrGetFocus
    simp only [hE, hPl, hN, Option.bind_eq_bind, Option.some_bind, hloop, hins, hZ,
      Option.map_some']
  · rw [cr]
    cases shiftIsForward d <;> simp [insertAt]

/-- Witness for C6 (amended): in `root(SplitH)[A, B, C]`, shifting B upwards wraps the root:
the root becomes `SplitV` with the children B and the new node 5, which holds `SplitH` and
`[A, C]`. -/
theorem root_wrap_witness :
    ∃ Z, shiftOrGetFocus O0 C0 7 exThree 3 .Up true false false = some (Z, 0)
      ∧ addrs Z = [1, 2, 3, 4, 5]
      ∧ parentAt Z 2 = some 0
      ∧ layoutAt Z 2 = some .SplitV
      ∧ childrenAt Z 2 = some [3, 5]
      ∧ parentAt Z 3 = some 2
      ∧ parentAt Z 5 = some 2
      ∧ layoutAt Z 5 = some .SplitH
      ∧ childrenAt Z 5 = some [1, 4]
      ∧ ∀ x ∈ [1, 3, 4], x ≠ 3 → parentAt Z x = some 5 :=
  root_wrap O0 C0 7 exThree 3 2 .Up false false (leaf 3 2 102) (grp 2 0 .SplitH [1, 3, 4] 1)
    (grp 2 0 .SplitH [1, 3, 4] 1) _ _ [] rfl rfl rfl ⟨by decide, _, _, rfl, rfl, rfl, rfl⟩ rfl
    (by decide) rfl rfl (by decide) rfl rfl (by decide) (by decide) (by decide) (by decide)
    (by decide) (by decide)

/-- C6 (counterexample): in `root(SplitH)[A]`, shifting A upwards with `once = false` reaches
the root, which is not oriented along the direction and does not have exactly two children.
The root is wrapped, A is taken out of the new node, and the new node, left without a child,
is removed again: afterwards the root has one child and the tree has the nodes it had. -/
theorem root_wrap_counterexample :
    ∃ Z, shiftOrGetFocus O0 C0 7 exOne 1 .Up true false false = some (Z, 0)
      ∧ childrenAt exOne 2 = some [1]
      ∧ shiftMatchesLayout .SplitH .Up = false
      ∧ layoutAt Z 2 = some .SplitV
      ∧ childrenAt Z 2 = some [1]
      ∧ addrs Z = addrs exOne :=
  ⟨_, rfl, rfl, rfl, rfl, rfl, rfl⟩

/-! ## Autotile -/

/-- What `intoGroup` leaves behind: the receiver keeps its address and parent and is a group
of the requested layout whose only child is the new node; the new node holds the payload of
the receiver; the children of that payload have the new node as their parent; every other
node is as it was. -/
theorem intoGroup_spec (O : NodeOps) (ns : List Hy3Node) (a : Ptr) (layout : Hy3GroupLayout)
    (eph : GroupEphemeralityOption) (A : Hy3Node) (hA : getNode ns a = some A)
    (hac : a ∉ A.data.children) (hfresh : freshAddr ns ∉ A.data.children) :
    ∃ W G, intoGroup O ns a layout eph = some (W, freshAddr ns)
      ∧ addrs W = addrs ns ++ [freshAddr ns]
      ∧ NodeIs W a A.parent (.group G)
      ∧ G.layout = layout ∧ G.children = [freshAddr ns]
      ∧ NodeIs W (freshAddr ns) a A.data
      ∧ ∀ x par dat, x ≠ a → x ≠ freshAddr ns → NodeIs ns x par dat →
          NodeIs W x (if x ∈ A.data.children then freshAddr ns else par) dat := by
  have hac' : a ≠ freshAddr ns := by
    intro e
    have := getNode_freshAddr ns
    rw [← e, hA] at this
    cases this
  generalize hz : (Hy3Node.mk (freshAddr ns) a (.group (Hy3GroupData.ofLayout layout))
      A.position A.size A.workspace A.layout false 1 false) = z
  have hza : z.addr = freshAddr ns := by rw [← hz]
  have hzp : z.parent = a := by rw [← hz]
  have hzd : z.data = .group (Hy3GroupData.ofLayout layout) := by rw [← hz]
  have hzc : z.data.children = [] := by rw [hzd]; rfl
  have g1 : getNode (ns ++ [z]) a = some A := by rw [getNode_append, hA]
  have g2 : getNode (ns ++ [z]) (freshAddr ns) = some z := by
    rw [getNode_append, getNode_freshAddr]; simp [hza]
  generalize hY1 : modifyNode (ns ++ [z]) a (fun m => { m with data := z.data }) = Y1
  generalize hY2 : modifyNode Y1 (freshAddr ns) (fun m => { m with data := A.data }) = Y2
  have hswap : swapData (ns ++ [z]) a (freshAddr ns)
      = some (reparentChildren (reparentChildren Y2 a) (freshAddr ns)) := by
    simp only [swapData, g1, g2, Option.bind_eq_bind, Option.some_bind, hY1, hY2]
  have setData : ∀ (Y : List Hy3Node) (p x par : Ptr) (dat dd : Hy3NodeData), x ≠ p →
      NodeIs Y x par dat → NodeIs (modifyNode Y p (fun m => { m with data := dd })) x par dat :=
    fun Y p x par dat dd hx h => nodeIs_modifyNode_ne Y p x par dat _ (fun _ => rfl) hx h
  have setDataSelf : ∀ (Y : List Hy3Node) (p par : Ptr) (dat dd : Hy3NodeData),
      NodeIs Y p par dat → NodeIs (modifyNode Y p (fun m => { m with data := dd })) p par dd :=
    fun Y p par dat dd h => nodeIs_modifyNode_self Y p par par dat dd _ (fun _ => rfl)
      (fun n hp _ => ⟨hp, rfl⟩) h
  have hset : ∀ (Y : List Hy3Node) (q : Ptr) (dd : Hy3NodeData),
      addrs (modifyNode Y q (fun m => { m with data := dd })) = addrs Y :=
    fun Y q dd => addrs_modifyNode Y q _ (fun _ => rfl)
  have r0 : NodeIs (ns ++ [z]) a A.parent A.data := ⟨A, g1, rfl, rfl⟩
  have r1 : NodeIs Y1 a A.parent z.data := by rw [← hY1]; exact setDataSelf _ _ _ _ _ r0
  have r2 : NodeIs Y2 a A.parent z.data := by rw [← hY2]; exact setData _ _ _ _ _ _ hac' r1
  have c0 : NodeIs (ns ++ [z]) (freshAddr ns) a z.data := ⟨z, g2, hzp, rfl⟩
  have c1 : NodeIs Y1 (freshAddr ns) a z.data := by
    rw [← hY1]; exact setData _ _ _ _ _ _ (Ne.symm hac') c0
  have c2 : NodeIs Y2 (freshAddr ns) a A.data := by rw [← hY2]; exact setDataSelf _ _ _ _ _ c1
  have r3 : NodeIs (reparentChildren Y2 a) a A.parent z.data := by
    have := nodeIs_reparentChildren Y2 a a A.parent A.parent z.data z.data r2 r2
    simpa [hzc] using this
  have c3 : NodeIs (reparentChildren Y2 a) (freshAddr ns) a A.data := by
    have := nodeIs_reparentChildren Y2 a (freshAddr ns) a A.parent A.data z.data r2 c2
    simpa [hzc] using this
  generalize hY3 : reparentChildren Y2 a = Y3 at hswap r3 c3
  have r4 : NodeIs (reparentChildren Y3 (freshAddr ns)) a A.parent z.data := by
    have := nodeIs_reparentChildren Y3 (freshAddr ns) a A.parent a z.data A.data c3 r3
    simpa [hac] using this
  have c4 : NodeIs (reparentChildren Y3 (freshAddr ns)) (freshAddr ns) a A.data := by
    have := nodeIs_reparentChildren Y3 (freshAddr ns) (freshAddr ns) a a A.data A.data c3 c3
    simpa [hfresh] using this
  have other : ∀ x par dat, x ≠ a → x ≠ freshAddr ns → NodeIs ns x par dat →
      NodeIs (reparentChildren Y3 (freshAddr ns)) x
        (if x ∈ A.data.children then freshAddr ns else par) dat := by
    intro x par dat hxr hxc h
    have x0 : NodeIs (ns ++ [z]) x par dat := nodeIs_append ns z x par dat h
    have x1 : NodeIs Y1 x par dat := by rw [← hY1]; exact setData _ _ _ _ _ _ hxr x0
    have x2 : NodeIs Y2 x par dat := by rw [← hY2]; exact setData _ _ _ _ _ _ hxc x1
    have x3 : NodeIs Y3 x par dat := by
      have := nodeIs_reparentChildren Y2 a x par A.parent dat z.data r2 x2
      rw [← hY3]
      simpa [hzc] using this
    exact nodeIs_reparentChildren Y3 (freshAddr ns) x par a dat A.data c3 x3
  generalize hY4 : reparentChildren Y3 (freshAddr ns) = Y4 at hswap r4 c4 other
  have hadd : addrs Y4 = addrs ns ++ [freshAddr ns] := by
    rw [← hY4, addrs_reparentChildren, ← hY3, addrs_reparentChildren, ← hY2, hset, ← hY1, hset,
      addrs_append, hza]
  obtain ⟨G, hG⟩ : ∃ G : Hy3GroupData,
      G = (fun g0 : Hy3GroupData =>
            { g0 with children := [freshAddr ns]
                      group_focused := false
                      focused_child := freshAddr ns })
            ((Hy3GroupData.ofLayout layout).setEphemeral eph) := ⟨_, rfl⟩
  have hGl : G.layout = layout := by
    rw [hG]
    cases eph <;> rfl
  have hGc : G.children = [freshAddr ns] := by rw [hG]
  refine ⟨recalcSizePosRecursive O (modifyNode Y4 a (fun m => { m with data := .group G })) a,
    G, ?_, ?_, ?_, hGl, hGc, ?_, ?_⟩
  · unfold intoGroup
    simp only [hA, Option.bind_eq_bind, Option.some_bind, hz, hswap]
    rw [hG]
  · rw [addrs_recalc, hset, hadd]
  · exact nodeIs_recalc O _ a _ _ _ (setDataSelf Y4 a A.parent z.data (.group G) r4)
  · exact nodeIs_recalc O _ a _ _ _ (setData Y4 a _ _ _ _ (Ne.symm hac') c4)
  · intro x par dat hxr hxc h
    exact nodeIs_recalc O _ a _ _ _ (setData Y4 a _ _ _ _ hxr (other x par dat hxr hxc h))

theorem contentAt_of_shape (a b : List Hy3Node) (h : treeShape a = treeShape b) (x : Ptr) :
    contentAt a x = contentAt b x := by
  have e : ∀ ns : List Hy3Node, contentAt ns x
      = ((getNode ns x).map Hy3Node.shape).map (fun s => s.2.2) := by
    intro ns
    simp only [contentAt, Option.map_map]
    rfl
  rw [e a, e b, shape_getNode, shape_getNode, h]

theorem contentAt_of_nodeIs (X Y : List Hy3Node) (x y px py : Ptr) (dat : Hy3NodeData)
    (hx : NodeIs X x px dat) (hy : NodeIs Y y py dat) : contentAt X x = contentAt Y y := by
  obtain ⟨m, hm, _, hmd⟩ := hx
  obtain ⟨k, hk, _, hkd⟩ := hy
  simp only [contentAt, hm, hk, Option.map_some', Hy3Node.shape, hmd, hkd]

theorem parentChain_congr (a b : List Hy3Node) (chain : List Ptr) :
    ∀ p, (∀ x ∈ p :: chain, parentAt b x = parentAt a x) → parentChain a p chain →
      parentChain b p chain := by
  induction chain with
  | nil =>
    intro p h hp
    simp only [parentChain] at hp ⊢
    rw [h p (List.mem_cons_self _ _)]
    exact hp
  | cons q rest ih =>
    intro p h hp
    simp only [parentChain] at hp ⊢
    refine ⟨?_, hp.2.1, ih q (fun x hx => h x (List.mem_cons_of_mem _ hx)) hp.2.2⟩
    rw [h p (List.mem_cons_self _ _)]
    exact hp.1

theorem parentChain_live (ns : List Hy3Node) (chain : List Ptr) :
    ∀ p, parentChain ns p chain → ∀ x ∈ p :: chain, ∃ X, getNode ns x = some X := by
  induction chain with
  | nil =>
    intro p hp x hx
    simp only [List.mem_singleton] at hx
    subst hx
    simp only [parentChain, parentAt, Option.map_eq_some'] at hp
    obtain ⟨X, hX, _⟩ := hp
    exact ⟨X, hX⟩
  | cons q rest ih =>
    intro p hp x hx
    simp only [parentChain] at hp
    rcases List.mem_cons.1 hx with rfl | hx
    · simp only [parentAt, Option.map_eq_some'] at hp
      obtain ⟨⟨X, hX, _⟩, _⟩ := hp
      exact ⟨X, hX⟩
    · exact ih q hp.2.2 x hx

/-- The splice of `insertNode` after a live anchor: the node becomes the child of the group
right after the anchor, and nothing else about the shape of the tree changes. -/
theorem insertNodeSplice_spec (O : NodeOps) (Y : List Hy3Node) (node t after par pn : Ptr)
    (gt : Hy3GroupData) (dn : Hy3NodeData) (chain : List Ptr)
    (ht : NodeIs Y t par (.group gt)) (hn : NodeIs Y node pn dn)
    (hnt : node ≠ t) (ht0 : t ≠ 0) (ha0 : after ≠ 0) (hafter : after ∈ gt.children)
    (hchain : parentChain Y t chain) (hnc : node ∉ chain)
    (hlen : chain.length + 1 ≤ Y.length) :
    ∃ Z, insertNodeSplice O Y node t after = some Z ∧ addrs Z = addrs Y
      ∧ childrenAt Z t = some (insertAt gt.children (findIdx gt.children after + 1) node)
      ∧ layoutAt Z t = some gt.layout
      ∧ parentAt Z t = some par
      ∧ parentAt Z node = some t
      ∧ ∀ x px dat, x ≠ node → x ≠ t → NodeIs Y x px dat →
          parentAt Z x = some px ∧ childrenAt Z x = some dat.children
            ∧ ∀ Y0 y py, NodeIs Y0 y py dat → contentAt Z x = contentAt Y0 y := by
  have setPar : ∀ (X : List Hy3Node) (x px : Ptr) (dat : Hy3NodeData), x ≠ node →
      NodeIs X x px dat →
      NodeIs (modifyNode X node (fun n => { n with parent := t, reparenting := false }))
        x px dat :=
    fun X x px dat hx h => nodeIs_modifyNode_ne X node x px dat _ (fun _ => rfl) hx h
  have setParSelf : ∀ (X : List Hy3Node) (px : Ptr) (dat : Hy3NodeData),
      NodeIs X node px dat →
      NodeIs (modifyNode X node (fun n => { n with parent := t, reparenting := false }))
        node t dat :=
    fun X px dat h => nodeIs_modifyNode_self X node px t dat dat _ (fun _ => rfl)
      (fun m _ hd => ⟨rfl, hd⟩) h
  have setParAddrs : ∀ (X : List Hy3Node),
      addrs (modifyNode X node (fun n => { n with parent := t, reparenting := false }))
        = addrs X :=
    fun X => addrs_modifyNode X node _ (fun _ => rfl)
  generalize hY1 : modifyNode Y node (fun n => { n with parent := t, reparenting := false })
    = Y1
  have t1 : NodeIs Y1 t par (.group gt) := by
    rw [← hY1]; exact setPar Y t par _ (Ne.symm hnt) ht
  have n1 : NodeIs Y1 node t dn := by rw [← hY1]; exact setParSelf Y pn dn hn
  have a1 : addrs Y1 = addrs Y := by rw [← hY1, setParAddrs]
  generalize hch : insertAt gt.children (findIdx gt.children after + 1) node = ch
  generalize hY2 : modifyGroup Y1 t (fun g => { g with children := ch }) = Y2
  have t2 : NodeIs Y2 t par (.group { gt with children := ch }) := by
    rw [← hY2]; exact nodeIs_modifyGroup_self Y1 t par gt _ t1
  have n2 : NodeIs Y2 node t dn := by
    rw [← hY2]; exact nodeIs_modifyGroup_ne Y1 t node t dn _ hnt n1
  have a2 : addrs Y2 = addrs Y := by rw [← hY2, addrs_modifyGroup, a1]
  have o2 : ∀ x px dat, x ≠ node → x ≠ t → NodeIs Y x px dat → NodeIs Y2 x px dat := by
    intro x px dat hxn hxt h
    rw [← hY2, ← hY1]
    exact nodeIs_modifyGroup_ne _ t x px dat _ hxt (setPar Y x px dat hxn h)
  have hpar : ∀ x, x ≠ node → parentAt Y2 x = parentAt Y x := by
    intro x hx
    rw [← hY2, parentAt_modifyGroup, ← hY1]
    unfold parentAt
    rw [getNode_modifyNode Y node x (fun n : Hy3Node => { n with parent := t, reparenting := false })
      (fun _ => rfl), if_neg hx]
  have hchain2 : parentChain Y2 node (t :: chain) := by
    refine ⟨parentAt_of_nodeIs Y2 node t dn n2, ht0, ?_⟩
    apply parentChain_congr Y Y2 chain t _ hchain
    intro x hx
    apply hpar
    rcases List.mem_cons.1 hx with rfl | hx
    · exact Ne.symm hnt
    · exact fun e => hnc (e ▸ hx)
  have hlen2 : (t :: chain).length ≤ Y2.length := by
    rw [length_of_addrs Y2 Y a2]
    exact hlen
  obtain ⟨Y3, hY3, hshape⟩ := markFocused_succeeds Y2 node (t :: chain) hchain2 hlen2
  have hidx : findIdx gt.children after < gt.children.length := by
    unfold findIdx
    exact List.indexOf_lt_length.2 hafter
  refine ⟨recalcSizePosRecursive O Y3 t, ?_, ?_, ?_, ?_, ?_, ?_, ?_⟩
  · obtain ⟨T1, hT1, _, hT1d⟩ := t1
    unfold insertNodeSplice
    simp only [hY1, hT1, hT1d, Hy3NodeData.as_group, Option.bind_eq_bind, Option.some_bind,
      if_neg ha0, if_pos hidx, hch, hY2, hY3]
  · rw [addrs_recalc, addrs_of_shape Y3 Y2 hshape, a2]
  · rw [childrenAt_recalc, childrenAt_of_shape Y3 Y2 hshape, childrenAt_of_nodeIs Y2 t par _ t2]
  · rw [layoutAt_recalc, layoutAt_of_shape Y3 Y2 hshape, layoutAt_of_nodeIs Y2 t par _ t2]
  · rw [parentAt_recalc, parentAt_of_shape Y3 Y2 hshape, parentAt_of_nodeIs Y2 t par _ t2]
  · rw [parentAt_recalc, parentAt_of_shape Y3 Y2 hshape, parentAt_of_nodeIs Y2 node t _ n2]
  · intro x px dat hxn hxt h
    have x2 := o2 x px dat hxn hxt h
    have x3 := nodeIs_recalc O Y2 t x px dat x2
    have hsh : treeShape (recalcSizePosRecursive O Y3 t) = treeShape (recalcSizePosRecursive O Y2 t) := by
      rw [treeShape_recalc, treeShape_recalc, hshape]
    refine ⟨?_, ?_, ?_⟩
    · rw [parentAt_of_shape _ _ hsh, parentAt_of_nodeIs _ x px dat x3]
    · rw [childrenAt_of_shape _ _ hsh]
      obtain ⟨m, hm, _, hd⟩ := x3
      simp [childrenAt, hm, hd]
    · intro Y0 y py hy
      rw [contentAt_of_shape _ _ hsh]
      exact contentAt_of_nodeIs _ _ x y px py dat x3 hy

/-- With autotile enabled, a non-null anchor, an eligible workspace and a positive trigger, the
two tests of the autotile block (lines 561-563 and 570) come down to: the group is not
`Tabbed`, has at least two children, and the size after the addition is below the trigger. -/
theorem autotile_test (C : Compositor) (atl : Autotile) (P : Hy3Node) (g : Hy3GroupData)
    (a : Ptr) (hen : C.config.at_enable ≠ 0) (ha0 : a ≠ 0)
    (hws : shouldAutotileWorkspace atl (C.m_id P.workspace) = true)
    (htrig : 0 < autotileTrigger C g) :
    (autotileApplies C atl P g a && autotileSplits C P g) = true
      ↔ (g.layout ≠ .Tabbed ∧ 2 ≤ g.children.length
          ∧ sizeAfterAddition P g < (autotileTrigger C g : Rat)) := by
  have h1 : autotileTrigger C g ≥ 0 := le_of_lt htrig
  have h2 : autotileTrigger C g ≠ 0 := ne_of_gt htrig
  simp only [autotileApplies, autotileSplits, hen, ha0, hws, h1, h2, ne_eq, not_false_eq_true,
    decide_True, Bool.true_and, Bool.and_true, Bool.and_eq_true, decide_eq_true_eq, bne_iff_ne,
    false_or, true_and, gt_iff_lt]
  constructor
  · rintro ⟨⟨hl, ht⟩, hs⟩
    exact ⟨ht, hl, hs⟩
  · rintro ⟨ht, hl, hs⟩
    exact ⟨⟨hl, ht⟩, hs⟩

/-- C3: in the placement part of `insertNode` (lines 550-603) with autotile enabled, a
non-null anchor `a` that is a child of the group `p`, an eligible workspace and a positive
trigger for the axis of `p`, the insertion succeeds, and the anchor is wrapped in a new
sub-group of the opposite orientation that holds the former anchor and then the new node,
with the children sequence of `p` unchanged, if and only if `p` is not `Tabbed`, has at least
two children, and its size along its axis divided by the number of children plus one is
strictly below the trigger.  Otherwise the new node becomes a direct child of `p` right after
the anchor. -/
theorem autotile_wraps_iff (O : NodeOps) (C : Compositor) (atl : Autotile)
    (ns : List Hy3Node) (node p a : Ptr) (Nd A P : Hy3Node) (g : Hy3GroupData)
    (chain : List Ptr)
    (hNd : getNode ns node = some Nd)
    (hA : getNode ns a = some A) (ha0 : a ≠ 0) (hAp : A.parent = p) (hp0 : p ≠ 0)
    (hP : getNode ns p = some P) (hPg : P.data = .group g) (hmem : a ∈ g.children)
    (hchain : parentChain ns p chain) (hlen : chain.length + 1 ≤ ns.length)
    (hna : node ≠ a) (hnp : node ≠ p) (hap : a ≠ p) (hnc : node ∉ chain) (hac : a ∉ chain)
    (hAc : ∀ x ∈ A.data.children, x ∈ addrs ns ∧ x ≠ a ∧ x ≠ p ∧ x ∉ chain)
    (hen : C.config.at_enable ≠ 0)
    (hws : shouldAutotileWorkspace atl (C.m_id P.workspace) = true)
    (htrig : 0 < autotileTrigger C g) :
    ∃ ns1, insertNodePlace O C atl ns node p a = some ns1
      ∧ ((∃ a1, a1 ∉ addrs ns ∧ addrs ns1 = addrs ns ++ [a1]
            ∧ childrenAt ns1 p = some g.children
            ∧ parentAt ns1 a = some p
            ∧ layoutAt ns1 a = some (if g.layout = .SplitH then .SplitV else .SplitH)
            ∧ childrenAt ns1 a = some [a1, node]
            ∧ parentAt ns1 a1 = some a
            ∧ parentAt ns1 node = some a
            ∧ contentAt ns1 a1 = contentAt ns a)
          ↔ (g.layout ≠ .Tabbed ∧ 2 ≤ g.children.length
              ∧ sizeAfterAddition P g < (autotileTrigger C g : Rat)))
      ∧ (¬ (g.layout ≠ .Tabbed ∧ 2 ≤ g.children.length
              ∧ sizeAfterAddition P g < (autotileTrigger C g : Rat)) →
          addrs ns1 = addrs ns
            ∧ childrenAt ns1 p
                = some (insertAt g.children (findIdx g.children a + 1) node)
            ∧ parentAt ns1 node = some p) := by
  have htest := autotile_test C atl P g a hen ha0 hws htrig
  have hfreshLive : ∀ x X, getNode ns x = some X → x ≠ freshAddr ns := by
    intro x X hX e
    rw [e, getNode_freshAddr] at hX
    cases hX
  by_cases hc : g.layout ≠ .Tabbed ∧ 2 ≤ g.children.length
      ∧ sizeAfterAddition P g < (autotileTrigger C g : Rat)
  · -- the anchor is wrapped
    have hac1 : a ∉ A.data.children := fun h => (hAc a h).2.1 rfl
    have hfresh : freshAddr ns ∉ A.data.children := by
      intro h
      obtain ⟨X, hX⟩ := getNode_of_mem_addrs ns _ (hAc _ h).1
      exact hfreshLive _ X hX rfl
    obtain ⟨W, G, hW, aW, rW, hGl, hGc, cW, oW⟩ := intoGroup_spec O ns a
      (if g.layout = .SplitH then .SplitV else .SplitH)
      (if C.config.at_ephemeral ≠ 0 then .Ephemeral else .Standard) A hA hac1 hfresh
    rw [hAp] at rW
    have hauto : insertNodeAutotile O C atl ns p a = some (W, a, freshAddr ns) := by
      unfold insertNodeAutotile
      simp only [hP, hPg, Hy3NodeData.as_group, Option.bind_eq_bind, Option.some_bind,
        htest.2 hc, if_true, hW]
    have nW := oW node Nd.parent Nd.data hna (hfreshLive node Nd hNd) ⟨Nd, hNd, rfl, rfl⟩
    have pW := oW p P.parent (.group g) (Ne.symm hap) (hfreshLive p P hP) ⟨P, hP, rfl, hPg⟩
    have hchainW : parentChain W a (p :: chain) := by
      refine ⟨parentAt_of_nodeIs W a p _ rW, hp0, ?_⟩
      apply parentChain_congr ns W chain p _ hchain
      intro x hx
      obtain ⟨X, hX⟩ := parentChain_live ns chain p hchain x hx
      have hxa : x ≠ a := by
        rcases List.mem_cons.1 hx with rfl | hx
        · exact Ne.symm hap
        · exact fun e => hac (e ▸ hx)
      have hxc : x ∉ A.data.children := by
        intro h
        rcases List.mem_cons.1 hx with rfl | hx
        · exact (hAc _ h).2.2.1 rfl
        · exact (hAc _ h).2.2.2 hx
      have xW := oW x X.parent X.data hxa (hfreshLive x X hX) ⟨X, hX, rfl, rfl⟩
      rw [if_neg hxc] at xW
      rw [parentAt_of_nodeIs W x _ _ xW]
      simp [parentAt, hX]
    have hncW : node ∉ p :: chain := by
      intro h
      rcases List.mem_cons.1 h with e | h
      · exact hnp e
      · exact hnc h
    have hlenW : (p :: chain).length + 1 ≤ W.length := by
      have : W.length = ns.length + 1 := by
        have := congrArg List.length aW
        simpa [addrs] using this
      rw [this]
      exact Nat.succ_le_succ hlen
    have hmemG : freshAddr ns ∈ G.children := by rw [hGc]; exact List.mem_singleton_self _
    obtain ⟨Z, hZ, aZ, ca, la, pa, pn, oZ⟩ := insertNodeSplice_spec O W node a (freshAddr ns) p
      _ G Nd.data (p :: chain) rW nW hna ha0 (freshAddr_ne_zero ns) hmemG hchainW hncW hlenW
    have hcZ := oZ (freshAddr ns) a A.data (Ne.symm (hfreshLive node Nd hNd))
      (Ne.symm (hfreshLive a A hA)) cW
    have hpZ := oZ p _ (.group g) (Ne.symm hnp) (Ne.symm hap) pW
    have hwrapped : ∃ a1, a1 ∉ addrs ns ∧ addrs Z = addrs ns ++ [a1]
        ∧ childrenAt Z p = some g.children
        ∧ parentAt Z a = some p
        ∧ layoutAt Z a = some (if g.layout = .SplitH then .SplitV else .SplitH)
        ∧ childrenAt Z a = some [a1, node]
        ∧ parentAt Z a1 = some a
        ∧ parentAt Z node = some a
        ∧ contentAt Z a1 = contentAt ns a := by
      refine ⟨freshAddr ns, ?_, by rw [aZ, aW], hpZ.2.1, pa, by rw [la, hGl], ?_, hcZ.1, pn,
        hcZ.2.2 ns a A.parent ⟨A, hA, rfl, rfl⟩⟩
      · intro h
        obtain ⟨X, hX⟩ := getNode_of_mem_addrs ns _ h
        exact hfreshLive _ X hX rfl
      · rw [ca, hGc]
        simp [findIdx, insertAt]
    refine ⟨Z, ?_, ⟨fun _ => hc, fun _ => hwrapped⟩, fun h => absurd hc h⟩
    unfold insertNodePlace
    simp only [hauto, Option.bind_eq_bind, Option.some_bind, hZ]
  · -- the node becomes a direct child
    have hno : (autotileApplies C atl P g a && autotileSplits C P g) = false := by
      cases h : (autotileApplies C atl P g a && autotileSplits C P g)
      · rfl
      · exact absurd (htest.1 h) hc
    have hauto : insertNodeAutotile O C atl ns p a = some (ns, p, a) := by
      unfold insertNodeAutotile
      simp only [hP, hPg, Hy3NodeData.as_group, Option.bind_eq_bind, Option.some_bind, hno,
        Bool.false_eq_true, if_false]
    obtain ⟨Z, hZ, aZ, cp, _, _, pn, _⟩ := insertNodeSplice_spec O ns node p a P.parent
      Nd.parent g Nd.data chain ⟨P, hP, rfl, hPg⟩ ⟨Nd, hNd, rfl, rfl⟩ hnp hp0 ha0 hmem hchain
      hnc hlen
    refine ⟨Z, ?_, ⟨fun h => ?_, fun h => absurd h hc⟩, fun _ => ⟨aZ, cp, pn⟩⟩
    · unfold insertNodePlace
      simp only [hauto, Option.bind_eq_bind, Option.some_bind, hZ]
    · obtain ⟨a1, _, _, _, _, _, _, _, hpn, _⟩ := h
      rw [pn] at hpn
      cases hpn
      exact absurd rfl hap

/-- Witness for C3: width 900, three children, trigger width 300: a fourth child would be 225
wide, so the anchor (the third child, at 4) is wrapped in a vertical sub-group that holds the
former anchor and the new window, and the root keeps its three children.  The placement is
the one `insertNode` arrives at for this tree. -/
theorem autotile_wraps_iff_witness :
    ∃ ns1, insertNodePlace O0 CAuto ⟨"all", false, []⟩ exAuto 5 2 4 = some ns1
      ∧ (insertNode O0 CAuto (layoutOver exAutoBefore) 5).map (fun L => L.nodes) = some ns1
      ∧ sizeAfterAddition rootAuto groupAuto = 225
      ∧ autotileTrigger CAuto groupAuto = 300
      ∧ ∃ a1, a1 ∉ addrs exAuto ∧ addrs ns1 = addrs exAuto ++ [a1]
          ∧ childrenAt ns1 2 = some [1, 3, 4]
          ∧ parentAt ns1 4 = some 2
          ∧ layoutAt ns1 4 = some .SplitV
          ∧ childrenAt ns1 4 = some [a1, 5]
          ∧ parentAt ns1 a1 = some 4
          ∧ parentAt ns1 5 = some 4
          ∧ contentAt ns1 a1 = some (.inl 103) := by
  have hsize : sizeAfterAddition rootAuto groupAuto = 225 := by
    simp [sizeAfterAddition, rootAuto, groupAuto, Hy3Node.init, Hy3GroupData.ofLayout]
    norm_num
  have htrig : autotileTrigger CAuto groupAuto = 300 := rfl
  obtain ⟨ns1, h1, h2, _⟩ := autotile_wraps_iff O0 CAuto ⟨"all", false, []⟩ exAuto 5 2 4
    { leaf 5 0 104 with reparenting := true } (leaf 4 2 103) rootAuto groupAuto []
    rfl rfl (by decide) rfl (by decide) rfl rfl (by decide) rfl (by decide) (by decide)
    (by decide) (by decide) (by simp) (by simp) (fun x hx => by cases hx) (by decide) rfl
    (by decide)
  refine ⟨ns1, h1, ?_, hsize, htrig, h2.2 ⟨by decide, by decide, ?_⟩⟩
  · rw [← h1]
    with_unfolding_all rfl
  · rw [hsize, htrig]
    norm_num

/-! ## Autotile workspace filter -/

theorem updateAutotileWorkspaces_same (C : Compositor) (a : Autotile)
    (h : C.config.autotile_raw_workspaces = a.raw_workspaces) :
    updateAutotileWorkspaces C a = a := by
  unfold updateAutotileWorkspaces
  simp only []
  rw [if_pos h]

theorem updateAutotileWorkspaces_all (C : Compositor) (a : Autotile)
    (h1 : C.config.autotile_raw_workspaces ≠ a.raw_workspaces)
    (h2 : C.config.autotile_raw_workspaces = "all") :
    updateAutotileWorkspaces C a = ⟨"all", a.workspace_blacklist, []⟩ := by
  unfold updateAutotileWorkspaces
  simp only []
  rw [if_neg h1, if_pos h2, h2]

theorem updateAutotileWorkspaces_parse (C : Compositor) (a : Autotile)
    (h1 : C.config.autotile_raw_workspaces ≠ a.raw_workspaces)
    (h2 : C.config.autotile_raw_workspaces ≠ "all") :
    updateAutotileWorkspaces C a
      = ⟨C.config.autotile_raw_workspaces,
         startsWithNot C.config.autotile_raw_workspaces.toList,
         (((if startsWithNot C.config.autotile_raw_workspaces.toList
              then C.config.autotile_raw_workspaces.toList.drop 4
              else C.config.autotile_raw_workspaces.toList).splitOnP isDelimiter).filterMap
            stoi).foldl (fun acc i => if i ∈ acc then acc else acc ++ [i]) []⟩ := by
  unfold updateAutotileWorkspaces
  simp only []
  rw [if_neg h1, if_neg h2]

/-- A filter whose raw string is `all` has an empty set, in every state an instance reaches. -/
theorem updatesFrom_all_empty (Cs : List Compositor) :
    ∀ a : Autotile, (a.raw_workspaces = "all" → a.workspaces = []) →
      (updatesFrom a Cs).raw_workspaces = "all" → (updatesFrom a Cs).workspaces = [] := by
  induction Cs with
  | nil => intro a h; exact h
  | cons C rest ih =>
    intro a h
    apply ih
    intro hall
    by_cases h1 : C.config.autotile_raw_workspaces = a.raw_workspaces
    · rw [updateAutotileWorkspaces_same C a h1] at hall ⊢
      exact h hall
    · by_cases h2 : C.config.autotile_raw_workspaces = "all"
      · rw [updateAutotileWorkspaces_all C a h1 h2]
      · rw [updateAutotileWorkspaces_parse C a h1 h2] at hall
        exact absurd hall h2

/-- C14: after `updateAutotileWorkspaces` has run with the raw configuration string `all`,
`shouldAutotileWorkspace` is true for every workspace id, in whatever state the filter was
before the call: any state an instance reaches from its construction, with either value of
the uninitialised flag `workspace_blacklist`, by any sequence of earlier updates. -/
theorem autotile_all (blacklist : Bool) (Cs : List Compositor) (C : Compositor) (id : Int)
    (hall : C.config.autotile_raw_workspaces = "all") :
    shouldAutotileWorkspace
      (updateAutotileWorkspaces C (updatesFrom (Autotile.initial blacklist) Cs)) id = true := by
  have hinv := updatesFrom_all_empty Cs (Autotile.initial blacklist)
    (fun h => by simp [Autotile.initial] at h)
  generalize updatesFrom (Autotile.initial blacklist) Cs = a at hinv
  have hempty : (updateAutotileWorkspaces C a).workspaces = [] := by
    by_cases h1 : C.config.autotile_raw_workspaces = a.raw_workspaces
    · rw [updateAutotileWorkspaces_same C a h1]
      exact hinv (h1 ▸ hall)
    · rw [updateAutotileWorkspaces_all C a h1 hall]
  unfold shouldAutotileWorkspace
  rw [hempty]
  cases (updateAutotileWorkspaces C a).workspace_blacklist <;> rfl

/-- Witness for C14: an instance that had the deny-list `not:1` and is then configured with
`all` autotiles workspace 1. -/
theorem autotile_all_witness :
    shouldAutotileWorkspace
      (updateAutotileWorkspaces CAuto
        (updatesFrom (Autotile.initial false)
          [{ C0 with config := { cfg0 with autotile_raw_workspaces := "not:1" } }])) 1 = true :=
  autotile_all false [{ C0 with config := { cfg0 with autotile_raw_workspaces := "not:1" } }]
    CAuto 1 rfl

/-! ## Decimal numerals and `std::stoi` -/

theorem digitChar_facts (k : Nat) (h : k < 10) :
    (Nat.digitChar k).isDigit = true ∧ (Nat.digitChar k).toNat - 48 = k
      ∧ isDelimiter (Nat.digitChar k) = false
      ∧ Nat.digitChar k ≠ '-' ∧ Nat.digitChar k ≠ '+' := by
  interval_cases k <;> decide

/-- The value `std::stoi` accumulates over a run of digits. -/
theorem foldl_digits_append (xs : List Char) (c : Char) (a : Nat) :
    (xs ++ [c]).foldl (fun a c => 10 * a + (c.toNat - 48)) a
      = 10 * xs.foldl (fun a c => 10 * a + (c.toNat - 48)) a + (c.toNat - 48) := by
  rw [List.foldl_append]
  rfl

theorem toDigitsCore_append (f : Nat) : ∀ (n : Nat) (ds : List Char),
    Nat.toDigitsCore 10 f n ds = Nat.toDigitsCore 10 f n [] ++ ds := by
  induction f with
  | zero => intro n ds; simp [Nat.toDigitsCore]
  | succ k ih =>
    intro n ds
    simp only [Nat.toDigitsCore]
    by_cases h : n / 10 = 0
    · simp [h]
    · simp only [h, if_false]
      rw [ih (n / 10) (Nat.digitChar (n % 10) :: ds), ih (n / 10) [Nat.digitChar (n % 10)]]
      simp

theorem toDigitsCore_spec (f : Nat) : ∀ n, n < f →
    (Nat.toDigitsCore 10 f n []).foldl (fun a c => 10 * a + (c.toNat - 48)) 0 = n
      ∧ (∀ c ∈ Nat.toDigitsCore 10 f n [], c.isDigit = true ∧ isDelimiter c = false)
      ∧ Nat.toDigitsCore 10 f n [] ≠ [] := by
  induction f with
  | zero => intro n h; cases h
  | succ k ih =>
    intro n hn
    have hd := digitChar_facts (n % 10) (Nat.mod_lt _ (by decide))
    simp only [Nat.toDigitsCore]
    by_cases h : n / 10 = 0
    · simp only [h, if_true]
      refine ⟨?_, ?_, by simp⟩
      · simp only [List.foldl, Nat.mul_zero, Nat.zero_add]
        rw [hd.2.1]
        have := Nat.div_add_mod n 10
        omega
      · intro c hc
        simp only [List.mem_singleton] at hc
        subst hc
        exact ⟨hd.1, hd.2.2.1⟩
    · simp only [h, if_false]
      rw [toDigitsCore_append]
      have hlt : n / 10 < k := by omega
      obtain ⟨h1, h2, _⟩ := ih (n / 10) hlt
      refine ⟨?_, ?_, by simp⟩
      · rw [foldl_digits_append, h1, hd.2.1]
        have := Nat.div_add_mod n 10
        omega
      · intro c hc
        rcases List.mem_append.1 hc with hc | hc
        · exact h2 c hc
        · simp only [List.mem_singleton] at hc
          subst hc
          exact ⟨hd.1, hd.2.2.1⟩

theorem toDigits_spec (n : Nat) :
    (Nat.toDigits 10 n).foldl (fun a c => 10 * a + (c.toNat - 48)) 0 = n
      ∧ (∀ c ∈ Nat.toDigits 10 n, c.isDigit = true ∧ isDelimiter c = false)
      ∧ Nat.toDigits 10 n ≠ [] :=
  toDigitsCore_spec (n + 1) n (Nat.lt_succ_self n)

theorem takeWhile_digits (ds : List Char) (h : ∀ c ∈ ds, c.isDigit = true) :
    ds.takeWhile Char.isDigit = ds := by
  induction ds with
  | nil => rfl
  | cons c r ih =>
    rw [List.takeWhile_cons, h c (List.mem_cons_self _ _),
      ih (fun x hx => h x (List.mem_cons_of_mem _ hx))]
    rfl

/-- The conversion reads a run of digits without a sign as its value. -/
theorem stoi_digits (ds : List Char) (h : ∀ c ∈ ds, c.isDigit = true) (hne : ds ≠ [])
    (hr : (ds.foldl (fun a c => 10 * a + (c.toNat - 48)) 0 : Nat) ≤ 2147483647) :
    stoi ds = some ((ds.foldl (fun a c => 10 * a + (c.toNat - 48)) 0 : Nat) : Int) := by
  cases ds with
  | nil => exact absurd rfl hne
  | cons c r =>
    have hc := h c (List.mem_cons_self _ _)
    have hm : c ≠ '-' := by intro e; rw [e] at hc; exact absurd hc (by decide)
    have hp : c ≠ '+' := by intro e; rw [e] at hc; exact absurd hc (by decide)
    unfold stoi
    split
    · next r1 heq => cases heq; exact absurd rfl hm
    · next r1 heq => cases heq; exact absurd rfl hp
    · simp only [takeWhile_digits (c :: r) h, List.isEmpty_cons, Bool.false_eq_true, if_false]
      rw [if_pos]
      constructor
      · omega
      · exact_mod_cast hr

/-- The conversion reads a minus sign and a run of digits as the negated value. -/
theorem stoi_minus_digits (ds : List Char) (h : ∀ c ∈ ds, c.isDigit = true) (hne : ds ≠ [])
    (hr : (ds.foldl (fun a c => 10 * a + (c.toNat - 48)) 0 : Nat) ≤ 2147483648) :
    stoi ('-' :: ds)
      = some (-((ds.foldl (fun a c => 10 * a + (c.toNat - 48)) 0 : Nat) : Int)) := by
  cases ds with
  | nil => exact absurd rfl hne
  | cons c r =>
    unfold stoi
    simp only [takeWhile_digits (c :: r) h, List.isEmpty_cons, Bool.false_eq_true, if_false,
      if_true]
    rw [if_pos]
    constructor
    · omega
    · omega

/-- The conversion `std::stoi` reads the decimal numeral of an `int` as that number. -/
theorem stoi_decimal (i : Int) (hlo : -2147483648 ≤ i) (hhi : i ≤ 2147483647) :
    stoi (decimal i) = some i := by
  obtain ⟨hv, hd, hne⟩ := toDigits_spec i.natAbs
  unfold decimal
  by_cases h : i < 0
  · rw [if_pos h, stoi_minus_digits _ (fun c hc => (hd c hc).1) hne (by rw [hv]; omega), hv]
    congr 1
    omega
  · rw [if_neg h, stoi_digits _ (fun c hc => (hd c hc).1) hne (by rw [hv]; omega), hv]
    congr 1
    omega

theorem decimal_ne_nil (i : Int) : decimal i ≠ [] := by
  unfold decimal
  split
  · simp
  · exact (toDigits_spec i.natAbs).2.2

theorem decimal_no_delimiter (i : Int) : ∀ c ∈ decimal i, ¬ isDelimiter c = true := by
  intro c hc
  unfold decimal at hc
  split at hc
  · rcases List.mem_cons.1 hc with rfl | hc
    · decide
    · rw [((toDigits_spec i.natAbs).2.1 c hc).2]; decide
  · rw [((toDigits_spec i.natAbs).2.1 c hc).2]; decide

/-! ## Tokens of an id list -/

theorem stoi_nil : stoi [] = none := by
  unfold stoi
  simp

/-- Leading delimiters leave only empty tokens, which the conversion rejects. -/
theorem tokens_skip_delimiters (ds ys : List Char) (h : ∀ c ∈ ds, isDelimiter c = true) :
    ((ds ++ ys).splitOnP isDelimiter).filterMap stoi
      = (ys.splitOnP isDelimiter).filterMap stoi := by
  induction ds with
  | nil => rfl
  | cons d r ih =>
    rw [List.cons_append, List.splitOnP_cons, if_pos (h d (List.mem_cons_self _ _)),
      List.filterMap_cons, stoi_nil]
    exact ih (fun c hc => h c (List.mem_cons_of_mem _ hc))

/-- The tokens of a numeral followed by separated numerals are read as the listed ids. -/
theorem tokens_idList (more : List (List Char × Int)) :
    ∀ (first : Int),
      (∀ x ∈ more, x.1 ≠ [] ∧ ∀ c ∈ x.1, isDelimiter c = true) →
      (∀ i ∈ first :: more.map (fun x => x.2), -2147483648 ≤ i ∧ i ≤ 2147483647) →
      ((idList first more).splitOnP isDelimiter).filterMap stoi
        = first :: more.map (fun x => x.2) := by
  induction more with
  | nil =>
    intro first _ hr
    have h1 := hr first (List.mem_cons_self _ _)
    simp only [idList, List.map_nil, List.flatten_nil, List.append_nil]
    rw [List.splitOnP_eq_single _ _ (decimal_no_delimiter first)]
    simp [stoi_decimal first h1.1 h1.2]
  | cons x rest ih =>
    intro first hs hr
    have h1 := hr first (List.mem_cons_self _ _)
    obtain ⟨hne, hdel⟩ := hs x (List.mem_cons_self _ _)
    obtain ⟨d, ds, hx⟩ := List.exists_cons_of_ne_nil hne
    have hd : isDelimiter d = true := hdel d (by rw [hx]; exact List.mem_cons_self _ _)
    have hds : ∀ c ∈ ds, isDelimiter c = true :=
      fun c hc => hdel c (by rw [hx]; exact List.mem_cons_of_mem _ hc)
    have hshape : idList first (x :: rest) = decimal first ++ d :: (ds ++ idList x.2 rest) := by
      simp only [idList, List.map_cons, List.flatten_cons, hx, List.cons_append,
        List.append_assoc]
    rw [hshape, List.splitOnP_first _ _ (decimal_no_delimiter first) d hd, List.filterMap_cons,
      stoi_decimal first h1.1 h1.2, tokens_skip_delimiters ds _ hds,
      ih x.2 (fun y hy => hs y (List.mem_cons_of_mem _ hy))
        (fun i hi => hr i (List.mem_cons_of_mem _ (by simpa using hi)))]
    simp

/-- The set built by inserting the ids one by one has exactly the listed ids as its members. -/
theorem mem_insertAll (ids : List Int) (i : Int) :
    ∀ acc : List Int,
      i ∈ ids.foldl (fun acc j => if j ∈ acc then acc else acc ++ [j]) acc
        ↔ i ∈ acc ∨ i ∈ ids := by
  induction ids with
  | nil => intro acc; simp
  | cons j rest ih =>
    intro acc
    rw [List.foldl_cons, ih]
    by_cases h : j ∈ acc
    · rw [if_pos h]
      constructor
      · rintro (h1 | h1)
        · exact Or.inl h1
        · exact Or.inr (List.mem_cons_of_mem _ h1)
      · rintro (h1 | h1)
        · exact Or.inl h1
        · rcases List.mem_cons.1 h1 with rfl | h1
          · exact Or.inl h
          · exact Or.inr h1
    · rw [if_neg h]
      simp only [List.mem_append, List.mem_singleton, List.mem_cons]
      tauto

theorem insertAll_ne_nil (ids : List Int) (h : ids ≠ []) :
    ids.foldl (fun acc j => if j ∈ acc then acc else acc ++ [j]) [] ≠ [] := by
  obtain ⟨j, rest, rfl⟩ := List.exists_cons_of_ne_nil h
  intro e
  have := (mem_insertAll (j :: rest) j []).2 (Or.inr (List.mem_cons_self _ _))
  rw [e] at this
  cases this

/-! ## Allow-list and deny-list -/

theorem updateAutotileWorkspaces_parsed (C : Compositor) (a : Autotile)
    (h1 : C.config.autotile_raw_workspaces ≠ a.raw_workspaces)
    (h2 : C.config.autotile_raw_workspaces ≠ "all") :
    updateAutotileWorkspaces C a
      = ⟨C.config.autotile_raw_workspaces,
         startsWithNot C.config.autotile_raw_workspaces.toList,
         (parsedIds C.config.autotile_raw_workspaces).foldl
           (fun acc i => if i ∈ acc then acc else acc ++ [i]) []⟩ :=
  updateAutotileWorkspaces_parse C a h1 h2

/-- In every state an instance reaches, a raw string other than the empty one and `all` goes
with the flag and the set that were read from it. -/
theorem updatesFrom_parsed (Cs : List Compositor) :
    ∀ a : Autotile,
      (a.raw_workspaces ≠ "" → a.raw_workspaces ≠ "all" →
        a.workspace_blacklist = startsWithNot a.raw_workspaces.toList
          ∧ a.workspaces = (parsedIds a.raw_workspaces).foldl
              (fun acc i => if i ∈ acc then acc else acc ++ [i]) []) →
      (updatesFrom a Cs).raw_workspaces ≠ "" → (updatesFrom a Cs).raw_workspaces ≠ "all" →
        (updatesFrom a Cs).workspace_blacklist
            = startsWithNot (updatesFrom a Cs).raw_workspaces.toList
          ∧ (updatesFrom a Cs).workspaces = (parsedIds (updatesFrom a Cs).raw_workspaces).foldl
              (fun acc i => if i ∈ acc then acc else acc ++ [i]) [] := by
  induction Cs with
  | nil => intro a h; exact h
  | cons C rest ih =>
    intro a h
    apply ih
    intro hne hnall
    by_cases h1 : C.config.autotile_raw_workspaces = a.raw_workspaces
    · rw [updateAutotileWorkspaces_same C a h1] at hne hnall ⊢
      exact h hne hnall
    · by_cases h2 : C.config.autotile_raw_workspaces = "all"
      · rw [updateAutotileWorkspaces_all C a h1 h2] at hnall
        exact absurd rfl hnall
      · rw [updateAutotileWorkspaces_parsed C a h1 h2]
        exact ⟨rfl, rfl⟩

/-- After an update with a raw string other than the empty one and `all`, the flag and the
set are the ones read from that string, whether this call read them or an earlier one. -/
theorem update_reads (blacklist : Bool) (Cs : List Compositor) (C : Compositor)
    (hne : C.config.autotile_raw_workspaces ≠ "")
    (hnall : C.config.autotile_raw_workspaces ≠ "all") :
    (updateAutotileWorkspaces C (updatesFrom (Autotile.initial blacklist) Cs)).workspace_blacklist
        = startsWithNot C.config.autotile_raw_workspaces.toList
      ∧ (updateAutotileWorkspaces C (updatesFrom (Autotile.initial blacklist) Cs)).workspaces
        = (parsedIds C.config.autotile_raw_workspaces).foldl
            (fun acc i => if i ∈ acc then acc else acc ++ [i]) [] := by
  have hinv := updatesFrom_parsed Cs (Autotile.initial blacklist)
    (fun h => absurd rfl h)
  generalize updatesFrom (Autotile.initial blacklist) Cs = a at hinv
  by_cases h1 : C.config.autotile_raw_workspaces = a.raw_workspaces
  · rw [updateAutotileWorkspaces_same C a h1, h1]
    exact hinv (h1 ▸ hne) (h1 ▸ hnall)
  · rw [updateAutotileWorkspaces_parsed C a h1 hnall]
    exact ⟨rfl, rfl⟩

theorem decimal_head (i : Int) :
    ∃ c r, decimal i = c :: r ∧ c ≠ 'n' ∧ c ≠ 'a' := by
  unfold decimal
  split
  · exact ⟨'-', _, rfl, by decide, by decide⟩
  · obtain ⟨_, hd, hne⟩ := toDigits_spec i.natAbs
    obtain ⟨c, r, hcr⟩ := List.exists_cons_of_ne_nil hne
    refine ⟨c, r, hcr, ?_, ?_⟩
    · intro e
      have := (hd c (by rw [hcr]; exact List.mem_cons_self _ _)).1
      rw [e] at this
      exact absurd this (by decide)
    · intro e
      have := (hd c (by rw [hcr]; exact List.mem_cons_self _ _)).1
      rw [e] at this
      exact absurd this (by decide)

theorem idList_head (first : Int) (more : List (List Char × Int)) :
    ∃ c r, idList first more = c :: r ∧ c ≠ 'n' ∧ c ≠ 'a' := by
  obtain ⟨c, r, h, h1, h2⟩ := decimal_head first
  exact ⟨c, _, by rw [idList, h]; rfl, h1, h2⟩

theorem startsWithNot_of_head (c : Char) (r : List Char) (h : c ≠ 'n') :
    startsWithNot (c :: r) = false := by
  unfold startsWithNot
  split
  · next heq => cases heq; exact absurd rfl h
  · rfl

theorem mk_ne_special (c : Char) (r : List Char) (h : c ≠ 'a') :
    String.mk (c :: r) ≠ "" ∧ String.mk (c :: r) ≠ "all" := by
  constructor
  · intro e
    have := congrArg String.data e
    cases this
  · intro e
    have := congrArg String.data e
    cases this
    exact absurd rfl h

theorem shouldAutotile_deny (a : Autotile) (ids : List Int) (id : Int)
    (hb : a.workspace_blacklist = true)
    (hw : a.workspaces = ids.foldl (fun acc i => if i ∈ acc then acc else acc ++ [i]) []) :
    shouldAutotileWorkspace a id = true ↔ narrowToInt id ∉ ids := by
  unfold shouldAutotileWorkspace
  rw [hb, if_pos rfl, hw]
  simp [mem_insertAll]

theorem shouldAutotile_allow (a : Autotile) (ids : List Int) (id : Int) (hne : ids ≠ [])
    (hb : a.workspace_blacklist = false)
    (hw : a.workspaces = ids.foldl (fun acc i => if i ∈ acc then acc else acc ++ [i]) []) :
    shouldAutotileWorkspace a id = true ↔ narrowToInt id ∈ ids := by
  unfold shouldAutotileWorkspace
  have hne' := insertAll_ne_nil ids hne
  rw [hb, hw]
  simp [mem_insertAll, hne']

theorem narrowToInt_of_int (id : Int) (h : -2147483648 ≤ id ∧ id ≤ 2147483647) :
    narrowToInt id = id := by
  unfold narrowToInt
  omega

/-- C15 (failing input): a raw configuration string made of the decimal numerals of integer
ids (each an `int`), separated by non-empty runs of commas and whitespace, with or without
the leading `not:`, after `updateAutotileWorkspaces` has run with that string in any state an
instance reaches.  With `not:` the test `shouldAutotileWorkspace` is true exactly when the
workspace id converted to `int` is not listed, without it exactly when the converted id is
listed.  For a workspace id in the range of `int` that is the listed-or-not test on the id
itself.  For an id outside that range it is not: with the list `1` the workspace with the id
`4294967297` is autotiled although its id is not listed, and with `not:1` it is not autotiled
although its id is not listed. -/
theorem autotile_lists (blacklist : Bool) (Cs : List Compositor) (C : Compositor) (id : Int)
    (first : Int) (more : List (List Char × Int))
    (hsep : ∀ x ∈ more, x.1 ≠ [] ∧ ∀ c ∈ x.1, isDelimiter c = true)
    (hrange : ∀ i ∈ first :: more.map (fun x => x.2), -2147483648 ≤ i ∧ i ≤ 2147483647) :
    (C.config.autotile_raw_workspaces
        = String.mk ('n' :: 'o' :: 't' :: ':' :: idList first more) →
      (shouldAutotileWorkspace
          (updateAutotileWorkspaces C (updatesFrom (Autotile.initial blacklist) Cs)) id = true
        ↔ narrowToInt id ∉ first :: more.map (fun x => x.2))
      ∧ ((-2147483648 ≤ id ∧ id ≤ 2147483647) →
        (shouldAutotileWorkspace
          (updateAutotileWorkspaces C (updatesFrom (Autotile.initial blacklist) Cs)) id = true
        ↔ id ∉ first :: more.map (fun x => x.2))))
    ∧ (C.config.autotile_raw_workspaces = String.mk (idList first more) →
      (shouldAutotileWorkspace
          (updateAutotileWorkspaces C (updatesFrom (Autotile.initial blacklist) Cs)) id = true
        ↔ narrowToInt id ∈ first :: more.map (fun x => x.2))
      ∧ ((-2147483648 ≤ id ∧ id ≤ 2147483647) →
        (shouldAutotileWorkspace
          (updateAutotileWorkspaces C (updatesFrom (Autotile.initial blacklist) Cs)) id = true
        ↔ id ∈ first :: more.map (fun x => x.2))))
    ∧ (shouldAutotileWorkspace (updateAutotileWorkspaces
          { C0 with config := { cfg0 with autotile_raw_workspaces := "1" } }
          (updatesFrom (Autotile.initial blacklist) [])) 4294967297 = true
        ∧ (4294967297 : Int) ∉ [(1 : Int)])
    ∧ (shouldAutotileWorkspace (updateAutotileWorkspaces
          { C0 with config := { cfg0 with autotile_raw_workspaces := "not:1" } }
          (updatesFrom (Autotile.initial blacklist) [])) 4294967297 = false
        ∧ (4294967297 : Int) ∉ [(1 : Int)]) := by
  have htok := tokens_idList more first hsep hrange
  refine ⟨?_, ?_, ?_, ?_⟩
  · intro hraw
    obtain ⟨h1, h2⟩ := mk_ne_special 'n' ('o' :: 't' :: ':' :: idList first more) (by decide)
    rw [← hraw] at h1 h2
    obtain ⟨hb, hw⟩ := update_reads blacklist Cs C h1 h2
    have hids : parsedIds C.config.autotile_raw_workspaces
        = first :: more.map (fun x => x.2) := by
      rw [hraw]
      unfold parsedIds
      exact htok
    rw [hids] at hw
    have hmain := shouldAutotile_deny _ _ id (by rw [hb, hraw]; rfl) hw
    refine ⟨hmain, fun hin => ?_⟩
    rw [narrowToInt_of_int id hin] at hmain
    exact hmain
  · intro hraw
    obtain ⟨c, r, hcr, hn, ha⟩ := idList_head first more
    obtain ⟨h1, h2⟩ := mk_ne_special c r ha
    rw [← hcr, ← hraw] at h1 h2
    obtain ⟨hb, hw⟩ := update_reads blacklist Cs C h1 h2
    have hnot : startsWithNot C.config.autotile_raw_workspaces.toList = false := by
      rw [hraw]
      show startsWithNot (idList first more) = false
      rw [hcr]
      exact startsWithNot_of_head c r hn
    have hids : parsedIds C.config.autotile_raw_workspaces
        = first :: more.map (fun x => x.2) := by
      unfold parsedIds
      rw [hnot, hraw]
      exact htok
    rw [hids] at hw
    have hmain := shouldAutotile_allow _ _ id (List.cons_ne_nil _ _) (hb.trans hnot) hw
    refine ⟨hmain, fun hin => ?_⟩
    rw [narrowToInt_of_int id hin] at hmain
    exact hmain
  · cases blacklist <;> exact ⟨by decide, by decide⟩
  · cases blacklist <;> exact ⟨by decide, by decide⟩

/-- Witness for C15: with `not:1, 2` workspace 2 is not autotiled and workspace 5 is; with
`-3,7` workspace 7 is autotiled and workspace 5 is not; with `-3,7` the workspace with the id
`4294967303`, which is not listed, is autotiled, because the id is looked up as the `int`
7. -/
theorem autotile_lists_witness :
    String.mk ('n' :: 'o' :: 't' :: ':' :: idList 1 [([',', ' '], 2)]) = "not:1, 2"
      ∧ shouldAutotileWorkspace (updateAutotileWorkspaces
          { C0 with config := { cfg0 with autotile_raw_workspaces := "not:1, 2" } }
          (updatesFrom (Autotile.initial false) [])) 2 = false
      ∧ shouldAutotileWorkspace (updateAutotileWorkspaces
          { C0 with config := { cfg0 with autotile_raw_workspaces := "not:1, 2" } }
          (updatesFrom (Autotile.initial false) [])) 5 = true
      ∧ String.mk (idList (-3) [([','], 7)]) = "-3,7"
      ∧ shouldAutotileWorkspace (updateAutotileWorkspaces
          { C0 with config := { cfg0 with autotile_raw_workspaces := "-3,7" } }
          (updatesFrom (Autotile.initial true) [])) 7 = true
      ∧ shouldAutotileWorkspace (updateAutotileWorkspaces
          { C0 with config := { cfg0 with autotile_raw_workspaces := "-3,7" } }
          (updatesFrom (Autotile.initial true) [])) 5 = false
      ∧ shouldAutotileWorkspace (updateAutotileWorkspaces
          { C0 with config := { cfg0 with autotile_raw_workspaces := "-3,7" } }
          (updatesFrom (Autotile.initial true) [])) 4294967303 = true
      ∧ (4294967303 : Int) ∉ [(-3 : Int), 7] := by
  have hd := fun id => ((autotile_lists false []
    { C0 with config := { cfg0 with autotile_raw_workspaces := "not:1, 2" } } id 1
    [([',', ' '], 2)] (by decide) (by decide)).1 rfl).2
  have ha := fun id => ((autotile_lists true []
    { C0 with config := { cfg0 with autotile_raw_workspaces := "-3,7" } } id (-3)
    [([','], 7)] (by decide) (by decide)).2.1 (by decide))
  refine ⟨rfl, ?_, ((hd 5) (by decide)).2 (by decide), by decide,
    ((ha 7).2 (by decide)).2 (by decide), ?_, (ha 4294967303).1.2 (by decide), by decide⟩
  · rw [Bool.eq_false_iff]
    exact fun h => ((hd 2) (by decide)).1 h (by decide)
  · rw [Bool.eq_false_iff]
    exact fun h => by
      have := ((ha 5).2 (by decide)).1 h
      revert this
      decide

/-! ## Expand and shrink -/

/-- C18: `expand(Expand)` on the focused node of the workspace.  On a parentless node it
changes nothing.  On a node with a parent (a live group, not the node itself) it succeeds,
the parent gets the node as `focused_child` and `Latch` as `expand_focused` and keeps the rest
of its payload, the node gets `Stack` exactly when it is a group that is not `group_focused`
and otherwise keeps its payload, every other node keeps its parent and payload, no node is
created or removed, and the result is the same for every `ExpandFullscreenOption`. -/
theorem expand_transition (O : NodeOps) (ns : List Hy3Node) (ws : Nat) (node : Ptr)
    (N : Hy3Node)
    (hfoc : getWorkspaceFocusedNode ns ws false true = some node) (hn0 : node ≠ 0)
    (hN : getNode ns node = some N) :
    (N.parent = 0 → ∀ fs, expand O ns ws .Expand fs = some ns)
    ∧ (N.parent ≠ 0 → N.parent ≠ node →
        ∀ P gp, getNode ns N.parent = some P → P.data = .group gp →
        ∃ ns1, (∀ fs, expand O ns ws .Expand fs = some ns1)
          ∧ NodeIs ns1 N.parent P.parent
              (.group { gp with focused_child := node, expand_focused := .Latch })
          ∧ NodeIs ns1 node N.parent
              (match N.data with
               | .group g =>
                 .group (if g.group_focused = false then { g with expand_focused := .Stack }
                         else g)
               | .window w => .window w)
          ∧ (∀ x par dat, x ≠ node → x ≠ N.parent → NodeIs ns x par dat →
              NodeIs ns1 x par dat)
          ∧ addrs ns1 = addrs ns) := by
  constructor
  · intro hp fs
    unfold expand
    simp only [hfoc, Option.bind_eq_bind, Option.some_bind, if_neg hn0, hN, hp, if_true]
    cases fs <;> rfl
  · intro hp hself P gp hP hPg
    -- the tree after the node itself was marked
    obtain ⟨X, hX, nX, pX, oX, aX⟩ : ∃ X,
        X = (match N.data with
          | .group g =>
            if g.group_focused = false then
              modifyGroup ns node (fun g => { g with expand_focused := .Stack })
            else ns
          | .window _ => ns)
        ∧ NodeIs X node N.parent
            (match N.data with
             | .group g =>
               .group (if g.group_focused = false then { g with expand_focused := .Stack }
                       else g)
             | .window w => .window w)
        ∧ NodeIs X N.parent P.parent (.group gp)
        ∧ (∀ x par dat, x ≠ node → NodeIs ns x par dat → NodeIs X x par dat)
        ∧ addrs X = addrs ns := by
      refine ⟨_, rfl, ?_, ?_, ?_, ?_⟩
      · cases hd : N.data with
        | window w => exact ⟨N, hN, rfl, hd⟩
        | group g =>
          by_cases hg : g.group_focused = false
          · simp only [if_pos hg]
            exact nodeIs_modifyGroup_self ns node N.parent g _ ⟨N, hN, rfl, hd⟩
          · simp only [if_neg hg]
            exact ⟨N, hN, rfl, hd⟩
      · cases hd : N.data with
        | window w => exact ⟨P, hP, rfl, hPg⟩
        | group g =>
          by_cases hg : g.group_focused = false
          · simp only [if_pos hg]
            exact nodeIs_modifyGroup_ne ns node _ _ _ _ hself ⟨P, hP, rfl, hPg⟩
          · simp only [if_neg hg]
            exact ⟨P, hP, rfl, hPg⟩
      · intro x par dat hx h
        cases hd : N.data with
        | window w => exact h
        | group g =>
          by_cases hg : g.group_focused = false
          · simp only [if_pos hg]
            exact nodeIs_modifyGroup_ne ns node _ _ _ _ hx h
          · simp only [if_neg hg]
            exact h
      · cases hd : N.data with
        | window w => rfl
        | group g =>
          by_cases hg : g.group_focused = false
          · simp only [if_pos hg]
            exact addrs_modifyGroup _ _ _
          · simp only [if_neg hg]
    obtain ⟨P1, hP1, hP1p, hP1d⟩ := pX
    refine ⟨recalcSizePosRecursive O (modifyGroup X N.parent
      (fun g => { g with focused_child := node, expand_focused := .Latch })) N.parent,
      ?_, ?_, ?_, ?_, ?_⟩
    · intro fs
      unfold expand
      simp only [hfoc, Option.bind_eq_bind, Option.some_bind, if_neg hn0, hN, if_neg hp]
      unfold expandNode
      simp only [hN, Option.bind_eq_bind, Option.some_bind, ← hX, hP1, hP1d,
        Hy3NodeData.as_group]
    · exact nodeIs_recalc O _ _ _ _ _
        (nodeIs_modifyGroup_self X N.parent P.parent gp _ ⟨P1, hP1, hP1p, hP1d⟩)
    · exact nodeIs_recalc O _ _ _ _ _
        (nodeIs_modifyGroup_ne X N.parent node _ _ _ (Ne.symm hself) nX)
    · intro x par dat hxn hxp h
      exact nodeIs_recalc O _ _ _ _ _
        (nodeIs_modifyGroup_ne X N.parent x _ _ _ hxp (oX x par dat hxn h))
    · rw [addrs_recalc, addrs_modifyGroup, aX]

/-- Witness for C18: in `root[G[A, B], C]` with A focused, expanding gives G the focused
child A and `Latch`, whatever the fullscreen option, and leaves A and the other nodes as
they were. -/
theorem expand_transition_witness :
    ∃ ns1, (∀ fs, expand O0 exNested 1 .Expand fs = some ns1)
      ∧ NodeIs ns1 4 2 (.group { Hy3GroupData.ofLayout .SplitH with
          children := [1, 3], group_focused := false, focused_child := 1,
          expand_focused := .Latch })
      ∧ NodeIs ns1 1 4 (.window 101)
      ∧ (∀ x par dat, x ≠ 1 → x ≠ 4 → NodeIs exNested x par dat → NodeIs ns1 x par dat)
      ∧ addrs ns1 = addrs exNested :=
  (expand_transition O0 exNested 1 1 (leaf 1 4 101) rfl (by decide) rfl).2 (by decide)
    (by decide) (grp 4 2 .SplitH [1, 3] 1) _ rfl rfl

/-- C19: `expand(Shrink)` on the focused node of the workspace.  On a window leaf it changes
nothing.  On a group with a live focused child (not the group itself) it succeeds, the group
gets `NotExpanded` and keeps the rest of its payload, the focused child gets `Latch` when it
is a group and keeps its payload when it is a window, every other node keeps its parent and
payload, and no node is created or removed. -/
theorem shrink_transition (O : NodeOps) (ns : List Hy3Node) (ws : Nat) (node : Ptr)
    (N : Hy3Node) (fs : ExpandFullscreenOption)
    (hfoc : getWorkspaceFocusedNode ns ws false true = some node) (hn0 : node ≠ 0)
    (hN : getNode ns node = some N) :
    (∀ w, N.data = .window w → expand O ns ws .Shrink fs = some ns)
    ∧ (∀ g F, N.data = .group g → g.focused_child ≠ node →
        getNode ns g.focused_child = some F →
        ∃ ns1, expand O ns ws .Shrink fs = some ns1
          ∧ NodeIs ns1 node N.parent (.group { g with expand_focused := .NotExpanded })
          ∧ NodeIs ns1 g.focused_child F.parent
              (match F.data with
               | .group gf => .group { gf with expand_focused := .Latch }
               | .window w => .window w)
          ∧ (∀ x par dat, x ≠ node → x ≠ g.focused_child → NodeIs ns x par dat →
              NodeIs ns1 x par dat)
          ∧ addrs ns1 = addrs ns) := by
  constructor
  · intro w hw
    unfold expand
    simp only [hfoc, Option.bind_eq_bind, Option.some_bind, if_neg hn0, hN]
    unfold shrinkNode
    simp only [hN, Option.bind_eq_bind, Option.some_bind, hw]
  · intro g F hg hself hF
    generalize hX : modifyGroup ns node (fun g => { g with expand_focused := .NotExpanded })
      = X
    have nX : NodeIs X node N.parent (.group { g with expand_focused := .NotExpanded }) := by
      rw [← hX]; exact nodeIs_modifyGroup_self ns node N.parent g _ ⟨N, hN, rfl, hg⟩
    have fX : NodeIs X g.focused_child F.parent F.data := by
      rw [← hX]; exact nodeIs_modifyGroup_ne ns node _ _ _ _ hself ⟨F, hF, rfl, rfl⟩
    have oX : ∀ x par dat, x ≠ node → NodeIs ns x par dat → NodeIs X x par dat := by
      intro x par dat hx h
      rw [← hX]; exact nodeIs_modifyGroup_ne ns node _ _ _ _ hx h
    have aX : addrs X = addrs ns := by rw [← hX, addrs_modifyGroup]
    obtain ⟨F1, hF1, hF1p, hF1d⟩ := fX
    have hcall : expand O ns ws .Shrink fs
        = some (recalcSizePosRecursive O
            (if F.data.is_group then
              modifyGroup X g.focused_child (fun g => { g with expand_focused := .Latch })
             else X) node) := by
      unfold expand
      simp only [hfoc, Option.bind_eq_bind, Option.some_bind, if_neg hn0, hN]
      unfold shrinkNode
      simp only [hN, Option.bind_eq_bind, Option.some_bind, hg, hX, hF1, hF1d]
    refine ⟨_, hcall, ?_, ?_, ?_, ?_⟩
    · apply nodeIs_recalc
      split
      · exact nodeIs_modifyGroup_ne X _ _ _ _ _ (Ne.symm hself) nX
      · exact nX
    · apply nodeIs_recalc
      cases hd : F.data with
      | window w =>
        simp only [Hy3NodeData.is_group, Bool.false_eq_true, if_false]
        exact ⟨F1, hF1, hF1p, by rw [hF1d, hd]⟩
      | group gf =>
        simp only [Hy3NodeData.is_group, if_true]
        exact nodeIs_modifyGroup_self X _ _ gf _ ⟨F1, hF1, hF1p, by rw [hF1d, hd]⟩
    · intro x par dat hxn hxf h
      apply nodeIs_recalc
      split
      · exact nodeIs_modifyGroup_ne X _ _ _ _ _ hxf (oX x par dat hxn h)
      · exact oX x par dat hxn h
    · rw [addrs_recalc]
      split
      · rw [addrs_modifyGroup, aX]
      · exact aX

/-- Witness for C19: in `root[G(Stack)[H[A, B]], C]` the focused node is the expanded group G;
shrinking resets G to `NotExpanded` and latches its focused child H. -/
theorem shrink_transition_witness :
    getWorkspaceFocusedNode exExpanded 1 false true = some 4
      ∧ ∃ ns1, expand O0 exExpanded 1 .Shrink .MaximizeOnly = some ns1
        ∧ NodeIs ns1 4 2 (.group { Hy3GroupData.ofLayout .SplitH with
            children := [6], group_focused := false, focused_child := 6,
            expand_focused := .NotExpanded })
        ∧ NodeIs ns1 6 4 (.group { Hy3GroupData.ofLayout .SplitV with
            children := [1, 3], group_focused := false, focused_child := 1,
            expand_focused := .Latch })
        ∧ (∀ x par dat, x ≠ 4 → x ≠ 6 → NodeIs exExpanded x par dat → NodeIs ns1 x par dat)
        ∧ addrs ns1 = addrs exExpanded :=
  ⟨rfl, (shrink_transition O0 exExpanded 1 4
    ((grp 4 2 .SplitH [6] 6).mapGroup (fun g => { g with expand_focused := .Stack }))
    .MaximizeOnly rfl (by decide) rfl).2 _ (grp 6 4 .SplitV [1, 3] 1) rfl (by decide) rfl⟩

/-! ## Tab bar hit test -/

/-- C20 (failing input): in `root(SplitH)[S(SplitV)[T(Tabbed)[A, B]]]` with the pointer on the
second entry of the tab bar of T, `findTabBarAt` started at T, or at S, returns the tab group
T with the target child B; started at the root it returns S, the child of the root it went
through, with the same target child: S is not `Tabbed` and B is not one of its children. -/
theorem findTabBarAt_nested :
    findTabBarAt viewTabs (exTabs.length + 1) exTabs 6 ⟨600, 10⟩ = some (6, some 3)
      ∧ findTabBarAt viewTabs (exTabs.length + 1) exTabs 4 ⟨600, 10⟩ = some (6, some 3)
      ∧ findTabBarAt viewTabs (exTabs.length + 1) exTabs 2 ⟨600, 10⟩ = some (4, some 3)
      ∧ layoutAt exTabs 6 = some .Tabbed
      ∧ childrenAt exTabs 6 = some [1, 3]
      ∧ layoutAt exTabs 4 = some .SplitV
      ∧ childrenAt exTabs 4 = some [6] := by
  refine ⟨?_, ?_, ?_, rfl, rfl, rfl, rfl⟩ <;> with_unfolding_all decide

/-! ## Well-formed trees -/

theorem nodeIs_unique (ns : List Hy3Node) (x p1 p2 : Ptr) (d1 d2 : Hy3NodeData)
    (h1 : NodeIs ns x p1 d1) (h2 : NodeIs ns x p2 d2) : p1 = p2 ∧ d1 = d2 := by
  obtain ⟨n, hn, hp, hd⟩ := h1
  obtain ⟨m, hm, hp2, hd2⟩ := h2
  rw [hn] at hm
  cases hm
  exact ⟨hp.symm.trans hp2, hd.symm.trans hd2⟩

theorem mem_addrs_of_nodeIs (ns : List Hy3Node) (x par : Ptr) (dat : Hy3NodeData)
    (h : NodeIs ns x par dat) : x ∈ addrs ns := by
  obtain ⟨n, hn, _, _⟩ := h
  unfold addrs
  exact List.mem_map.2 ⟨n, getNode_mem hn, getNode_addr hn⟩

theorem nodeIs_of_mem_addrs (ns : List Hy3Node) (x : Ptr) (h : x ∈ addrs ns) :
    ∃ par dat, NodeIs ns x par dat := by
  obtain ⟨X, hX⟩ := getNode_of_mem_addrs ns x h
  exact ⟨X.parent, X.data, X, hX, rfl, rfl⟩

/-- In a well-formed tree a node is not its own parent. -/
theorem WellFormed.parent_ne {ns : List Hy3Node} {rank : Ptr → Nat} (hw : WellFormed ns rank)
    {x par : Ptr} {dat : Hy3NodeData} (h : NodeIs ns x par dat) : par ≠ x := by
  intro e
  subst e
  by_cases h0 : par = 0
  · subst h0
    exact hw.nonnull (mem_addrs_of_nodeIs ns 0 0 dat h)
  · obtain ⟨_, _, _, _, hr⟩ := hw.parent_ok par par dat h h0
    exact absurd hr (Nat.lt_irrefl _)

/-- In a well-formed tree the children a group lists have that group as parent, and a
greater rank. -/
theorem WellFormed.child_rank {ns : List Hy3Node} {rank : Ptr → Nat}
    (hw : WellFormed ns rank) {p pp x : Ptr} {g : Hy3GroupData}
    (hp : NodeIs ns p pp (.group g)) (hx : x ∈ g.children) :
    (∃ dat, NodeIs ns x p dat) ∧ rank p < rank x := by
  obtain ⟨dat, hd⟩ := hw.children_ok p pp g hp x hx
  have hp0 : p ≠ 0 := fun e => hw.nonnull (e ▸ mem_addrs_of_nodeIs ns p pp _ hp)
  obtain ⟨_, _, _, _, hr⟩ := hw.parent_ok x p dat hd hp0
  exact ⟨⟨dat, hd⟩, hr⟩

/-! ## One swallow -/

/-- What a successful `swallowGroups` leaves behind: the group keeps its address and parent
and holds the payload of its only child, the node of the child is gone, the children of that
payload have the group as parent, and every other node is as it was. -/
theorem swallowGroups_spec (ns : List Hy3Node) (into c ip cp : Ptr) (g : Hy3GroupData)
    (cd : Hy3NodeData) (h0 : into ≠ 0)
    (hI : NodeIs ns into ip (.group g)) (hch : g.children = [c])
    (hex : ¬ (g.layout = .Tabbed ∧ g.locked = true))
    (hC : NodeIs ns c cp cd) (hne : into ≠ c)
    (hic : into ∉ cd.children) (hcc : c ∉ cd.children) :
    ∃ ns1, swallowGroups ns into = some (ns1, true)
      ∧ addrs ns1 = (addrs ns).filter (fun x => x != c)
      ∧ NodeIs ns1 into ip cd
      ∧ ∀ x par dat, x ≠ into → x ≠ c → NodeIs ns x par dat →
          NodeIs ns1 x (if x ∈ cd.children then into else par) dat := by
  obtain ⟨I, hIn, hIp, hId⟩ := hI
  obtain ⟨C, hCn, hCp, hCd⟩ := hC
  have hcg : (Hy3NodeData.group g).children = [c] := hch
  generalize hY1 : modifyNode ns into (fun m => { m with data := C.data }) = Y1
  generalize hY2 : modifyNode Y1 c (fun m => { m with data := I.data }) = Y2
  have hswap : swapData ns into c
      = some (reparentChildren (reparentChildren Y2 into) c) := by
    simp only [swapData, hIn, hCn, Option.bind_eq_bind, Option.some_bind, hY1, hY2]
  have setData : ∀ (Y : List Hy3Node) (p x par : Ptr) (dat dd : Hy3NodeData), x ≠ p →
      NodeIs Y x par dat → NodeIs (modifyNode Y p (fun m => { m with data := dd })) x par dat :=
    fun Y p x par dat dd hx h => nodeIs_modifyNode_ne Y p x par dat _ (fun _ => rfl) hx h
  have setDataSelf : ∀ (Y : List Hy3Node) (p par : Ptr) (dat dd : Hy3NodeData),
      NodeIs Y p par dat → NodeIs (modifyNode Y p (fun m => { m with data := dd })) p par dd :=
    fun Y p par dat dd h => nodeIs_modifyNode_self Y p par par dat dd _ (fun _ => rfl)
      (fun n hp _ => ⟨hp, rfl⟩) h
  have hset : ∀ (Y : List Hy3Node) (q : Ptr) (dd : Hy3NodeData),
      addrs (modifyNode Y q (fun m => { m with data := dd })) = addrs Y :=
    fun Y q dd => addrs_modifyNode Y q _ (fun _ => rfl)
  have r0 : NodeIs ns into ip (.group g) := ⟨I, hIn, hIp, hId⟩
  have c0 : NodeIs ns c cp cd := ⟨C, hCn, hCp, hCd⟩
  have r1 : NodeIs Y1 into ip cd := by
    rw [← hY1, ← hCd]; exact setDataSelf _ _ _ _ _ r0
  have r2 : NodeIs Y2 into ip cd := by rw [← hY2]; exact setData _ _ _ _ _ _ hne r1
  have c1 : NodeIs Y1 c cp cd := by rw [← hY1]; exact setData _ _ _ _ _ _ (Ne.symm hne) c0
  have c2 : NodeIs Y2 c cp (.group g) := by
    rw [← hY2, ← hId]; exact setDataSelf _ _ _ _ _ c1
  have r3 : NodeIs (reparentChildren Y2 into) into ip cd := by
    have := nodeIs_reparentChildren Y2 into into ip ip cd cd r2 r2
    simpa [hic] using this
  have c3 : NodeIs (reparentChildren Y2 into) c cp (.group g) := by
    have := nodeIs_reparentChildren Y2 into c cp ip (.group g) cd r2 c2
    simpa [hcc] using this
  generalize hY3 : reparentChildren Y2 into = Y3 at hswap r3 c3
  have r4 : NodeIs (reparentChildren Y3 c) into ip cd := by
    have := nodeIs_reparentChildren Y3 c into ip cp cd (.group g) c3 r3
    rw [hcg] at this
    simpa [hne] using this
  have other : ∀ x par dat, x ≠ into → x ≠ c → NodeIs ns x par dat →
      NodeIs (reparentChildren Y3 c) x (if x ∈ cd.children then into else par) dat := by
    intro x par dat hxi hxc h
    have x1 : NodeIs Y1 x par dat := by rw [← hY1]; exact setData _ _ _ _ _ _ hxi h
    have x2 : NodeIs Y2 x par dat := by rw [← hY2]; exact setData _ _ _ _ _ _ hxc x1
    have x3 : NodeIs Y3 x (if x ∈ cd.children then into else par) dat := by
      rw [← hY3]
      exact nodeIs_reparentChildren Y2 into x par ip dat cd r2 x2
    have := nodeIs_reparentChildren Y3 c x _ cp dat (.group g) c3 x3
    rw [hcg] at this
    simpa [hxc] using this
  generalize hY4 : reparentChildren Y3 c = Y4 at hswap r4 other
  have hadd : addrs Y4 = addrs ns := by
    rw [← hY4, addrs_reparentChildren, ← hY3, addrs_reparentChildren, ← hY2, hset, ← hY1, hset]
  refine ⟨eraseNode Y4 c, ?_, ?_, ?_, ?_⟩
  · unfold swallowGroups
    simp only [if_neg h0, hIn, Option.bind_eq_bind, Option.some_bind, hId, hch, if_neg hex,
      hswap]
  · rw [addrs_eraseNode, hadd]
  · exact nodeIs_eraseNode_ne Y4 c into ip cd hne r4
  · intro x par dat hxi hxc h
    exact nodeIs_eraseNode_ne Y4 c x _ dat hxc (other x par dat hxi hxc h)

/-- When `swallowGroups` does nothing: on a window, on a group that does not have exactly one
child, and on a locked `Tabbed` group. -/
theorem swallowGroups_fails (ns : List Hy3Node) (into ip : Ptr) (dat : Hy3NodeData)
    (hI : NodeIs ns into ip dat)
    (h : ∀ g, dat = .group g →
      (∀ c, g.children ≠ [c]) ∨ (g.layout = .Tabbed ∧ g.locked = true)) :
    swallowGroups ns into = some (ns, false) := by
  obtain ⟨I, hIn, _, hId⟩ := hI
  unfold swallowGroups
  by_cases h0 : into = 0
  · rw [if_pos h0]
  · rw [if_neg h0]
    simp only [hIn, Option.bind_eq_bind, Option.some_bind, hId]
    cases dat with
    | window w => rfl
    | group g =>
      simp only
      rcases h g rfl with h1 | h1
      · split
        · next c hc => exact absurd hc (h1 c)
        · rfl
      · split
        · rw [if_pos h1]
        · rfl

/-- A swallow on a well-formed tree succeeds and leaves a well-formed tree, with the same
rank: on a group with exactly one child that is not a locked `Tabbed` group. -/
theorem swallow_wellFormed (ns : List Hy3Node) (rank : Ptr → Nat) (into c ip : Ptr)
    (g : Hy3GroupData) (hw : WellFormed ns rank)
    (hI : NodeIs ns into ip (.group g)) (hch : g.children = [c])
    (hex : ¬ (g.layout = .Tabbed ∧ g.locked = true)) :
    ∃ ns1 cd, swallowGroups ns into = some (ns1, true)
      ∧ WellFormed ns1 rank
      ∧ addrs ns1 = (addrs ns).filter (fun x => x != c)
      ∧ NodeIs ns c into cd
      ∧ NodeIs ns1 into ip cd
      ∧ (ip = 0 ∨ ip ∈ addrs ns1)
      ∧ (∀ x par dat, x ≠ into → x ≠ c → NodeIs ns x par dat →
          NodeIs ns1 x (if x ∈ cd.children then into else par) dat) := by
  have h0 : into ≠ 0 := fun e => hw.nonnull (e ▸ mem_addrs_of_nodeIs ns into ip _ hI)
  have hcmem : c ∈ g.children := by rw [hch]; exact List.mem_singleton_self c
  obtain ⟨⟨cd, hC⟩, hrc⟩ := hw.child_rank hI hcmem
  have hne : into ≠ c := hw.parent_ne hC
  have hic : into ∉ cd.children := by
    intro h
    cases cd with
    | window w => cases h
    | group gc =>
      obtain ⟨⟨d, hd⟩, hr⟩ := hw.child_rank hC h
      exact absurd (Nat.lt_trans hr hrc) (Nat.lt_irrefl _)
  have hcc : c ∉ cd.children := by
    intro h
    cases cd with
    | window w => cases h
    | group gc =>
      obtain ⟨_, hr⟩ := hw.child_rank hC h
      exact absurd hr (Nat.lt_irrefl _)
  obtain ⟨ns1, hsw, hadd, hI1, hfwd⟩ :=
    swallowGroups_spec ns into c ip into g cd h0 hI hch hex hC hne hic hcc
  -- the nodes of the new tree, read backwards
  have hback : ∀ x par1 dat1, NodeIs ns1 x par1 dat1 →
      x ≠ c ∧ ((x = into ∧ par1 = ip ∧ dat1 = cd)
        ∨ (x ≠ into ∧ ∃ par, NodeIs ns x par dat1
            ∧ par1 = if x ∈ cd.children then into else par)) := by
    intro x par1 dat1 h
    have hx := mem_addrs_of_nodeIs ns1 x par1 dat1 h
    rw [hadd, List.mem_filter] at hx
    have hxc : x ≠ c := by simpa using hx.2
    refine ⟨hxc, ?_⟩
    by_cases hxi : x = into
    · subst hxi
      obtain ⟨e1, e2⟩ := nodeIs_unique ns1 x _ _ _ _ h hI1
      exact Or.inl ⟨rfl, e1, e2⟩
    · obtain ⟨par, dat, hx0⟩ := nodeIs_of_mem_addrs ns x hx.1
      have := hfwd x par dat hxi hxc hx0
      obtain ⟨e1, e2⟩ := nodeIs_unique ns1 x _ _ _ _ h this
      subst e2
      exact Or.inr ⟨hxi, par, hx0, e1⟩
  -- the parent of the group is untouched
  have hpar : ∀ pp gp, NodeIs ns ip pp (.group gp) → ip ≠ 0 → into ∈ gp.children →
      ∃ pp1, NodeIs ns1 ip pp1 (.group gp) := by
    intro pp gp hP _ hmem
    have h1 : ip ≠ into := hw.parent_ne hI
    have h2 : ip ≠ c := by
      intro e
      obtain ⟨_, hr⟩ := hw.child_rank hP hmem
      rw [e] at hr
      exact absurd (Nat.lt_trans hr hrc) (Nat.lt_irrefl _)
    exact ⟨_, hfwd ip pp _ h1 h2 hP⟩
  have hlive : ip = 0 ∨ ip ∈ addrs ns1 := by
    by_cases hip : ip = 0
    · exact Or.inl hip
    · obtain ⟨pp, gp, hP, hmem, _⟩ := hw.parent_ok into ip _ hI hip
      obtain ⟨pp1, hP1⟩ := hpar pp gp hP hip hmem
      exact Or.inr (mem_addrs_of_nodeIs ns1 ip pp1 _ hP1)
  refine ⟨ns1, cd, hsw, ⟨?_, ?_, ?_, ?_⟩, hadd, hC, hI1, hlive, hfwd⟩
  · rw [hadd]; exact hw.nodup.filter _
  · rw [hadd]; exact fun h => hw.nonnull (List.mem_filter.1 h).1
  · -- the parent of a node is a live group that lists it
    intro x par1 dat1 h hp1
    obtain ⟨hxc, hcase⟩ := hback x par1 dat1 h
    rcases hcase with ⟨rfl, rfl, rfl⟩ | ⟨hxi, par, hx0, rfl⟩
    · obtain ⟨pp, gp, hP, hmem, hr⟩ := hw.parent_ok x par1 _ hI hp1
      obtain ⟨pp1, hP1⟩ := hpar pp gp hP hp1 hmem
      exact ⟨pp1, gp, hP1, hmem, hr⟩
    · by_cases hxm : x ∈ cd.children
      · rw [if_pos hxm] at hp1 ⊢
        cases cd with
        | window w => cases hxm
        | group gc =>
          obtain ⟨_, hr⟩ := hw.child_rank hC hxm
          exact ⟨ip, gc, hI1, hxm, Nat.lt_trans hrc hr⟩
      · rw [if_neg hxm] at hp1 ⊢
        obtain ⟨pp, gp, hP, hmem, hr⟩ := hw.parent_ok x par dat1 hx0 hp1
        have h1 : par ≠ into := by
          intro e
          subst e
          obtain ⟨_, e2⟩ := nodeIs_unique ns par _ _ _ _ hP hI
          cases e2
          rw [hch, List.mem_singleton] at hmem
          exact hxc hmem
        have h2 : par ≠ c := by
          intro e
          subst e
          obtain ⟨_, e2⟩ := nodeIs_unique ns par _ _ _ _ hP hC
          subst e2
          exact hxm hmem
        exact ⟨_, gp, hfwd par pp _ h1 h2 hP, hmem, hr⟩
  · -- the children a group lists are live and have it as parent
    intro p pp1 g1 h x hx
    obtain ⟨hpc, hcase⟩ := hback p pp1 _ h
    rcases hcase with ⟨rfl, rfl, rfl⟩ | ⟨hpi, pp, hp0, rfl⟩
    · obtain ⟨⟨d, hd⟩, hr⟩ := hw.child_rank hC hx
      have hxc : x ≠ c := fun e => absurd (e ▸ hr) (Nat.lt_irrefl _)
      have hxi : x ≠ p := fun e =>
        absurd (Nat.lt_trans (e ▸ hr) hrc) (Nat.lt_irrefl _)
      have := hfwd x c d hxi hxc hd
      have hx1 : x ∈ (Hy3NodeData.group g1).children := hx
      rw [if_pos hx1] at this
      exact ⟨d, this⟩
    · obtain ⟨⟨d, hd⟩, _⟩ := hw.child_rank hp0 hx
      have hxc : x ≠ c := by
        intro e
        subst e
        exact hpi (nodeIs_unique ns x _ _ _ _ hd hC).1
      by_cases hxi : x = into
      · subst hxi
        obtain ⟨e1, _⟩ := nodeIs_unique ns x _ _ _ _ hd hI
        exact ⟨cd, e1 ▸ hI1⟩
      · have := hfwd x p d hxi hxc hd
        have hxm : x ∉ cd.children := by
          intro hm
          cases cd with
          | window w => cases hm
          | group gc =>
            obtain ⟨⟨d2, hd2⟩, _⟩ := hw.child_rank hC hm
            exact hpc (nodeIs_unique ns x _ _ _ _ hd hd2).1
        rw [if_neg hxm] at this
        exact ⟨d, this⟩

/-! ## Counting the group nodes -/

theorem isGroupAt_of_nodeIs (ns : List Hy3Node) (x par : Ptr) (dat : Hy3NodeData)
    (h : NodeIs ns x par dat) : isGroupAt ns x = dat.is_group := by
  obtain ⟨n, hn, _, hd⟩ := h
  unfold isGroupAt
  rw [hn, ← hd]

/-- With distinct addresses, the group nodes are counted by the addresses at which a group
lives. -/
theorem groupCount_eq_sum (ns : List Hy3Node) (hnd : (addrs ns).Nodup) :
    groupCount ns = (addrs ns).toFinset.sum (fun x => if isGroupAt ns x then 1 else 0) := by
  induction ns with
  | nil => rfl
  | cons a t ih =>
    have hnd' : (a.addr :: addrs t).Nodup := hnd
    rw [List.nodup_cons] at hnd'
    have hhead : isGroupAt (a :: t) a.addr = a.data.is_group := by
      simp [isGroupAt, getNode]
    have htail : ∀ x ∈ (addrs t).toFinset, (if isGroupAt (a :: t) x then 1 else 0)
        = (if isGroupAt t x then 1 else 0 : Nat) := by
      intro x hx
      have hxa : a.addr ≠ x := by
        intro e
        rw [List.mem_toFinset] at hx
        exact hnd'.1 (e ▸ hx)
      have : getNode (a :: t) x = getNode t x := by
        simp [getNode, List.find?_cons, hxa]
      simp [isGroupAt, this]
    have hset : (addrs (a :: t)).toFinset = insert a.addr (addrs t).toFinset := by
      simp [addrs]
    rw [hset, Finset.sum_insert (by simpa using hnd'.1), hhead, Finset.sum_congr rfl htail,
      ← ih hnd'.2]
    simp only [groupCount, List.countP_cons]
    cases a.data.is_group <;> simp [Nat.add_comm]

/-- A successful swallow on a well-formed tree takes exactly one group node away. -/
theorem swallow_groupCount (ns : List Hy3Node) (rank : Ptr → Nat) (into c ip : Ptr)
    (g : Hy3GroupData) (hw : WellFormed ns rank)
    (hI : NodeIs ns into ip (.group g)) (hch : g.children = [c])
    (hex : ¬ (g.layout = .Tabbed ∧ g.locked = true)) (ns1 : List Hy3Node)
    (hsw : swallowGroups ns into = some (ns1, true)) :
    groupCount ns1 + 1 = groupCount ns := by
  obtain ⟨ns2, cd, hsw2, hw1, hadd, hC, hI1, _, hfwd⟩ :=
    swallow_wellFormed ns rank into c ip g hw hI hch hex
  rw [hsw] at hsw2
  cases hsw2
  have hne : into ≠ c := hw.parent_ne hC
  have hcm : c ∈ (addrs ns).toFinset := List.mem_toFinset.2 (mem_addrs_of_nodeIs ns c _ _ hC)
  have him : into ∈ (addrs ns).toFinset.erase c :=
    Finset.mem_erase.2 ⟨hne, List.mem_toFinset.2 (mem_addrs_of_nodeIs ns into _ _ hI)⟩
  have hset : (addrs ns1).toFinset = (addrs ns).toFinset.erase c := by
    rw [hadd]
    ext x
    simp [List.mem_filter, and_comm]
  have hrest : ∀ x ∈ ((addrs ns).toFinset.erase c).erase into,
      (if isGroupAt ns1 x then 1 else 0 : Nat) = (if isGroupAt ns x then 1 else 0) := by
    intro x hx
    rw [Finset.mem_erase, Finset.mem_erase, List.mem_toFinset] at hx
    obtain ⟨par, dat, hx0⟩ := nodeIs_of_mem_addrs ns x hx.2.2
    rw [isGroupAt_of_nodeIs ns x par dat hx0,
      isGroupAt_of_nodeIs ns1 x _ dat (hfwd x par dat hx.1 hx.2.1 hx0)]
  rw [groupCount_eq_sum ns hw.nodup, groupCount_eq_sum ns1 hw1.nodup, hset,
    ← Finset.add_sum_erase _ _ hcm, ← Finset.add_sum_erase _ _ him,
    ← Finset.add_sum_erase ((addrs ns).toFinset.erase c) _ him, Finset.sum_congr rfl hrest,
    isGroupAt_of_nodeIs ns1 into ip cd hI1, isGroupAt_of_nodeIs ns into ip _ hI,
    isGroupAt_of_nodeIs ns c into cd hC]
  simp only [Hy3NodeData.is_group, if_true]
  omega

/-! ## The swallow pass comes to an end -/

theorem swallowGroups_success_inv (ns ns1 : List Hy3Node) (q : Ptr)
    (h : swallowGroups ns q = some (ns1, true)) :
    ∃ I g c, getNode ns q = some I ∧ I.data = .group g ∧ g.children = [c]
      ∧ ¬ (g.layout = .Tabbed ∧ g.locked = true) := by
  unfold swallowGroups at h
  by_cases h0 : q = 0
  · rw [if_pos h0] at h
    cases h
  · rw [if_neg h0] at h
    simp only [Option.bind_eq_bind, Option.bind_eq_some] at h
    obtain ⟨I, hI, h⟩ := h
    cases hd : I.data with
    | window w =>
      rw [hd] at h
      cases h
    | group g =>
      rw [hd] at h
      simp only at h
      split at h
      · next c hc =>
        by_cases hex : g.layout = .Tabbed ∧ g.locked = true
        · rw [if_pos hex] at h
          cases h
        · exact ⟨I, g, c, hI, hd, hc, hex⟩
      · cases h

/-- On a well-formed tree the swallow pass ends, with enough fuel for any tree of that size:
it leaves a well-formed tree and stops at `nullptr` or at a live node on which
`swallowGroups` does nothing; the number of group nodes has not grown. -/
theorem swallowLoop_converges (rank : Ptr → Nat) :
    ∀ (fuel : Nat) (ns : List Hy3Node) (p : Ptr), WellFormed ns rank →
      (p = 0 ∨ p ∈ addrs ns) → ns.length < fuel →
      ∃ ns1 p1, swallowLoop fuel ns p = some (ns1, p1) ∧ WellFormed ns1 rank
        ∧ (p1 = 0 ∨ (p1 ∈ addrs ns1 ∧ swallowGroups ns1 p1 = some (ns1, false)))
        ∧ groupCount ns1 ≤ groupCount ns
        ∧ (∀ x, x ∈ addrs ns1 → x ∈ addrs ns) := by
  intro fuel
  induction fuel with
  | zero => intro ns p _ _ hf; cases hf
  | succ k ih =>
    intro ns p hw hp hf
    by_cases h0 : p = 0
    · exact ⟨ns, 0, by simp [swallowLoop, h0], hw, Or.inl rfl, Nat.le_refl _, fun _ h => h⟩
    · have hlive : p ∈ addrs ns := hp.resolve_left h0
      obtain ⟨ip, dat, hI⟩ := nodeIs_of_mem_addrs ns p hlive
      by_cases hsw : ∃ g c, dat = .group g ∧ g.children = [c]
          ∧ ¬ (g.layout = .Tabbed ∧ g.locked = true)
      · obtain ⟨g, c, rfl, hch, hex⟩ := hsw
        obtain ⟨ns1, cd, hs, hw1, hadd, hC, hI1, hip, _⟩ :=
          swallow_wellFormed ns rank p c ip g hw hI hch hex
        obtain ⟨I1, hI1n, hI1p, _⟩ := hI1
        have hlen : ns1.length < k := by
          have h1 : ns1.length = (addrs ns1).length := by simp [addrs]
          have h2 : ns.length = (addrs ns).length := by simp [addrs]
          have h3 : (addrs ns1).length < (addrs ns).length := by
            rw [hadd]
            apply List.length_filter_lt_length_iff_exists.2
            exact ⟨c, mem_addrs_of_nodeIs ns c _ _ hC, by simp⟩
          omega
        obtain ⟨ns2, p2, hl, hw2, hstop, hcount, hsub⟩ := ih ns1 ip hw1 hip hlen
        have hc1 := swallow_groupCount ns rank p c ip g hw hI hch hex ns1 hs
        refine ⟨ns2, p2, ?_, hw2, hstop, by omega, ?_⟩
        · simp only [swallowLoop, if_neg h0, hs, Option.bind_eq_bind, Option.some_bind,
            if_true, hI1n, hI1p, hl]
        · intro x hx
          have := hsub x hx
          rw [hadd] at this
          exact (List.mem_filter.1 this).1
      · have hfail : swallowGroups ns p = some (ns, false) := by
          apply swallowGroups_fails ns p ip dat hI
          intro g hg
          by_cases hex : g.layout = .Tabbed ∧ g.locked = true
          · exact Or.inr hex
          · exact Or.inl (fun c hc => hsw ⟨g, c, hg, hc, hex⟩)
        refine ⟨ns, p, ?_, hw, Or.inr ⟨hlive, hfail⟩, Nat.le_refl _, fun _ h => h⟩
        simp only [swallowLoop, if_neg h0, hfail, Option.bind_eq_bind, Option.some_bind,
          Bool.false_eq_true, if_false]

/-- The check of well-formedness is sound. -/
theorem wellFormed_of_check (ns : List Hy3Node) (rank : Ptr → Nat)
    (h : wellFormedCheck ns rank = true) : WellFormed ns rank := by
  unfold wellFormedCheck at h
  simp only [Bool.and_eq_true, decide_eq_true_eq, Bool.not_eq_true', List.all_eq_true] at h
  obtain ⟨⟨hnd, h0⟩, hall⟩ := h
  refine ⟨hnd, ?_, ?_, ?_⟩
  · intro hmem
    have : (addrs ns).contains 0 = true := List.elem_eq_true_of_mem hmem
    rw [this] at h0
    cases h0
  · intro x par dat ⟨n, hn, hp, hd⟩ hp0
    have h1 := (hall n (getNode_mem hn)).1
    have ha := getNode_addr hn
    rw [hp, ha] at h1
    simp only [Bool.or_eq_true, beq_iff_eq, hp0, false_or] at h1
    cases hP : getNode ns par with
    | none => rw [hP] at h1; cases h1
    | some P =>
      rw [hP] at h1
      simp only at h1
      cases hPd : P.data with
      | window w => rw [hPd] at h1; cases h1
      | group g =>
        rw [hPd] at h1
        simp only [Bool.and_eq_true, decide_eq_true_eq] at h1
        exact ⟨P.parent, g, ⟨P, hP, rfl, hPd⟩, List.mem_of_elem_eq_true h1.1, h1.2⟩
  · intro p pp g ⟨n, hn, _, hd⟩ x hx
    have h1 := (hall n (getNode_mem hn)).2
    have ha := getNode_addr hn
    rw [hd, ha] at h1
    have h2 := h1 x hx
    cases hX : getNode ns x with
    | none => rw [hX] at h2; cases h2
    | some X =>
      rw [hX] at h2
      simp only at h2
      exact ⟨X.data, X, hX, by simpa using h2, rfl⟩

/-- C16 (amended): on every well-formed tree the swallow pass (apply `swallowGroups` to the
current group and move to its parent for as long as it succeeds) terminates: with the fuel
of the model it returns a well-formed tree and the node it stopped at, which is `nullptr` or
a live node on which `swallowGroups` does nothing.  Each successful `swallowGroups` takes
exactly one group node away and leaves the tree well-formed.  Nothing is said about groups
that are not on the way from the start to the root: the pass does not look at them. -/
theorem swallow_pass_converges (ns : List Hy3Node) (rank : Ptr → Nat) (p : Ptr)
    (hw : WellFormed ns rank) (hp : p = 0 ∨ p ∈ addrs ns) :
    (∃ ns1 p1, swallowLoop (ns.length + 1) ns p = some (ns1, p1) ∧ WellFormed ns1 rank
        ∧ (p1 = 0 ∨ (p1 ∈ addrs ns1 ∧ swallowGroups ns1 p1 = some (ns1, false)))
        ∧ groupCount ns1 ≤ groupCount ns)
    ∧ (∀ q ns2, swallowGroups ns q = some (ns2, true) →
        groupCount ns2 + 1 = groupCount ns ∧ WellFormed ns2 rank) := by
  constructor
  · obtain ⟨ns1, p1, h1, h2, h3, h4, _⟩ :=
      swallowLoop_converges rank (ns.length + 1) ns p hw hp (Nat.lt_succ_self _)
    exact ⟨ns1, p1, h1, h2, h3, h4⟩
  · intro q ns2 hs
    obtain ⟨I, g, c, hI, hg, hch, hex⟩ := swallowGroups_success_inv ns ns2 q hs
    have hN : NodeIs ns q I.parent (.group g) := ⟨I, hI, rfl, hg⟩
    refine ⟨swallow_groupCount ns rank q c I.parent g hw hN hch hex ns2 hs, ?_⟩
    obtain ⟨ns3, _, hs3, hw3, _⟩ := swallow_wellFormed ns rank q c I.parent g hw hN hch hex
    rw [hs] at hs3
    cases hs3
    exact hw3

/-- Witness for C16 (amended): in `root[G[H[X, Y]], P[B, A]]` the pass started at G
swallows H into G and stops at the root, which has two children; one group node is gone. -/
theorem swallow_pass_converges_witness :
    ∃ ns1 p1, swallowLoop (exRemoval.length + 1) exRemoval 4 = some (ns1, p1)
      ∧ WellFormed ns1 rankRemoval
      ∧ (p1 = 0 ∨ (p1 ∈ addrs ns1 ∧ swallowGroups ns1 p1 = some (ns1, false)))
      ∧ groupCount ns1 ≤ groupCount exRemoval :=
  (swallow_pass_converges exRemoval rankRemoval 4
    (wellFormed_of_check exRemoval rankRemoval (by decide)) (Or.inr (by decide))).1

/-- C16 (counterexample): the well-formed tree `root[G[H[X, Y]], P(ephemeral)[B, A]]` under
the policy `AlwaysCollapse`.  Removing A leaves P with B alone; the swallow pass dissolves P
and stops at the root.  In the resulting tree the group G still has exactly one child, the
group H, which is collapsible under the policy, and neither is `Tabbed` or locked:
`swallowGroups` on G would succeed. -/
theorem swallow_pass_counterexample :
    wellFormedCheck exRemoval rankRemoval = true
      ∧ ∃ ns1, onWindowRemovedTiling O0 C0 exRemoval 105 = some ns1
        ∧ isGroupAt ns1 6 = false
        ∧ childrenAt ns1 4 = some [8]
        ∧ isGroupAt ns1 8 = true
        ∧ collapseCondition C0 ns1 4 = some true
        ∧ ∃ ns2, swallowGroups ns1 4 = some (ns2, true) :=
  ⟨by decide, _, rfl, rfl, rfl, rfl, rfl, _, rfl⟩

/-! ## Payloads through the swallow pass -/

/-- After a swallow on a well-formed tree every payload is the payload of a node of the tree
before. -/
theorem swallow_payloads (ns : List Hy3Node) (rank : Ptr → Nat) (into c ip : Ptr)
    (g : Hy3GroupData) (hw : WellFormed ns rank)
    (hI : NodeIs ns into ip (.group g)) (hch : g.children = [c])
    (hex : ¬ (g.layout = .Tabbed ∧ g.locked = true)) (ns1 : List Hy3Node)
    (hsw : swallowGroups ns into = some (ns1, true)) :
    ∀ x par1 dat1, NodeIs ns1 x par1 dat1 → ∃ y py, NodeIs ns y py dat1 := by
  obtain ⟨ns2, cd, hsw2, _, hadd, hC, hI1, _, hfwd⟩ :=
    swallow_wellFormed ns rank into c ip g hw hI hch hex
  rw [hsw] at hsw2
  cases hsw2
  intro x par1 dat1 h
  have hx := mem_addrs_of_nodeIs ns1 x par1 dat1 h
  rw [hadd, List.mem_filter] at hx
  have hxc : x ≠ c := by simpa using hx.2
  by_cases hxi : x = into
  · subst hxi
    obtain ⟨_, e2⟩ := nodeIs_unique ns1 x _ _ _ _ h hI1
    exact ⟨c, x, e2 ▸ hC⟩
  · obtain ⟨par, dat, hx0⟩ := nodeIs_of_mem_addrs ns x hx.1
    have := hfwd x par dat hxi hxc hx0
    obtain ⟨_, e2⟩ := nodeIs_unique ns1 x _ _ _ _ h this
    exact ⟨x, par, e2 ▸ hx0⟩

/-- After the swallow pass on a well-formed tree every payload is the payload of a node of
the tree before. -/
theorem swallowLoop_payloads (rank : Ptr → Nat) :
    ∀ (fuel : Nat) (ns : List Hy3Node) (p : Ptr) (r : List Hy3Node × Ptr),
      WellFormed ns rank → swallowLoop fuel ns p = some r →
      ∀ x par1 dat1, NodeIs r.1 x par1 dat1 → ∃ y py, NodeIs ns y py dat1 := by
  intro fuel
  induction fuel with
  | zero => intro ns p r _ h; cases h
  | succ k ih =>
    intro ns p r hw h
    unfold swallowLoop at h
    by_cases h0 : p = 0
    · rw [if_pos h0] at h
      cases h
      exact fun x par1 dat1 hx => ⟨x, par1, hx⟩
    · rw [if_neg h0] at h
      simp only [Option.bind_eq_bind, Option.bind_eq_some] at h
      obtain ⟨s, hs, h⟩ := h
      obtain ⟨ns1, b⟩ := s
      cases b with
      | false =>
        simp only [Bool.false_eq_true, if_false, Option.some.injEq] at h
        subst h
        -- a failing `swallowGroups` hands the tree back
        have : ns1 = ns := by
          unfold swallowGroups at hs
          rw [if_neg h0] at hs
          simp only [Option.bind_eq_bind, Option.bind_eq_some] at hs
          obtain ⟨I, _, hs⟩ := hs
          cases hd : I.data with
          | window w =>
            rw [hd] at hs
            simp only [Option.some.injEq, Prod.mk.injEq] at hs
            exact hs.1.symm
          | group g =>
            rw [hd] at hs
            simp only at hs
            split at hs
            · by_cases hex : g.layout = .Tabbed ∧ g.locked = true
              · rw [if_pos hex] at hs
                simp only [Option.some.injEq, Prod.mk.injEq] at hs
                exact hs.1.symm
              · rw [if_neg hex] at hs
                simp only [Option.bind_eq_bind, Option.bind_eq_some, Option.some.injEq,
                  Prod.mk.injEq] at hs
                obtain ⟨_, _, _, hb⟩ := hs
                cases hb
            · simp only [Option.some.injEq, Prod.mk.injEq] at hs
              exact hs.1.symm
        subst this
        exact fun x par1 dat1 hx => ⟨x, par1, hx⟩
      | true =>
        simp only [if_true, Option.bind_eq_some] at h
        obtain ⟨t, _, h⟩ := h
        obtain ⟨I, g, c, hI, hg, hch, hex⟩ := swallowGroups_success_inv ns ns1 p hs
        have hN : NodeIs ns p I.parent (.group g) := ⟨I, hI, rfl, hg⟩
        obtain ⟨ns3, _, hs3, hw3, _⟩ := swallow_wellFormed ns rank p c I.parent g hw hN hch hex
        rw [hs] at hs3
        cases hs3
        intro x par1 dat1 hx
        obtain ⟨y, py, hy⟩ := ih ns1 t.parent r hw3 h x par1 dat1 hx
        exact swallow_payloads ns rank p c I.parent g hw hN hch hex ns1 hs y py dat1 hy

/-! ## One step of the removal from the parent -/

/-- One step of `removeFromParentRecursive` on a well-formed tree: `child` (the node itself,
or a group that was emptied) leaves the children sequence of its parent `q` and is orphaned
(the node itself) or destroyed (an emptied group).  The tree stays well-formed, and the
other nodes are as they were. -/
theorem removalStep_wellFormed (ns : List Hy3Node) (rank : Ptr → Nat)
    (self child q pq : Ptr) (cd : Hy3NodeData) (gq : Hy3GroupData)
    (f : Hy3GroupData → Hy3GroupData) (hw : WellFormed ns rank)
    (hC : NodeIs ns child q cd) (hq0 : q ≠ 0) (hQ : NodeIs ns q pq (.group gq))
    (hf : (f gq).children = gq.children.filter (fun x => x != child))
    (hleaf : child = self ∨ cd.children = []) (N : List Hy3Node)
    (hN : N = if child = self then
        modifyNode (modifyGroup ns q f) child (fun n => { n with parent := 0 })
      else eraseNode (modifyGroup ns q f) child) :
    WellFormed N rank
      ∧ NodeIs N q pq (.group (f gq))
      ∧ (child = self → NodeIs N child 0 cd)
      ∧ (child ≠ self → child ∉ addrs N)
      ∧ (∀ x par dat, x ≠ child → x ≠ q → NodeIs ns x par dat → NodeIs N x par dat)
      ∧ (∀ x, x ∈ addrs N → x ∈ addrs ns)
      ∧ (∀ x par1 dat1, NodeIs N x par1 dat1 →
          (x = q ∧ par1 = pq ∧ dat1 = .group (f gq))
            ∨ (x = child ∧ child = self ∧ par1 = 0 ∧ dat1 = cd)
            ∨ (x ≠ q ∧ x ≠ child ∧ NodeIs ns x par1 dat1)) := by
  have hcq : q ≠ child := hw.parent_ne hC
  have hrank : rank q < rank child := by
    obtain ⟨_, _, _, _, hr⟩ := hw.parent_ok child q cd hC hq0
    exact hr
  generalize hX : modifyGroup ns q f = X at hN
  have qX : NodeIs X q pq (.group (f gq)) := by
    rw [← hX]; exact nodeIs_modifyGroup_self ns q pq gq f hQ
  have cX : NodeIs X child q cd := by
    rw [← hX]; exact nodeIs_modifyGroup_ne ns q child q cd f (Ne.symm hcq) hC
  have oX : ∀ x par dat, x ≠ q → NodeIs ns x par dat → NodeIs X x par dat := by
    intro x par dat hx h
    rw [← hX]; exact nodeIs_modifyGroup_ne ns q x par dat f hx h
  have aX : addrs X = addrs ns := by rw [← hX, addrs_modifyGroup]
  have clr : ∀ (Y : List Hy3Node) (x par : Ptr) (dat : Hy3NodeData), x ≠ child →
      NodeIs Y x par dat →
      NodeIs (modifyNode Y child (fun m => { m with parent := 0 })) x par dat :=
    fun Y x par dat hx h => nodeIs_modifyNode_ne Y child x par dat _ (fun _ => rfl) hx h
  have clrSelf : ∀ (Y : List Hy3Node) (par : Ptr) (dat : Hy3NodeData),
      NodeIs Y child par dat →
      NodeIs (modifyNode Y child (fun m => { m with parent := 0 })) child 0 dat :=
    fun Y par dat h => nodeIs_modifyNode_self Y child par 0 dat dat _ (fun _ => rfl)
      (fun m _ hd => ⟨rfl, hd⟩) h
  have clrAddrs : ∀ (Y : List Hy3Node),
      addrs (modifyNode Y child (fun m => { m with parent := 0 })) = addrs Y :=
    fun Y => addrs_modifyNode Y child _ (fun _ => rfl)
  -- forward facts
  have fq : NodeIs N q pq (.group (f gq)) := by
    rw [hN]
    split
    · exact clr X q pq _ hcq qX
    · exact nodeIs_eraseNode_ne X child q pq _ hcq qX
  have fc : child = self → NodeIs N child 0 cd := by
    intro e
    rw [hN, if_pos e]
    exact clrSelf X q cd cX
  have fgone : child ≠ self → child ∉ addrs N := by
    intro e
    rw [hN, if_neg e, addrs_eraseNode]
    simp
  have fo : ∀ x par dat, x ≠ child → x ≠ q → NodeIs ns x par dat → NodeIs N x par dat := by
    intro x par dat hxc hxq h
    rw [hN]
    split
    · exact clr X x par dat hxc (oX x par dat hxq h)
    · exact nodeIs_eraseNode_ne X child x par dat hxc (oX x par dat hxq h)
  have fsub : ∀ x, x ∈ addrs N → x ∈ addrs ns := by
    intro x hx
    rw [hN] at hx
    split at hx
    · rw [clrAddrs, aX] at hx; exact hx
    · rw [addrs_eraseNode, aX] at hx; exact (List.mem_filter.1 hx).1
  have fnd : (addrs N).Nodup := by
    rw [hN]
    split
    · rw [clrAddrs, aX]; exact hw.nodup
    · rw [addrs_eraseNode, aX]; exact hw.nodup.filter _
  -- the nodes of the new tree, read backwards
  have hback : ∀ x par1 dat1, NodeIs N x par1 dat1 →
      (x = q ∧ par1 = pq ∧ dat1 = .group (f gq))
        ∨ (x = child ∧ child = self ∧ par1 = 0 ∧ dat1 = cd)
        ∨ (x ≠ q ∧ x ≠ child ∧ NodeIs ns x par1 dat1) := by
    intro x par1 dat1 h
    by_cases hxq : x = q
    · subst hxq
      obtain ⟨e1, e2⟩ := nodeIs_unique N x _ _ _ _ h fq
      exact Or.inl ⟨rfl, e1, e2⟩
    · by_cases hxc : x = child
      · subst hxc
        by_cases hs : x = self
        · obtain ⟨e1, e2⟩ := nodeIs_unique N x _ _ _ _ h (fc hs)
          exact Or.inr (Or.inl ⟨rfl, hs, e1, e2⟩)
        · exact absurd (mem_addrs_of_nodeIs N x _ _ h) (fgone hs)
      · obtain ⟨par, dat, hx0⟩ := nodeIs_of_mem_addrs ns x
          (fsub x (mem_addrs_of_nodeIs N x _ _ h))
        obtain ⟨e1, e2⟩ := nodeIs_unique N x _ _ _ _ h (fo x par dat hxc hxq hx0)
        subst e1 e2
        exact Or.inr (Or.inr ⟨hxq, hxc, hx0⟩)
  -- a live group of the old tree other than `child` is a live group of the new tree, and
  -- lists what it listed, `child` apart
  have hgroup : ∀ p pp gp, NodeIs ns p pp (.group gp) → p ≠ child →
      ∃ g1, NodeIs N p pp (.group g1) ∧ ∀ x, x ∈ gp.children → x ≠ child → x ∈ g1.children := by
    intro p pp gp hp hpc
    by_cases hpq : p = q
    · rw [hpq] at hp ⊢
      obtain ⟨e1, e2⟩ := nodeIs_unique ns q _ _ _ _ hp hQ
      have e3 : gp = gq := by injection e2
      rw [e1, e3]
      refine ⟨f gq, fq, ?_⟩
      intro x hx hxc
      rw [hf, List.mem_filter]
      exact ⟨hx, by simpa using hxc⟩
    · exact ⟨gp, fo p pp _ hpc hpq hp, fun x hx _ => hx⟩
  refine ⟨⟨fnd, fun h => hw.nonnull (fsub 0 h), ?_, ?_⟩, fq, fc, fgone, fo, fsub, hback⟩
  · intro x par1 dat1 h hp1
    rcases hback x par1 dat1 h with ⟨rfl, rfl, rfl⟩ | ⟨_, _, rfl, _⟩ | ⟨hxq, hxc, hx0⟩
    · obtain ⟨pp, gp, hP, hmem, hr⟩ := hw.parent_ok x par1 _ hQ hp1
      have hpc : par1 ≠ child := by
        intro e
        rw [e] at hr
        exact absurd (Nat.lt_trans hr hrank) (Nat.lt_irrefl _)
      obtain ⟨g1, hg1, hsub⟩ := hgroup par1 pp gp hP hpc
      exact ⟨pp, g1, hg1, hsub x hmem hcq, hr⟩
    · exact absurd rfl hp1
    · obtain ⟨pp, gp, hP, hmem, hr⟩ := hw.parent_ok x par1 dat1 hx0 hp1
      by_cases hpc : par1 = child
      · subst hpc
        obtain ⟨_, e2⟩ := nodeIs_unique ns par1 _ _ _ _ hP hC
        rcases hleaf with hs | hl
        · exact ⟨0, gp, e2 ▸ fc hs, hmem, hr⟩
        · rw [← e2] at hl
          rw [show gp.children = [] from hl] at hmem
          cases hmem
      · obtain ⟨g1, hg1, hsub⟩ := hgroup par1 pp gp hP hpc
        exact ⟨pp, g1, hg1, hsub x hmem hxc, hr⟩
  · intro p pp1 g1 h x hx
    rcases hback p pp1 _ h with ⟨rfl, rfl, e⟩ | ⟨rfl, hs, rfl, e⟩ | ⟨hpq, hpc, hp0⟩
    · cases e
      rw [hf, List.mem_filter] at hx
      have hxc : x ≠ child := by simpa using hx.2
      obtain ⟨⟨d, hd⟩, _⟩ := hw.child_rank hQ hx.1
      exact ⟨d, fo x p d hxc (Ne.symm (hw.parent_ne hd)) hd⟩
    · subst e
      obtain ⟨⟨d, hd⟩, hr⟩ := hw.child_rank hC hx
      have hx1 : x ≠ p := Ne.symm (hw.parent_ne hd)
      have hx2 : x ≠ q := by
        intro e
        rw [e] at hr
        exact absurd (Nat.lt_trans hr hrank) (Nat.lt_irrefl _)
      exact ⟨d, fo x p d hx1 hx2 hd⟩
    · obtain ⟨⟨d, hd⟩, _⟩ := hw.child_rank hp0 hx
      have hxc : x ≠ child := by
        intro e
        subst e
        exact hpq (nodeIs_unique ns x _ _ _ _ hd hC).1
      by_cases hxq : x = q
      · subst hxq
        obtain ⟨e1, _⟩ := nodeIs_unique ns x _ _ _ _ hd hQ
        exact ⟨_, e1 ▸ fq⟩
      · exact ⟨d, fo x p d hxc hxq hd⟩

/-! ## Well-formed trees under the steps of the removal -/

theorem getNode_of_mem_nodup (ns : List Hy3Node) (n : Hy3Node) (hnd : (addrs ns).Nodup)
    (hn : n ∈ ns) : getNode ns n.addr = some n := by
  induction ns with
  | nil => cases hn
  | cons a t ih =>
    have hnd1 : a.addr ∉ addrs t ∧ (addrs t).Nodup := by
      simpa [addrs] using hnd
    rcases List.mem_cons.1 hn with rfl | ht
    · simp [getNode]
    · have hne : a.addr ≠ n.addr := by
        intro e
        apply hnd1.1
        rw [e]
        exact List.mem_map.2 ⟨n, ht, rfl⟩
      have := ih hnd1.2 ht
      simp only [getNode] at this ⊢
      rw [List.find?_cons_of_neg _ (by simpa using hne)]
      exact this

theorem nodeIs_eraseNode_iff (ns : List Hy3Node) (p x par : Ptr) (dat : Hy3NodeData) :
    NodeIs (eraseNode ns p) x par dat ↔ x ≠ p ∧ NodeIs ns x par dat := by
  constructor
  · rintro ⟨n, hn, hp, hd⟩
    rw [getNode_eraseNode] at hn
    by_cases hx : x = p
    · rw [if_pos hx] at hn
      cases hn
    · rw [if_neg hx] at hn
      exact ⟨hx, n, hn, hp, hd⟩
  · rintro ⟨hx, h⟩
    exact nodeIs_eraseNode_ne ns p x par dat hx h

theorem nodeIs_recalc_iff (O : NodeOps) (ns : List Hy3Node) (root x par : Ptr)
    (dat : Hy3NodeData) :
    NodeIs (recalcSizePosRecursive O ns root) x par dat ↔ NodeIs ns x par dat := by
  constructor
  · intro h
    have hx := mem_addrs_of_nodeIs _ x par dat h
    rw [addrs_recalc] at hx
    obtain ⟨par0, dat0, h0⟩ := nodeIs_of_mem_addrs ns x hx
    obtain ⟨e1, e2⟩ := nodeIs_unique _ x _ _ _ _ h (nodeIs_recalc O ns root x par0 dat0 h0)
    rw [e1, e2]
    exact h0
  · exact nodeIs_recalc O ns root x par dat

/-- The geometry engine keeps a tree well-formed: it assigns rectangles only. -/
theorem wellFormed_recalc (O : NodeOps) (ns : List Hy3Node) (rank : Ptr → Nat) (root : Ptr)
    (hw : WellFormed ns rank) : WellFormed (recalcSizePosRecursive O ns root) rank := by
  refine ⟨?_, ?_, ?_, ?_⟩
  · rw [addrs_recalc]; exact hw.nodup
  · rw [addrs_recalc]; exact hw.nonnull
  · intro x par dat h hp
    obtain ⟨pp, g, h1, h2, h3⟩ := hw.parent_ok x par dat ((nodeIs_recalc_iff O ns root _ _ _).1 h) hp
    exact ⟨pp, g, nodeIs_recalc O ns root _ _ _ h1, h2, h3⟩
  · intro p pp g h x hx
    obtain ⟨d, hd⟩ := hw.children_ok p pp g ((nodeIs_recalc_iff O ns root _ _ _).1 h) x hx
    exact ⟨d, nodeIs_recalc O ns root _ _ _ hd⟩

/-- Destroying a node that has no parent and no children keeps a tree well-formed. -/
theorem wellFormed_erase_orphan (ns : List Hy3Node) (rank : Ptr → Nat) (c : Ptr)
    (cd : Hy3NodeData) (hw : WellFormed ns rank) (hC : NodeIs ns c 0 cd)
    (hl : cd.children = []) : WellFormed (eraseNode ns c) rank := by
  refine ⟨?_, ?_, ?_, ?_⟩
  · rw [addrs_eraseNode]; exact hw.nodup.filter _
  · rw [addrs_eraseNode]
    intro h
    exact hw.nonnull (List.mem_filter.1 h).1
  · intro x par dat h hp
    obtain ⟨hxc, hx⟩ := (nodeIs_eraseNode_iff ns c x par dat).1 h
    obtain ⟨pp, g, h1, h2, h3⟩ := hw.parent_ok x par dat hx hp
    have hpc : par ≠ c := by
      intro e
      rw [e] at h1
      obtain ⟨_, e2⟩ := nodeIs_unique ns c _ _ _ _ h1 hC
      rw [← e2] at hl
      rw [show g.children = [] from hl] at h2
      cases h2
    exact ⟨pp, g, nodeIs_eraseNode_ne ns c par pp _ hpc h1, h2, h3⟩
  · intro p pp g h x hx
    obtain ⟨hpc, hp⟩ := (nodeIs_eraseNode_iff ns c p pp _).1 h
    obtain ⟨d, hd⟩ := hw.children_ok p pp g hp x hx
    have hxc : x ≠ c := by
      intro e
      rw [e] at hd
      obtain ⟨e1, _⟩ := nodeIs_unique ns c _ _ _ _ hd hC
      apply hw.nonnull
      rw [← e1]
      exact mem_addrs_of_nodeIs ns p pp _ hp
    exact ⟨d, nodeIs_eraseNode_ne ns c x p d hxc hd⟩

theorem length_eraseNode_lt (ns : List Hy3Node) (c : Ptr) (h : c ∈ addrs ns) :
    (eraseNode ns c).length < ns.length := by
  obtain ⟨m, hm, hma⟩ := List.mem_map.1 h
  unfold eraseNode
  apply List.length_filter_lt_length_iff_exists.2
  exact ⟨m, hm, by simp [hma]⟩

/-! ## The removal from the parent returns on a well-formed tree -/

/-- On a well-formed tree `removeFromParentRecursive` returns: the loop climbs from the node
through the groups it empties, each of which is destroyed.  The tree stays well-formed, the
node keeps its payload and has no parent afterwards, the result is `nullptr` or a live group,
and a window node of the new tree is the same window node of the old one. -/
theorem removeFromParentLoop_wellFormed (rank : Ptr → Nat) (self : Ptr) (sd : Hy3NodeData) :
    ∀ (fuel : Nat) (ns : List Hy3Node) (child q : Ptr) (cd : Hy3NodeData),
      WellFormed ns rank → NodeIs ns child q cd →
      ((child = self ∧ cd = sd) ∨ (child ≠ self ∧ cd.children = [] ∧ NodeIs ns self 0 sd)) →
      rank child ≤ rank self → ns.length ≤ fuel → (child = self → ns.length < fuel) →
      ∃ N r, removeFromParentLoop fuel ns self child = some (N, r) ∧ WellFormed N rank
        ∧ NodeIs N self 0 sd
        ∧ (r = 0 ∨ ∃ pp g, NodeIs N r pp (.group g))
        ∧ (∀ x, x ∈ addrs N → x ∈ addrs ns)
        ∧ (∀ x par1 w0, NodeIs N x par1 (.window w0) → ∃ par0, NodeIs ns x par0 (.window w0)) := by
  intro fuel
  induction fuel with
  | zero =>
    intro ns child q cd _ hC _ _ hlen _
    obtain ⟨n, hn, _, _⟩ := hC
    have := getNode_mem hn
    have h0 : ns = [] := List.length_eq_zero.1 (Nat.le_zero.1 hlen)
    rw [h0] at this
    cases this
  | succ k ih =>
    intro ns child q cd hw hC hcase hr hlen hlen1
    have hC0 := hC
    obtain ⟨c, hc, hcp, hcd⟩ := hC
    unfold removeFromParentLoop
    simp only [Option.bind_eq_bind, hc, Option.some_bind, hcp]
    by_cases hq0 : q = 0
    · rw [if_pos hq0]
      subst hq0
      by_cases hs : child = self
      · rw [if_pos hs]
        rcases hcase with ⟨_, e⟩ | ⟨hne, _⟩
        · refine ⟨ns, 0, rfl, hw, ?_, Or.inl rfl, fun _ h => h, fun x par1 w0 h => ⟨par1, h⟩⟩
          rw [← hs, ← e]
          exact hC0
        · exact absurd hs hne
      · rw [if_neg hs]
        rcases hcase with ⟨e, _⟩ | ⟨_, hl, hS⟩
        · exact absurd e hs
        · refine ⟨eraseNode ns child, 0, rfl, wellFormed_erase_orphan ns rank child cd hw hC0 hl,
            nodeIs_eraseNode_ne ns child self 0 sd (Ne.symm hs) hS, Or.inl rfl, ?_, ?_⟩
          · intro x hx
            rw [addrs_eraseNode] at hx
            exact (List.mem_filter.1 hx).1
          · intro x par1 w0 h
            exact ⟨par1, ((nodeIs_eraseNode_iff ns child x par1 _).1 h).2⟩
    · rw [if_neg hq0]
      obtain ⟨pq, gq, hQ, _, hrank⟩ := hw.parent_ok child q cd hC0 hq0
      have hQ0 := hQ
      obtain ⟨P, hP, hPp, hPd⟩ := hQ
      simp only [hP, Option.some_bind, hPd, Hy3NodeData.as_group]
      generalize hf : (fun g : Hy3GroupData =>
        ({ g with children := gq.children.filter (fun x => x != child)
                  focused_child := if g.focused_child = child then
                      (gq.children.filter (fun x => x != child)).headD 0
                    else g.focused_child } : Hy3GroupData)) = f
      have hfc : (f gq).children = gq.children.filter (fun x => x != child) := by
        rw [← hf]
      generalize hN : (if child = self then
          modifyNode (modifyGroup ns q f) child (fun n => { n with parent := 0 })
        else eraseNode (modifyGroup ns q f) child) = N
      have hleaf : child = self ∨ cd.children = [] := by
        rcases hcase with ⟨e, _⟩ | ⟨_, hl, _⟩
        · exact Or.inl e
        · exact Or.inr hl
      obtain ⟨hwN, fq, fc, fgone, fo, fsub, hback⟩ :=
        removalStep_wellFormed ns rank self child q pq cd gq f hw hC0 hq0 hQ0 hfc hleaf N hN.symm
      have hqs : q ≠ self := by
        intro e
        rw [e] at hrank
        exact absurd (Nat.lt_of_lt_of_le hrank hr) (Nat.lt_irrefl _)
      have hS : NodeIs N self 0 sd := by
        rcases hcase with ⟨e, e2⟩ | ⟨hne, _, hS⟩
        · rw [← e, ← e2]
          exact fc e
        · exact fo self 0 sd (Ne.symm hne) (Ne.symm hqs) hS
      have hwin : ∀ x par1 w0, NodeIs N x par1 (.window w0) →
          ∃ par0, NodeIs ns x par0 (.window w0) := by
        intro x par1 w0 h
        rcases hback x par1 _ h with ⟨_, _, e⟩ | ⟨rfl, _, _, e⟩ | ⟨_, _, h0⟩
        · cases e
        · exact ⟨q, e ▸ hC0⟩
        · exact ⟨par1, h0⟩
      by_cases hemp : (gq.children.filter (fun x => x != child)).isEmpty = true
      · rw [if_pos hemp]
        have hlenN : N.length ≤ k := by
          by_cases hs : child = self
          · have hA := addrs_modifyNode (modifyGroup ns q f) child
              (fun n : Hy3Node => { n with parent := 0 }) (fun _ => rfl)
            have : addrs N = addrs ns := by
              rw [← hN, if_pos hs, hA, addrs_modifyGroup]
            rw [length_of_addrs N ns this]
            exact Nat.lt_succ_iff.1 (hlen1 hs)
          · have h1 : N.length < (modifyGroup ns q f).length := by
              rw [← hN, if_neg hs]
              apply length_eraseNode_lt
              rw [addrs_modifyGroup]
              exact mem_addrs_of_nodeIs ns child q cd hC0
            rw [length_of_addrs _ ns (addrs_modifyGroup ns q f)] at h1
            omega
        have hch0 : (Hy3NodeData.group (f gq)).children = [] := by
          show (f gq).children = []
          rw [hfc]
          exact List.isEmpty_iff.1 hemp
        obtain ⟨N1, r, hrun, hw1, hS1, hr1, hsub1, hwin1⟩ :=
          ih N q pq (.group (f gq)) hwN fq (Or.inr ⟨hqs, hch0, hS⟩)
            (Nat.le_trans (Nat.le_of_lt hrank) hr) hlenN (fun e => absurd e hqs)
        refine ⟨N1, r, hrun, hw1, hS1, hr1, fun x hx => fsub x (hsub1 x hx), ?_⟩
        intro x par1 w0 h
        obtain ⟨par0, h0⟩ := hwin1 x par1 w0 h
        exact hwin x par0 w0 h0
      · rw [if_neg hemp]
        exact ⟨N, q, rfl, hwN, hS, Or.inr ⟨pq, f gq, fq⟩, fsub, hwin⟩

/-! ## Removal of a window node -/

theorem getNodeFromWindow_spec (ns : List Hy3Node) (w : Nat) (hnd : (addrs ns).Nodup)
    (h : getNodeFromWindow ns w ≠ 0) :
    ∃ par, NodeIs ns (getNodeFromWindow ns w) par (.window w) := by
  unfold getNodeFromWindow at h ⊢
  cases hf : ns.find? (fun n => n.data.is_window && n.data.as_window == some w) with
  | none =>
    rw [hf] at h
    exact absurd rfl h
  | some n =>
    simp only
    have hp := List.find?_some hf
    have hm := List.mem_of_find?_eq_some hf
    refine ⟨n.parent, n, getNode_of_mem_nodup ns n hnd hm, rfl, ?_⟩
    cases hd : n.data with
    | window v =>
      rw [hd] at hp
      simp only [Hy3NodeData.is_window, Hy3NodeData.as_window, Bool.true_and, beq_iff_eq,
        Option.some.injEq] at hp
      rw [hp]
    | group g =>
      rw [hd] at hp
      simp [Hy3NodeData.is_window] at hp

theorem getNodeFromWindow_none (ns : List Hy3Node) (w : Nat) (hnd : (addrs ns).Nodup)
    (h : ∀ x par, ¬ NodeIs ns x par (.window w)) : getNodeFromWindow ns w = 0 := by
  unfold getNodeFromWindow
  cases hf : ns.find? (fun n => n.data.is_window && n.data.as_window == some w) with
  | none => rfl
  | some n =>
    exfalso
    have hp := List.find?_some hf
    have hm := List.mem_of_find?_eq_some hf
    apply h n.addr n.parent
    refine ⟨n, getNode_of_mem_nodup ns n hnd hm, rfl, ?_⟩
    cases hd : n.data with
    | window v =>
      rw [hd] at hp
      simp only [Hy3NodeData.is_window, Hy3NodeData.as_window, Bool.true_and, beq_iff_eq,
        Option.some.injEq] at hp
      rw [hp]
    | group g =>
      rw [hd] at hp
      simp [Hy3NodeData.is_window] at hp

/-- In a well-formed tree no children sequence holds a node that is not live. -/
theorem not_listed_of_not_live (ns : List Hy3Node) (rank : Ptr → Nat) (x : Ptr)
    (hw : WellFormed ns rank) (hx : x ∉ addrs ns) : ∀ n ∈ ns, x ∉ n.data.children := by
  intro n hn hmem
  cases hd : n.data with
  | window v =>
    rw [hd] at hmem
    cases hmem
  | group g =>
    rw [hd] at hmem
    obtain ⟨d, hX⟩ := hw.children_ok n.addr n.parent g
      ⟨n, getNode_of_mem_nodup ns n hw.nodup hn, rfl, hd⟩ x hmem
    exact hx (mem_addrs_of_nodeIs ns x _ _ hX)

/-- The first part of the removal on a well-formed tree: the window node is taken out of its
parent and destroyed; the tree stays well-formed, the former parent is `nullptr` or a live
group, and the window nodes that are left are window nodes of the tree before. -/
theorem detachWindowNode_wellFormed (O : NodeOps) (ns : List Hy3Node) (rank : Ptr → Nat)
    (node ps : Ptr) (w : Nat) (hw : WellFormed ns rank) (hn : NodeIs ns node ps (.window w)) :
    ∃ D r, detachWindowNode O ns node = some (D, r) ∧ WellFormed D rank ∧ node ∉ addrs D
      ∧ (r = 0 ∨ ∃ pp g, NodeIs D r pp (.group g))
      ∧ (∀ x, x ∈ addrs D → x ∈ addrs ns)
      ∧ (∀ x par1 w0, NodeIs D x par1 (.window w0) →
          x ≠ node ∧ ∃ par0, NodeIs ns x par0 (.window w0)) := by
  obtain ⟨N, r, hrun, hwN, hS, hr, hsub, hwin⟩ :=
    removeFromParentLoop_wellFormed rank node (.window w) (ns.length + 1) ns node ps
      (.window w) hw hn (Or.inl ⟨rfl, rfl⟩) (Nat.le_refl _) (Nat.le_succ _)
      (fun _ => Nat.lt_succ_self _)
  have hwE : WellFormed (eraseNode N node) rank :=
    wellFormed_erase_orphan N rank node (.window w) hwN hS rfl
  generalize hE : eraseNode N node = E at hwE
  have hEiff : ∀ x par dat, NodeIs E x par dat ↔ x ≠ node ∧ NodeIs N x par dat := by
    intro x par dat
    rw [← hE]
    exact nodeIs_eraseNode_iff N node x par dat
  have hEadd : ∀ x, x ∈ addrs E → x ≠ node ∧ x ∈ addrs N := by
    intro x hx
    rw [← hE, addrs_eraseNode, List.mem_filter] at hx
    exact ⟨by simpa using hx.2, hx.1⟩
  generalize hE2 : (if O.removalExpandActor ns node ≠ 0 then
      recalcSizePosRecursive O E (O.removalExpandActor ns node) else E) = E2
  have hE2iff : ∀ x par dat, NodeIs E2 x par dat ↔ NodeIs E x par dat := by
    intro x par dat
    rw [← hE2]
    split
    · exact nodeIs_recalc_iff O E _ x par dat
    · exact Iff.rfl
  have hE2add : addrs E2 = addrs E := by
    rw [← hE2]
    split
    · exact addrs_recalc O E _
    · rfl
  have hwE2 : WellFormed E2 rank := by
    rw [← hE2]
    split
    · exact wellFormed_recalc O E rank _ hwE
    · exact hwE
  generalize hD : (if r ≠ 0 then recalcSizePosRecursive O E2 r else E2) = D
  have hDiff : ∀ x par dat, NodeIs D x par dat ↔ NodeIs E2 x par dat := by
    intro x par dat
    rw [← hD]
    split
    · exact nodeIs_recalc_iff O E2 _ x par dat
    · exact Iff.rfl
  have hDadd : addrs D = addrs E2 := by
    rw [← hD]
    split
    · exact addrs_recalc O E2 _
    · rfl
  have hwD : WellFormed D rank := by
    rw [← hD]
    split
    · exact wellFormed_recalc O E2 rank _ hwE2
    · exact hwE2
  refine ⟨D, r, ?_, hwD, ?_, ?_, ?_, ?_⟩
  · unfold detachWindowNode removeFromParentRecursive
    simp only [Option.bind_eq_bind, hrun, Option.some_bind, hE, hE2, hD]
  · intro h
    rw [hDadd, hE2add] at h
    exact (hEadd node h).1 rfl
  · rcases hr with h0 | ⟨pp, g, hg⟩
    · exact Or.inl h0
    · refine Or.inr ⟨pp, g, ?_⟩
      rw [hDiff, hE2iff, hEiff]
      refine ⟨?_, hg⟩
      intro e
      rw [e] at hg
      have := (nodeIs_unique N node _ _ _ _ hg hS).2
      cases this
  · intro x hx
    rw [hDadd, hE2add] at hx
    exact hsub x (hEadd x hx).2
  · intro x par1 w0 h
    rw [hDiff, hE2iff, hEiff] at h
    exact ⟨h.1, hwin x par1 w0 h.2⟩

/-! ## Removal destroys the window node -/

theorem removal_final (F : List Hy3Node) (rank : Ptr → Nat) (node : Ptr) (w : Nat)
    (hwF : WellFormed F rank) (hnode : node ∉ addrs F)
    (hno : ∀ x par, ¬ NodeIs F x par (.window w)) :
    getNodeFromWindow F w = 0 ∧ (∀ n ∈ F, n.data ≠ .window w) ∧ node ∉ addrs F
      ∧ (∀ n ∈ F, node ∉ n.data.children) ∧ WellFormed F rank := by
  refine ⟨getNodeFromWindow_none F w hwF.nodup hno, ?_, hnode,
    not_listed_of_not_live F rank node hwF hnode, hwF⟩
  intro n hn hd
  exact hno n.addr n.parent ⟨n, getNode_of_mem_nodup F n hwF.nodup hn, rfl, hd⟩

/-- C17: `onWindowRemovedTiling(w)` on a well-formed tree in which at most one node wraps
`w`.  For a window that has no node the call returns the collection as it is.  For a window
that has a node the call returns, and afterwards the lookup by window finds nothing, no node
wraps `w`, the removed node is not in the collection, no children sequence holds it, and the
tree is well-formed. -/
theorem removal_destroys_node (O : NodeOps) (C : Compositor) (ns : List Hy3Node)
    (rank : Ptr → Nat) (w : Nat) (hw : WellFormed ns rank)
    (hu : ∀ n ∈ ns, n.data = .window w → n.addr = getNodeFromWindow ns w) :
    (getNodeFromWindow ns w = 0 → onWindowRemovedTiling O C ns w = some ns)
      ∧ (getNodeFromWindow ns w ≠ 0 →
          ∃ ns1, onWindowRemovedTiling O C ns w = some ns1
            ∧ getNodeFromWindow ns1 w = 0
            ∧ (∀ n ∈ ns1, n.data ≠ .window w)
            ∧ getNodeFromWindow ns w ∉ addrs ns1
            ∧ (∀ n ∈ ns1, getNodeFromWindow ns w ∉ n.data.children)
            ∧ WellFormed ns1 rank) := by
  constructor
  · intro h0
    unfold onWindowRemovedTiling
    simp only [if_pos h0]
  · intro hne
    obtain ⟨ps, hn⟩ := getNodeFromWindow_spec ns w hw.nodup hne
    generalize hnode : getNodeFromWindow ns w = node at hne hn hu
    obtain ⟨D, r, hdet, hwD, hgone, hr, hsub, hwin⟩ :=
      detachWindowNode_wellFormed O ns rank node ps w hw hn
    have hnoD : ∀ x par, ¬ NodeIs D x par (.window w) := by
      intro x par h
      obtain ⟨hx, par0, ⟨n, hn0, _, hd⟩⟩ := hwin x par w h
      apply hx
      rw [← getNode_addr hn0]
      exact hu n (getNode_mem hn0) hd
    unfold onWindowRemovedTiling
    simp only [hnode, if_neg hne, Option.bind_eq_bind, hdet, Option.some_bind]
    by_cases hr0 : r = 0
    · rw [if_neg (by simpa using hr0)]
      exact ⟨D, rfl, removal_final D rank node w hwD hgone hnoD⟩
    · rw [if_pos hr0]
      obtain ⟨pp, g, hR⟩ := hr.resolve_left hr0
      have hR0 := hR
      obtain ⟨P, hP, _, hPd⟩ := hR
      rw [collapseCondition_eq C D r P g hP hPd (fun c hc => by
        obtain ⟨d, hd⟩ := hwD.children_ok r pp g hR0 c hc
        exact parentAt_of_nodeIs D c r d hd)]
      simp only [Option.some_bind]
      split
      · obtain ⟨S, p1, hloop, hwS, _, _, hsubS⟩ :=
          swallowLoop_converges rank (D.length + 1) D r hwD
            (Or.inr (mem_addrs_of_nodeIs D r pp _ hR0)) (Nat.lt_succ_self _)
        have hpay := swallowLoop_payloads rank (D.length + 1) D r (S, p1) hwD hloop
        have hnoS : ∀ x par, ¬ NodeIs S x par (.window w) := by
          intro x par h
          obtain ⟨y, py, hy⟩ := hpay x par _ h
          exact hnoD y py hy
        unfold swallowPass
        simp only [Option.bind_eq_bind, hloop, Option.some_bind]
        refine ⟨_, rfl, ?_⟩
        split
        · apply removal_final _ rank node w (wellFormed_recalc O S rank p1 hwS)
          · rw [addrs_recalc]
            exact fun h => hgone (hsubS node h)
          · intro x par h
            exact hnoS x par ((nodeIs_recalc_iff O S p1 x par _).1 h)
        · exact removal_final S rank node w hwS (fun h => hgone (hsubS node h)) hnoS
      · exact ⟨D, rfl, removal_final D rank node w hwD hgone hnoD⟩

/-- Witness for C17: in `root[G[H[X, Y]], P[B, A]]` the window of A has the node 5; after
its removal no node wraps it, and the node 5 is gone from the collection and from every
children sequence. -/
theorem removal_destroys_node_witness :
    getNodeFromWindow exRemoval 105 = 5
      ∧ ∃ ns1, onWindowRemovedTiling O0 C0 exRemoval 105 = some ns1
        ∧ getNodeFromWindow ns1 105 = 0
        ∧ (∀ n ∈ ns1, n.data ≠ .window 105)
        ∧ getNodeFromWindow exRemoval 105 ∉ addrs ns1
        ∧ (∀ n ∈ ns1, getNodeFromWindow exRemoval 105 ∉ n.data.children)
        ∧ WellFormed ns1 rankRemoval :=
  ⟨by decide, (removal_destroys_node O0 C0 exRemoval rankRemoval 105
    (wellFormed_of_check exRemoval rankRemoval (by decide)) (by decide)).2 (by decide)⟩

/-! ## The flags of a node through the steps of the insertion -/

theorem flagsAt_map (ns : List Hy3Node) (f : Hy3Node → Hy3Node)
    (hf : ∀ n, (f n).addr = n.addr)
    (hfl : ∀ n, (f n).reparenting = n.reparenting ∧ (f n).size_ratio = n.size_ratio)
    (x : Ptr) : flagsAt (ns.map f) x = flagsAt ns x := by
  unfold flagsAt
  rw [getNode_map ns f hf x]
  cases getNode ns x with
  | none => rfl
  | some n => simp [(hfl n).1, (hfl n).2]

theorem flagsAt_modifyNode (ns : List Hy3Node) (p : Ptr) (f : Hy3Node → Hy3Node)
    (hf : ∀ n, (f n).addr = n.addr)
    (hfl : ∀ n, (f n).reparenting = n.reparenting ∧ (f n).size_ratio = n.size_ratio)
    (x : Ptr) : flagsAt (modifyNode ns p f) x = flagsAt ns x := by
  unfold modifyNode
  apply flagsAt_map
  · intro n; split
    · exact hf n
    · rfl
  · intro n; split
    · exact hfl n
    · exact ⟨rfl, rfl⟩

theorem flagsAt_modifyNode_ne (ns : List Hy3Node) (p : Ptr) (f : Hy3Node → Hy3Node)
    (hf : ∀ n, (f n).addr = n.addr) (x : Ptr) (hx : x ≠ p) :
    flagsAt (modifyNode ns p f) x = flagsAt ns x := by
  unfold flagsAt
  rw [getNode_modifyNode ns p x f hf, if_neg hx]

theorem flagsAt_modifyGroup (ns : List Hy3Node) (p : Ptr) (f : Hy3GroupData → Hy3GroupData)
    (x : Ptr) : flagsAt (modifyGroup ns p f) x = flagsAt ns x := by
  unfold modifyGroup
  apply flagsAt_modifyNode
  · intro n; exact mapGroup_addr n f
  · intro n
    unfold Hy3Node.mapGroup
    split <;> exact ⟨rfl, rfl⟩

theorem flagsAt_recalc (O : NodeOps) (ns : List Hy3Node) (root x : Ptr) :
    flagsAt (recalcSizePosRecursive O ns root) x = flagsAt ns x := by
  unfold recalcSizePosRecursive
  apply flagsAt_map
  · intro n; rfl
  · intro n; exact ⟨rfl, rfl⟩

theorem flagsAt_reparentChildren (ns : List Hy3Node) (p x : Ptr) :
    flagsAt (reparentChildren ns p) x = flagsAt ns x := by
  unfold reparentChildren
  cases getNode ns p with
  | none => rfl
  | some P =>
    simp only
    apply flagsAt_map
    · intro n; split <;> rfl
    · intro n; split <;> exact ⟨rfl, rfl⟩

theorem flagsAt_append_live (ns : List Hy3Node) (z : Hy3Node) (x : Ptr) (X : Hy3Node)
    (hX : getNode ns x = some X) : flagsAt (ns ++ [z]) x = flagsAt ns x := by
  unfold flagsAt
  rw [getNode_append, hX]

theorem flagsAt_append_fresh (ns : List Hy3Node) (z : Hy3Node) (hz : z.addr = freshAddr ns) :
    flagsAt (ns ++ [z]) (freshAddr ns) = some (z.reparenting, z.size_ratio) := by
  unfold flagsAt
  rw [getNode_append, getNode_freshAddr]
  simp [hz]

theorem flagsAt_markFocusedUp (fuel : Nat) (ns ns1 : List Hy3Node) (p : Ptr)
    (h : markFocusedUp fuel ns p = some ns1) (x : Ptr) : flagsAt ns1 x = flagsAt ns x := by
  induction fuel generalizing ns p with
  | zero => simp [markFocusedUp] at h
  | succ k ih =>
    simp only [markFocusedUp, Option.bind_eq_bind, Option.bind_eq_some] at h
    obtain ⟨n, _, h⟩ := h
    split at h
    · cases h; rfl
    · rw [ih _ _ h, flagsAt_modifyGroup]

theorem flagsAt_markFocused (ns ns1 : List Hy3Node) (p : Ptr)
    (h : markFocused ns p = some ns1) (x : Ptr) : flagsAt ns1 x = flagsAt ns x := by
  unfold markFocused at h
  rw [flagsAt_markFocusedUp _ _ _ _ h, flagsAt_modifyGroup]

theorem flagsAt_setData (ns : List Hy3Node) (p : Ptr) (dd : Hy3NodeData) (x : Ptr) :
    flagsAt (modifyNode ns p (fun m => { m with data := dd })) x = flagsAt ns x := by
  apply flagsAt_modifyNode
  · intro n; rfl
  · intro n; exact ⟨rfl, rfl⟩

theorem flagsAt_swapData (ns ns1 : List Hy3Node) (a b : Ptr) (h : swapData ns a b = some ns1)
    (x : Ptr) : flagsAt ns1 x = flagsAt ns x := by
  simp only [swapData, Option.bind_eq_bind, Option.bind_eq_some] at h
  obtain ⟨na, _, nb, _, h⟩ := h
  cases h
  rw [flagsAt_reparentChildren, flagsAt_reparentChildren, flagsAt_setData, flagsAt_setData]

/-- The flags through `intoGroup`: every node that was there keeps `reparenting` and
`size_ratio`, and the new node is not reparenting. -/
theorem flagsAt_intoGroup (O : NodeOps) (ns : List Hy3Node) (self : Ptr)
    (layout : Hy3GroupLayout) (eph : GroupEphemeralityOption) (r : List Hy3Node × Ptr)
    (h : intoGroup O ns self layout eph = some r) :
    r.2 = freshAddr ns ∧ r.1.length = ns.length + 1
      ∧ (∃ s, flagsAt r.1 r.2 = some (false, s))
      ∧ ∀ x X, getNode ns x = some X → flagsAt r.1 x = flagsAt ns x := by
  simp only [intoGroup, Option.bind_eq_bind, Option.bind_eq_some] at h
  obtain ⟨n, hn, ns2, hswap, h⟩ := h
  cases h
  have hall : ∀ x, flagsAt (recalcSizePosRecursive O (modifyNode ns2 self (fun m =>
      { m with data := .group { (Hy3GroupData.ofLayout layout).setEphemeral eph with
          children := [freshAddr ns], group_focused := false,
          focused_child := freshAddr ns } })) self) x
      = flagsAt (ns ++ [Hy3Node.mk (freshAddr ns) self (.group (Hy3GroupData.ofLayout layout))
          n.position n.size n.workspace n.layout false 1 false]) x := by
    intro x
    rw [flagsAt_recalc, flagsAt_setData, flagsAt_swapData _ _ _ _ hswap]
  refine ⟨rfl, ?_, ⟨1, ?_⟩, ?_⟩
  · have hl : ns2.length = ns.length + 1 := by
      simp only [swapData, Option.bind_eq_bind, Option.bind_eq_some] at hswap
      obtain ⟨na, _, nb, _, hs⟩ := hswap
      cases hs
      simp [reparentChildren, modifyNode]
      split <;> (try split) <;> simp
    simp [recalcSizePosRecursive, modifyNode, hl]
  · show flagsAt _ (freshAddr ns) = _
    rw [hall, flagsAt_append_fresh _ _ rfl]
  · intro x X hX
    show flagsAt _ x = _
    rw [hall, flagsAt_append_live _ _ x X hX]

theorem flagsAt_reparenting (ns : List Hy3Node) (x : Ptr) (b : Bool) (s : Rat)
    (h : flagsAt ns x = some (b, s)) :
    ∃ X, getNode ns x = some X ∧ X.reparenting = b ∧ X.size_ratio = s := by
  unfold flagsAt at h
  cases hX : getNode ns x with
  | none =>
    rw [hX] at h
    cases h
  | some X =>
    rw [hX] at h
    simp only [Option.map_some', Option.some.injEq, Prod.mk.injEq] at h
    exact ⟨X, rfl, h.1, h.2⟩

theorem flagsAt_set_reparenting (ns : List Hy3Node) (node : Ptr) (n : Hy3Node)
    (hn : getNode ns node = some n) :
    flagsAt (modifyNode ns node (fun n => { n with reparenting := true, size_ratio := 1 })) node
      = some (true, 1) := by
  unfold flagsAt
  rw [getNode_modifyNode ns node node
    (fun n : Hy3Node => { n with reparenting := true, size_ratio := 1 }) (fun _ => rfl),
    if_pos rfl, hn]
  rfl

/-! ## Anchor rejection -/

theorem hasChild_nil (k : Nat) (ns : List Hy3Node) (x : Ptr) : hasChild k ns [] x = false := by
  cases k <;> simp [hasChild]

/-- A chain of children that reaches the wrapped copy of a node reaches the node it was
taken from in the tree before the wrap. -/
theorem hasChild_transfer (ns W : List Hy3Node) (oa a1 : Ptr)
    (hfresh : ∀ x X, getNode ns x = some X → a1 ∉ X.data.children)
    (hsame : ∀ x Y, x ≠ oa → x ≠ a1 → getNode W x = some Y →
      ∃ X, getNode ns x = some X ∧ X.data = Y.data) :
    ∀ (k : Nat) (ch : List Ptr), a1 ∉ ch → hasChild k W ch a1 = true →
      hasChild k ns ch oa = true := by
  intro k
  induction k with
  | zero => intro ch _ h; simp [hasChild] at h
  | succ k ih =>
    intro ch hch h
    simp only [hasChild, List.any_eq_true, Bool.or_eq_true, beq_iff_eq] at h ⊢
    obtain ⟨c, hc, h⟩ := h
    have hca : c ≠ a1 := fun e => hch (e ▸ hc)
    rcases h with h | h
    · exact absurd h hca
    · refine ⟨c, hc, ?_⟩
      by_cases hco : c = oa
      · exact Or.inl hco
      · right
        cases hY : getNode W c with
        | none =>
          rw [hY] at h
          cases h
        | some Y =>
          rw [hY] at h
          obtain ⟨X, hX, hd⟩ := hsame c Y hco hca hY
          rw [hX]
          simp only at h ⊢
          rw [hd]
          apply ih
          · rw [← hd]
            exact hfresh c X hX
          · exact h

/-- The rejection block of `insertNode` (lines 485-491) on a tree in which the inserted node
is marked `reparenting`: an anchor that is left is not the node, is not reparenting, and is
not found below the node by `hasChild`.  The nodes that were there keep their flags. -/
theorem insertNodeAnchor_rejects (O : NodeOps) (C : Compositor) (ns : List Hy3Node)
    (node : Ptr) (r : List Hy3Node × Ptr) (s : Rat)
    (hA : insertNodeAnchor O C ns node = some r) (hrep : flagsAt ns node = some (true, s)) :
    (∀ x X, getNode ns x = some X → flagsAt r.1 x = flagsAt ns x)
      ∧ (∃ m, getNode r.1 node = some m ∧ m.reparenting = true
          ∧ (r.2 ≠ 0 → r.2 ≠ node ∧ (∃ a, getNode r.1 r.2 = some a ∧ a.reparenting = false)
              ∧ hasChild (r.1.length + 1) r.1 m.data.children r.2 = false)) := by
  simp only [insertNodeAnchor, Option.bind_eq_bind, Option.bind_eq_some] at hA
  obtain ⟨n, hn, r1, hr1, oa2, _, oa3, hoa3, hr⟩ := hA
  cases hr
  have hkept : ∀ x X, getNode ns x = some X → flagsAt r1.1 x = flagsAt ns x := by
    intro x X hX
    split at hr1
    · simp only [Option.bind_eq_bind, Option.bind_eq_some] at hr1
      obtain ⟨f, _, hr1⟩ := hr1
      generalize (if f ≠ 0 then O.getPlacementActor ns f else f) = oa at hr1
      by_cases hroot : oa = getWorkspaceRootGroup ns n.workspace
      · rw [if_pos hroot] at hr1
        exact (flagsAt_intoGroup O ns _ _ _ r1 hr1).2.2.2 x X hX
      · rw [if_neg hroot] at hr1
        cases hr1; rfl
    · cases hr1; rfl
  have hnode : flagsAt r1.1 node = some (true, s) := by rw [hkept node n hn, hrep]
  unfold flagsAt at hnode
  cases hm : getNode r1.1 node with
  | none =>
    rw [hm] at hnode
    cases hnode
  | some m =>
    rw [hm] at hnode
    simp only [Option.map_some', Option.some.injEq, Prod.mk.injEq] at hnode
    refine ⟨hkept, m, rfl, hnode.1, ?_⟩
    intro h0
    simp only at h0
    by_cases h2 : oa2 = 0
    · rw [if_neg (by simpa using h2)] at hoa3
      cases hoa3
      exact absurd h2 h0
    · rw [if_pos h2] at hoa3
      simp only [hm, Option.bind_eq_bind, Option.some_bind] at hoa3
      split at hoa3
      · cases hoa3
        exact absurd rfl h0
      · next hcond =>
        simp only [Option.bind_eq_some] at hoa3
        obtain ⟨a, ha, hoa3⟩ := hoa3
        cases hoa3
        by_cases hrp : a.reparenting = true
        · simp only [hrp, if_true] at h0
          exact absurd rfl h0
        · simp only [hrp, Bool.false_eq_true, if_false]
          have hne : oa2 ≠ node := by
            intro e
            rw [e, hm] at ha
            cases ha
            exact hrp hnode.1
          refine ⟨hne, ⟨a, ha, by simpa using hrp⟩, ?_⟩
          cases hd : m.data with
          | window w => exact hasChild_nil _ _ _
          | group g =>
            rw [hd] at hcond
            simp only [Hy3NodeData.is_group, Bool.true_and, Bool.or_eq_true, beq_iff_eq,
              not_or] at hcond
            simpa using hcond.2

/-- C13: the anchor in a run of `insertNode` that reaches the placement, on a collection in
which no node lists itself or an address that is not allocated yet.  The node is marked
`reparenting` throughout.  The anchor that the rejection block (lines 485-491) leaves, and
the anchor that the splice uses after the autotile block, which may have replaced it by its
wrapped copy, are each either null or: not the inserted node, not reparenting, and not found
below the inserted node by `hasChild` with the depth of the check.  This holds for a window
node as for a group node: a window node is turned down as its own anchor by its
`reparenting` flag. -/
theorem anchor_rejection (O : NodeOps) (C : Compositor) (atl : Autotile) (L : Hy3Layout)
    (node : Ptr) (n : Hy3Node) (r1 r2 : List Hy3Node × Ptr) (r3 : List Hy3Node × Ptr × Ptr)
    (hn : getNode L.nodes node = some n)
    (hA : insertNodeAnchor O C
      (modifyNode L.nodes node (fun n => { n with reparenting := true, size_ratio := 1 })) node
        = some r1)
    (hT : insertNodeTarget C L.self r1.1 node r1.2 = some r2)
    (hP : insertNodeAutotile O C atl r2.1 r2.2 r1.2 = some r3)
    (hlive : ∀ m ∈ r1.1, freshAddr r1.1 ∉ m.data.children ∧ m.addr ∉ m.data.children) :
    (∃ m, getNode r1.1 node = some m ∧ m.reparenting = true
        ∧ (r1.2 ≠ 0 → r1.2 ≠ node ∧ (∃ a, getNode r1.1 r1.2 = some a ∧ a.reparenting = false)
            ∧ hasChild (r1.1.length + 1) r1.1 m.data.children r1.2 = false))
      ∧ (r3.2.2 ≠ 0 → ∃ m, getNode r3.1 node = some m ∧ m.reparenting = true
          ∧ r3.2.2 ≠ node ∧ (∃ a, getNode r3.1 r3.2.2 = some a ∧ a.reparenting = false)
          ∧ hasChild (r1.1.length + 1) r3.1 m.data.children r3.2.2 = false) := by
  obtain ⟨_, m, hm, hmr, hrej⟩ := insertNodeAnchor_rejects O C _ node r1 1 hA
    (flagsAt_set_reparenting L.nodes node n hn)
  refine ⟨⟨m, hm, hmr, hrej⟩, ?_⟩
  intro h3
  by_cases h1 : r1.2 = 0
  · -- without an anchor the autotile block does nothing
    exfalso
    simp only [insertNodeAutotile, autotileApplies, Option.bind_eq_bind, Option.bind_eq_some]
      at hP
    obtain ⟨OI, _, tg, _, hP⟩ := hP
    simp only [h1, ne_eq, not_true_eq_false, decide_False, Bool.and_false, Bool.false_and,
      Bool.false_eq_true, if_false, Option.some.injEq] at hP
    rw [← hP] at h3
    exact h3 rfl
  · obtain ⟨hne, ⟨a, ha, har⟩, hhc⟩ := hrej h1
    have hr2 : r2.1 = r1.1 := by
      unfold insertNodeTarget at hT
      rw [if_pos h1] at hT
      simp only [ha, Option.bind_eq_bind, Option.some_bind, Option.some.injEq] at hT
      rw [← hT]
    rw [hr2] at hP
    simp only [insertNodeAutotile, Option.bind_eq_bind, Option.bind_eq_some] at hP
    obtain ⟨OI, _, tg, _, hP⟩ := hP
    split at hP
    · -- the anchor is wrapped
      simp only [Option.bind_eq_some] at hP
      obtain ⟨r, hr, hP⟩ := hP
      cases hP
      have hal := hlive a (getNode_mem ha)
      rw [getNode_addr ha] at hal
      obtain ⟨W, G, hW, hadd, _, _, _, _, hothers⟩ := intoGroup_spec O r1.1 r1.2
        (if tg.layout = .SplitH then .SplitV else .SplitH)
        (if C.config.at_ephemeral ≠ 0 then .Ephemeral else .Standard) a ha hal.2 hal.1
      rw [hr] at hW
      cases hW
      obtain ⟨_, _, ⟨s, hfl⟩, hkept⟩ := flagsAt_intoGroup O r1.1 r1.2 _ _ _ hr
      simp only at hfl hkept h3 ⊢
      have hnf : node ≠ freshAddr r1.1 := by
        intro e
        rw [e, getNode_freshAddr] at hm
        cases hm
      obtain ⟨m1, hm1, _, hm1d⟩ := hothers node m.parent m.data (Ne.symm hne) hnf
        ⟨m, hm, rfl, rfl⟩
      have hm1r : m1.reparenting = true := by
        have h1 := hkept node m hm
        unfold flagsAt at h1
        rw [hm1, hm] at h1
        simp only [Option.map_some', Option.some.injEq, Prod.mk.injEq] at h1
        rw [h1.1, hmr]
      obtain ⟨A1, hA1, hA1r, _⟩ := flagsAt_reparenting W _ _ _ hfl
      refine ⟨m1, hm1, hm1r, Ne.symm hnf, ⟨A1, hA1, hA1r⟩, ?_⟩
      rw [hm1d]
      cases hh : hasChild (r1.1.length + 1) W m.data.children (freshAddr r1.1) with
      | false => rfl
      | true =>
        exfalso
        have := hasChild_transfer r1.1 W r1.2 (freshAddr r1.1)
          (fun x X hX => (hlive X (getNode_mem hX)).1)
          (by
            intro x Y hxo hxf hY
            have hx : x ∈ addrs W := by
              rw [← getNode_addr hY]
              exact List.mem_map_of_mem _ (getNode_mem hY)
            rw [hadd, List.mem_append, List.mem_singleton] at hx
            obtain ⟨X, hX⟩ := getNode_of_mem_addrs r1.1 x (hx.resolve_right hxf)
            obtain ⟨Y1, hY1, _, hY1d⟩ := hothers x X.parent X.data hxo hxf ⟨X, hX, rfl, rfl⟩
            rw [hY] at hY1
            cases hY1
            exact ⟨X, hX, hY1d.symm⟩)
          (r1.1.length + 1) m.data.children (hlive m (getNode_mem hm)).1 hh
        rw [hhc] at this
        cases this
    · cases hP
      exact ⟨m, hm, hmr, hne, ⟨a, ha, har⟩, hhc⟩

/-- Witness for C13: inserting the window node 5 into `root(SplitH)[A, B, C]` with C focused
and autotile on.  The rejection block leaves the anchor 4; the autotile block wraps it, and
the splice uses its copy at 6, which is not the node 5, is not reparenting and is not below
the node 5.  And when the only node is the window node 5 and its own window 104 holds the
input focus, the lookup finds the node itself and the rejection block turns it down: the
anchor is null. -/
theorem anchor_rejection_witness :
    (∃ r3, insertNodeAutotile O0 CAuto ⟨"all", false, []⟩ exAuto 2 4 = some r3
        ∧ (r3.2.2 ≠ 0 → ∃ m, getNode r3.1 5 = some m ∧ m.reparenting = true
          ∧ r3.2.2 ≠ 5 ∧ (∃ a, getNode r3.1 r3.2.2 = some a ∧ a.reparenting = false)
          ∧ hasChild (exAuto.length + 1) r3.1 m.data.children r3.2.2 = false)
        ∧ r3.2.2 = 6)
      ∧ getNodeFromWindow [{ leaf 5 0 104 with reparenting := true }] 104 = 5
      ∧ insertNodeAnchor O0 CFocused [{ leaf 5 0 104 with reparenting := true }] 5
          = some ([{ leaf 5 0 104 with reparenting := true }], 0) :=
  ⟨⟨(insertNodeAutotile O0 CAuto ⟨"all", false, []⟩ exAuto 2 4).get
        (by with_unfolding_all rfl),
      (Option.some_get _).symm,
      (anchor_rejection O0 CAuto ⟨"all", false, []⟩ (layoutOver exAutoBefore) 5 (leaf 5 0 104)
        (exAuto, 4) (exAuto, 2) _ rfl (by with_unfolding_all rfl)
        (by with_unfolding_all rfl) (Option.some_get _).symm (by decide)).2,
      by with_unfolding_all rfl⟩,
    by decide, by with_unfolding_all rfl⟩

/-! ## The splice, read backwards from a run that returned -/

theorem insertAt_after (l : List Ptr) (after node : Ptr) (h : after ∈ l) :
    ∃ pre post, l = pre ++ after :: post ∧ after ∉ pre
      ∧ insertAt l (findIdx l after + 1) node = pre ++ after :: node :: post := by
  obtain ⟨pre, post, hl, hpre⟩ := List.eq_append_cons_of_mem h
  refine ⟨pre, post, hl, hpre, ?_⟩
  rw [hl, findIdx_append_cons pre post after hpre, insertAt_append]
  simp [insertAt]

/-- What a splice that returned has done: the children sequence of the target group is the
former one with the node pushed to the end (no anchor) or inserted right after the anchor,
which was found in it; the parent of the node is the target group; the node is not
reparenting and keeps its `size_ratio`. -/
theorem insertNodeSplice_inv (O : NodeOps) (Y Z : List Hy3Node) (node t after : Ptr)
    (OI : Hy3Node) (g : Hy3GroupData) (b : Bool) (s : Rat)
    (h : insertNodeSplice O Y node t after = some Z)
    (hOI : getNode Y t = some OI) (hg : OI.data = .group g)
    (hfl : flagsAt Y node = some (b, s)) :
    ∃ ch, childrenAt Z t = some ch
      ∧ (after = 0 → ch = g.children ++ [node])
      ∧ (after ≠ 0 → after ∈ g.children
          ∧ ch = insertAt g.children (findIdx g.children after + 1) node)
      ∧ parentAt Z node = some t ∧ flagsAt Z node = some (false, s) := by
  simp only [insertNodeSplice, Option.bind_eq_bind, Option.bind_eq_some] at h
  obtain ⟨oi, hoi, g1, hg1, ch, hch, Y3, hY3, hZ⟩ := h
  cases hZ
  generalize hY1 : modifyNode Y node (fun n => { n with parent := t, reparenting := false })
    = Y1 at hoi hY3
  have hget : ∀ x, getNode Y1 x = if x = node then
      (getNode Y x).map (fun n => { n with parent := t, reparenting := false })
      else getNode Y x := by
    intro x
    rw [← hY1]
    exact getNode_modifyNode Y node x _ (fun _ => rfl)
  have hoid : oi.data = .group g := by
    rw [hget t, hOI] at hoi
    split at hoi
    · cases hoi
      exact hg
    · cases hoi
      exact hg
  rw [hoid] at hg1
  cases hg1
  obtain ⟨N, hN, hNr, hNs⟩ := flagsAt_reparenting Y node b s hfl
  have hshape := treeShape_focus _ Y3 node hY3
  refine ⟨ch, ?_, ?_, ?_, ?_, ?_⟩
  · rw [childrenAt_recalc, childrenAt_of_shape _ _ hshape,
      childrenAt_modifyGroup_self Y1 t oi g _ hoi hoid]
  · intro h0
    rw [if_pos h0] at hch
    cases hch
    rfl
  · intro h0
    rw [if_neg h0] at hch
    split at hch
    · next hlt =>
      cases hch
      exact ⟨List.indexOf_lt_length.1 hlt, rfl⟩
    · cases hch
  · rw [parentAt_recalc, parentAt_of_shape _ _ hshape, parentAt_modifyGroup]
    unfold parentAt
    rw [hget node, if_pos rfl, hN]
    rfl
  · rw [flagsAt_recalc, flagsAt_markFocused _ Y3 node hY3, flagsAt_modifyGroup]
    unfold flagsAt
    rw [hget node, if_pos rfl, hN]
    simp [hNs]

/-! ## Splice position -/

theorem insertAt_facts (l : List Ptr) (i : Nat) (node : Ptr) (h : node ∉ l) :
    (insertAt l i node).length = l.length + 1 ∧ (insertAt l i node).count node = 1
      ∧ (insertAt l i node).filter (fun x => x != node) = l := by
  have h1 : node ∉ l.take i := fun e => h (List.mem_of_mem_take e)
  have h2 : node ∉ l.drop i := fun e => h (List.mem_of_mem_drop e)
  refine ⟨?_, ?_, ?_⟩
  · simp only [insertAt, List.length_append, List.length_cons, List.length_take,
      List.length_drop]
    omega
  · simp only [insertAt, List.count_append, List.count_cons_self,
      List.count_eq_zero_of_not_mem h1, List.count_eq_zero_of_not_mem h2]
  · have e1 : (l.take i).filter (fun x => x != node) = l.take i :=
      List.filter_eq_self.2 (fun a ha => by
        have : a ≠ node := fun e => h1 (e ▸ ha)
        simpa using this)
    have e2 : (l.drop i).filter (fun x => x != node) = l.drop i :=
      List.filter_eq_self.2 (fun a ha => by
        have : a ≠ node := fun e => h2 (e ▸ ha)
        simpa using this)
    simp only [insertAt, List.filter_append, List.filter_cons, e1, e2, bne_self_eq_false,
      Bool.false_eq_true, if_false, List.take_append_drop]

theorem insertAt_length (l : List Ptr) (node : Ptr) :
    insertAt l l.length node = l ++ [node] := by
  simp [insertAt]

theorem insertNodeTarget_flags (C : Compositor) (self : Nat) (ns : List Hy3Node)
    (node oa : Ptr) (r2 : List Hy3Node × Ptr) (h : insertNodeTarget C self ns node oa = some r2)
    (x : Ptr) (X : Hy3Node) (hX : getNode ns x = some X) : flagsAt r2.1 x = flagsAt ns x := by
  unfold insertNodeTarget at h
  split at h
  · simp only [Option.bind_eq_bind, Option.bind_eq_some] at h
    obtain ⟨a, _, h⟩ := h
    cases h
    rfl
  · simp only [Option.bind_eq_bind, Option.bind_eq_some] at h
    obtain ⟨n, _, h⟩ := h
    split at h
    · cases h
      rfl
    · split at h
      · cases h
        simp only
        have hX1 : ∀ z, getNode (ns ++ [z]) x = some X := fun z => by
          rw [getNode_append, hX]
        rw [flagsAt_modifyGroup, flagsAt_append_live _ _ x X (hX1 _),
          flagsAt_append_live _ _ x X hX]
      · cases h
        exact flagsAt_append_live ns _ x X hX

/-- C12: a run of `insertNode` that returns, on a parentless node of a valid workspace, with
the anchor `r1.2` of the anchor stage, the target group `r2.2` with the children `g.children`
(the node not among them), and no autotile split.  With an anchor, the anchor is a child of
the target group, which is the parent of the anchor, and the new children sequence is the
former one with the node right after the anchor; without an anchor it is the former one with
the node at the end.  The sequence has one child more, holds the node once, and is the
former sequence when the node is left out.  The parent of the node is the target group, the
node is not reparenting, and its `size_ratio` is 1. -/
theorem splice_position (O : NodeOps) (C : Compositor) (L L1 : Hy3Layout) (node : Ptr)
    (n OI : Hy3Node) (g : Hy3GroupData) (r1 r2 : List Hy3Node × Ptr)
    (hn : getNode L.nodes node = some n) (hp : n.parent = 0)
    (hv : C.valid n.workspace = true)
    (hA : insertNodeAnchor O C
      (modifyNode L.nodes node (fun n => { n with reparenting := true, size_ratio := 1 })) node
        = some r1)
    (hT : insertNodeTarget C L.self r1.1 node r1.2 = some r2)
    (hOI : getNode r2.1 r2.2 = some OI) (hg : OI.data = .group g)
    (hno : (autotileApplies C (updateAutotileWorkspaces C L.autotile) OI g r1.2
      && autotileSplits C OI g) = false)
    (hnot : node ∉ g.children)
    (hrun : insertNode O C L node = some L1) :
    (r1.2 ≠ 0 → (∃ A, getNode r1.1 r1.2 = some A ∧ A.parent = r2.2)
        ∧ ∃ pre post, g.children = pre ++ r1.2 :: post ∧ r1.2 ∉ pre
          ∧ childrenAt L1.nodes r2.2 = some (pre ++ r1.2 :: node :: post))
      ∧ (r1.2 = 0 → childrenAt L1.nodes r2.2 = some (g.children ++ [node]))
      ∧ (∃ ch, childrenAt L1.nodes r2.2 = some ch ∧ ch.length = g.children.length + 1
          ∧ ch.count node = 1 ∧ ch.filter (fun x => x != node) = g.children)
      ∧ ∃ m, getNode L1.nodes node = some m ∧ m.parent = r2.2 ∧ m.reparenting = false
          ∧ m.size_ratio = 1 := by
  unfold insertNode at hrun
  simp only [hn, Option.bind_eq_bind, Option.some_bind, hp, ne_eq, not_true_eq_false,
    if_false, hv, Bool.true_eq_false, hA, hT, hOI, hg, Hy3NodeData.is_window,
    insertNodePlace, insertNodeAutotile, Hy3NodeData.as_group, hno, Bool.false_eq_true,
    Option.bind_eq_some]
    at hrun
  obtain ⟨Z, hZ, hL1⟩ := hrun
  cases hL1
  simp only
  -- the flags of the node at the splice
  have hfl0 := flagsAt_set_reparenting L.nodes node n hn
  obtain ⟨N0, hN0, _, _⟩ := flagsAt_reparenting _ node _ _ hfl0
  have hfl1 : flagsAt r1.1 node = some (true, 1) := by
    rw [(insertNodeAnchor_rejects O C _ node r1 1 hA hfl0).1 node N0 hN0, hfl0]
  obtain ⟨N1, hN1, _, _⟩ := flagsAt_reparenting _ node _ _ hfl1
  have hfl2 : flagsAt r2.1 node = some (true, 1) := by
    rw [insertNodeTarget_flags C L.self r1.1 node r1.2 r2 hT node N1 hN1, hfl1]
  obtain ⟨ch, hch, hnone, hsome, hpar, hflZ⟩ :=
    insertNodeSplice_inv O r2.1 Z node r2.2 r1.2 OI g true 1 hZ hOI hg hfl2
  refine ⟨?_, ?_, ?_, ?_⟩
  · intro h0
    obtain ⟨hmem, hche⟩ := hsome h0
    refine ⟨?_, ?_⟩
    · unfold insertNodeTarget at hT
      rw [if_pos h0] at hT
      simp only [Option.bind_eq_bind, Option.bind_eq_some] at hT
      obtain ⟨A, hA1, hT⟩ := hT
      cases hT
      exact ⟨A, hA1, rfl⟩
    · obtain ⟨pre, post, hl, hpre, hins⟩ := insertAt_after g.children r1.2 node hmem
      exact ⟨pre, post, hl, hpre, by rw [hch, hche, hins]⟩
  · intro h0
    rw [hch, hnone h0]
  · have hform : ∃ i, ch = insertAt g.children i node := by
      by_cases h0 : r1.2 = 0
      · exact ⟨g.children.length, by rw [hnone h0, insertAt_length]⟩
      · exact ⟨_, (hsome h0).2⟩
    obtain ⟨i, hi⟩ := hform
    obtain ⟨f1, f2, f3⟩ := insertAt_facts g.children i node hnot
    exact ⟨ch, hch, by rw [hi, f1], by rw [hi, f2], by rw [hi, f3]⟩
  · obtain ⟨m, hm, hmr, hms⟩ := flagsAt_reparenting Z node _ _ hflZ
    refine ⟨m, hm, ?_, hmr, hms⟩
    unfold parentAt at hpar
    rw [hm] at hpar
    simpa using hpar

/-- Witness for C12: `root(SplitH)[A]` with A focused; inserting the window node B makes the
children of the root `[A, B]`. -/
theorem splice_position_witness :
    ∃ L1, insertNode O0 C0 (layoutOver exOneBefore) 3 = some L1
      ∧ childrenAt L1.nodes 2 = some [1, 3]
      ∧ ∃ m, getNode L1.nodes 3 = some m ∧ m.parent = 2 ∧ m.reparenting = false
          ∧ m.size_ratio = 1 := by
  have hsome : (insertNode O0 C0 (layoutOver exOneBefore) 3).isSome = true := by
    with_unfolding_all rfl
  have h := splice_position O0 C0 (layoutOver exOneBefore)
    ((insertNode O0 C0 (layoutOver exOneBefore) 3).get hsome) 3 (leaf 3 0 102)
    (grp 2 0 .SplitH [1] 1)
    { Hy3GroupData.ofLayout .SplitH with
      children := [1], group_focused := false, focused_child := 1 }
    ([leaf 1 2 101, grp 2 0 .SplitH [1] 1,
      { leaf 3 0 102 with reparenting := true, size_ratio := 1 }], 1)
    ([leaf 1 2 101, grp 2 0 .SplitH [1] 1,
      { leaf 3 0 102 with reparenting := true, size_ratio := 1 }], 2)
    rfl rfl rfl (by with_unfolding_all rfl) (by with_unfolding_all rfl) rfl rfl
    (by with_unfolding_all rfl) (by decide) (Option.some_get hsome).symm
  obtain ⟨pre, post, hl, hpre, hch⟩ := (h.1 (by decide)).2
  refine ⟨_, (Option.some_get hsome).symm, ?_, h.2.2.2⟩
  rw [hch]
  have hpre0 : pre = [] := by
    cases pre with
    | nil => rfl
    | cons a t =>
      exfalso
      simp only [List.cons_append, List.cons.injEq] at hl
      apply hpre
      rw [hl.1]
      exact List.mem_cons_self _ _
  rw [hpre0] at hl ⊢
  simp only [List.nil_append, List.cons.injEq] at hl
  rw [← hl.2]
  rfl

/-! ## The first insertion into a workspace -/

theorem placeAt_map (ns : List Hy3Node) (f : Hy3Node → Hy3Node)
    (hf : ∀ n, (f n).addr = n.addr)
    (hfl : ∀ n, (f n).position = n.position ∧ (f n).size = n.size
      ∧ (f n).workspace = n.workspace)
    (x : Ptr) : placeAt (ns.map f) x = placeAt ns x := by
  unfold placeAt
  rw [getNode_map ns f hf x]
  cases getNode ns x with
  | none => rfl
  | some n => simp [(hfl n).1, (hfl n).2.1, (hfl n).2.2]

theorem placeAt_modifyNode (ns : List Hy3Node) (p : Ptr) (f : Hy3Node → Hy3Node)
    (hf : ∀ n, (f n).addr = n.addr)
    (hfl : ∀ n, (f n).position = n.position ∧ (f n).size = n.size
      ∧ (f n).workspace = n.workspace)
    (x : Ptr) : placeAt (modifyNode ns p f) x = placeAt ns x := by
  unfold modifyNode
  apply placeAt_map
  · intro n; split
    · exact hf n
    · rfl
  · intro n; split
    · exact hfl n
    · exact ⟨rfl, rfl, rfl⟩

theorem placeAt_modifyGroup (ns : List Hy3Node) (p : Ptr) (f : Hy3GroupData → Hy3GroupData)
    (x : Ptr) : placeAt (modifyGroup ns p f) x = placeAt ns x := by
  unfold modifyGroup
  apply placeAt_modifyNode
  · intro n; exact mapGroup_addr n f
  · intro n
    unfold Hy3Node.mapGroup
    split <;> exact ⟨rfl, rfl, rfl⟩

theorem placeAt_markFocusedUp (fuel : Nat) (ns ns1 : List Hy3Node) (p : Ptr)
    (h : markFocusedUp fuel ns p = some ns1) (x : Ptr) : placeAt ns1 x = placeAt ns x := by
  induction fuel generalizing ns p with
  | zero => simp [markFocusedUp] at h
  | succ k ih =>
    simp only [markFocusedUp, Option.bind_eq_bind, Option.bind_eq_some] at h
    obtain ⟨n, _, h⟩ := h
    split at h
    · cases h; rfl
    · rw [ih _ _ h, placeAt_modifyGroup]

theorem placeAt_markFocused (ns ns1 : List Hy3Node) (p : Ptr)
    (h : markFocused ns p = some ns1) (x : Ptr) : placeAt ns1 x = placeAt ns x := by
  unfold markFocused at h
  rw [placeAt_markFocusedUp _ _ _ _ h, placeAt_modifyGroup]

theorem placeAt_setParent (ns : List Hy3Node) (p t x : Ptr) :
    placeAt (modifyNode ns p (fun n => { n with parent := t, reparenting := false })) x
      = placeAt ns x := by
  apply placeAt_modifyNode
  · intro n; rfl
  · intro n; exact ⟨rfl, rfl, rfl⟩

theorem freshAddr_of_addrs (a b : List Hy3Node) (h : addrs a = addrs b) :
    freshAddr a = freshAddr b := by
  unfold freshAddr
  unfold addrs at h
  rw [h]

theorem getNodeFromWindow_cases (ns : List Hy3Node) (w : Nat) :
    getNodeFromWindow ns w = 0
      ∨ ∃ m ∈ ns, m.data = .window w ∧ getNodeFromWindow ns w = m.addr := by
  unfold getNodeFromWindow
  cases hf : ns.find? (fun n => n.data.is_window && n.data.as_window == some w) with
  | none => exact Or.inl rfl
  | some m =>
    right
    have hp := List.find?_some hf
    refine ⟨m, List.mem_of_find?_eq_some hf, ?_, rfl⟩
    cases hd : m.data with
    | window v =>
      rw [hd] at hp
      simp only [Hy3NodeData.is_window, Hy3NodeData.as_window, Bool.true_and, beq_iff_eq,
        Option.some.injEq] at hp
      rw [hp]
    | group g =>
      rw [hd] at hp
      simp [Hy3NodeData.is_window] at hp

/-- The anchor stage for a window node that is alone on its workspace: there is no root, and
the only node the windows of the compositor can lead to is the node itself, which is turned
down because it is reparenting.  No anchor is left. -/
theorem insertNodeAnchor_first (O : NodeOps) (C : Compositor) (ns0 : List Hy3Node)
    (node : Ptr) (n0 : Hy3Node) (w : Nat)
    (hn0 : getNode ns0 node = some n0) (hw : n0.data = .window w)
    (hrep : n0.reparenting = true)
    (hempty : ∀ m ∈ ns0, m.workspace = n0.workspace → m = n0)
    (hfocus : C.focusWindow.m_workspace = n0.workspace →
      ∀ m ∈ ns0, m.data = .window C.focusWindow.handle → m.workspace = n0.workspace)
    (hmouse : C.mouseWindow.m_workspace = n0.workspace →
      ∀ m ∈ ns0, m.data = .window C.mouseWindow.handle → m.workspace = n0.workspace)
    (hact : O.getPlacementActor ns0 node = node) :
    getWorkspaceRootGroup ns0 n0.workspace = 0
      ∧ insertNodeAnchor O C ns0 node = some (ns0, 0) := by
  have hroot : getWorkspaceRootGroup ns0 n0.workspace = 0 := by
    unfold getWorkspaceRootGroup
    have : ns0.find? (fun n => n.workspace == n0.workspace && n.parent == 0 && n.data.is_group
        && !n.reparenting) = none := by
      apply List.find?_eq_none.2
      intro m hm
      by_cases hws : m.workspace = n0.workspace
      · rw [hempty m hm hws, hw]
        simp [Hy3NodeData.is_group]
      · simp [hws]
    rw [this]
  have haddr : n0.addr = node := getNode_addr hn0
  have hfound : ∀ cw : CWindow, cw.m_workspace = n0.workspace →
      (∀ m ∈ ns0, m.data = .window cw.handle → m.workspace = n0.workspace) →
      getNodeFromWindow ns0 cw.handle = 0 ∨ getNodeFromWindow ns0 cw.handle = node := by
    intro cw hcw hall
    rcases getNodeFromWindow_cases ns0 cw.handle with h | ⟨m, hm, hd, h⟩
    · exact Or.inl h
    · right
      rw [h, hempty m hm (hall m hm hd), haddr]
  have hactor : ∀ found, found = 0 ∨ found = node →
      (if ¬ found = 0 then O.getPlacementActor ns0 found else found) = 0
        ∨ (if ¬ found = 0 then O.getPlacementActor ns0 found else found) = node := by
    intro found h
    rcases h with h | h
    · left; simp [h]
    · by_cases h0 : found = 0
      · left; simp [h0]
      · right; rw [if_pos h0, h, hact]
  refine ⟨hroot, ?_⟩
  unfold insertNodeAnchor
  simp only [hn0, Option.bind_eq_bind, Option.some_bind, hroot, ne_eq, not_true_eq_false,
    if_false, if_true, hw, Hy3NodeData.is_window]
  generalize hc1 : (decide (¬ C.focusWindow.handle = 0) && C.focusWindow.m_workspace == n0.workspace
      && !C.focusWindow.m_isFloating) = c1
  cases c1 with
  | false =>
    simp only [Bool.false_eq_true, if_false, Option.some_bind, Bool.false_and]
    have hF : (if ¬ C.mouseWindow.handle = 0 ∧ C.mouseWindow.m_workspace = n0.workspace then
        getNodeFromWindow ns0 C.mouseWindow.handle else 0) = 0
        ∨ (if ¬ C.mouseWindow.handle = 0 ∧ C.mouseWindow.m_workspace = n0.workspace then
        getNodeFromWindow ns0 C.mouseWindow.handle else 0) = node := by
      split
      · next h => exact hfound C.mouseWindow h.2 (hmouse h.2)
      · exact Or.inl rfl
    generalize (if ¬ C.mouseWindow.handle = 0 ∧ C.mouseWindow.m_workspace = n0.workspace then
        getNodeFromWindow ns0 C.mouseWindow.handle else 0) = F at hF ⊢
    have h2 := hactor F hF
    generalize (if ¬ F = 0 then O.getPlacementActor ns0 F else F) = oa2 at h2 ⊢
    rcases h2 with h | h
    · simp [h]
    · by_cases h0 : node = 0
      · simp [h, h0]
      · simp [h, h0, hn0, hrep, Hy3NodeData.is_group]
  | true =>
    have hws : C.focusWindow.m_workspace = n0.workspace := by
      simp only [Bool.and_eq_true, beq_iff_eq] at hc1
      exact hc1.1.2
    simp only [if_true, Option.some_bind, Bool.true_and, Bool.and_true]
    have hF : (if C.focusWindow.m_isMapped = true then getNodeFromWindow ns0 C.focusWindow.handle
        else if ¬ C.mouseWindow.handle = 0 ∧ C.mouseWindow.m_workspace = n0.workspace then
        getNodeFromWindow ns0 C.mouseWindow.handle else 0) = 0
        ∨ (if C.focusWindow.m_isMapped = true then getNodeFromWindow ns0 C.focusWindow.handle
        else if ¬ C.mouseWindow.handle = 0 ∧ C.mouseWindow.m_workspace = n0.workspace then
        getNodeFromWindow ns0 C.mouseWindow.handle else 0) = node := by
      split
      · exact hfound C.focusWindow hws (hfocus hws)
      · split
        · next h => exact hfound C.mouseWindow h.2 (hmouse h.2)
        · exact Or.inl rfl
    generalize (if C.focusWindow.m_isMapped = true then
        getNodeFromWindow ns0 C.focusWindow.handle
        else if ¬ C.mouseWindow.handle = 0 ∧ C.mouseWindow.m_workspace = n0.workspace then
        getNodeFromWindow ns0 C.mouseWindow.handle else 0) = F at hF ⊢
    have h2 := hactor F hF
    generalize (if ¬ F = 0 then O.getPlacementActor ns0 F else F) = oa2 at h2 ⊢
    rcases h2 with h | h
    · simp [h]
    · by_cases h0 : node = 0
      · simp [h, h0]
      · simp [h, h0, hn0, hrep, Hy3NodeData.is_group]

theorem workspace_of_placeAt (a b : List Hy3Node) (x y : Ptr) (h : placeAt a x = placeAt b y) :
    (getNode a x).map (fun n => n.workspace) = (getNode b y).map (fun n => n.workspace) := by
  have := congrArg (Option.map (fun p : Vector2D × Vector2D × Nat => p.2.2)) h
  simpa [placeAt, Option.map_map, Function.comp] using this

theorem workspace_recalc (O : NodeOps) (ns : List Hy3Node) (root x : Ptr) :
    (getNode (recalcSizePosRecursive O ns root) x).map (fun n => n.workspace)
      = (getNode ns x).map (fun n => n.workspace) := by
  rw [getNode_recalc]
  cases getNode ns x <;> rfl

/-- The geometry engine called on a node leaves the rectangle of that node, when the engine
takes the rectangle of the node it is called on as given. -/
theorem placeAt_recalc_root (O : NodeOps) (ns : List Hy3Node) (root : Ptr)
    (hgeo : ∀ ns root R, getNode ns root = some R → O.geometry ns root root
      = (R.position, R.size)) :
    placeAt (recalcSizePosRecursive O ns root) root = placeAt ns root := by
  unfold placeAt
  rw [getNode_recalc]
  cases hR : getNode ns root with
  | none => rfl
  | some R =>
    simp only [Option.map_some', Option.some.injEq, Prod.mk.injEq]
    rw [getNode_addr hR, hgeo ns root R hR]
    exact ⟨rfl, rfl, trivial⟩

/-- The splice of a node as the first child of a parentless group without children. -/
theorem insertNodeSplice_first (O : NodeOps) (Y : List Hy3Node) (node a : Ptr)
    (N Rt : Hy3Node) (g0 : Hy3GroupData)
    (hN : getNode Y node = some N) (hR : getNode Y a = some Rt) (hRp : Rt.parent = 0)
    (hRd : Rt.data = .group g0) (hg0 : g0.children = []) (han : a ≠ node) (ha0 : a ≠ 0)
    (hgeo : ∀ ns root R, getNode ns root = some R → O.geometry ns root root
      = (R.position, R.size)) :
    ∃ Z, insertNodeSplice O Y node a 0 = some Z ∧ addrs Z = addrs Y
      ∧ parentAt Z a = some 0 ∧ childrenAt Z a = some [node]
      ∧ layoutAt Z a = some g0.layout ∧ parentAt Z node = some a
      ∧ placeAt Z a = placeAt Y a ∧ flagsAt Z a = flagsAt Y a
      ∧ ∀ x, (getNode Z x).map (fun n => n.workspace)
          = (getNode Y x).map (fun n => n.workspace) := by
  generalize hY1 : modifyNode Y node (fun n => { n with parent := a, reparenting := false })
    = Y1
  have hget : ∀ x, getNode Y1 x = if x = node then
      (getNode Y x).map (fun n => { n with parent := a, reparenting := false })
      else getNode Y x := by
    intro x
    rw [← hY1]
    exact getNode_modifyNode Y node x _ (fun _ => rfl)
  have hR1 : getNode Y1 a = some Rt := by rw [hget a, if_neg han, hR]
  have hp1 : parentAt Y1 node = some a := by
    unfold parentAt
    rw [hget node, if_pos rfl, hN]
    rfl
  have hpl1 : ∀ x, placeAt Y1 x = placeAt Y x := by
    intro x
    rw [← hY1]
    exact placeAt_setParent Y node a x
  have hfl1 : flagsAt Y1 a = flagsAt Y a := by
    rw [← hY1]
    apply flagsAt_modifyNode_ne
    · intro n; rfl
    · exact han
  have ha1 : addrs Y1 = addrs Y := by
    have := addrs_modifyNode Y node
      (fun n : Hy3Node => { n with parent := a, reparenting := false }) (fun _ => rfl)
    rw [← hY1]
    exact this
  generalize hY2 : modifyGroup Y1 a (fun g => { g with children := g0.children ++ [node] })
    = Y2
  have hc2 : childrenAt Y2 a = some [node] := by
    rw [← hY2, childrenAt_modifyGroup_self Y1 a Rt g0 _ hR1 hRd, hg0]
    rfl
  have hl2 : layoutAt Y2 a = some g0.layout := by
    rw [← hY2, layoutAt_modifyGroup_self Y1 a Rt g0 _ hR1 hRd]
  have hp2 : ∀ x, parentAt Y2 x = parentAt Y1 x := by
    intro x
    rw [← hY2, parentAt_modifyGroup]
  have hpa2 : parentAt Y2 a = some 0 := by
    rw [hp2]
    unfold parentAt
    rw [hR1]
    simp [hRp]
  have hchain : parentChain Y2 node [a] := ⟨by rw [hp2, hp1], ha0, hpa2⟩
  have hlen : [a].length ≤ Y2.length := by
    have hm := getNode_mem hR1
    rw [← hY2]
    simp only [modifyGroup, modifyNode, List.length_map, List.length_singleton]
    exact List.length_pos_of_mem hm
  obtain ⟨Y3, hY3, hshape⟩ := markFocused_succeeds Y2 node [a] hchain hlen
  refine ⟨recalcSizePosRecursive O Y3 a, ?_, ?_, ?_, ?_, ?_, ?_, ?_, ?_, ?_⟩
  · unfold insertNodeSplice
    simp only [hY1, hR1, hRd, Hy3NodeData.as_group, Option.bind_eq_bind, Option.some_bind,
      if_true, hY2, hY3]
  · rw [addrs_recalc, addrs_of_shape Y3 Y2 hshape, ← hY2, addrs_modifyGroup, ha1]
  · rw [parentAt_recalc, parentAt_of_shape Y3 Y2 hshape, hpa2]
  · rw [childrenAt_recalc, childrenAt_of_shape Y3 Y2 hshape, hc2]
  · rw [layoutAt_recalc, layoutAt_of_shape Y3 Y2 hshape, hl2]
  · rw [parentAt_recalc, parentAt_of_shape Y3 Y2 hshape, hp2, hp1]
  · rw [placeAt_recalc_root O Y3 a hgeo, placeAt_markFocused Y2 Y3 node hY3, ← hY2,
      placeAt_modifyGroup, hpl1]
  · rw [flagsAt_recalc, flagsAt_markFocused Y2 Y3 node hY3, ← hY2, flagsAt_modifyGroup, hfl1]
  · intro x
    rw [workspace_recalc]
    apply workspace_of_placeAt
    rw [placeAt_markFocused Y2 Y3 node hY3, ← hY2, placeAt_modifyGroup, hpl1]

/-- C11: `insertNode` on a parentless window node of a valid workspace with
`tab_first_window` off, when no other node is on the workspace, the nodes of the focused
window and of the window under the cursor are on the workspaces of these windows, the node
is its own placement actor, and the geometry engine takes the rectangle of the node it is
called on as given.  The call returns; exactly one node is created; it is a parentless group
of the workspace whose only child is the node and which is the parent of the node, and it is
the only root group of the workspace; its layout is `SplitV` when the usable height of the
monitor is greater than the usable width and `SplitH` otherwise; its rectangle is the usable
area of the monitor, which is the rectangle that `recalculate` assigns to a root group, so
that the visit of `recalculate` leaves it as it is. -/
theorem first_insert (O : NodeOps) (C : Compositor) (L : Hy3Layout) (node : Ptr)
    (n : Hy3Node) (w : Nat)
    (hn : getNode L.nodes node = some n) (hp : n.parent = 0)
    (hv : C.valid n.workspace = true) (hwin : n.data = .window w)
    (htab : C.config.tab_first_window = 0)
    (hempty : ∀ m ∈ L.nodes, m.workspace = n.workspace → m = n)
    (hfocus : C.focusWindow.m_workspace = n.workspace →
      ∀ m ∈ L.nodes, m.data = .window C.focusWindow.handle → m.workspace = n.workspace)
    (hmouse : C.mouseWindow.m_workspace = n.workspace →
      ∀ m ∈ L.nodes, m.data = .window C.mouseWindow.handle → m.workspace = n.workspace)
    (hact : O.getPlacementActor
      (modifyNode L.nodes node (fun n => { n with reparenting := true, size_ratio := 1 })) node
        = node)
    (hgeo : ∀ ns root R, getNode ns root = some R → O.geometry ns root root
      = (R.position, R.size)) :
    ∃ L1 R G, insertNode O C L node = some L1
      ∧ addrs L1.nodes = addrs L.nodes ++ [freshAddr L.nodes]
      ∧ getNode L1.nodes (freshAddr L.nodes) = some R
      ∧ R.parent = 0 ∧ R.workspace = n.workspace ∧ R.data = .group G
      ∧ G.children = [node]
      ∧ G.layout = (if (C.monitor n.workspace).m_size.y - (C.monitor n.workspace).reservedBottom
            - (C.monitor n.workspace).reservedTop
          > (C.monitor n.workspace).m_size.x - (C.monitor n.workspace).reservedRight
            - (C.monitor n.workspace).reservedLeft then .SplitV else .SplitH)
      ∧ parentAt L1.nodes node = some (freshAddr L.nodes)
      ∧ R.position = ⟨(C.monitor n.workspace).m_position.x + (C.monitor n.workspace).reservedLeft,
          (C.monitor n.workspace).m_position.y + (C.monitor n.workspace).reservedTop⟩
      ∧ R.size = ⟨(C.monitor n.workspace).m_size.x - (C.monitor n.workspace).reservedLeft
            - (C.monitor n.workspace).reservedRight,
          (C.monitor n.workspace).m_size.y - (C.monitor n.workspace).reservedTop
            - (C.monitor n.workspace).reservedBottom⟩
      ∧ (R.position, R.size) = recalculateRect (C.monitor n.workspace)
      ∧ (∀ tw, placeAt (recalculateNode O C tw L1.nodes (freshAddr L.nodes)) (freshAddr L.nodes)
          = placeAt L1.nodes (freshAddr L.nodes))
      ∧ (∀ x X, getNode L1.nodes x = some X → X.workspace = n.workspace → X.parent = 0 →
          X.data.is_group = true → x = freshAddr L.nodes) := by
  have haddr : n.addr = node := getNode_addr hn
  generalize hns0 : modifyNode L.nodes node
    (fun n => { n with reparenting := true, size_ratio := 1 }) = ns0 at hact
  have hget0 : ∀ x, getNode ns0 x = if x = node then
      (getNode L.nodes x).map (fun n => { n with reparenting := true, size_ratio := 1 })
      else getNode L.nodes x := by
    intro x
    rw [← hns0]
    exact getNode_modifyNode L.nodes node x _ (fun _ => rfl)
  generalize hn0e : ({ n with reparenting := true, size_ratio := 1 } : Hy3Node) = n0
  have hn0 : getNode ns0 node = some n0 := by
    rw [hget0 node, if_pos rfl, hn, ← hn0e]
    rfl
  have hn0w : n0.workspace = n.workspace := by rw [← hn0e]
  have hn0d : n0.data = .window w := by rw [← hn0e]; exact hwin
  have hn0r : n0.reparenting = true := by rw [← hn0e]
  have hmem0 : ∀ m1 ∈ ns0, ∃ m ∈ L.nodes, m1.workspace = m.workspace ∧ m1.data = m.data
      ∧ (m = n → m1 = n0) := by
    intro m1 hm1
    rw [← hns0] at hm1
    unfold modifyNode at hm1
    obtain ⟨m, hm, hmm⟩ := List.mem_map.1 hm1
    refine ⟨m, hm, ?_⟩
    by_cases hma : m.addr = node
    · rw [if_pos hma] at hmm
      rw [← hmm]
      refine ⟨rfl, rfl, ?_⟩
      intro e
      rw [e, ← hn0e]
    · rw [if_neg hma] at hmm
      rw [← hmm]
      refine ⟨rfl, rfl, ?_⟩
      intro e
      rw [e] at hma
      exact absurd haddr hma
  have ha0 : addrs ns0 = addrs L.nodes := by
    have := addrs_modifyNode L.nodes node
      (fun n : Hy3Node => { n with reparenting := true, size_ratio := 1 }) (fun _ => rfl)
    rw [← hns0]
    exact this
  have hfresh : freshAddr ns0 = freshAddr L.nodes := freshAddr_of_addrs ns0 L.nodes ha0
  obtain ⟨hroot, hanchor⟩ := insertNodeAnchor_first O C ns0 node n0 w hn0 hn0d hn0r
    (by
      intro m1 hm1 hws
      obtain ⟨m, hm, e1, _, e3⟩ := hmem0 m1 hm1
      exact e3 (hempty m hm (by rw [← e1, hws, hn0w])))
    (by
      intro hws m1 hm1 hd
      obtain ⟨m, hm, e1, e2, _⟩ := hmem0 m1 hm1
      rw [e1, hn0w]
      exact hfocus (by rw [hws, hn0w]) m hm (by rw [← e2, hd]))
    (by
      intro hws m1 hm1 hd
      obtain ⟨m, hm, e1, e2, _⟩ := hmem0 m1 hm1
      rw [e1, hn0w]
      exact hmouse (by rw [hws, hn0w]) m hm (by rw [← e2, hd]))
    hact
  rw [hn0w] at hroot
  -- the root that is created
  generalize hlay : (if (C.monitor n.workspace).m_size.y - (C.monitor n.workspace).reservedBottom
            - (C.monitor n.workspace).reservedTop
          > (C.monitor n.workspace).m_size.x - (C.monitor n.workspace).reservedRight
            - (C.monitor n.workspace).reservedLeft then Hy3GroupLayout.SplitV
          else Hy3GroupLayout.SplitH) = lay
  generalize hrt : (Hy3Node.mk (freshAddr L.nodes) 0 (.group (Hy3GroupData.ofLayout lay))
      (recalculateRect (C.monitor n.workspace)).1 (recalculateRect (C.monitor n.workspace)).2
      n.workspace L.self false 1 false) = Rt
  have htarget : insertNodeTarget C L.self ns0 node 0 = some (ns0 ++ [Rt], freshAddr L.nodes) := by
    unfold insertNodeTarget
    simp only [ne_eq, not_true_eq_false, if_false, hn0, Option.bind_eq_bind, Option.some_bind,
      hn0w, hroot, htab, hfresh, hlay]
    rw [← hrt]
    rfl
  have hfn : freshAddr L.nodes ≠ node := by
    intro e
    rw [← e, getNode_freshAddr] at hn
    cases hn
  have hRt : getNode (ns0 ++ [Rt]) (freshAddr L.nodes) = some Rt := by
    rw [getNode_append, ← hfresh, getNode_freshAddr, hfresh]
    simp [← hrt]
  have hNY : getNode (ns0 ++ [Rt]) node = some n0 := by
    rw [getNode_append, hn0]
  obtain ⟨Z, hZ, hZa, hZp, hZc, hZl, hZn, hZpl, hZfl, hZw⟩ :=
    insertNodeSplice_first O (ns0 ++ [Rt]) node (freshAddr L.nodes) n0 Rt
      (Hy3GroupData.ofLayout lay) hNY hRt (by rw [← hrt]) (by rw [← hrt]) rfl hfn
      (freshAddr_ne_zero L.nodes) hgeo
  have hrun : insertNode O C L node
      = some { nodes := Z, autotile := updateAutotileWorkspaces C L.autotile, self := L.self } := by
    unfold insertNode
    have hpl : insertNodePlace O C (updateAutotileWorkspaces C L.autotile) (ns0 ++ [Rt]) node
        (freshAddr L.nodes) 0 = some Z := by
      unfold insertNodePlace insertNodeAutotile autotileApplies
      simp only [hRt, Option.bind_eq_bind, Option.some_bind]
      rw [← hrt]
      simp only [Hy3NodeData.as_group, Option.some_bind, ne_eq, not_true_eq_false,
        decide_False, Bool.and_false, Bool.false_and, Bool.false_eq_true, if_false]
      rw [hrt]
      exact hZ
    have hwd : Rt.data.is_window = false := by rw [← hrt]; rfl
    simp only [hn, Option.bind_eq_bind, Option.some_bind, hp, ne_eq, not_true_eq_false,
      if_false, hv, Bool.true_eq_false, hns0, hanchor, htarget, hRt, hwd, Bool.false_eq_true,
      hpl]
  -- the root in the result
  obtain ⟨R, hR⟩ : ∃ R, getNode Z (freshAddr L.nodes) = some R := by
    apply getNode_of_mem_addrs
    rw [hZa, addrs_append]
    simp [← hrt]
  have hplace : placeAt Z (freshAddr L.nodes) = some ((recalculateRect (C.monitor n.workspace)).1,
      (recalculateRect (C.monitor n.workspace)).2, n.workspace) := by
    rw [hZpl]
    unfold placeAt
    rw [hRt, ← hrt]
    rfl
  have hRplace : R.position = (recalculateRect (C.monitor n.workspace)).1
      ∧ R.size = (recalculateRect (C.monitor n.workspace)).2 ∧ R.workspace = n.workspace := by
    unfold placeAt at hplace
    rw [hR] at hplace
    simpa using hplace
  have hRpar : R.parent = 0 := by
    unfold parentAt at hZp
    rw [hR] at hZp
    simpa using hZp
  have hRrep : R.reparenting = false := by
    have : flagsAt Z (freshAddr L.nodes) = some (false, 1) := by
      rw [hZfl]
      unfold flagsAt
      rw [hRt, ← hrt]
      rfl
    obtain ⟨R1, hR1, h1, _⟩ := flagsAt_reparenting Z _ _ _ this
    rw [hR] at hR1
    cases hR1
    exact h1
  obtain ⟨G, hG, hGl⟩ : ∃ G, R.data = .group G ∧ G.layout = lay := by
    unfold layoutAt at hZl
    rw [hR] at hZl
    simp only [Option.some_bind, Option.map_eq_some'] at hZl
    obtain ⟨G, hG, hGl⟩ := hZl
    cases hd : R.data with
    | window v =>
      rw [hd] at hG
      cases hG
    | group G1 =>
      rw [hd] at hG
      simp only [Hy3NodeData.as_group, Option.some.injEq] at hG
      exact ⟨G1, rfl, by rw [hG]; exact hGl⟩
  have hGc : G.children = [node] := by
    unfold childrenAt at hZc
    rw [hR] at hZc
    simp only [Option.map_some', Option.some.injEq] at hZc
    rw [hG] at hZc
    exact hZc
  refine ⟨_, R, G, hrun, ?_, hR, hRpar, hRplace.2.2, hG, hGc, hGl, hZn, ?_, ?_, ?_, ?_, ?_⟩
  · show addrs Z = _
    rw [hZa, addrs_append, ha0, ← hrt]
  · rw [hRplace.1]
    rfl
  · rw [hRplace.2.1]
    rfl
  · rw [hRplace.1, hRplace.2.1]
  · intro tw
    show placeAt (recalculateNode O C tw Z _) _ = placeAt Z _
    unfold recalculateNode
    simp only [hR]
    have hisg : R.data.is_group = true := by rw [hG]; rfl
    rw [if_pos ⟨hRpar, hisg, hRrep⟩]
    split
    · rfl
    · rw [placeAt_recalc_root O _ _ hgeo]
      have hm := getNode_modifyNode Z (freshAddr L.nodes) (freshAddr L.nodes)
        (fun m : Hy3Node =>
          { m with position := (recalculateRect (C.monitor R.workspace)).1
                   size := (recalculateRect (C.monitor R.workspace)).2 }) (fun _ => rfl)
      unfold placeAt
      rw [hm, if_pos rfl, hR]
      simp only [Option.map_some', Option.some.injEq, Prod.mk.injEq]
      rw [hRplace.2.2]
      exact ⟨hRplace.1.symm, hRplace.2.1.symm, trivial⟩
  · intro x X hX hXw hXp _
    show x = freshAddr L.nodes
    by_contra hxa
    have hx : x ∈ addrs L.nodes := by
      have : x ∈ addrs Z := by
        rw [← getNode_addr hX]
        exact List.mem_map_of_mem _ (getNode_mem hX)
      rw [hZa, addrs_append, ha0, List.mem_append, List.mem_singleton, ← hrt] at this
      exact this.resolve_right hxa
    obtain ⟨X0, hX0⟩ := getNode_of_mem_addrs L.nodes x hx
    have hw0 : X0.workspace = X.workspace := by
      have h1 := hZw x
      rw [hX, getNode_append] at h1
      rw [hget0 x, hX0] at h1
      by_cases hxn : x = node
      · rw [if_pos hxn] at h1
        simpa using h1.symm
      · rw [if_neg hxn] at h1
        simpa using h1.symm
    have hXn : X0 = n := hempty X0 (getNode_mem hX0) (by rw [hw0, hXw])
    have hxn : x = node := by rw [← getNode_addr hX0, hXn, haddr]
    rw [hxn] at hX
    unfold parentAt at hZn
    rw [hX] at hZn
    simp only [Option.map_some', Option.some.injEq] at hZn
    rw [hXp] at hZn
    exact freshAddr_ne_zero L.nodes hZn.symm

/-- Witness for C11: the window node 5 alone on its workspace, its own window holding the
input focus, a 900x600 monitor without reserved insets.  The insertion creates the root
group at 6, horizontal, 900x600 at the origin, with the node 5 as its only child. -/
theorem first_insert_witness :
    ∃ L1 R G, insertNode OKeep CFocused (layoutOver [leaf 5 0 104]) 5 = some L1
      ∧ addrs L1.nodes = [5, 6] ∧ getNode L1.nodes 6 = some R
      ∧ R.parent = 0 ∧ R.data = .group G ∧ G.children = [5] ∧ G.layout = .SplitH
      ∧ parentAt L1.nodes 5 = some 6
      ∧ R.position = ⟨0, 0⟩ ∧ R.size = ⟨900, 600⟩ := by
  obtain ⟨L1, R, G, h1, h2, h3, h4, _, h6, h7, h8, h9, h10, h11, _⟩ :=
    first_insert OKeep CFocused (layoutOver [leaf 5 0 104]) 5 (leaf 5 0 104) 104
      rfl rfl rfl rfl rfl
      (fun m hm _ => List.mem_singleton.1 hm)
      (fun _ m hm _ => by rw [List.mem_singleton.1 hm])
      (fun _ m hm _ => by rw [List.mem_singleton.1 hm])
      rfl
      (fun ns root R hR => by
        show (match getNode ns root with
          | some n => (n.position, n.size)
          | none => (⟨0, 0⟩, ⟨0, 0⟩)) = _
        rw [hR])
  have hf : freshAddr (layoutOver [leaf 5 0 104]).nodes = 6 := by decide
  rw [hf] at h2 h3 h9
  refine ⟨L1, R, G, h1, h2, h3, h4, h6, h7, ?_, h9, ?_, ?_⟩
  · rw [h8]
    simp [CFocused, C0, leaf, Hy3Node.init]
    norm_num
  · rw [h10]
    simp [CFocused, C0, leaf, Hy3Node.init]
  · rw [h11]
    simp [CFocused, C0, leaf, Hy3Node.init]

/-! ## Directions and layouts -/

/-- C25: `shiftMatchesLayout` for every direction `d`: `SplitV` matches exactly `Up` and
`Down`; `SplitH` and `Tabbed` each match exactly `Left` and `Right`; so every layout matches
the two directions of exactly one axis; the match is the same for the reverse direction, and
`shiftIsForward` flips under `reverse`. -/
theorem shiftMatchesLayout_axis (d : ShiftDirection) :
    (shiftMatchesLayout .SplitV d = true ↔ d = .Up ∨ d = .Down)
      ∧ (shiftMatchesLayout .SplitH d = true ↔ d = .Left ∨ d = .Right)
      ∧ (shiftMatchesLayout .Tabbed d = true ↔ d = .Left ∨ d = .Right)
      ∧ (∀ l, (∀ e, shiftMatchesLayout l e = shiftIsVertical e)
          ∨ (∀ e, shiftMatchesLayout l e = !shiftIsVertical e))
      ∧ (∀ l, shiftMatchesLayout l (reverse d) = shiftMatchesLayout l d)
      ∧ shiftIsForward (reverse d) = !shiftIsForward d := by
  refine ⟨?_, ?_, ?_, ?_, ?_, ?_⟩
  · cases d <;> decide
  · cases d <;> decide
  · cases d <;> decide
  · intro l
    cases l
    · exact Or.inr (fun e => by cases e <;> rfl)
    · exact Or.inl (fun e => by cases e <;> rfl)
    · exact Or.inr (fun e => by cases e <;> rfl)
  · intro l
    exact shiftMatchesLayout_reverse l d
  · exact shiftIsForward_reverse d

/-! ## Autotile trigger at its edge values -/

/-- C26: the autotile block of `insertNode` (lines 561-579) when its other conditions hold:
autotile enabled, a live anchor, an eligible workspace, and a parent group that is not
`Tabbed` and has at least two children.  With a trigger of exactly 0 the anchor is wrapped,
whatever the size of the parent: the anchor becomes a group of the opposite orientation whose
only child is a new node with the former content of the anchor, and the block hands the
anchor on as the target group and the new node as the anchor.  With a negative trigger the
block changes nothing, whatever the projected size of a child is. -/
theorem autotile_trigger_edge (O : NodeOps) (C : Compositor) (atl : Autotile)
    (ns : List Hy3Node) (oi oa : Ptr) (OI A : Hy3Node) (g : Hy3GroupData)
    (hOI : getNode ns oi = some OI) (hg : OI.data = .group g)
    (hA : getNode ns oa = some A) (hac : oa ∉ A.data.children)
    (hfresh : freshAddr ns ∉ A.data.children)
    (hen : C.config.at_enable ≠ 0) (ha0 : oa ≠ 0) (h2 : 2 ≤ g.children.length)
    (htab : g.layout ≠ .Tabbed)
    (hws : shouldAutotileWorkspace atl (C.m_id OI.workspace) = true) :
    (autotileTrigger C g = 0 →
        ∃ W G, insertNodeAutotile O C atl ns oi oa = some (W, oa, freshAddr ns)
          ∧ addrs W = addrs ns ++ [freshAddr ns]
          ∧ NodeIs W oa A.parent (.group G)
          ∧ G.layout = (if g.layout = .SplitH then .SplitV else .SplitH)
          ∧ G.children = [freshAddr ns]
          ∧ NodeIs W (freshAddr ns) oa A.data)
      ∧ (autotileTrigger C g < 0 → insertNodeAutotile O C atl ns oi oa = some (ns, oi, oa)) := by
  have happ : autotileApplies C atl OI g oa = true := by
    simp only [autotileApplies, hen, ha0, hws, ne_eq, not_false_eq_true, decide_True,
      Bool.true_and, Bool.and_true, Bool.and_eq_true, decide_eq_true_eq, bne_iff_ne]
    exact ⟨h2, htab⟩
  constructor
  · intro h0
    have hsplit : autotileSplits C OI g = true := by
      simp [autotileSplits, h0]
    obtain ⟨W, G, hW, hadd, hI, hGl, hGc, hF, _⟩ := intoGroup_spec O ns oa
      (if g.layout = .SplitH then .SplitV else .SplitH)
      (if C.config.at_ephemeral ≠ 0 then .Ephemeral else .Standard) A hA hac hfresh
    refine ⟨W, G, ?_, hadd, hI, hGl, hGc, hF⟩
    unfold insertNodeAutotile
    simp only [hOI, hg, Hy3NodeData.as_group, Option.bind_eq_bind, Option.some_bind, happ,
      hsplit, Bool.and_self, if_true, hW]
  · intro hneg
    have hsplit : autotileSplits C OI g = false := by
      simp only [autotileSplits, decide_eq_false_iff_not, not_and]
      intro h
      exact absurd h (not_le.2 hneg)
    unfold insertNodeAutotile
    simp only [hOI, hg, Hy3NodeData.as_group, Option.bind_eq_bind, Option.some_bind, happ,
      hsplit, Bool.and_false, Bool.false_eq_true, if_false]

/-- Witness for C26: `root(SplitH, 900 wide)[A, B, C]` with the anchor C, autotile enabled.
With the trigger width 0 the anchor is wrapped although a fourth child would be 225 wide;
with the trigger width -1 nothing is wrapped. -/
theorem autotile_trigger_edge_witness :
    (∃ W G, insertNodeAutotile O0 { C0 with config := { cfg0 with at_enable := 1 } }
          ⟨"all", false, []⟩ exAuto 2 4 = some (W, 4, freshAddr exAuto)
        ∧ addrs W = addrs exAuto ++ [freshAddr exAuto]
        ∧ NodeIs W 4 2 (.group G)
        ∧ G.layout = .SplitV
        ∧ G.children = [freshAddr exAuto]
        ∧ NodeIs W (freshAddr exAuto) 4 (.window 103))
      ∧ insertNodeAutotile O0
          { C0 with config := { cfg0 with at_enable := 1, at_trigger_width := -1 } }
          ⟨"all", false, []⟩ exAuto 2 4 = some (exAuto, 2, 4) :=
  ⟨(autotile_trigger_edge O0 { C0 with config := { cfg0 with at_enable := 1 } }
      ⟨"all", false, []⟩ exAuto 2 4 rootAuto (leaf 4 2 103) groupAuto rfl rfl rfl
      (by decide) (by decide) (by decide) (by decide) (by decide) (by decide) rfl).1 rfl,
    (autotile_trigger_edge O0
      { C0 with config := { cfg0 with at_enable := 1, at_trigger_width := -1 } }
      ⟨"all", false, []⟩ exAuto 2 4 rootAuto (leaf 4 2 103) groupAuto rfl rfl rfl
      (by decide) (by decide) (by decide) (by decide) (by decide) (by decide) rfl).2
      (by decide)⟩

/-! ## Tab and un-tab -/

/-- The layout a group remembers: `setLayout` leaves a group that, while it is not `Tabbed`,
has its layout as `previous_nontab_layout`. -/
theorem setLayout_remembers (g : Hy3GroupData) (l : Hy3GroupLayout) :
    (g.setLayout l).layout ≠ .Tabbed → (g.setLayout l).previous_nontab_layout
      = (g.setLayout l).layout := by
  intro h
  simp only [Hy3GroupData.setLayout] at h ⊢
  rw [if_neg h]

theorem ofLayout_remembers (l : Hy3GroupLayout) :
    (Hy3GroupData.ofLayout l).layout ≠ .Tabbed → (Hy3GroupData.ofLayout l).previous_nontab_layout
      = (Hy3GroupData.ofLayout l).layout := by
  intro h
  simp only [Hy3GroupData.ofLayout] at h ⊢
  rw [if_neg h]

theorem setLayout_tab_untab (g : Hy3GroupData) (hl : g.layout ≠ .Tabbed) :
    (g.setLayout .Tabbed).layout = .Tabbed
      ∧ (g.setLayout .Tabbed).previous_nontab_layout = g.previous_nontab_layout
      ∧ ((g.setLayout .Tabbed).setLayout g.previous_nontab_layout).layout
          = g.previous_nontab_layout
      ∧ (g.previous_nontab_layout = g.layout →
          (g.setLayout .Tabbed).setLayout g.previous_nontab_layout = g) := by
  refine ⟨rfl, ?_, rfl, ?_⟩
  · simp [Hy3GroupData.setLayout]
  · intro hprev
    cases g
    simp only [Hy3GroupData.setLayout] at hl hprev ⊢
    simp only [if_true, hprev, if_neg hl]

/-- The command `changeGroupOn` on a node with a parent group: the layout of the parent is
set, and every other node keeps its parent and payload. -/
theorem changeGroupOn_spec (O : NodeOps) (ns : List Hy3Node) (node p : Ptr) (N P : Hy3Node)
    (g : Hy3GroupData) (l : Hy3GroupLayout)
    (hN : getNode ns node = some N) (hNp : N.parent = p) (hp0 : p ≠ 0)
    (hP : getNode ns p = some P) (hPg : P.data = .group g) :
    ∃ Z, changeGroupOn O ns node l = some Z ∧ addrs Z = addrs ns
      ∧ NodeIs Z p P.parent (.group (g.setLayout l))
      ∧ (∀ x par dat, x ≠ p → NodeIs ns x par dat → NodeIs Z x par dat)
      ∧ ∃ N1, getNode Z node = some N1 ∧ N1.parent = p := by
  refine ⟨recalcSizePosRecursive O (modifyGroup ns p (fun g => g.setLayout l)) p, ?_, ?_, ?_,
    ?_, ?_⟩
  · unfold changeGroupOn
    simp only [hN, Option.bind_eq_bind, Option.some_bind, hNp, if_neg hp0, hP, hPg,
      Hy3NodeData.as_group]
  · rw [addrs_recalc, addrs_modifyGroup]
  · exact nodeIs_recalc O _ p p _ _
      (nodeIs_modifyGroup_self ns p P.parent g _ ⟨P, hP, rfl, hPg⟩)
  · intro x par dat hx h
    exact nodeIs_recalc O _ p x par dat (nodeIs_modifyGroup_ne ns p x par dat _ hx h)
  · have h1 : parentAt (recalcSizePosRecursive O (modifyGroup ns p (fun g => g.setLayout l)) p)
        node = some p := by
      rw [parentAt_recalc, parentAt_modifyGroup]
      unfold parentAt
      rw [hN]
      simp [hNp]
    unfold parentAt at h1
    cases hZ : getNode (recalcSizePosRecursive O (modifyGroup ns p (fun g => g.setLayout l)) p)
        node with
    | none =>
      rw [hZ] at h1
      cases h1
    | some N1 =>
      rw [hZ] at h1
      exact ⟨N1, rfl, by simpa using h1⟩

/-- Tab and un-tab on a node whose parent group is not `Tabbed`: both calls return, the
parent is `Tabbed` in between, and afterwards its layout is the remembered one,
`previous_nontab_layout`; every other node keeps its parent and payload. -/
theorem tab_untab_run (O : NodeOps) (ns : List Hy3Node) (node p : Ptr) (N P : Hy3Node)
    (g : Hy3GroupData)
    (hN : getNode ns node = some N) (hNp : N.parent = p) (hp0 : p ≠ 0)
    (hP : getNode ns p = some P) (hPg : P.data = .group g) (hl : g.layout ≠ .Tabbed) :
    ∃ ns1 ns2, toggleTabGroupOn O ns node = some ns1
      ∧ changeGroupOn O ns node .Tabbed = some ns1
      ∧ layoutAt ns1 p = some .Tabbed
      ∧ toggleTabGroupOn O ns1 node = some ns2
      ∧ untabGroupOn O ns1 node = some ns2
      ∧ addrs ns2 = addrs ns
      ∧ NodeIs ns2 p P.parent
          (.group ((g.setLayout .Tabbed).setLayout g.previous_nontab_layout))
      ∧ layoutAt ns2 p = some g.previous_nontab_layout
      ∧ ∀ x par dat, x ≠ p → NodeIs ns x par dat → NodeIs ns2 x par dat := by
  obtain ⟨e1, e2, e3, _⟩ := setLayout_tab_untab g hl
  obtain ⟨ns1, h1, ha1, hp1, ho1, N1, hN1, hN1p⟩ :=
    changeGroupOn_spec O ns node p N P g .Tabbed hN hNp hp0 hP hPg
  obtain ⟨P1, hP1, hP1p, hP1d⟩ := hp1
  obtain ⟨ns2, h2, ha2, hp2, ho2, _⟩ :=
    changeGroupOn_spec O ns1 node p N1 P1 (g.setLayout .Tabbed) g.previous_nontab_layout hN1
      hN1p hp0 hP1 hP1d
  rw [hP1p] at hp2
  refine ⟨ns1, ns2, ?_, h1, ?_, ?_, ?_, ?_, hp2, ?_, ?_⟩
  · unfold toggleTabGroupOn
    simp only [hN, Option.bind_eq_bind, Option.some_bind, hNp, if_neg hp0, hP, hPg,
      Hy3NodeData.as_group, ne_eq, hl, not_false_eq_true, if_true]
    exact h1
  · exact layoutAt_of_nodeIs ns1 p P.parent _ ⟨P1, hP1, hP1p, hP1d⟩
  · unfold toggleTabGroupOn
    simp only [hN1, Option.bind_eq_bind, Option.some_bind, hN1p, if_neg hp0, hP1, hP1d,
      Hy3NodeData.as_group, ne_eq, e1, not_true_eq_false, if_false, e2]
    exact h2
  · unfold untabGroupOn
    simp only [hN1, Option.bind_eq_bind, Option.some_bind, hN1p, if_neg hp0, hP1, hP1d,
      Hy3NodeData.as_group, ne_eq, e1, not_true_eq_false, if_false, e2]
    exact h2
  · rw [ha2, ha1]
  · rw [layoutAt_of_nodeIs ns2 p P.parent _ hp2, e3]
  · intro x par dat hx h
    exact ho2 x par dat hx (ho1 x par dat hx h)

/-- The message `togglesplit` on the focused window of a node whose parent group is `SplitH`
or `SplitV`: the call returns, the parent has the other split layout and the rest of its
payload, `previous_nontab_layout` included, as before, and every other node keeps its parent
and payload. -/
theorem layoutMsg_togglesplit (O : NodeOps) (C : Compositor) (ns : List Hy3Node)
    (node p : Ptr) (N P : Hy3Node) (g : Hy3GroupData)
    (hw : C.focusWindow.handle ≠ 0)
    (hnode : getNodeFromWindow ns C.focusWindow.handle = node) (hnode0 : node ≠ 0)
    (hN : getNode ns node = some N) (hNp : N.parent = p) (hp0 : p ≠ 0)
    (hP : getNode ns p = some P) (hPg : P.data = .group g) (hl : g.layout ≠ .Tabbed) :
    ∃ ns0 l0, layoutMsg O C ns "togglesplit" = some ns0 ∧ addrs ns0 = addrs ns
      ∧ l0 ≠ g.layout ∧ l0 ≠ .Tabbed
      ∧ (g.layout = .SplitH → l0 = .SplitV) ∧ (g.layout = .SplitV → l0 = .SplitH)
      ∧ NodeIs ns0 p P.parent (.group { g with layout := l0 })
      ∧ (∀ x par dat, x ≠ p → NodeIs ns x par dat → NodeIs ns0 x par dat)
      ∧ ∃ N1, getNode ns0 node = some N1 ∧ N1.parent = p := by
  have key : ∀ l0 : Hy3GroupLayout,
      layoutMsg O C ns "togglesplit" = some (recalcSizePosRecursive O
        (modifyGroup ns p (fun g => { g with layout := l0 })) p) →
      l0 ≠ g.layout → l0 ≠ .Tabbed →
      (g.layout = .SplitH → l0 = .SplitV) → (g.layout = .SplitV → l0 = .SplitH) →
      ∃ ns0 l0, layoutMsg O C ns "togglesplit" = some ns0 ∧ addrs ns0 = addrs ns
        ∧ l0 ≠ g.layout ∧ l0 ≠ .Tabbed
        ∧ (g.layout = .SplitH → l0 = .SplitV) ∧ (g.layout = .SplitV → l0 = .SplitH)
        ∧ NodeIs ns0 p P.parent (.group { g with layout := l0 })
        ∧ (∀ x par dat, x ≠ p → NodeIs ns x par dat → NodeIs ns0 x par dat)
        ∧ ∃ N1, getNode ns0 node = some N1 ∧ N1.parent = p := by
    intro l0 hrun h1 h2 h3 h4
    refine ⟨_, l0, hrun, ?_, h1, h2, h3, h4, ?_, ?_, ?_⟩
    · rw [addrs_recalc, addrs_modifyGroup]
    · exact nodeIs_recalc O _ p p _ _
        (nodeIs_modifyGroup_self ns p P.parent g _ ⟨P, hP, rfl, hPg⟩)
    · intro x par dat hx h
      exact nodeIs_recalc O _ p x par dat (nodeIs_modifyGroup_ne ns p x par dat _ hx h)
    · have hpa : parentAt (recalcSizePosRecursive O
          (modifyGroup ns p (fun g => { g with layout := l0 })) p) node = some p := by
        rw [parentAt_recalc, parentAt_modifyGroup]
        unfold parentAt
        rw [hN]
        simp [hNp]
      unfold parentAt at hpa
      cases hZ : getNode (recalcSizePosRecursive O
          (modifyGroup ns p (fun g => { g with layout := l0 })) p) node with
      | none =>
        rw [hZ] at hpa
        cases hpa
      | some N1 =>
        rw [hZ] at hpa
        exact ⟨N1, rfl, by simpa using hpa⟩
  have hrun : ∀ l, g.layout = l → layoutMsg O C ns "togglesplit"
      = match l with
        | .SplitH => some (recalcSizePosRecursive O
            (modifyGroup ns p (fun g => { g with layout := .SplitV })) p)
        | .SplitV => some (recalcSizePosRecursive O
            (modifyGroup ns p (fun g => { g with layout := .SplitH })) p)
        | .Tabbed => some ns := by
    intro l hgl
    unfold layoutMsg
    simp only [if_true, ne_eq, hw, not_false_eq_true, hnode, hnode0, hN, Option.bind_eq_bind,
      Option.some_bind, hNp, hp0, hP, hPg, Hy3NodeData.as_group, hgl]
  have h3 : g.layout = .SplitH ∨ g.layout = .SplitV := by
    cases h : g.layout with
    | SplitH => exact Or.inl rfl
    | SplitV => exact Or.inr rfl
    | Tabbed => exact absurd h hl
  rcases h3 with hgl | hgl
  · exact key .SplitV (hrun _ hgl) (by rw [hgl]; decide) (by decide) (fun _ => rfl)
      (fun h => by rw [hgl] at h; cases h)
  · exact key .SplitH (hrun _ hgl) (by rw [hgl]; decide) (by decide)
      (fun h => by rw [hgl] at h; cases h) (fun _ => rfl)

/-- C23 (failing input): a node whose parent is a group that is `SplitH` or `SplitV`.
Tabbing and un-tabbing the parent returns and leaves it with the remembered layout
`previous_nontab_layout`, which is the original layout, with every parent and payload as
before, when the group remembers its own layout; `untabGroupOn` on a node whose parent is
not `Tabbed`, or on a parentless node, changes nothing.  But the message `togglesplit`
changes the layout of such a group without the remembered one: after it the group has the
other split layout, and tabbing and un-tabbing it then gives the layout from before the
message, not the layout the group had when it was tabbed. -/
theorem untab_after_togglesplit (O : NodeOps) (ns : List Hy3Node) (node p : Ptr)
    (N P : Hy3Node) (g : Hy3GroupData)
    (hN : getNode ns node = some N) (hNp : N.parent = p) (hp0 : p ≠ 0)
    (hP : getNode ns p = some P) (hPg : P.data = .group g) (hl : g.layout ≠ .Tabbed) :
    (∃ ns1 ns2, toggleTabGroupOn O ns node = some ns1
        ∧ changeGroupOn O ns node .Tabbed = some ns1
        ∧ layoutAt ns1 p = some .Tabbed
        ∧ toggleTabGroupOn O ns1 node = some ns2
        ∧ untabGroupOn O ns1 node = some ns2
        ∧ addrs ns2 = addrs ns
        ∧ layoutAt ns2 p = some g.previous_nontab_layout
        ∧ (∀ x par dat, x ≠ p → NodeIs ns x par dat → NodeIs ns2 x par dat)
        ∧ (g.previous_nontab_layout = g.layout →
            ∀ x par dat, NodeIs ns x par dat → NodeIs ns2 x par dat))
      ∧ untabGroupOn O ns node = some ns
      ∧ (∀ m M, getNode ns m = some M → M.parent = 0 →
          untabGroupOn O ns m = some ns ∧ toggleTabGroupOn O ns m = some ns)
      ∧ (∀ C : Compositor, C.focusWindow.handle ≠ 0 →
          getNodeFromWindow ns C.focusWindow.handle = node → node ≠ 0 →
          g.previous_nontab_layout = g.layout →
          ∃ ns0 ns1 ns2 l0, layoutMsg O C ns "togglesplit" = some ns0
            ∧ layoutAt ns0 p = some l0 ∧ l0 ≠ .Tabbed ∧ l0 ≠ g.layout
            ∧ (g.layout = .SplitH → l0 = .SplitV) ∧ (g.layout = .SplitV → l0 = .SplitH)
            ∧ toggleTabGroupOn O ns0 node = some ns1
            ∧ changeGroupOn O ns0 node .Tabbed = some ns1
            ∧ layoutAt ns1 p = some .Tabbed
            ∧ toggleTabGroupOn O ns1 node = some ns2
            ∧ untabGroupOn O ns1 node = some ns2
            ∧ layoutAt ns2 p = some g.layout
            ∧ layoutAt ns2 p ≠ layoutAt ns0 p) := by
  refine ⟨?_, ?_, ?_, ?_⟩
  · obtain ⟨ns1, ns2, h1, h2, h3, h4, h5, h6, h7, h8, h9⟩ :=
      tab_untab_run O ns node p N P g hN hNp hp0 hP hPg hl
    refine ⟨ns1, ns2, h1, h2, h3, h4, h5, h6, h8, h9, ?_⟩
    intro hprev x par dat h
    by_cases hx : x = p
    · rw [hx] at h ⊢
      obtain ⟨X, hX, hXp, hXd⟩ := h
      rw [hP] at hX
      cases hX
      rw [← hXp, ← hXd, hPg, ← (setLayout_tab_untab g hl).2.2.2 hprev]
      exact h7
    · exact h9 x par dat hx h
  · unfold untabGroupOn
    simp only [hN, Option.bind_eq_bind, Option.some_bind, hNp, if_neg hp0, hP, hPg,
      Hy3NodeData.as_group, ne_eq, hl, not_false_eq_true, if_true]
  · intro m M hM hMp
    constructor
    · unfold untabGroupOn
      simp only [hM, Option.bind_eq_bind, Option.some_bind, hMp, if_true]
    · unfold toggleTabGroupOn
      simp only [hM, Option.bind_eq_bind, Option.some_bind, hMp, if_true]
  · intro C hw hnode hnode0 hprev
    obtain ⟨ns0, l0, hrun, _, hne, htab, hH, hV, hp0', _, N1, hN1, hN1p⟩ :=
      layoutMsg_togglesplit O C ns node p N P g hw hnode hnode0 hN hNp hp0 hP hPg hl
    obtain ⟨P0, hP0, hP0p, hP0d⟩ := hp0'
    obtain ⟨ns1, ns2, h1, h2, h3, h4, h5, _, _, h8, _⟩ :=
      tab_untab_run O ns0 node p N1 P0 { g with layout := l0 } hN1 hN1p hp0 hP0 hP0d htab
    have hl0 : layoutAt ns0 p = some l0 :=
      layoutAt_of_nodeIs ns0 p P.parent _ ⟨P0, hP0, hP0p, hP0d⟩
    have h8' : layoutAt ns2 p = some g.layout := by
      rw [h8]
      exact congrArg some hprev
    refine ⟨ns0, ns1, ns2, l0, hrun, hl0, htab, hne, hH, hV, h1, h2, h3, h4, h5, h8', ?_⟩
    rw [h8', hl0]
    intro e
    exact hne (Option.some.inj e).symm

/-- Witness for C23: in `root(SplitH)[A, B]` with the window of A focused, `togglesplit` makes
the root `SplitV`, tabbing makes it `Tabbed`, and un-tabbing makes it `SplitH`. -/
theorem untab_after_togglesplit_witness :
    ∃ ns0 ns1 ns2 l0, layoutMsg O0 CFocusA exTwo "togglesplit" = some ns0
      ∧ layoutAt ns0 2 = some l0 ∧ l0 ≠ .Tabbed ∧ l0 ≠ (grpData .SplitH [1, 3] 3).layout
      ∧ ((grpData .SplitH [1, 3] 3).layout = .SplitH → l0 = .SplitV)
      ∧ ((grpData .SplitH [1, 3] 3).layout = .SplitV → l0 = .SplitH)
      ∧ toggleTabGroupOn O0 ns0 1 = some ns1
      ∧ changeGroupOn O0 ns0 1 .Tabbed = some ns1
      ∧ layoutAt ns1 2 = some .Tabbed
      ∧ toggleTabGroupOn O0 ns1 1 = some ns2
      ∧ untabGroupOn O0 ns1 1 = some ns2
      ∧ layoutAt ns2 2 = some (grpData .SplitH [1, 3] 3).layout
      ∧ layoutAt ns2 2 ≠ layoutAt ns0 2 :=
  (untab_after_togglesplit O0 exTwo 1 2 (leaf 1 2 101) (grp 2 0 .SplitH [1, 3] 3)
    (grpData .SplitH [1, 3] 3) rfl rfl (by decide) rfl rfl (by decide)).2.2.2
    CFocusA (by decide) (by decide) (by decide) rfl

/-! ## The payload accessors in `insertNode` -/

/-- C24 (failing input): `insertNode` on a parentless group node of a valid workspace that
has no other root group, while the focused window of the compositor is a tiled window of
that workspace.  No anchor comes from a root, so the anchor is looked up from the focused
window, and the test `node.data.is_window() || last_window != node.data.as_window()`
(line 468) applies the window accessor to the group: the call faults. -/
theorem insertNode_group_as_window (O : NodeOps) (C : Compositor) (L : Hy3Layout)
    (node : Ptr) (n : Hy3Node) (g : Hy3GroupData)
    (hn : getNode L.nodes node = some n) (hp : n.parent = 0)
    (hv : C.valid n.workspace = true) (hg : n.data = .group g)
    (hroot : ∀ m ∈ L.nodes, m.workspace = n.workspace → m.parent = 0 →
      m.data.is_group = true → m.addr = node)
    (hfw : C.focusWindow.handle ≠ 0) (hws : C.focusWindow.m_workspace = n.workspace)
    (hfl : C.focusWindow.m_isFloating = false) :
    insertNodeAnchor O C
        (modifyNode L.nodes node (fun n => { n with reparenting := true, size_ratio := 1 })) node
        = none
      ∧ insertNode O C L node = none := by
  generalize hns0 : modifyNode L.nodes node
    (fun n => { n with reparenting := true, size_ratio := 1 }) = ns0
  have hn0 : getNode ns0 node
      = some { n with reparenting := true, size_ratio := 1 } := by
    rw [← hns0, getNode_modifyNode L.nodes node node
      (fun n : Hy3Node => { n with reparenting := true, size_ratio := 1 }) (fun _ => rfl),
      if_pos rfl, hn]
    rfl
  have hr : getWorkspaceRootGroup ns0 n.workspace = 0 := by
    unfold getWorkspaceRootGroup
    have : ns0.find? (fun m => m.workspace == n.workspace && m.parent == 0 && m.data.is_group
        && !m.reparenting) = none := by
      apply List.find?_eq_none.2
      intro m1 hm1
      rw [← hns0] at hm1
      unfold modifyNode at hm1
      obtain ⟨m, hm, hmm⟩ := List.mem_map.1 hm1
      by_cases hma : m.addr = node
      · rw [if_pos hma] at hmm
        rw [← hmm]
        simp
      · rw [if_neg hma] at hmm
        rw [← hmm]
        intro hall
        simp only [Bool.and_eq_true, beq_iff_eq, Bool.not_eq_true'] at hall
        exact hma (hroot m hm hall.1.1.1 hall.1.1.2 hall.1.2)
    rw [this]
  have hanchor : insertNodeAnchor O C ns0 node = none := by
    unfold insertNodeAnchor
    simp only [hn0, Option.bind_eq_bind, Option.some_bind, hr, ne_eq, not_true_eq_false,
      if_false, if_true, hfw, not_false_eq_true, decide_True, hws, beq_self_eq_true, hfl,
      Bool.not_false, Bool.and_self, hg, Hy3NodeData.is_window, Bool.false_eq_true,
      Hy3NodeData.as_window, Option.map_none', Option.none_bind]
  refine ⟨hanchor, ?_⟩
  unfold insertNode
  simp only [hn, Option.bind_eq_bind, Option.some_bind, hp, ne_eq, not_true_eq_false,
    if_false, hv, Bool.true_eq_false, hns0, hanchor, Option.none_bind]

/-- Witness for C24: the parentless group G at 4 with the only child A, whose window 101
holds the input focus, as after `moveNodeToWorkspace` has taken G out of its tree and onto a
workspace without tiled nodes.  The insertion faults. -/
theorem insertNode_group_as_window_witness :
    insertNodeAnchor O0 { C0 with focusWindow := ⟨101, false, true, 1⟩ }
        (modifyNode [leaf 1 4 101, grp 4 0 .SplitH [1] 1] 4
          (fun n => { n with reparenting := true, size_ratio := 1 })) 4 = none
      ∧ insertNode O0 { C0 with focusWindow := ⟨101, false, true, 1⟩ }
        (layoutOver [leaf 1 4 101, grp 4 0 .SplitH [1] 1]) 4 = none :=
  insertNode_group_as_window O0 { C0 with focusWindow := ⟨101, false, true, 1⟩ }
    (layoutOver [leaf 1 4 101, grp 4 0 .SplitH [1] 1]) 4 (grp 4 0 .SplitH [1] 1)
    { Hy3GroupData.ofLayout .SplitH with
      children := [1], group_focused := false, focused_child := 1 }
    rfl rfl rfl rfl (by decide) (by decide) rfl rfl

/-! ## The toggle of `makeGroupOnWorkspace` -/

theorem getNode_null (ns : List Hy3Node) (h : (0 : Ptr) ∉ addrs ns) : getNode ns 0 = none := by
  cases hg : getNode ns 0 with
  | none => rfl
  | some X =>
    exfalso
    apply h
    rw [← getNode_addr hg]
    exact List.mem_map_of_mem _ (getNode_mem hg)

/-- C21 (failing inputs): `makeGroupOnWorkspace` with `toggle` set, on a tree with a focused
node.  When the placement actor of the focused node has no parent (the root group itself is
the focus target), `parent->data` is read through the null pointer.  When its parent is a
group of the requested layout with this one child, the node is removed from the collection
and `node->parent` is read afterwards.  The call faults in both cases. -/
theorem makeGroup_toggle_faults (O : NodeOps) (ns : List Hy3Node) (ws : Nat)
    (layout : Hy3GroupLayout) (eph : GroupEphemeralityOption) (f : Ptr) (n : Hy3Node)
    (hf : getWorkspaceFocusedNode ns ws false false = some f) (hf0 : f ≠ 0)
    (hnode0 : O.getPlacementActor ns f ≠ 0)
    (hn : getNode ns (O.getPlacementActor ns f) = some n) :
    (n.parent = 0 → (0 : Ptr) ∉ addrs ns →
        makeGroupOnWorkspace O ns ws layout eph true = none)
      ∧ (∀ P g, getNode ns n.parent = some P → P.data = .group g → g.children.length = 1 →
          g.layout = layout → makeGroupOnWorkspace O ns ws layout eph true = none) := by
  constructor
  · intro hp h0
    unfold makeGroupOnWorkspace
    simp only [hf, Option.bind_eq_bind, Option.some_bind, ne_eq, hf0, not_false_eq_true,
      if_true, hnode0, and_self, hn, hp, getNode_null ns h0, Option.none_bind]
  · intro P g hP hPg hlen hlay
    unfold makeGroupOnWorkspace
    simp only [hf, Option.bind_eq_bind, Option.some_bind, ne_eq, hf0, not_false_eq_true,
      if_true, hnode0, and_self, hn, hP, hPg, Hy3NodeData.as_group, hlen, hlay]
    cases hd : makeGroupDissolve ns (O.getPlacementActor ns f) with
    | none => rfl
    | some ns3 =>
      have : getNode ns3 (O.getPlacementActor ns f) = none := by
        simp only [makeGroupDissolve, hn, Option.bind_eq_bind, Option.some_bind,
          Option.bind_eq_some] at hd
        obtain ⟨ns2, _, hd⟩ := hd
        cases hd
        rw [getNode_eraseNode, if_pos rfl]
      simp only [Option.some_bind, this, Option.none_bind]

/-- Witness for C21: both faults on well-formed trees.  In `root(SplitH)[A, B]` with the root
as the focus target the focused node has no parent; in `root(SplitH)[G(SplitV)[A], B]` with A
focused and the layout `SplitV` requested, the node of A is removed and read again. -/
theorem makeGroup_toggle_faults_witness :
    (wellFormedCheck exRootFocused rankSmall = true
        ∧ makeGroupOnWorkspace O0 exRootFocused 1 .SplitH .Standard true = none)
      ∧ wellFormedCheck exDeep rankSmall = true
      ∧ makeGroupOnWorkspace O0 exDeep 1 .SplitV .Standard true = none :=
  ⟨⟨by decide,
      (makeGroup_toggle_faults O0 exRootFocused 1 .SplitH .Standard 2
        ((grp 2 0 .SplitH [1, 3] 3).mapGroup (fun g => { g with group_focused := true }))
        (by decide) (by decide) (by decide) rfl).1 rfl (by decide)⟩,
    by decide,
    (makeGroup_toggle_faults O0 exDeep 1 .SplitV .Standard 1 (leaf 1 4 101)
      (by decide) (by decide) (by decide) rfl).2 (grp 4 2 .SplitV [1] 1)
      { Hy3GroupData.ofLayout .SplitV with
        children := [1], group_focused := false, focused_child := 1 }
      rfl rfl rfl rfl⟩

/-- C22 (failing input): `root(SplitH)[A]` with the window A focused, and the toggle of
`makeGroupOnWorkspace` with the layout `SplitH`.  Before the call the workspace has the root
group 2 and the focused leaf 1.  The toggle branch is taken; after its three writes the only
node left is the former root node, parentless and holding the window of A: the workspace has
no root group, and no focused leaf is reachable from one.  The call itself then reads the
removed node. -/
theorem makeGroup_toggle_root_lost :
    wellFormedCheck exOne rankSmall = true
      ∧ getWorkspaceRootGroup exOne 1 = 2
      ∧ getWorkspaceFocusedNode exOne 1 false false = some 1
      ∧ contentAt exOne 1 = some (.inl 101)
      ∧ layoutAt exOne 2 = some .SplitH ∧ childrenAt exOne 2 = some [1]
      ∧ (∃ ns3, makeGroupDissolve exOne 1 = some ns3
          ∧ treeShape ns3 = [(2, 0, .inl 101)]
          ∧ getWorkspaceRootGroup ns3 1 = 0
          ∧ getWorkspaceFocusedNode ns3 1 false false = some 0)
      ∧ makeGroupOnWorkspace O0 exOne 1 .SplitH .Standard true = none := by
  refine ⟨by decide, by decide, by decide, by decide, by decide, by decide,
    ⟨_, rfl, by decide, by decide, by decide⟩, by decide⟩

/-! ## Tab lock -/

/-- The loop of `setTabLock` along the chain of parents above `p`: it stops at the first node
that is a `Tabbed` group, or at the last node of the chain, the root. -/
theorem tabLockTarget_spec (ns : List Hy3Node) :
    ∀ (rest : List Ptr) (p : Ptr) (fuel : Nat), parentChain ns p rest → rest.length < fuel →
      tabLockTarget fuel ns p
        = some (((p :: rest).find? (fun x => decide (layoutAt ns x = some .Tabbed))).getD
            (rest.getLastD p)) := by
  intro rest
  induction rest with
  | nil =>
    intro p fuel hc hf
    cases fuel with
    | zero => cases hf
    | succ k =>
      simp only [parentChain, parentAt, Option.map_eq_some'] at hc
      obtain ⟨n, hn, hnp⟩ := hc
      simp only [tabLockTarget, hn, Option.bind_eq_bind, Option.some_bind, hnp, ne_eq,
        not_true_eq_false, false_and, if_false, List.find?_cons, List.find?_nil,
        List.getLastD_nil]
      split <;> rfl
  | cons q r ih =>
    intro p fuel hc hf
    cases fuel with
    | zero => cases hf
    | succ k =>
      obtain ⟨hpq, hq0, hrest⟩ := hc
      simp only [parentAt, Option.map_eq_some'] at hpq
      obtain ⟨n, hn, hnp⟩ := hpq
      have hk : r.length < k := by
        simp only [List.length_cons] at hf
        omega
      simp only [tabLockTarget, hn, Option.bind_eq_bind, Option.some_bind, hnp, ne_eq, hq0,
        not_false_eq_true, true_and, List.getLastD_cons]
      have hlay : layoutAt ns p = n.data.as_group.map (fun g => g.layout) := by
        simp [layoutAt, hn]
      cases hd : n.data with
      | window w =>
        rw [hd] at hlay
        have e : List.find? (fun x => decide (layoutAt ns x = some Hy3GroupLayout.Tabbed))
            (p :: q :: r)
            = List.find? (fun x => decide (layoutAt ns x = some Hy3GroupLayout.Tabbed))
              (q :: r) := by
          rw [List.find?_cons]
          simp [hlay, Hy3NodeData.as_group]
        rw [e]
        simp only [if_true]
        exact ih q k hrest hk
      | group g =>
        rw [hd] at hlay
        simp only [Hy3NodeData.as_group, Option.map_some'] at hlay
        by_cases ht : g.layout = .Tabbed
        · have e : List.find? (fun x => decide (layoutAt ns x = some Hy3GroupLayout.Tabbed))
              (p :: q :: r) = some p := by
            rw [List.find?_cons]
            simp [hlay, ht]
          rw [e]
          simp only [ht, bne_self_eq_false, Bool.false_eq_true, if_false]
          rfl
        · have e : List.find? (fun x => decide (layoutAt ns x = some Hy3GroupLayout.Tabbed))
              (p :: q :: r)
              = List.find? (fun x => decide (layoutAt ns x = some Hy3GroupLayout.Tabbed))
                (q :: r) := by
            rw [List.find?_cons]
            simp [hlay, ht]
          rw [e]
          have : (g.layout != Hy3GroupLayout.Tabbed) = true := by simpa using ht
          simp only [this, if_true]
          exact ih q k hrest hk

theorem find_or_last (P : Ptr → Bool) :
    ∀ (rest : List Ptr) (p : Ptr),
      ∃ pre post, p :: rest = pre ++ ((p :: rest).find? P).getD (rest.getLastD p) :: post
        ∧ (∀ x ∈ pre, P x = false)
        ∧ (P (((p :: rest).find? P).getD (rest.getLastD p)) = true
            ∨ (post = [] ∧ ((p :: rest).find? P).getD (rest.getLastD p) = rest.getLastD p)) := by
  intro rest
  induction rest with
  | nil =>
    intro p
    refine ⟨[], [], ?_, fun x hx => (by cases hx), Or.inr ⟨rfl, ?_⟩⟩
    · rw [List.find?_cons]
      cases P p <;> rfl
    · rw [List.find?_cons]
      cases P p <;> rfl
  | cons q r ih =>
    intro p
    cases hp : P p with
    | true =>
      refine ⟨[], q :: r, ?_, fun x hx => (by cases hx), Or.inl ?_⟩
      · rw [List.find?_cons, hp]
        rfl
      · rw [List.find?_cons, hp]
        exact hp
    | false =>
      obtain ⟨pre, post, h1, h2, h3⟩ := ih q
      have e : ((p :: q :: r).find? P).getD ((q :: r).getLastD p)
          = ((q :: r).find? P).getD (r.getLastD q) := by
        rw [List.find?_cons, hp, List.getLastD_cons]
      rw [e]
      refine ⟨p :: pre, post, ?_, ?_, ?_⟩
      · rw [List.cons_append, ← h1]
      · intro x hx
        rcases List.mem_cons.1 hx with rfl | hx
        · exact hp
        · exact h2 x hx
      · rcases h3 with h3 | ⟨h3, h4⟩
        · exact Or.inl h3
        · exact Or.inr ⟨h3, by rw [h4, List.getLastD_cons]⟩

theorem parentChain_last (ns : List Hy3Node) :
    ∀ (rest : List Ptr) (p : Ptr), parentChain ns p rest →
      parentAt ns (rest.getLastD p) = some 0 := by
  intro rest
  induction rest with
  | nil => intro p hc; exact hc
  | cons q r ih =>
    intro p hc
    rw [List.getLastD_cons]
    exact ih q hc.2.2

/-! ### Lookups under a write that leaves the focus fields and the layout -/

theorem getWorkspaceRootGroup_modifyGroup (ns : List Hy3Node) (t : Ptr)
    (f : Hy3GroupData → Hy3GroupData) (ws : Nat) :
    getWorkspaceRootGroup (modifyGroup ns t f) ws = getWorkspaceRootGroup ns ws := by
  have key : ∀ n : Hy3Node, (n.mapGroup f).addr = n.addr ∧ (n.mapGroup f).workspace = n.workspace
      ∧ (n.mapGroup f).parent = n.parent ∧ (n.mapGroup f).data.is_group = n.data.is_group
      ∧ (n.mapGroup f).reparenting = n.reparenting := by
    intro n
    unfold Hy3Node.mapGroup
    split
    · next g hg => simp [hg, Hy3NodeData.is_group]
    · exact ⟨rfl, rfl, rfl, rfl, rfl⟩
  unfold getWorkspaceRootGroup modifyGroup modifyNode
  rw [List.find?_map]
  have hpred : ((fun n : Hy3Node => n.workspace == ws && n.parent == 0 && n.data.is_group
      && !n.reparenting) ∘ (fun n : Hy3Node => if n.addr = t then n.mapGroup f else n))
      = (fun n : Hy3Node => n.workspace == ws && n.parent == 0 && n.data.is_group
      && !n.reparenting) := by
    funext n
    simp only [Function.comp]
    split
    · obtain ⟨_, h2, h3, h4, h5⟩ := key n
      rw [h2, h3, h4, h5]
    · rfl
  rw [hpred]
  cases List.find? (fun n : Hy3Node => n.workspace == ws && n.parent == 0 && n.data.is_group
      && !n.reparenting) ns with
  | none => rfl
  | some n =>
    simp only [Option.map_some']
    split
    · exact (key n).1
    · rfl

theorem getFocusedNode_modifyGroup (ns : List Hy3Node) (t : Ptr)
    (f : Hy3GroupData → Hy3GroupData)
    (hf : ∀ g, (f g).focused_child = g.focused_child ∧ (f g).group_focused = g.group_focused
      ∧ (f g).expand_focused = g.expand_focused) (a b : Bool) :
    ∀ (fuel : Nat) (p : Ptr),
      getFocusedNode fuel (modifyGroup ns t f) p a b = getFocusedNode fuel ns p a b := by
  intro fuel
  induction fuel with
  | zero => intro p; rfl
  | succ k ih =>
    intro p
    simp only [getFocusedNode, getNode_modifyGroup]
    cases hn : getNode ns p with
    | none => split <;> rfl
    | some n =>
      by_cases hpt : p = t
      · rw [if_pos hpt]
        simp only [Option.map_some', Option.bind_eq_bind, Option.some_bind]
        cases hd : n.data with
        | window w => simp [Hy3Node.mapGroup, hd]
        | group g =>
          obtain ⟨h1, h2, h3⟩ := hf g
          simp only [Hy3Node.mapGroup, hd, h1, h2, h3, ih]
      · rw [if_neg hpt]
        simp only [Option.bind_eq_bind, Option.some_bind]
        cases hd : n.data with
        | window w => rfl
        | group g => simp only [ih]

theorem tabLockTarget_modifyGroup (ns : List Hy3Node) (t : Ptr)
    (f : Hy3GroupData → Hy3GroupData) (hf : ∀ g, (f g).layout = g.layout) :
    ∀ (fuel : Nat) (p : Ptr),
      tabLockTarget fuel (modifyGroup ns t f) p = tabLockTarget fuel ns p := by
  intro fuel
  induction fuel with
  | zero => intro p; rfl
  | succ k ih =>
    intro p
    simp only [tabLockTarget, getNode_modifyGroup]
    cases hn : getNode ns p with
    | none => split <;> rfl
    | some n =>
      by_cases hpt : p = t
      · rw [if_pos hpt]
        simp only [Option.map_some', Option.bind_eq_bind, Option.some_bind, mapGroup_parent]
        cases hd : n.data with
        | window w => simp [Hy3Node.mapGroup, hd, ih]
        | group g => simp only [Hy3Node.mapGroup, hd, hf g, ih]
      · rw [if_neg hpt]
        simp only [Option.bind_eq_bind, Option.some_bind, ih]

theorem parentChain_nonnull (ns : List Hy3Node) :
    ∀ (rest : List Ptr) (p : Ptr), parentChain ns p rest → ∀ x ∈ rest, x ≠ 0 := by
  intro rest
  induction rest with
  | nil => intro p _ x hx; cases hx
  | cons q r ih =>
    intro p hc x hx
    rcases List.mem_cons.1 hx with rfl | hx
    · exact hc.2.1
    · exact ih q hc.2.2 x hx

theorem getWorkspaceFocusedNode_modifyGroup (ns : List Hy3Node) (t : Ptr)
    (f : Hy3GroupData → Hy3GroupData)
    (hf : ∀ g, (f g).focused_child = g.focused_child ∧ (f g).group_focused = g.group_focused
      ∧ (f g).expand_focused = g.expand_focused) (ws : Nat) (a b : Bool) :
    getWorkspaceFocusedNode (modifyGroup ns t f) ws a b = getWorkspaceFocusedNode ns ws a b := by
  have hlen : (modifyGroup ns t f).length = ns.length := by
    simp [modifyGroup, modifyNode]
  unfold getWorkspaceFocusedNode
  simp only [getWorkspaceRootGroup_modifyGroup, hlen, getFocusedNode_modifyGroup ns t f hf]

/-- The write of `setTabLock` on the group at `t`: the flag `locked` gets the value for the
mode, and nothing else changes. -/
theorem setTabLock_run (ns : List Hy3Node) (ws : Nat) (mode : TabLockMode) (f t tp : Ptr)
    (N : Hy3Node) (g : Hy3GroupData)
    (hf : getWorkspaceFocusedNode ns ws false false = some f) (hf0 : f ≠ 0)
    (hN : getNode ns f = some N) (hp0 : N.parent ≠ 0)
    (ht : tabLockTarget (ns.length + 1) ns N.parent = some t) (ht0 : t ≠ 0)
    (hT : NodeIs ns t tp (.group g)) :
    ∃ ns1, setTabLock ns ws mode = some ns1 ∧ addrs ns1 = addrs ns
      ∧ NodeIs ns1 t tp (.group { g with locked := mode.apply g.locked })
      ∧ (∀ x par dat, x ≠ t → NodeIs ns x par dat → NodeIs ns1 x par dat)
      ∧ getWorkspaceFocusedNode ns1 ws false false = some f
      ∧ (∃ N1, getNode ns1 f = some N1 ∧ N1.parent = N.parent)
      ∧ tabLockTarget (ns1.length + 1) ns1 N.parent = some t := by
  obtain ⟨F, hF⟩ : ∃ F : Hy3GroupData → Hy3GroupData,
      F = (fun g => { g with locked := mode.apply g.locked }) := ⟨_, rfl⟩
  have hFf : ∀ g, (F g).focused_child = g.focused_child ∧ (F g).group_focused = g.group_focused
      ∧ (F g).expand_focused = g.expand_focused := by
    intro g; rw [hF]; exact ⟨rfl, rfl, rfl⟩
  have hFl : ∀ g, (F g).layout = g.layout := by
    intro g; rw [hF]
  have hlen : (modifyGroup ns t F).length = ns.length := by
    simp [modifyGroup, modifyNode]
  refine ⟨modifyGroup ns t F, ?_, addrs_modifyGroup ns t F, ?_, ?_, ?_, ?_, ?_⟩
  · obtain ⟨T, hT1, _, hTd⟩ := hT
    unfold setTabLock
    simp only [hf, Option.bind_eq_bind, Option.some_bind, if_neg hf0, hN, if_neg hp0, ht,
      if_neg ht0, hT1, hTd, Hy3NodeData.as_group, hF]
  · have := nodeIs_modifyGroup_self ns t tp g F hT
    rw [hF] at this ⊢
    exact this
  · intro x par dat hx h
    exact nodeIs_modifyGroup_ne ns t x par dat F hx h
  · rw [getWorkspaceFocusedNode_modifyGroup ns t F hFf, hf]
  · rw [getNode_modifyGroup, hN]
    split
    · exact ⟨_, rfl, mapGroup_parent N F⟩
    · exact ⟨_, rfl, rfl⟩
  · rw [hlen, tabLockTarget_modifyGroup ns t F hFl, ht]

/-- C28: `setTabLock`.  Without a focused node, or with a parentless focused node, it
changes nothing.  Otherwise, with the chain of the ancestors of the focused node, all of them
groups, it writes the flag `locked` of exactly one group `t`: the first ancestor that is
`Tabbed`, or, when none is, the last ancestor, which is the parentless root.  `Lock` writes
true, `Unlock` false and `Toggle` the negation; every other node, and the rest of the payload
of `t`, stay as they are; and `Toggle` applied a second time gives every node its parent and
payload back. -/
theorem tab_lock_target (ns : List Hy3Node) (ws : Nat) (mode : TabLockMode) :
    (getWorkspaceFocusedNode ns ws false false = some 0 → setTabLock ns ws mode = some ns)
      ∧ (∀ f N, getWorkspaceFocusedNode ns ws false false = some f → getNode ns f = some N →
          N.parent = 0 → setTabLock ns ws mode = some ns)
      ∧ (∀ f N rest, getWorkspaceFocusedNode ns ws false false = some f → f ≠ 0 →
          getNode ns f = some N → N.parent ≠ 0 → parentChain ns N.parent rest →
          rest.length ≤ ns.length → (∀ x ∈ N.parent :: rest, isGroupAt ns x = true) →
          ∃ t tp g pre post ns1,
            N.parent :: rest = pre ++ t :: post
              ∧ (∀ x ∈ pre, layoutAt ns x ≠ some .Tabbed)
              ∧ (layoutAt ns t = some .Tabbed ∨ (post = [] ∧ parentAt ns t = some 0))
              ∧ NodeIs ns t tp (.group g)
              ∧ setTabLock ns ws mode = some ns1 ∧ addrs ns1 = addrs ns
              ∧ NodeIs ns1 t tp (.group { g with locked := mode.apply g.locked })
              ∧ (∀ x par dat, x ≠ t → NodeIs ns x par dat → NodeIs ns1 x par dat)
              ∧ TabLockMode.apply .Lock g.locked = true
              ∧ TabLockMode.apply .Unlock g.locked = false
              ∧ TabLockMode.apply .Toggle g.locked = !g.locked
              ∧ (mode = .Toggle → ∃ ns2, setTabLock ns1 ws .Toggle = some ns2
                  ∧ ∀ x par dat, NodeIs ns x par dat → NodeIs ns2 x par dat)) := by
  refine ⟨?_, ?_, ?_⟩
  · intro h
    unfold setTabLock
    simp only [h, Option.bind_eq_bind, Option.some_bind, if_true]
  · intro f N hf hN hp
    unfold setTabLock
    simp only [hf, Option.bind_eq_bind, Option.some_bind, hN, hp, if_true]
    split <;> rfl
  · intro f N rest hf hf0 hN hp0 hchain hlen hgrp
    have hrun := tabLockTarget_spec ns rest N.parent (ns.length + 1) hchain
      (Nat.lt_succ_of_le hlen)
    obtain ⟨pre, post, h1, h2, h3⟩ :=
      find_or_last (fun x => decide (layoutAt ns x = some .Tabbed)) rest N.parent
    generalize ((N.parent :: rest).find?
      (fun x => decide (layoutAt ns x = some Hy3GroupLayout.Tabbed))).getD
        (rest.getLastD N.parent) = t at hrun h1 h3
    have htm : t ∈ N.parent :: rest := by
      rw [h1]
      simp
    have ht0 : t ≠ 0 := by
      rcases List.mem_cons.1 htm with e | hm
      · rw [e]; exact hp0
      · exact parentChain_nonnull ns rest N.parent hchain t hm
    obtain ⟨tp, g, hT⟩ : ∃ tp g, NodeIs ns t tp (.group g) := by
      have hg := hgrp t htm
      unfold isGroupAt at hg
      cases hT : getNode ns t with
      | none =>
        rw [hT] at hg
        cases hg
      | some T =>
        rw [hT] at hg
        simp only at hg
        cases hd : T.data with
        | window w =>
          rw [hd] at hg
          cases hg
        | group g => exact ⟨T.parent, g, T, hT, rfl, hd⟩
    obtain ⟨ns1, hs1, ha1, hT1, ho1, hf1, ⟨N1, hN1, hN1p⟩, ht1⟩ :=
      setTabLock_run ns ws mode f t tp N g hf hf0 hN hp0 hrun ht0 hT
    refine ⟨t, tp, g, pre, post, ns1, h1, ?_, ?_, hT, hs1, ha1, hT1, ho1, rfl, rfl, rfl, ?_⟩
    · intro x hx
      simpa using h2 x hx
    · rcases h3 with h3 | ⟨h3, h4⟩
      · exact Or.inl (by simpa using h3)
      · refine Or.inr ⟨h3, ?_⟩
        rw [h4]
        exact parentChain_last ns rest N.parent hchain
    · intro hm
      rw [hm] at hT1 hs1
      rw [← hN1p] at ht1
      obtain ⟨ns2, hs2, _, hT2, ho2, _⟩ :=
        setTabLock_run ns1 ws .Toggle f t tp N1 _ hf1 hf0 hN1 (by rw [hN1p]; exact hp0)
          ht1 ht0 hT1
      refine ⟨ns2, hs2, ?_⟩
      intro x par dat h
      by_cases hx : x = t
      · rw [hx] at h ⊢
        obtain ⟨e1, e2⟩ := nodeIs_unique ns t _ _ _ _ h hT
        rw [e1, e2]
        have e : ({ ({ g with locked := TabLockMode.apply .Toggle g.locked } : Hy3GroupData) with
            locked := TabLockMode.apply .Toggle
              ({ g with locked := TabLockMode.apply .Toggle g.locked } : Hy3GroupData).locked }
            : Hy3GroupData) = g := by
          cases g
          simp [TabLockMode.apply]
        rw [e] at hT2
        exact hT2
      · exact ho2 x par dat hx (ho1 x par dat hx h)

/-- Witness for C28: in `root(SplitH)[G(SplitH)[A, B], C]` with A focused no ancestor is
`Tabbed`; the lock goes to the root at 2, past the parent G, and a second toggle restores
every node. -/
theorem tab_lock_target_witness :
    ∃ t tp g pre post ns1,
      [4, 2] = pre ++ t :: post
        ∧ (∀ x ∈ pre, layoutAt exNested x ≠ some .Tabbed)
        ∧ (layoutAt exNested t = some .Tabbed ∨ (post = [] ∧ parentAt exNested t = some 0))
        ∧ NodeIs exNested t tp (.group g)
        ∧ setTabLock exNested 1 .Toggle = some ns1 ∧ addrs ns1 = addrs exNested
        ∧ NodeIs ns1 t tp (.group { g with locked := TabLockMode.apply .Toggle g.locked })
        ∧ (∀ x par dat, x ≠ t → NodeIs exNested x par dat → NodeIs ns1 x par dat)
        ∧ TabLockMode.apply .Lock g.locked = true
        ∧ TabLockMode.apply .Unlock g.locked = false
        ∧ TabLockMode.apply .Toggle g.locked = !g.locked
        ∧ (TabLockMode.Toggle = .Toggle → ∃ ns2, setTabLock ns1 1 .Toggle = some ns2
            ∧ ∀ x par dat, NodeIs exNested x par dat → NodeIs ns2 x par dat) :=
  (tab_lock_target exNested 1 .Toggle).2.2 1 (leaf 1 4 101) [2] (by decide) (by decide) rfl
    (by decide) ⟨rfl, by decide, rfl⟩ (by decide) (by decide)

/-! ## Equalize -/

theorem sameTree_of_forward (a b : List Hy3Node) (hadd : addrs b = addrs a)
    (hfw : ∀ x par dat, NodeIs a x par dat → NodeIs b x par dat) : SameTree a b := by
  refine ⟨hadd, fun x par dat => ⟨?_, hfw x par dat⟩⟩
  intro h
  have hx := mem_addrs_of_nodeIs b x par dat h
  rw [hadd] at hx
  obtain ⟨par0, dat0, h0⟩ := nodeIs_of_mem_addrs a x hx
  obtain ⟨e1, e2⟩ := nodeIs_unique b x _ _ _ _ h (hfw x par0 dat0 h0)
  rw [e1, e2]
  exact h0

theorem sameTree_refl (a : List Hy3Node) : SameTree a a :=
  ⟨rfl, fun _ _ _ => Iff.rfl⟩

theorem sameTree_trans {a b c : List Hy3Node} (h1 : SameTree a b) (h2 : SameTree b c) :
    SameTree a c :=
  ⟨h2.1.trans h1.1, fun x par dat => (h2.2 x par dat).trans (h1.2 x par dat)⟩

theorem sameTree_length {a b : List Hy3Node} (h : SameTree a b) : b.length = a.length :=
  length_of_addrs b a h.1

/-- Setting `size_ratio` to 1 at one node: the tree is the same, the node has the ratio 1,
and the flags of the other nodes are as they were. -/
theorem setRatio_spec (ns : List Hy3Node) (node : Ptr) :
    SameTree ns (modifyNode ns node (fun m => { m with size_ratio := 1 }))
      ∧ (∀ x, x ≠ node → flagsAt (modifyNode ns node (fun m => { m with size_ratio := 1 })) x
          = flagsAt ns x)
      ∧ (∀ b s, flagsAt ns node = some (b, s) →
          flagsAt (modifyNode ns node (fun m => { m with size_ratio := 1 })) node
            = some (b, 1)) := by
  have hg : ∀ x, getNode (modifyNode ns node (fun m => { m with size_ratio := 1 })) x
      = if x = node then (getNode ns x).map (fun m => { m with size_ratio := 1 })
        else getNode ns x :=
    fun x => getNode_modifyNode ns node x _ (fun _ => rfl)
  refine ⟨?_, ?_, ?_⟩
  · apply sameTree_of_forward
    · exact addrs_modifyNode ns node _ (fun _ => rfl)
    · rintro x par dat ⟨n, hn, hp, hd⟩
      by_cases hx : x = node
      · exact ⟨{ n with size_ratio := 1 }, by rw [hg, if_pos hx, hn]; rfl, hp, hd⟩
      · exact ⟨n, by rw [hg, if_neg hx, hn], hp, hd⟩
  · intro x hx
    unfold flagsAt
    rw [hg, if_neg hx]
  · intro b s h
    obtain ⟨X, hX, hb, _⟩ := flagsAt_reparenting ns node b s h
    unfold flagsAt
    rw [hg, if_pos rfl, hX]
    simp [hb]

theorem length_le_of_nodup_subset (l m : List Ptr) (hn : l.Nodup) (hs : ∀ x ∈ l, x ∈ m) :
    l.length ≤ m.length :=
  (List.subperm_of_subset hn hs).length_le

/-- On a well-formed tree `equalizeRecursive` with the recursion on returns, with the fuel
that is left for a node at the end of a path of distinct nodes above it: the tree is the
same, every node of the subtree has the ratio 1, a ratio 1 stays, and the flags outside the
subtree are as they were. -/
theorem equalizeRecursive_tree (ns0 : List Hy3Node) (rank : Ptr → Nat)
    (hw : WellFormed ns0 rank) :
    ∀ (fuel : Nat) (acc : List Hy3Node) (node : Ptr) (path : List Ptr),
      SameTree ns0 acc → node ∈ addrs ns0 → path.Nodup →
      (∀ y ∈ path, y ∈ addrs ns0 ∧ rank y < rank node) → ns0.length ≤ fuel + path.length →
      ∃ acc1, equalizeRecursive fuel acc node true = some acc1 ∧ SameTree ns0 acc1
        ∧ (∀ x, Below ns0 node x → ∃ b, flagsAt acc1 x = some (b, 1))
        ∧ (∀ x, (∃ b, flagsAt acc x = some (b, 1)) → ∃ b, flagsAt acc1 x = some (b, 1))
        ∧ (∀ x, ¬ Below ns0 node x → flagsAt acc1 x = flagsAt acc x) := by
  intro fuel
  induction fuel with
  | zero =>
    intro acc node path _ hnode hnd hpath hlen
    exfalso
    have hnp : node ∉ path := fun h => Nat.lt_irrefl _ (hpath node h).2
    have h1 := length_le_of_nodup_subset (node :: path) (addrs ns0) (List.nodup_cons.2 ⟨hnp, hnd⟩)
      (by
        intro x hx
        rcases List.mem_cons.1 hx with rfl | hx
        · exact hnode
        · exact (hpath x hx).1)
    have h2 : (addrs ns0).length = ns0.length := by simp [addrs]
    simp only [List.length_cons] at h1
    omega
  | succ k ih =>
    intro acc node path hsame hnode hnd hpath hlen
    have hnp : node ∉ path := fun h => Nat.lt_irrefl _ (hpath node h).2
    obtain ⟨n, hn⟩ := getNode_of_mem_addrs acc node (by rw [hsame.1]; exact hnode)
    obtain ⟨hS1, hO1, hR1⟩ := setRatio_spec acc node
    generalize hacc1 : modifyNode acc node (fun m => { m with size_ratio := 1 }) = acc1
      at hS1 hO1 hR1
    have hsame1 : SameTree ns0 acc1 := sameTree_trans hsame hS1
    have hnode1 : ∃ b, flagsAt acc1 node = some (b, 1) :=
      ⟨n.reparenting, hR1 n.reparenting n.size_ratio (by unfold flagsAt; rw [hn]; rfl)⟩
    have hkeep1 : ∀ x, (∃ b, flagsAt acc x = some (b, 1)) → ∃ b, flagsAt acc1 x = some (b, 1) := by
      intro x hx
      by_cases hxn : x = node
      · rw [hxn]; exact hnode1
      · rw [hO1 x hxn]; exact hx
    have hN0 : NodeIs ns0 node n.parent n.data := (hsame.2 node _ _).1 ⟨n, hn, rfl, rfl⟩
    unfold equalizeRecursive
    simp only [hn, Option.bind_eq_bind, Option.some_bind, hacc1, Bool.true_and]
    cases hd : n.data with
    | window w =>
      rw [hd] at hN0
      have hbelow : ∀ x, Below ns0 node x → x = node := by
        intro x hx
        cases hx with
        | self => rfl
        | child _ pa c _ g hg _ _ =>
          have := (nodeIs_unique ns0 node _ _ _ _ hg hN0).2
          cases this
      refine ⟨acc1, by simp [Hy3NodeData.is_group], hsame1, ?_, hkeep1, ?_⟩
      · intro x hx
        rw [hbelow x hx]
        exact hnode1
      · intro x hx
        exact hO1 x (fun e => hx (by rw [e]; exact Below.self node))
    | group g =>
      rw [hd] at hN0
      -- the loop over the children
      have hloop : ∀ (cs : List Ptr) (acc2 : List Hy3Node),
          (∀ c ∈ cs, c ∈ g.children) → SameTree ns0 acc2 →
          ∃ acc3, cs.foldlM (fun a c => equalizeRecursive k a c true) acc2 = some acc3
            ∧ SameTree ns0 acc3
            ∧ (∀ c ∈ cs, ∀ x, Below ns0 c x → ∃ b, flagsAt acc3 x = some (b, 1))
            ∧ (∀ x, (∃ b, flagsAt acc2 x = some (b, 1)) → ∃ b, flagsAt acc3 x = some (b, 1))
            ∧ (∀ x, (∀ c ∈ cs, ¬ Below ns0 c x) → flagsAt acc3 x = flagsAt acc2 x) := by
        intro cs
        induction cs with
        | nil =>
          intro acc2 _ hs2
          exact ⟨acc2, rfl, hs2, fun c hc => (by cases hc), fun x hx => hx, fun x _ => rfl⟩
        | cons c cs ihc =>
          intro acc2 hcs hs2
          have hcmem := hcs c (List.mem_cons_self _ _)
          obtain ⟨⟨dc, hC⟩, hrk⟩ := hw.child_rank hN0 hcmem
          obtain ⟨acc3, h3, hs3, hb3, hk3, ho3⟩ := ih acc2 c (node :: path) hs2
            (mem_addrs_of_nodeIs ns0 c _ _ hC) (List.nodup_cons.2 ⟨hnp, hnd⟩)
            (by
              intro y hy
              rcases List.mem_cons.1 hy with rfl | hy
              · exact ⟨hnode, hrk⟩
              · exact ⟨(hpath y hy).1, Nat.lt_trans (hpath y hy).2 hrk⟩)
            (by simp only [List.length_cons]; omega)
          obtain ⟨acc4, h4, hs4, hb4, hk4, ho4⟩ :=
            ihc acc3 (fun c1 hc1 => hcs c1 (List.mem_cons_of_mem _ hc1)) hs3
          refine ⟨acc4, ?_, hs4, ?_, fun x hx => hk4 x (hk3 x hx), ?_⟩
          · rw [List.foldlM_cons, h3]
            exact h4
          · intro c1 hc1 x hx
            rcases List.mem_cons.1 hc1 with rfl | hc1
            · exact hk4 x (hb3 x hx)
            · exact hb4 c1 hc1 x hx
          · intro x hx
            rw [ho4 x (fun c1 hc1 => hx c1 (List.mem_cons_of_mem _ hc1)),
              ho3 x (hx c (List.mem_cons_self _ _))]
      obtain ⟨acc3, h3, hs3, hb3, hk3, ho3⟩ := hloop g.children acc1 (fun c hc => hc) hsame1
      refine ⟨acc3, by simpa [Hy3NodeData.is_group, Hy3NodeData.children] using h3, hs3, ?_,
        fun x hx => hk3 x (hkeep1 x hx), ?_⟩
      · intro x hx
        cases hx with
        | self => exact hk3 node hnode1
        | child _ pa c _ g1 hg1 hc hcx =>
          have e := (nodeIs_unique ns0 node _ _ _ _ hg1 hN0).2
          cases e
          exact hb3 c hc x hcx
      · intro x hx
        rw [ho3 x (fun c hc hcx => hx (Below.child node n.parent c x g hN0 hc hcx))]
        exact hO1 x (fun e => hx (by rw [e]; exact Below.self node))

theorem getWorkspaceRootGroup_mem (ns : List Hy3Node) (ws : Nat)
    (h : getWorkspaceRootGroup ns ws ≠ 0) : getWorkspaceRootGroup ns ws ∈ addrs ns := by
  unfold getWorkspaceRootGroup at h ⊢
  cases hf : ns.find? (fun n => n.workspace == ws && n.parent == 0 && n.data.is_group
      && !n.reparenting) with
  | none =>
    rw [hf] at h
    exact absurd rfl h
  | some n => exact List.mem_map_of_mem _ (List.mem_of_find?_eq_some hf)

theorem sameTree_recalc (O : NodeOps) (ns : List Hy3Node) (root : Ptr) :
    SameTree ns (recalcSizePosRecursive O ns root) :=
  ⟨addrs_recalc O ns root, fun x par dat => nodeIs_recalc_iff O ns root x par dat⟩

/-- C27: `equalize`.  Without a focused node it changes nothing, and without recursion it
changes nothing for a parentless focused node.  Without recursion and with a parent, the tree
stays the same, the `size_ratio` of the parent of the focused node becomes 1, and the
`size_ratio` of every other node, the focused node and its siblings among them, is as it was.
With recursion, on a well-formed tree, the call returns, the tree stays the same, every node
in the subtree of the root group of the workspace has the `size_ratio` 1, and the
`size_ratio` of a node outside it is as it was. -/
theorem equalize_frame (O : NodeOps) (ns : List Hy3Node) (ws : Nat) (rank : Ptr → Nat) :
    (getWorkspaceFocusedNode ns ws false false = some 0 → ∀ r, equalize O ns ws r = some ns)
      ∧ (∀ f F, getWorkspaceFocusedNode ns ws false false = some f → getNode ns f = some F →
          F.parent = 0 → equalize O ns ws false = some ns)
      ∧ (∀ f F P, getWorkspaceFocusedNode ns ws false false = some f → f ≠ 0 →
          getNode ns f = some F → F.parent ≠ 0 → getNode ns F.parent = some P →
          ∃ ns1, equalize O ns ws false = some ns1 ∧ SameTree ns ns1
            ∧ flagsAt ns1 F.parent = some (P.reparenting, 1)
            ∧ ∀ x, x ≠ F.parent → flagsAt ns1 x = flagsAt ns x)
      ∧ (∀ f, getWorkspaceFocusedNode ns ws false false = some f → f ≠ 0 →
          WellFormed ns rank →
          ∃ ns1, equalize O ns ws true = some ns1 ∧ SameTree ns ns1
            ∧ (∀ x, Below ns (getWorkspaceRootGroup ns ws) x → ∃ b, flagsAt ns1 x = some (b, 1))
            ∧ ∀ x, ¬ Below ns (getWorkspaceRootGroup ns ws) x →
                flagsAt ns1 x = flagsAt ns x) := by
  refine ⟨?_, ?_, ?_, ?_⟩
  · intro h r
    unfold equalize
    simp only [h, Option.bind_eq_bind, Option.some_bind, if_true]
  · intro f F hf hF hp
    unfold equalize
    simp only [hf, Option.bind_eq_bind, Option.some_bind, Bool.false_eq_true, if_false, hF, hp,
      if_true]
    split <;> rfl
  · intro f F P hf hf0 hF hp0 hP
    obtain ⟨hS, hO, hR⟩ := setRatio_spec ns F.parent
    generalize hns1 : modifyNode ns F.parent (fun m => { m with size_ratio := 1 }) = ns1
      at hS hO hR
    refine ⟨recalcSizePosRecursive O ns1 F.parent, ?_,
      sameTree_trans hS (sameTree_recalc O ns1 F.parent), ?_, ?_⟩
    · unfold equalize
      simp only [hf, Option.bind_eq_bind, Option.some_bind, if_neg hf0, Bool.false_eq_true,
        if_false, hF, if_neg hp0, equalizeRecursive, hP, Bool.false_and, hns1]
    · rw [flagsAt_recalc]
      exact hR P.reparenting P.size_ratio (by unfold flagsAt; rw [hP]; rfl)
    · intro x hx
      rw [flagsAt_recalc, hO x hx]
  · intro f hf hf0 hw
    have hroot : getWorkspaceRootGroup ns ws ≠ 0 := by
      intro h0
      unfold getWorkspaceFocusedNode at hf
      simp only [h0, if_true, Option.some.injEq] at hf
      exact hf0 hf.symm
    obtain ⟨ns1, h1, hs1, hb1, _, ho1⟩ := equalizeRecursive_tree ns rank hw (ns.length + 1) ns
      (getWorkspaceRootGroup ns ws) [] (sameTree_refl ns) (getWorkspaceRootGroup_mem ns ws hroot)
      List.nodup_nil (fun y hy => (by cases hy)) (by simp)
    refine ⟨recalcSizePosRecursive O ns1 (getWorkspaceRootGroup ns ws), ?_,
      sameTree_trans hs1 (sameTree_recalc O ns1 _), ?_, ?_⟩
    · unfold equalize
      simp only [hf, Option.bind_eq_bind, Option.some_bind, if_neg hf0, if_true, ne_eq, hroot,
        not_false_eq_true, h1]
    · intro x hx
      rw [flagsAt_recalc]
      exact hb1 x hx
    · intro x hx
      rw [flagsAt_recalc]
      exact ho1 x hx

/-- Witness for C27: `root[G[A, B], C]` with A focused and the ratio 2 everywhere.  Without
recursion only the parent G of A gets the ratio 1; with recursion every node below the root
gets it. -/
theorem equalize_frame_witness :
    (∃ ns1, equalize O0 exRatios 1 false = some ns1 ∧ SameTree exRatios ns1
        ∧ flagsAt ns1 4 = some (false, 1)
        ∧ ∀ x, x ≠ 4 → flagsAt ns1 x = flagsAt exRatios x)
      ∧ ∃ ns1, equalize O0 exRatios 1 true = some ns1 ∧ SameTree exRatios ns1
        ∧ (∀ x, Below exRatios (getWorkspaceRootGroup exRatios 1) x →
            ∃ b, flagsAt ns1 x = some (b, 1))
        ∧ ∀ x, ¬ Below exRatios (getWorkspaceRootGroup exRatios 1) x →
            flagsAt ns1 x = flagsAt exRatios x :=
  ⟨(equalize_frame O0 exRatios 1 rankNested).2.2.1 1 { leaf 1 4 101 with size_ratio := 2 }
      { grp 4 2 .SplitH [1, 3] 1 with size_ratio := 2 } (by decide) (by decide) rfl
      (by decide) rfl,
    (equalize_frame O0 exRatios 1 rankNested).2.2.2 1 (by decide) (by decide)
      (wellFormed_of_check exRatios rankNested (by decide))⟩

/-! ## Shift of an only child with `once` -/

/-- C30: `shiftNode` with `once` set on a node whose placement actor `n` is the only child of
its parent group `p`; the result is the same for every direction and for both values of
`visible`.  When `p` has no parent, the layout of `p` is set to `SplitH`, no node is created or
removed, and every other node keeps its parent and payload.  When `p` has a parent, the group
is dissolved: the node at `p` keeps its place, address and parent, so that the children
sequence of its parent is as it was, and holds the payload of `n`; the node of `n` is gone
and the number of nodes has dropped by one; the children of that payload have `p` as parent
and every other node keeps its parent and payload. -/
theorem shiftNode_only_child (O : NodeOps) (C : Compositor) (self : Nat) (ns : List Hy3Node)
    (node p : Ptr) (N P : Hy3Node) (g : Hy3GroupData)
    (hN : getNode ns (O.getPlacementActor ns node) = some N) (hNp : N.parent = p)
    (hp0 : p ≠ 0) (hP : getNode ns p = some P) (hPg : P.data = .group g)
    (hch : g.children = [O.getPlacementActor ns node])
    (hne : O.getPlacementActor ns node ≠ p)
    (hpc : p ∉ N.data.children)
    (hnd : (addrs ns).Nodup) :
    (P.parent = 0 →
        ∃ Z, (∀ d v, shiftNode O C self ns node d true v = some Z) ∧ addrs Z = addrs ns
          ∧ NodeIs Z p 0 (.group (g.setLayout .SplitH))
          ∧ (g.setLayout .SplitH).layout = .SplitH
          ∧ (g.setLayout .SplitH).children = g.children
          ∧ ∀ x par dat, x ≠ p → NodeIs ns x par dat → NodeIs Z x par dat)
      ∧ (P.parent ≠ 0 →
        ∃ Z, (∀ d v, shiftNode O C self ns node d true v = some Z)
          ∧ addrs Z = (addrs ns).filter (fun x => x != O.getPlacementActor ns node)
          ∧ Z.length + 1 = ns.length
          ∧ NodeIs Z p P.parent N.data
          ∧ ∀ x par dat, x ≠ p → x ≠ O.getPlacementActor ns node → NodeIs ns x par dat →
              NodeIs Z x (if x ∈ N.data.children then p else par) dat) := by
  generalize hn : O.getPlacementActor ns node = n at hN hch hne
  have hlen1 : g.children.length = 1 := by rw [hch]; rfl
  constructor
  · intro hpp
    refine ⟨recalcSizePosRecursive O (modifyGroup ns p (fun g => g.setLayout .SplitH)) p, ?_,
      ?_, ?_, rfl, rfl, ?_⟩
    · intro d v
      unfold shiftNode
      simp only [if_true, hn, hN, Option.bind_eq_bind, Option.some_bind, hNp, ne_eq, hp0,
        not_false_eq_true, hP, hPg, Hy3NodeData.as_group, hlen1, hpp]
    · rw [addrs_recalc, addrs_modifyGroup]
    · have := nodeIs_modifyGroup_self ns p 0 g (fun g => g.setLayout .SplitH)
        ⟨P, hP, hpp, hPg⟩
      exact nodeIs_recalc O _ p p 0 _ this
    · intro x par dat hx h
      exact nodeIs_recalc O _ p x par dat (nodeIs_modifyGroup_ne ns p x par dat _ hx h)
  · intro hpp
    have hcg : (Hy3NodeData.group g).children = [n] := hch
    generalize hY1 : modifyNode ns n (fun m => { m with data := P.data }) = Y1
    generalize hY2 : modifyNode Y1 p (fun m => { m with data := N.data }) = Y2
    have hswap : swapData ns n p = some (reparentChildren (reparentChildren Y2 n) p) := by
      simp only [swapData, hN, hP, Option.bind_eq_bind, Option.some_bind, hY1, hY2]
    have setData : ∀ (Y : List Hy3Node) (q x par : Ptr) (dat dd : Hy3NodeData), x ≠ q →
        NodeIs Y x par dat → NodeIs (modifyNode Y q (fun m => { m with data := dd })) x par dat :=
      fun Y q x par dat dd hx h => nodeIs_modifyNode_ne Y q x par dat _ (fun _ => rfl) hx h
    have setDataSelf : ∀ (Y : List Hy3Node) (q par : Ptr) (dat dd : Hy3NodeData),
        NodeIs Y q par dat → NodeIs (modifyNode Y q (fun m => { m with data := dd })) q par dd :=
      fun Y q par dat dd h => nodeIs_modifyNode_self Y q par par dat dd _ (fun _ => rfl)
        (fun n hp _ => ⟨hp, rfl⟩) h
    have hset : ∀ (Y : List Hy3Node) (q : Ptr) (dd : Hy3NodeData),
        addrs (modifyNode Y q (fun m => { m with data := dd })) = addrs Y :=
      fun Y q dd => addrs_modifyNode Y q _ (fun _ => rfl)
    have p0 : NodeIs ns p P.parent (.group g) := ⟨P, hP, rfl, hPg⟩
    have n0 : NodeIs ns n p N.data := ⟨N, hN, hNp, rfl⟩
    have n1 : NodeIs Y1 n p (.group g) := by
      rw [← hY1, ← hPg]; exact setDataSelf _ _ _ _ _ n0
    have p1 : NodeIs Y1 p P.parent (.group g) := by
      rw [← hY1]; exact setData _ _ _ _ _ _ (Ne.symm hne) p0
    have p2 : NodeIs Y2 p P.parent N.data := by rw [← hY2]; exact setDataSelf _ _ _ _ _ p1
    have n2 : NodeIs Y2 n p (.group g) := by rw [← hY2]; exact setData _ _ _ _ _ _ hne n1
    have p3 : NodeIs (reparentChildren Y2 n) p P.parent N.data := by
      have := nodeIs_reparentChildren Y2 n p P.parent p N.data (.group g) n2 p2
      rw [hcg] at this
      simpa [Ne.symm hne] using this
    have n3 : ∃ q, NodeIs (reparentChildren Y2 n) n q (.group g) :=
      ⟨_, nodeIs_reparentChildren Y2 n n p p (.group g) (.group g) n2 n2⟩
    generalize hY3 : reparentChildren Y2 n = Y3 at hswap p3 n3
    have p4 : NodeIs (reparentChildren Y3 p) p P.parent N.data := by
      have := nodeIs_reparentChildren Y3 p p P.parent P.parent N.data N.data p3 p3
      simpa [hpc] using this
    have other : ∀ x par dat, x ≠ p → x ≠ n → NodeIs ns x par dat →
        NodeIs (reparentChildren Y3 p) x (if x ∈ N.data.children then p else par) dat := by
      intro x par dat hxp hxn h
      have x1 : NodeIs Y1 x par dat := by rw [← hY1]; exact setData _ _ _ _ _ _ hxn h
      have x2 : NodeIs Y2 x par dat := by rw [← hY2]; exact setData _ _ _ _ _ _ hxp x1
      have x3 : NodeIs Y3 x par dat := by
        have := nodeIs_reparentChildren Y2 n x par p dat (.group g) n2 x2
        rw [hcg, hY3] at this
        simpa [hxn] using this
      exact nodeIs_reparentChildren Y3 p x par P.parent dat N.data p3 x3
    generalize hY4 : reparentChildren Y3 p = Y4 at hswap p4 other
    have hadd : addrs Y4 = addrs ns := by
      rw [← hY4, addrs_reparentChildren, ← hY3, addrs_reparentChildren, ← hY2, hset, ← hY1,
        hset]
    have haddZ : addrs (recalcSizePosRecursive O (eraseNode Y4 n) p)
        = (addrs ns).filter (fun x => x != n) := by
      rw [addrs_recalc, addrs_eraseNode, hadd]
    refine ⟨recalcSizePosRecursive O (eraseNode Y4 n) p, ?_, haddZ, ?_, ?_, ?_⟩
    · intro d v
      unfold shiftNode
      simp only [if_true, hn, hN, Option.bind_eq_bind, Option.some_bind, hNp, ne_eq, hp0,
        not_false_eq_true, hP, hPg, Hy3NodeData.as_group, hlen1, hpp, if_false, hswap]
    · have hmem : n ∈ addrs ns := mem_addrs_of_nodeIs ns n _ _ n0
      have h1 := congrArg List.length haddZ
      have h2 : ((addrs ns).filter (fun x => x != n)).length + 1 = (addrs ns).length := by
        have hc := List.length_eq_countP_add_countP (fun x => x == n) (addrs ns)
        have hone : (addrs ns).countP (fun x => x == n) = 1 := by
          have := List.count_eq_one_of_mem hnd hmem
          simpa [List.count] using this
        have hflt : (addrs ns).countP (fun x => !(x == n))
            = ((addrs ns).filter (fun x => x != n)).length := by
          rw [List.countP_eq_length_filter]
          rfl
        have hc2 : (addrs ns).length = (addrs ns).countP (fun x => x == n)
            + (addrs ns).countP (fun x => !(x == n)) := by
          simpa using hc
        omega
      simp only [addrs, List.length_map] at h1 h2
      omega
    · exact nodeIs_recalc O _ p p _ _ (nodeIs_eraseNode_ne Y4 n p _ _ (Ne.symm hne) p4)
    · intro x par dat hxp hxn h
      exact nodeIs_recalc O _ p x _ dat
        (nodeIs_eraseNode_ne Y4 n x _ dat hxn (other x par dat hxp hxn h))

theorem shiftNode_only_child_witness :
    (∃ Z, (∀ d v, shiftNode O0 C0 0 exOne 1 d true v = some Z) ∧ addrs Z = addrs exOne
          ∧ NodeIs Z 2 0 (.group ((grpData .SplitH [1] 1).setLayout .SplitH))
          ∧ ((grpData .SplitH [1] 1).setLayout .SplitH).layout = .SplitH
          ∧ ((grpData .SplitH [1] 1).setLayout .SplitH).children = (grpData .SplitH [1] 1).children
          ∧ ∀ x par dat, x ≠ 2 → NodeIs exOne x par dat → NodeIs Z x par dat)
      ∧ (∃ Z, (∀ d v, shiftNode O0 C0 0 exDeep 1 d true v = some Z)
          ∧ addrs Z = (addrs exDeep).filter (fun x => x != 1)
          ∧ Z.length + 1 = exDeep.length
          ∧ NodeIs Z 4 2 (.window 101)
          ∧ ∀ x par dat, x ≠ 4 → x ≠ 1 → NodeIs exDeep x par dat →
              NodeIs Z x (if x ∈ (Hy3NodeData.window 101).children then 4 else par) dat) :=
  ⟨(shiftNode_only_child O0 C0 0 exOne 1 2 (leaf 1 2 101) (grp 2 0 .SplitH [1] 1) (grpData .SplitH [1] 1)
      rfl rfl (by decide) rfl rfl rfl (by decide) (by decide) (by decide)).1 rfl,
   (shiftNode_only_child O0 C0 0 exDeep 1 4 (leaf 1 4 101) (grp 4 2 .SplitV [1] 1) (grpData .SplitV [1] 1)
      rfl rfl (by decide) rfl rfl rfl (by decide) (by decide) (by decide)).2 (by decide)⟩

/-! ## The selection of `focusTab` -/

theorem tabIndexLoop_spec (index : Int) : ∀ (l : List Ptr) (i : Int),
    tabIndexLoop index l i
      = if i ≤ index ∧ index < i + l.length then l[(index - i).toNat]? else none := by
  intro l
  induction l with
  | nil =>
    intro i
    have : ¬ (i ≤ index ∧ index < i + ((([] : List Ptr).length : Nat) : Int)) := by
      simp only [List.length_nil, Nat.cast_zero]; omega
    simp only [tabIndexLoop, this, if_false]
  | cons a rest ih =>
    intro i
    simp only [tabIndexLoop, ih, List.length_cons, Nat.cast_add, Nat.cast_one]
    by_cases h : i = index
    · subst h
      have : i ≤ i ∧ i < i + ((rest.length : Int) + 1) := by omega
      simp [this]
    · simp only [h, if_false]
      by_cases h2 : i + 1 ≤ index ∧ index < i + 1 + (rest.length : Int)
      · have h3 : i ≤ index ∧ index < i + ((rest.length : Int) + 1) := by omega
        have h4 : (index - i).toNat = (index - (i + 1)).toNat + 1 := by omega
        simp only [h2, h3, and_self, if_true, h4, List.getElem?_cons_succ]
      · have h3 : ¬ (i ≤ index ∧ index < i + ((rest.length : Int) + 1)) := by omega
        simp only [h2, h3, if_false]

theorem tabIndexLoop_hit (l : List Ptr) (k : Nat) (c : Ptr) (h : l[k]? = some c) :
    tabIndexLoop ((k : Int) + 1) l 1 = some c := by
  have hk : k < l.length := by
    by_contra hc
    rw [List.getElem?_eq_none (Nat.le_of_not_lt hc)] at h
    cases h
  rw [tabIndexLoop_spec]
  have h1 : (1 : Int) ≤ (k : Int) + 1 ∧ (k : Int) + 1 < 1 + (l.length : Int) := by omega
  have h2 : ((k : Int) + 1 - 1).toNat = k := by omega
  simp only [h1, and_self, if_true, h2, h]

theorem tabIndexLoop_miss (l : List Ptr) (index : Int)
    (h : index < 1 ∨ (l.length : Int) < index) : tabIndexLoop index l 1 = none := by
  rw [tabIndexLoop_spec]
  have h1 : ¬ ((1 : Int) ≤ index ∧ index < 1 + (l.length : Int)) := by omega
  simp only [h1, if_false]

theorem tabCycle_left (wrap : Bool) (l : List Ptr) (f : Ptr) (h : List.indexOf f l < l.length) :
    tabCycle .Left wrap l f
      = if List.indexOf f l = 0 then (if wrap then l[l.length - 1]? else none)
        else l[List.indexOf f l - 1]? := by
  unfold tabCycle
  simp only [Nat.ne_of_lt h, if_false, if_true]

theorem tabCycle_right (wrap : Bool) (l : List Ptr) (f : Ptr)
    (h : List.indexOf f l < l.length) :
    tabCycle .Right wrap l f
      = if List.indexOf f l = l.length - 1 then (if wrap then l[0]? else none)
        else l[List.indexOf f l + 1]? := by
  unfold tabCycle
  have : ¬ (TabFocus.Right = TabFocus.Left) := by decide
  simp only [Nat.ne_of_lt h, if_false, this]

/-- With wrapping, one step to the right and one step to the left come back to the focused
child, when no child is listed twice. -/
theorem tabCycle_round (l : List Ptr) (f c : Ptr) (hn : l.Nodup) (h2 : 2 ≤ l.length)
    (hf : f ∈ l) (hr : tabCycle .Right true l f = some c) :
    tabCycle .Left true l c = some f := by
  have hi : List.indexOf f l < l.length := List.indexOf_lt_length.2 hf
  have hfi : l[List.indexOf f l] = f := List.getElem_indexOf hi
  rw [tabCycle_right true l f hi] at hr
  by_cases hlast : List.indexOf f l = l.length - 1
  · simp only [hlast, if_true] at hr
    have h0 : 0 < l.length := by omega
    rw [List.getElem?_eq_getElem h0] at hr
    have hc : c = l[0] := by injection hr with e; exact e.symm
    have hci : List.indexOf c l = 0 := by rw [hc]; exact List.indexOf_getElem hn 0 h0
    have hcl : List.indexOf c l < l.length := by omega
    rw [tabCycle_left true l c hcl]
    simp only [hci, if_true]
    have hl : l.length - 1 < l.length := by omega
    rw [List.getElem?_eq_getElem hl]
    congr 1
    rw [← hfi]
    congr 1
    exact hlast.symm
  · simp only [hlast, if_false] at hr
    have hs : List.indexOf f l + 1 < l.length := by omega
    rw [List.getElem?_eq_getElem hs] at hr
    have hc : c = l[List.indexOf f l + 1] := by injection hr with e; exact e.symm
    have hci : List.indexOf c l = List.indexOf f l + 1 := by
      rw [hc]; exact List.indexOf_getElem hn _ hs
    have hcl : List.indexOf c l < l.length := by omega
    rw [tabCycle_left true l c hcl]
    have hne : ¬ (List.indexOf c l = 0) := by omega
    simp only [hne, if_false]
    have hl : List.indexOf c l - 1 < l.length := by omega
    rw [List.getElem?_eq_getElem hl]
    congr 1
    rw [← hfi]
    congr 1
    omega

/-! ## The effect of `focus` on the group above -/

/-- On a well-formed tree every live node has a chain of parents up to a parentless node;
the chain is made of distinct live nodes of smaller rank. -/
theorem wellFormed_chain (ns : List Hy3Node) (rank : Ptr → Nat) (hw : WellFormed ns rank) :
    ∀ (k : Nat) (x par : Ptr) (dat : Hy3NodeData), rank x ≤ k → NodeIs ns x par dat →
      ∃ chain, parentChain ns x chain ∧ (∀ q ∈ chain, rank q < rank x) ∧ chain.Nodup
        ∧ ∀ q ∈ chain, q ∈ addrs ns := by
  intro k
  induction k with
  | zero =>
    intro x par dat hk hx
    by_cases hp : par = 0
    · refine ⟨[], ?_, by simp, List.nodup_nil, by simp⟩
      obtain ⟨n, hn, hnp, _⟩ := hx
      simp only [parentChain, parentAt, hn, Option.map_some', hnp, hp]
    · obtain ⟨pp, g, _, _, hr⟩ := hw.parent_ok x par dat hx hp
      omega
  | succ k ih =>
    intro x par dat hk hx
    by_cases hp : par = 0
    · refine ⟨[], ?_, by simp, List.nodup_nil, by simp⟩
      obtain ⟨n, hn, hnp, _⟩ := hx
      simp only [parentChain, parentAt, hn, Option.map_some', hnp, hp]
    · obtain ⟨pp, g, hP, _, hr⟩ := hw.parent_ok x par dat hx hp
      obtain ⟨chain, hc, hrk, hnd, hlive⟩ := ih par pp (.group g) (by omega) hP
      refine ⟨par :: chain, ?_, ?_, ?_, ?_⟩
      · obtain ⟨n, hn, hnp, _⟩ := hx
        simp only [parentChain, parentAt, hn, Option.map_some', hnp, true_and]
        exact ⟨hp, hc⟩
      · intro q hq
        rcases List.mem_cons.1 hq with rfl | hq
        · exact hr
        · exact Nat.lt_trans (hrk q hq) hr
      · refine List.nodup_cons.2 ⟨?_, hnd⟩
        intro hmem
        exact Nat.lt_irrefl _ (hrk par hmem)
      · intro q hq
        rcases List.mem_cons.1 hq with rfl | hq
        · exact mem_addrs_of_nodeIs ns _ _ _ hP
        · exact hlive q hq

/-- The walk of `markFocused` writes only to the nodes of the chain of parents. -/
theorem markFocusedUp_frame (chain : List Ptr) :
    ∀ (ns ns1 : List Hy3Node) (p : Ptr) (fuel : Nat), parentChain ns p chain →
      markFocusedUp fuel ns p = some ns1 → ∀ x, x ∉ chain → getNode ns1 x = getNode ns x := by
  induction chain with
  | nil =>
    intro ns ns1 p fuel hp h x _
    cases fuel with
    | zero => simp [markFocusedUp] at h
    | succ k =>
      simp only [parentChain, parentAt, Option.map_eq_some'] at hp
      obtain ⟨n, hn, hnp⟩ := hp
      simp only [markFocusedUp, hn, Option.bind_eq_bind, Option.some_bind, hnp, if_true,
        Option.some.injEq] at h
      rw [← h]
  | cons q rest ih =>
    intro ns ns1 p fuel hp h x hx
    cases fuel with
    | zero => simp [markFocusedUp] at h
    | succ k =>
      simp only [parentChain] at hp
      obtain ⟨hpq, hq0, hrest⟩ := hp
      simp only [parentAt, Option.map_eq_some'] at hpq
      obtain ⟨n, hn, hnp⟩ := hpq
      simp only [markFocusedUp, hn, Option.bind_eq_bind, Option.some_bind, hnp, hq0,
        if_false] at h
      have hrest2 := parentChain_of_parentAt ns
        (modifyGroup ns q (fun g => { g with focused_child := p, group_focused := false }))
        (fun x => parentAt_modifyGroup ns q x _) rest q hrest
      have hxq : x ≠ q := fun e => hx (by rw [e]; exact List.mem_cons_self _ _)
      have hxr : x ∉ rest := fun e => hx (List.mem_cons_of_mem _ e)
      rw [ih _ ns1 q k hrest2 h x hxr, getNode_modifyGroup]
      simp only [hxq, if_false]

/-- The walk of `markFocused` from `p` leaves `p` as the focused child of its parent, when
the parent is not met again further up. -/
theorem markFocusedUp_sets (ns ns1 : List Hy3Node) (p q pp : Ptr) (g : Hy3GroupData)
    (rest : List Ptr) (fuel : Nat) (hc : parentChain ns p (q :: rest)) (hq : q ∉ rest)
    (hQ : NodeIs ns q pp (.group g)) (h : markFocusedUp fuel ns p = some ns1) :
    focusedChildAt ns1 q = some p := by
  cases fuel with
  | zero => simp [markFocusedUp] at h
  | succ k =>
    simp only [parentChain] at hc
    obtain ⟨hpq, hq0, hrest⟩ := hc
    simp only [parentAt, Option.map_eq_some'] at hpq
    obtain ⟨n, hn, hnp⟩ := hpq
    simp only [markFocusedUp, hn, Option.bind_eq_bind, Option.some_bind, hnp, hq0,
      if_false] at h
    have hrest2 := parentChain_of_parentAt ns
      (modifyGroup ns q (fun g => { g with focused_child := p, group_focused := false }))
      (fun x => parentAt_modifyGroup ns q x _) rest q hrest
    obtain ⟨Q, hQn, _, hQd⟩ := hQ
    unfold focusedChildAt
    rw [markFocusedUp_frame rest _ ns1 q k hrest2 h q hq, getNode_modifyGroup]
    simp only [if_true, hQn, Option.map_some', Option.some_bind, Hy3Node.mapGroup, hQd,
      Hy3NodeData.as_group]

theorem focusedChildAt_recalc (O : NodeOps) (ns : List Hy3Node) (root p : Ptr) :
    focusedChildAt (recalcSizePosRecursive O ns root) p = focusedChildAt ns p := by
  unfold focusedChildAt
  rw [getNode_recalc]
  cases getNode ns p with
  | none => rfl
  | some n => rfl

/-- On a well-formed tree `focus` on a child of a group returns, keeps the shape of the tree,
and leaves the child as the focused child of the group. -/
theorem focus_child (ns : List Hy3Node) (rank : Ptr → Nat) (hw : WellFormed ns rank)
    (t tp c : Ptr) (g : Hy3GroupData) (ht : NodeIs ns t tp (.group g)) (hc : c ∈ g.children) :
    ∃ Z, focus ns c = some Z ∧ treeShape Z = treeShape ns ∧ focusedChildAt Z t = some c := by
  obtain ⟨dat, hC⟩ := hw.children_ok t tp g ht c hc
  have ht0 : t ≠ 0 := fun e => hw.nonnull (by rw [← e]; exact mem_addrs_of_nodeIs ns _ _ _ ht)
  obtain ⟨chain, hch, hrk, hnd, hlive⟩ := wellFormed_chain ns rank hw (rank c) c t dat
    (Nat.le_refl _) hC
  have hcnot : c ∉ chain := fun e => Nat.lt_irrefl _ (hrk c e)
  have hlen : chain.length + 1 ≤ (addrs ns).length := by
    have := length_le_of_nodup_subset (c :: chain) (addrs ns)
      (List.nodup_cons.2 ⟨hcnot, hnd⟩) (by
        intro x hx
        rcases List.mem_cons.1 hx with rfl | hx
        · exact mem_addrs_of_nodeIs ns _ _ _ hC
        · exact hlive x hx)
    simpa using this
  have hlen2 : chain.length ≤ ns.length := by
    simp only [addrs, List.length_map] at hlen
    omega
  obtain ⟨Z, hZ, hshape⟩ := markFocused_succeeds ns c chain hch hlen2
  refine ⟨Z, hZ, hshape, ?_⟩
  cases chain with
  | nil =>
    obtain ⟨n, hn, hnp, _⟩ := hC
    simp only [parentChain, parentAt, hn, Option.map_some', Option.some.injEq] at hch
    exact absurd (hnp.symm.trans hch) ht0
  | cons q rest =>
    have hqt : q = t := by
      obtain ⟨n, hn, hnp, _⟩ := hC
      simp only [parentChain, parentAt, hn, Option.map_some', Option.some.injEq] at hch
      exact hch.1.symm.trans hnp
    subst hqt
    have hne : q ≠ c := fun e => hcnot (by rw [← e]; exact List.mem_cons_self _ _)
    have hch0 := parentChain_of_parentAt ns
      (modifyGroup ns c (fun g => { g with group_focused := true }))
      (fun x => parentAt_modifyGroup ns c x _) (q :: rest) c hch
    have hQ0 := nodeIs_modifyGroup_ne ns c q tp (.group g)
      (fun g => { g with group_focused := true }) hne ht
    exact markFocusedUp_sets _ Z c q tp g rest _ hch0 (List.nodup_cons.1 hnd).1 hQ0 hZ

/-! ## Tab cycling -/

theorem focusTabAt_cycle (O : NodeOps) (ns : List Hy3Node) (target : TabFocus) (wrap : Bool)
    (index : Int) (t tp : Ptr) (g : Hy3GroupData) (out : Option Ptr)
    (ht : NodeIs ns t tp (.group g)) (htar : target ≠ .MouseLocation)
    (hf : g.focused_child ≠ 0) (h2 : 2 ≤ g.children.length) :
    focusTabAt O ns target wrap index t out
      = match (if target = .Index then tabIndexLoop index g.children 1
          else tabCycle target wrap g.children g.focused_child) with
        | none => some ns
        | some x => focusTabFinish O ns t x := by
  obtain ⟨T, hT, _, hTd⟩ := ht
  have hcond : ¬ (g.focused_child = 0 ∨ g.children.length < 2) := by
    intro h
    rcases h with h | h
    · exact hf h
    · omega
  unfold focusTabAt
  simp only [ne_eq, htar, not_false_eq_true, if_true, hT, Option.bind_eq_bind,
    Option.some_bind, hTd, Hy3NodeData.as_group, hcond, if_false]

theorem focusTabAt_idle (O : NodeOps) (ns : List Hy3Node) (target : TabFocus) (wrap : Bool)
    (index : Int) (t tp : Ptr) (g : Hy3GroupData) (out : Option Ptr)
    (ht : NodeIs ns t tp (.group g)) (htar : target ≠ .MouseLocation)
    (hc : g.focused_child = 0 ∨ g.children.length < 2) :
    focusTabAt O ns target wrap index t out = some ns := by
  obtain ⟨T, hT, _, hTd⟩ := ht
  unfold focusTabAt
  simp only [ne_eq, htar, not_false_eq_true, if_true, hT, Option.bind_eq_bind,
    Option.some_bind, hTd, Hy3NodeData.as_group, hc]

theorem focusTab_keys (O : NodeOps) (V : TabView) (P : PointerState) (ns : List Hy3Node)
    (ws : Nat) (target : TabFocus) (wrap : Bool) (index : Int) (f t tp : Ptr)
    (g : Hy3GroupData) (ht : NodeIs ns t tp (.group g)) (htar : target ≠ .MouseLocation)
    (hroot : getWorkspaceRootGroup ns ws ≠ 0)
    (hfoc : getWorkspaceFocusedNode ns ws false false = some f) (hf0 : f ≠ 0)
    (hup : tabNodeUp (ns.length + 1) ns f = some t) (hl : g.layout = .Tabbed) :
    focusTab O V P ns ws target .Ignore wrap index
      = focusTabAt O ns target wrap index t none := by
  obtain ⟨T, hT, _, hTd⟩ := ht
  unfold focusTab focusTabFocused
  simp only [hroot, if_false, htar, ne_eq, not_true_eq_false, or_self, hfoc,
    Option.bind_eq_bind, Option.some_bind, hf0, hup, hT, hTd, hl]

/-- C29: the part of `focusTab` from the label `hastab` on, for a tab node `t` that is a
group.  For `Left`, `Right` and `Index` a group with no focused child or with fewer than two
children is left as it is.  Otherwise, with the focused child at position `i` of `n`
children: `Left` selects the child at `i - 1`, the last child when `i = 0` with wrapping, and
nothing, leaving the tree as it is, when `i = 0` without wrapping; `Right` selects the child
at `i + 1`, the first child when `i = n - 1` with wrapping, and nothing without wrapping;
`Index` selects the child that is number `k + 1` counted from 1 and nothing for an index
outside `1..n`.  With wrapping and no child listed twice, the `Left` selection from the `Right`
selection is the focused child again.  A selected child that the descent does not leave
becomes, on a well-formed tree, the focused child of the tab group, and the shape of the tree
stays.  With the mouse ignored, `focusTab` reaches this part with the first `Tabbed` group
at or above the focused node of the workspace. -/
theorem focusTab_target (O : NodeOps) (ns : List Hy3Node) (t tp : Ptr) (g : Hy3GroupData)
    (wrap : Bool) (index : Int) (out : Option Ptr) (ht : NodeIs ns t tp (.group g)) :
    (∀ target, target ≠ .MouseLocation →
        (g.focused_child = 0 ∨ g.children.length < 2) →
        focusTabAt O ns target wrap index t out = some ns)
      ∧ (g.focused_child ≠ 0 → 2 ≤ g.children.length →
        (∀ i, List.indexOf g.focused_child g.children = i → i < g.children.length →
          (0 < i → ∃ c, g.children[i - 1]? = some c
            ∧ focusTabAt O ns .Left wrap index t out = focusTabFinish O ns t c)
          ∧ (i = 0 → wrap = true → ∃ c, g.children[g.children.length - 1]? = some c
            ∧ focusTabAt O ns .Left wrap index t out = focusTabFinish O ns t c)
          ∧ (i = 0 → wrap = false → focusTabAt O ns .Left wrap index t out = some ns)
          ∧ (i + 1 < g.children.length → ∃ c, g.children[i + 1]? = some c
            ∧ focusTabAt O ns .Right wrap index t out = focusTabFinish O ns t c)
          ∧ (i + 1 = g.children.length → wrap = true → ∃ c, g.children[0]? = some c
            ∧ focusTabAt O ns .Right wrap index t out = focusTabFinish O ns t c)
          ∧ (i + 1 = g.children.length → wrap = false →
            focusTabAt O ns .Right wrap index t out = some ns))
        ∧ (∀ k : Nat, k < g.children.length → ∃ c, g.children[k]? = some c
            ∧ focusTabAt O ns .Index wrap ((k : Int) + 1) t out = focusTabFinish O ns t c)
        ∧ ((index < 1 ∨ (g.children.length : Int) < index) →
            focusTabAt O ns .Index wrap index t out = some ns)
        ∧ (g.children.Nodup → g.focused_child ∈ g.children →
            ∀ c, tabCycle .Right true g.children g.focused_child = some c →
              tabCycle .Left true g.children c = some g.focused_child))
      ∧ (∀ rank c, WellFormed ns rank → c ∈ g.children →
          focusDescend (ns.length + 1) ns c = some c →
          ∃ Z, focusTabFinish O ns t c = some Z ∧ treeShape Z = treeShape ns
            ∧ focusedChildAt Z t = some c)
      ∧ (∀ V P ws target f, target ≠ .MouseLocation → getWorkspaceRootGroup ns ws ≠ 0 →
          getWorkspaceFocusedNode ns ws false false = some f → f ≠ 0 →
          tabNodeUp (ns.length + 1) ns f = some t → g.layout = .Tabbed →
          focusTab O V P ns ws target .Ignore wrap index
            = focusTabAt O ns target wrap index t none) := by
  refine ⟨fun target htar hc => focusTabAt_idle O ns target wrap index t tp g out ht htar hc,
    ?_, ?_, ?_⟩
  · intro hf h2
    have hL : TabFocus.Left ≠ TabFocus.MouseLocation := by decide
    have hR : TabFocus.Right ≠ TabFocus.MouseLocation := by decide
    have hI : TabFocus.Index ≠ TabFocus.MouseLocation := by decide
    have hLI : ¬ (TabFocus.Left = TabFocus.Index) := by decide
    have hRI : ¬ (TabFocus.Right = TabFocus.Index) := by decide
    refine ⟨?_, ?_, ?_, ?_⟩
    · intro i hi hin
      have hlt : List.indexOf g.focused_child g.children < g.children.length := by
        rw [hi]; exact hin
      have eL := focusTabAt_cycle O ns .Left wrap index t tp g out ht hL hf h2
      have eR := focusTabAt_cycle O ns .Right wrap index t tp g out ht hR hf h2
      simp only [hLI, if_false, tabCycle_left wrap g.children g.focused_child hlt, hi] at eL
      simp only [hRI, if_false, tabCycle_right wrap g.children g.focused_child hlt, hi] at eR
      refine ⟨?_, ?_, ?_, ?_, ?_, ?_⟩
      · intro h0
        have hb : i - 1 < g.children.length := by omega
        refine ⟨g.children[i - 1], List.getElem?_eq_getElem hb, ?_⟩
        rw [eL]
        simp only [Nat.ne_of_gt h0, if_false, List.getElem?_eq_getElem hb]
      · intro h0 hw
        have hb : g.children.length - 1 < g.children.length := by omega
        refine ⟨g.children[g.children.length - 1], List.getElem?_eq_getElem hb, ?_⟩
        rw [eL]
        simp only [h0, hw, if_true, List.getElem?_eq_getElem hb]
      · intro h0 hw
        rw [eL]
        simp only [h0, hw, if_true, Bool.false_eq_true, if_false]
      · intro h1
        have hne : ¬ (i = g.children.length - 1) := by omega
        refine ⟨g.children[i + 1], List.getElem?_eq_getElem h1, ?_⟩
        rw [eR]
        simp only [hne, if_false, List.getElem?_eq_getElem h1]
      · intro h1 hw
        have he : i = g.children.length - 1 := by omega
        have hb : 0 < g.children.length := by omega
        refine ⟨g.children[0], List.getElem?_eq_getElem hb, ?_⟩
        rw [eR]
        simp only [he, hw, if_true, List.getElem?_eq_getElem hb]
      · intro h1 hw
        have he : i = g.children.length - 1 := by omega
        rw [eR]
        simp only [he, hw, if_true, Bool.false_eq_true, if_false]
    · intro k hk
      refine ⟨g.children[k], List.getElem?_eq_getElem hk, ?_⟩
      rw [focusTabAt_cycle O ns .Index wrap _ t tp g out ht hI hf h2]
      simp only [if_true, tabIndexLoop_hit g.children k _ (List.getElem?_eq_getElem hk)]
    · intro hout
      rw [focusTabAt_cycle O ns .Index wrap _ t tp g out ht hI hf h2]
      simp only [if_true, tabIndexLoop_miss g.children index hout]
    · intro hn hmem c hc
      exact tabCycle_round g.children g.focused_child c hn h2 hmem hc
  · intro rank c hw hc hd
    obtain ⟨Z, hZ, hshape, hfc⟩ := focus_child ns rank hw t tp c g ht hc
    refine ⟨recalcSizePosRecursive O Z t, ?_, ?_, ?_⟩
    · unfold focusTabFinish
      simp only [hd, Option.bind_eq_bind, Option.some_bind, hZ]
    · rw [treeShape_recalc, hshape]
    · rw [focusedChildAt_recalc, hfc]
  · intro V P ws target f htar hroot hfoc hf0 hup hl
    exact focusTab_keys O V P ns ws target wrap index f t tp g ht htar hroot hfoc hf0 hup hl

theorem focusTab_target_witness :
    (∃ c, (grpData .Tabbed [1, 3] 1).children[0 + 1]? = some c
        ∧ focusTabAt O0 exTabs .Right false 0 6 none = focusTabFinish O0 exTabs 6 c)
      ∧ (∃ Z, focusTabFinish O0 exTabs 6 3 = some Z ∧ treeShape Z = treeShape exTabs
          ∧ focusedChildAt Z 6 = some 3)
      ∧ focusTab O0 viewTabs P0 exTabs 1 .Right .Ignore false 0
          = focusTabAt O0 exTabs .Right false 0 6 none :=
  ⟨((focusTab_target O0 exTabs 6 4 (grpData .Tabbed [1, 3] 1) false 0 none
        ⟨_, rfl, rfl, rfl⟩).2.1 (by decide) (by decide)).1 0 (by decide) (by decide)
      |>.2.2.2.1 (by decide),
   (focusTab_target O0 exTabs 6 4 (grpData .Tabbed [1, 3] 1) false 0 none
        ⟨_, rfl, rfl, rfl⟩).2.2.1 rankTabs 3 (wellFormed_of_check exTabs rankTabs (by decide))
        (by decide) (by decide),
   (focusTab_target O0 exTabs 6 4 (grpData .Tabbed [1, 3] 1) false 0 none
        ⟨_, rfl, rfl, rfl⟩).2.2.2 viewTabs P0 1 .Right 1 (by decide) (by decide) (by decide)
        (by decide) (by decide) rfl⟩

/-! ## Following nodes up to the focus marks -/

theorem nodeLike_of_nodeIs (ns : List Hy3Node) (x par : Ptr) (dat : Hy3NodeData)
    (h : NodeIs ns x par dat) : NodeLike ns x par dat := by
  obtain ⟨n, hn, hp, hd⟩ := h
  exact ⟨n, hn, hp, by rw [hd]⟩

theorem nodeLike_data (ns : List Hy3Node) (x par : Ptr) (dat : Hy3NodeData)
    (h : NodeLike ns x par dat) : ∃ dat1, NodeIs ns x par dat1 ∧ dat1.unfocus = dat.unfocus := by
  obtain ⟨n, hn, hp, hd⟩ := h
  exact ⟨n.data, ⟨n, hn, hp, rfl⟩, hd⟩

theorem nodeLike_congr (ns : List Hy3Node) (x par : Ptr) (dat dat1 : Hy3NodeData)
    (h : NodeLike ns x par dat1) (he : dat1.unfocus = dat.unfocus) : NodeLike ns x par dat := by
  obtain ⟨n, hn, hp, hd⟩ := h
  exact ⟨n, hn, hp, hd.trans he⟩

/-- What a payload that is a group up to the focus marks has in common with the group. -/
theorem unfocus_group (dat : Hy3NodeData) (g : Hy3GroupData)
    (h : dat.unfocus = (Hy3NodeData.group g).unfocus) :
    ∃ g1, dat = .group g1 ∧ g1.layout = g.layout ∧ g1.children = g.children
      ∧ g1.ephemeral = g.ephemeral ∧ g1.locked = g.locked
      ∧ g1.expand_focused = g.expand_focused := by
  cases dat with
  | window w => simp [Hy3NodeData.unfocus] at h
  | group g1 =>
    simp only [Hy3NodeData.unfocus, Hy3NodeData.group.injEq] at h
    cases g1
    cases g
    simp only [Hy3GroupData.mk.injEq] at h
    exact ⟨_, rfl, h.1, h.2.2.1, h.2.2.2.2.2.2.1, h.2.2.2.2.2.2.2.1, h.2.2.2.2.2.1⟩

theorem unfocus_isDirectTarget (a b : Hy3NodeData) (h : a.unfocus = b.unfocus) :
    a.isDirectTarget = b.isDirectTarget := by
  cases a with
  | window w =>
    cases b with
    | window v => rfl
    | group g => simp [Hy3NodeData.unfocus] at h
  | group ga =>
    cases b with
    | window v => simp [Hy3NodeData.unfocus] at h
    | group gb =>
      simp only [Hy3NodeData.unfocus, Hy3NodeData.group.injEq] at h
      cases ga
      cases gb
      simp only [Hy3GroupData.mk.injEq] at h
      simp only [Hy3NodeData.isDirectTarget, h.2.2.2.2.2.1, h.2.2.2.2.2.2.2.1]

theorem unfocus_children_update (g g1 : Hy3GroupData) (c : List Ptr)
    (h : (Hy3NodeData.group g1).unfocus = (Hy3NodeData.group g).unfocus) :
    (Hy3NodeData.group { g1 with children := c }).unfocus
      = (Hy3NodeData.group { g with children := c }).unfocus := by
  simp only [Hy3NodeData.unfocus, Hy3NodeData.group.injEq] at h ⊢
  cases g1
  cases g
  simp only [Hy3GroupData.mk.injEq] at h ⊢
  exact ⟨h.1, h.2.1, trivial, h.2.2.2⟩

theorem nodeLike_modifyGroup_focus (ns : List Hy3Node) (q x par : Ptr) (dat : Hy3NodeData)
    (f : Hy3GroupData → Hy3GroupData)
    (hf : ∀ g, (Hy3NodeData.group (f g)).unfocus = (Hy3NodeData.group g).unfocus)
    (h : NodeLike ns x par dat) : NodeLike (modifyGroup ns q f) x par dat := by
  obtain ⟨n, hn, hp, hd⟩ := h
  refine ⟨if x = q then n.mapGroup f else n, ?_, ?_, ?_⟩
  · rw [getNode_modifyGroup, hn]
    split <;> rfl
  · split
    · rw [mapGroup_parent]; exact hp
    · exact hp
  · split
    · rw [← hd]
      unfold Hy3Node.mapGroup
      split
      · next g hg => rw [hg]; exact hf g
      · rfl
    · exact hd

theorem nodeLike_markFocusedUp (fuel : Nat) (ns ns1 : List Hy3Node) (p x par : Ptr)
    (dat : Hy3NodeData) (h : markFocusedUp fuel ns p = some ns1) (hx : NodeLike ns x par dat) :
    NodeLike ns1 x par dat := by
  induction fuel generalizing ns p with
  | zero => simp [markFocusedUp] at h
  | succ k ih =>
    simp only [markFocusedUp, Option.bind_eq_bind, Option.bind_eq_some] at h
    obtain ⟨n, _, h⟩ := h
    split at h
    · cases h; exact hx
    · exact ih _ _ h (nodeLike_modifyGroup_focus ns _ x par dat _ (fun g => rfl) hx)

theorem nodeLike_focus (ns ns1 : List Hy3Node) (p x par : Ptr) (dat : Hy3NodeData)
    (h : focus ns p = some ns1) (hx : NodeLike ns x par dat) : NodeLike ns1 x par dat := by
  simp only [focus, markFocused] at h
  exact nodeLike_markFocusedUp _ _ ns1 p x par dat h
    (nodeLike_modifyGroup_focus ns _ x par dat _ (fun g => rfl) hx)

theorem nodeLike_recalc (O : NodeOps) (ns : List Hy3Node) (root x par : Ptr)
    (dat : Hy3NodeData) (h : NodeLike ns x par dat) :
    NodeLike (recalcSizePosRecursive O ns root) x par dat := by
  obtain ⟨dat1, h1, he⟩ := nodeLike_data ns x par dat h
  exact nodeLike_congr _ x par dat dat1
    (nodeLike_of_nodeIs _ x par dat1 (nodeIs_recalc O ns root x par dat1 h1)) he

theorem parentAt_of_nodeLike (ns : List Hy3Node) (x par : Ptr) (dat : Hy3NodeData)
    (h : NodeLike ns x par dat) : parentAt ns x = some par := by
  obtain ⟨n, hn, hp, _⟩ := h
  simp [parentAt, hn, hp]

theorem childrenAt_of_nodeLike (ns : List Hy3Node) (x par : Ptr) (g : Hy3GroupData)
    (h : NodeLike ns x par (.group g)) : childrenAt ns x = some g.children := by
  obtain ⟨n, hn, _, hd⟩ := h
  obtain ⟨g1, hg1, _, hc, _⟩ := unfocus_group n.data g hd
  simp [childrenAt, hn, hg1, Hy3NodeData.children, hc]

/-! ## The splice into another group, in general -/

/-- Removal of a node that leaves a sibling behind, with the payload of the parent
afterwards: only its children sequence and its focused child change. -/
theorem removeFromParentRecursive_keeps (ns : List Hy3Node) (n q pq : Ptr)
    (dn : Hy3NodeData) (gq : Hy3GroupData)
    (hn : NodeIs ns n q dn) (hq : NodeIs ns q pq (.group gq)) (hq0 : q ≠ 0) (hnq : n ≠ q)
    (hrest : gq.children.filter (fun x => x != n) ≠ []) :
    ∃ X, removeFromParentRecursive ns n = some (X, q) ∧ addrs X = addrs ns
      ∧ NodeIs X n 0 dn
      ∧ NodeIs X q pq (.group { gq with
          children := gq.children.filter (fun x => x != n)
          focused_child := if gq.focused_child = n
            then (gq.children.filter (fun x => x != n)).headD 0 else gq.focused_child })
      ∧ ∀ x par dat, x ≠ n → x ≠ q → NodeIs ns x par dat → NodeIs X x par dat := by
  obtain ⟨N, hN, hNp, hNd⟩ := hn
  obtain ⟨Q, hQ, hQp, hQd⟩ := hq
  obtain ⟨c, tl, hh⟩ := List.exists_cons_of_ne_nil hrest
  have hrem : removeFromParentRecursive ns n
      = some (modifyNode (modifyGroup ns q (fun g0 =>
            { g0 with children := c :: tl
                      focused_child := if g0.focused_child = n then c else g0.focused_child }))
          n (fun m => { m with parent := 0 }), q) := by
    unfold removeFromParentRecursive
    simp only [removeFromParentLoop, hN, hNp, hq0, hQ, hQd, Hy3NodeData.as_group,
      Option.bind_eq_bind, Option.some_bind, if_false, hh, if_true, List.isEmpty_cons,
      Bool.false_eq_true, List.headD_cons]
  generalize hX1 : modifyGroup ns q (fun g0 =>
      { g0 with children := c :: tl
                focused_child := if g0.focused_child = n then c else g0.focused_child })
      = X1 at hrem
  have clr : ∀ (Y : List Hy3Node) (x par : Ptr) (dat : Hy3NodeData), x ≠ n →
      NodeIs Y x par dat → NodeIs (modifyNode Y n (fun m => { m with parent := 0 })) x par dat :=
    fun Y x par dat hx h => nodeIs_modifyNode_ne Y n x par dat _ (fun _ => rfl) hx h
  have clrSelf : ∀ (Y : List Hy3Node) (par : Ptr) (dat : Hy3NodeData),
      NodeIs Y n par dat → NodeIs (modifyNode Y n (fun m => { m with parent := 0 })) n 0 dat :=
    fun Y par dat h => nodeIs_modifyNode_self Y n par 0 dat dat _ (fun _ => rfl)
      (fun m _ hd => ⟨rfl, hd⟩) h
  have clrAddrs : ∀ (Y : List Hy3Node),
      addrs (modifyNode Y n (fun m => { m with parent := 0 })) = addrs Y :=
    fun Y => addrs_modifyNode Y n _ (fun _ => rfl)
  refine ⟨_, hrem, ?_, ?_, ?_, ?_⟩
  · rw [clrAddrs, ← hX1, addrs_modifyGroup]
  · apply clrSelf X1 q dn
    rw [← hX1]
    exact nodeIs_modifyGroup_ne ns q n q dn _ hnq ⟨N, hN, hNp, hNd⟩
  · have hq1 := nodeIs_modifyGroup_self ns q pq gq (fun g0 =>
      { g0 with children := c :: tl
                focused_child := if g0.focused_child = n then c else g0.focused_child })
      ⟨Q, hQ, hQp, hQd⟩
    rw [hX1] at hq1
    rw [hh, List.headD_cons]
    exact clr X1 q pq _ (Ne.symm hnq) hq1
  · intro x par dat hxn hxq h
    apply clr X1 x par dat hxn
    rw [← hX1]
    exact nodeIs_modifyGroup_ne ns q x par dat _ hxq h

/-- The swallow pass that stops at its first node. -/
theorem swallowLoop_stops (ns : List Hy3Node) (fuel : Nat) (tp tpp : Ptr) (dat : Hy3NodeData)
    (hI : NodeIs ns tp tpp dat)
    (h : ∀ g, dat = .group g →
      (∀ c, g.children ≠ [c]) ∨ (g.layout = .Tabbed ∧ g.locked = true)) :
    swallowLoop (fuel + 1) ns tp = some (ns, tp) := by
  unfold swallowLoop
  by_cases h0 : tp = 0
  · rw [if_pos h0, h0]
  · rw [if_neg h0, swallowGroups_fails ns tp tpp dat hI h]
    rfl

/-- The splice of a node into a group that is not its parent, when no group is swallowed: the
former parent keeps a child and is not an ephemeral group with one child left, and the parent
of the target group is not a group with exactly one child afterwards.  The node is inserted
at the position, its parent becomes the target group, its former parent loses it, and every
node keeps its parent and, up to the focus marks, its payload. -/
theorem spliceShift_move (O : NodeOps) (Y : List Hy3Node) (n t q tp pq : Ptr) (i : Nat)
    (gt gq : Hy3GroupData) (dn : Hy3NodeData) (chain : List Ptr)
    (ht : NodeIs Y t tp (.group gt)) (hn : NodeIs Y n q dn) (hq : NodeIs Y q pq (.group gq))
    (ht0 : t ≠ 0) (hq0 : q ≠ 0) (hqt : q ≠ t) (hnt : n ≠ t) (hnq : n ≠ q)
    (hrest : gq.children.filter (fun x => x != n) ≠ [])
    (hkeep : ¬ (gq.ephemeral = true ∧ (gq.children.filter (fun x => x != n)).length = 1))
    (hsw : tp = 0
      ∨ (tp = q ∧ ((∀ c, gq.children.filter (fun x => x != n) ≠ [c])
          ∨ (gq.layout = .Tabbed ∧ gq.locked = true)))
      ∨ (tp ≠ q ∧ tp ≠ n ∧ tp ≠ t ∧ ∃ tpp dtp, NodeIs Y tp tpp dtp
          ∧ ∀ g, dtp = .group g →
              (∀ c, g.children ≠ [c]) ∨ (g.layout = .Tabbed ∧ g.locked = true)))
    (hc : parentChain Y t chain) (hnc : n ∉ chain) (hlen : chain.length + 1 ≤ Y.length) :
    ∃ Z, spliceShift O Y n n t i = some Z ∧ addrs Z = addrs Y
      ∧ NodeLike Z t tp (.group { gt with children := insertAt gt.children i n })
      ∧ NodeLike Z n t dn
      ∧ NodeLike Z q pq (.group { gq with children := gq.children.filter (fun x => x != n) })
      ∧ (∀ x par dat, x ≠ n → x ≠ q → x ≠ t → NodeIs Y x par dat → NodeLike Z x par dat)
      ∧ (∀ x X, x ≠ n → getNode Y x = some X → parentAt Z x = some X.parent)
      ∧ (q ∉ chain → NodeIs Z q pq (.group { gq with
          children := gq.children.filter (fun x => x != n)
          focused_child := if gq.focused_child = n
            then (gq.children.filter (fun x => x != n)).headD 0 else gq.focused_child })) := by
  generalize hY1 : modifyGroup Y t (fun g => { g with children := insertAt g.children i n })
    = Y1
  have t1 : NodeIs Y1 t tp (.group { gt with children := insertAt gt.children i n }) := by
    rw [← hY1]; exact nodeIs_modifyGroup_self Y t tp gt _ ht
  have n1 : NodeIs Y1 n q dn := by
    rw [← hY1]; exact nodeIs_modifyGroup_ne Y t n q dn _ hnt hn
  have q1 : NodeIs Y1 q pq (.group gq) := by
    rw [← hY1]; exact nodeIs_modifyGroup_ne Y t q pq _ _ hqt hq
  have a1 : addrs Y1 = addrs Y := by rw [← hY1, addrs_modifyGroup]
  obtain ⟨X, hrem, aX, nX, qX, oX⟩ :=
    removeFromParentRecursive_keeps Y1 n q pq dn gq n1 q1 hq0 hnq hrest
  have tX := oX t tp _ (Ne.symm hnt) (Ne.symm hqt) t1
  generalize hY2 : modifyNode X n (fun m => { m with parent := t, size_ratio := 1 }) = Y2
  have n2 : NodeIs Y2 n t dn := by
    rw [← hY2]
    exact nodeIs_modifyNode_self X n 0 t dn dn _ (fun _ => rfl) (fun m _ hd => ⟨rfl, hd⟩) nX
  have t2 : NodeIs Y2 t tp (.group { gt with children := insertAt gt.children i n }) := by
    rw [← hY2]; exact nodeIs_modifyNode_ne X n t tp _ _ (fun _ => rfl) (Ne.symm hnt) tX
  have q2 : NodeIs Y2 q pq (.group { gq with
      children := gq.children.filter (fun x => x != n)
      focused_child := if gq.focused_child = n
        then (gq.children.filter (fun x => x != n)).headD 0 else gq.focused_child }) := by
    rw [← hY2]; exact nodeIs_modifyNode_ne X n q pq _ _ (fun _ => rfl) (Ne.symm hnq) qX
  have a2 : addrs Y2 = addrs Y := by
    have := addrs_modifyNode X n (fun m : Hy3Node => { m with parent := t, size_ratio := 1 })
      (fun _ => rfl)
    rw [← hY2, this, aX, a1]
  generalize hY4 : recalcSizePosRecursive O (recalcSizePosRecursive O Y2 q) t = Y4
  have lift : ∀ x par dat, NodeIs Y2 x par dat → NodeIs Y4 x par dat := by
    intro x par dat h
    rw [← hY4]; exact nodeIs_recalc O _ t _ _ _ (nodeIs_recalc O Y2 q x par dat h)
  have n4 := lift _ _ _ n2
  have t4 := lift _ _ _ t2
  have q4 := lift _ _ _ q2
  have a4 : addrs Y4 = addrs Y := by rw [← hY4, addrs_recalc, addrs_recalc, a2]
  have others : ∀ x par dat, x ≠ n → x ≠ q → x ≠ t → NodeIs Y x par dat →
      NodeIs Y4 x par dat := by
    intro x par dat hxn hxq hxt h
    have x1 : NodeIs Y1 x par dat := by
      rw [← hY1]; exact nodeIs_modifyGroup_ne Y t x par dat _ hxt h
    have x2 : NodeIs Y2 x par dat := by
      rw [← hY2]
      exact nodeIs_modifyNode_ne X n x par dat _ (fun _ => rfl) hxn (oX x par dat hxn hxq x1)
    exact lift _ _ _ x2
  -- parents in the tree before the focus
  have hpar4 : ∀ x X, x ≠ n → getNode Y x = some X → parentAt Y4 x = some X.parent := by
    intro x X0 hxn hX0
    by_cases hxt : x = t
    · subst hxt
      obtain ⟨T, hT, hTp, _⟩ := ht
      rw [hT] at hX0
      cases hX0
      rw [hTp]
      exact parentAt_of_nodeIs Y4 x tp _ t4
    · by_cases hxq : x = q
      · subst hxq
        obtain ⟨Q, hQ, hQp, _⟩ := hq
        rw [hQ] at hX0
        cases hX0
        rw [hQp]
        exact parentAt_of_nodeIs Y4 x pq _ q4
      · exact parentAt_of_nodeIs Y4 x _ _ (others x _ _ hxn hxq hxt ⟨X0, hX0, rfl, rfl⟩)
  have hlen4 : (t :: chain).length ≤ Y4.length := by
    rw [length_of_addrs Y4 Y a4]
    exact hlen
  have hchain4 : parentChain Y4 n (t :: chain) := by
    refine ⟨parentAt_of_nodeIs Y4 n t dn n4, ht0, ?_⟩
    apply parentChain_congr Y Y4 chain t _ hc
    intro x hx
    obtain ⟨X0, hX0⟩ := parentChain_live Y chain t hc x hx
    have hxn : x ≠ n := by
      rcases List.mem_cons.1 hx with rfl | hx
      · exact Ne.symm hnt
      · exact fun e => hnc (e ▸ hx)
    rw [hpar4 x X0 hxn hX0]
    simp [parentAt, hX0]
  obtain ⟨Z, hZ, hshape⟩ := markFocused_succeeds Y4 n (t :: chain) hchain4 hlen4
  have hcond : ∀ (p : Ptr) (b : Prop),
      ¬ (p ≠ 0 ∧ gq.ephemeral = true
        ∧ (gq.children.filter (fun x => x != n)).length = 1 ∧ b) := by
    intro p b h
    exact hkeep ⟨h.2.1, h.2.2.1⟩
  -- the swallow pass
  have hloop : ∃ r, swallowLoop (Y4.length + 1) Y4 tp = some (Y4, r) := by
    rcases hsw with h0 | ⟨hq', hcq⟩ | ⟨h1, h2, h3, tpp, dtp, hT, hcT⟩
    · rw [h0]; exact ⟨0, swallowLoop_null Y4 _⟩
    · refine ⟨tp, ?_⟩
      rw [hq']
      apply swallowLoop_stops Y4 _ q pq _ q4
      intro g hg
      cases hg
      exact hcq
    · exact ⟨tp, swallowLoop_stops Y4 _ tp tpp dtp (others tp tpp dtp h2 h1 h3 hT) hcT⟩
  obtain ⟨r, hr⟩ := hloop
  have hfocus : focus Y4 n = some Z := hZ
  have like4 : ∀ x par dat, NodeIs Y4 x par dat →
      NodeLike (if r ≠ t ∧ r ≠ 0 then recalcSizePosRecursive O Z r else Z) x par dat := by
    intro x par dat h
    have hz := nodeLike_focus Y4 Z n x par dat hfocus (nodeLike_of_nodeIs Y4 x par dat h)
    split
    · exact nodeLike_recalc O Z r x par dat hz
    · exact hz
  have hqZ : q ∉ chain → NodeIs Z q pq (.group { gq with
      children := gq.children.filter (fun x => x != n)
      focused_child := if gq.focused_child = n
        then (gq.children.filter (fun x => x != n)).headD 0 else gq.focused_child }) := by
    intro hqc
    have hq' : q ∉ t :: chain := by
      intro h
      rcases List.mem_cons.1 h with h | h
      · exact hqt h
      · exact hqc h
    have hmod := parentChain_of_parentAt Y4
      (modifyGroup Y4 n (fun g => { g with group_focused := true }))
      (fun x => parentAt_modifyGroup Y4 n x _) (t :: chain) n hchain4
    have hZ' : markFocusedUp (Y4.length + 1)
        (modifyGroup Y4 n (fun g => { g with group_focused := true })) n = some Z := by
      have := hZ
      unfold markFocused at this
      exact this
    have hfr := markFocusedUp_frame (t :: chain) _ Z n _ hmod hZ' q hq'
    obtain ⟨Q4, hQ4, hQ4p, hQ4d⟩ := q4
    refine ⟨Q4, ?_, hQ4p, hQ4d⟩
    rw [hfr, getNode_modifyGroup, if_neg (Ne.symm hnq), hQ4]
  refine ⟨if r ≠ t ∧ r ≠ 0 then recalcSizePosRecursive O Z r else Z, ?_, ?_, ?_, ?_, ?_, ?_,
    ?_, ?_⟩
  · obtain ⟨T, hT, hTp, hTd⟩ := ht
    obtain ⟨N, hN, hNp, hNd⟩ := hn
    obtain ⟨Q2, hQ2, hQ2p, hQ2d⟩ := q2
    obtain ⟨T4, hT4, hT4p, hT4d⟩ := t4
    unfold spliceShift
    simp only [hT, hTd, hN, hNp, Hy3NodeData.as_group, Option.bind_eq_bind, Option.some_bind,
      if_neg (Ne.symm hqt), hY1, hrem, hY2, if_pos hq0, hQ2, hQ2d, if_neg (hcond _ _), hY4,
      hT4, hT4p, hr, hfocus]
  · have aZ : addrs Z = addrs Y := by rw [addrs_of_shape Z Y4 hshape, a4]
    split
    · rw [addrs_recalc, aZ]
    · exact aZ
  · exact like4 _ _ _ t4
  · exact like4 _ _ _ n4
  · exact nodeLike_congr _ q pq _ _ (like4 _ _ _ q4) rfl
  · intro x par dat hxn hxq hxt h
    exact like4 _ _ _ (others x par dat hxn hxq hxt h)
  · intro x X0 hxn hX0
    have h4 := hpar4 x X0 hxn hX0
    simp only [parentAt, Option.map_eq_some'] at h4
    obtain ⟨X4, hX4, hX4p⟩ := h4
    exact parentAt_of_nodeLike _ x _ X4.data (like4 x _ _ ⟨X4, hX4, hX4p, rfl⟩)
  · intro hqc
    split
    · exact nodeIs_recalc O Z r q pq _ (hqZ hqc)
    · exact hqZ hqc

/-! ## Entering the neighbouring group -/

/-- The position at which a node enters a group with `once` set. -/
theorem enterPos_spec (d : ShiftDirection) (visible : Bool) (gs : Hy3GroupData)
    (hne : gs.children ≠ [])
    (hfc : (shiftMatchesLayout gs.layout d = true ∧ (visible = false ∨ gs.layout ≠ .Tabbed))
      ∨ gs.focused_child = 0 ∨ gs.focused_child ∈ gs.children) :
    ∃ pos, insertPos gs.children (breakIntoSelect d true visible gs) = some pos
      ∧ pos ≤ gs.children.length
      ∧ ((shiftMatchesLayout gs.layout d = true ∧ (visible = false ∨ gs.layout ≠ .Tabbed)) →
          pos = if shiftIsForward d then 0 else gs.children.length)
      ∧ (¬ (shiftMatchesLayout gs.layout d = true
            ∧ (visible = false ∨ gs.layout ≠ .Tabbed)) → gs.focused_child ≠ 0 →
          pos = findIdx gs.children gs.focused_child + 1) := by
  have hpos : 0 < gs.children.length := List.length_pos.2 hne
  have hidx : ¬ (shiftMatchesLayout gs.layout d = true
        ∧ (visible = false ∨ gs.layout ≠ .Tabbed)) → gs.focused_child ≠ 0 →
      findIdx gs.children gs.focused_child < gs.children.length := by
    intro hC h
    rcases hfc with h1 | h1 | h1
    · exact absurd h1 hC
    · exact absurd h1 h
    · exact List.indexOf_lt_length.2 h1
  unfold breakIntoSelect insertPos
  simp only [Bool.not_true, Bool.false_and, Bool.false_eq_true, if_false]
  by_cases h1 : (visible && gs.layout == .Tabbed && gs.focused_child != 0) = true
  · rw [if_pos h1]
    have hf0 : gs.focused_child ≠ 0 := by
      simp only [Bool.and_eq_true, bne_iff_ne, ne_eq] at h1
      exact h1.2
    have hvt : visible = true ∧ gs.layout = .Tabbed := by
      simp only [Bool.and_eq_true, beq_iff_eq] at h1
      exact h1.1
    have hnC : ¬ (shiftMatchesLayout gs.layout d = true
        ∧ (visible = false ∨ gs.layout ≠ .Tabbed)) := by
      intro hC
      rcases hC.2 with h | h
      · rw [hvt.1] at h; cases h
      · exact absurd hvt.2 h
    refine ⟨findIdx gs.children gs.focused_child + 1, ?_, ?_, ?_, fun _ _ => rfl⟩
    · simp only [if_true, hidx hnC hf0]
    · exact hidx hnC hf0
    · intro hC
      exact absurd hC hnC
  · rw [if_neg h1]
    by_cases h2 : (shiftMatchesLayout gs.layout d || (visible && gs.layout == .Tabbed)) = true
    · rw [if_pos h2]
      have hC3 : ¬ (shiftMatchesLayout gs.layout d = true
            ∧ (visible = false ∨ gs.layout ≠ .Tabbed)) → gs.focused_child ≠ 0 → False := by
        intro hnC hf0
        have hvt : ¬ (visible = true ∧ gs.layout = .Tabbed) := by
          intro hvt
          apply h1
          simp [hvt.1, hvt.2, hf0]
        apply hnC
        have hmm : shiftMatchesLayout gs.layout d = true := by
          cases hmv : shiftMatchesLayout gs.layout d
          · rw [hmv] at h2
            simp only [Bool.false_or, Bool.and_eq_true, beq_iff_eq] at h2
            exact absurd h2 hvt
          · rfl
        refine ⟨hmm, ?_⟩
        cases hvis : visible
        · exact Or.inl rfl
        · right
          intro ht
          exact hvt ⟨hvis, ht⟩
      cases hf : shiftIsForward d
      · refine ⟨gs.children.length, ?_, Nat.le_refl _, fun _ => ?_,
          fun a b => (hC3 a b).elim⟩
        · have : gs.children.length - 1 < gs.children.length := by omega
          have e : gs.children.length - 1 + 1 = gs.children.length := by omega
          simp only [Bool.false_eq_true, if_false, if_true, this, e]
        · simp
      · refine ⟨0, ?_, Nat.zero_le _, fun _ => ?_, fun a b => (hC3 a b).elim⟩
        · simp only [if_true, Bool.false_eq_true, if_false]
        · simp
    · rw [if_neg h2]
      have hnm : shiftMatchesLayout gs.layout d = false := by
        cases h : shiftMatchesLayout gs.layout d
        · rfl
        · rw [h] at h2; simp at h2
      by_cases h3 : (gs.focused_child != 0) = true
      · rw [if_pos h3]
        have hf0 : gs.focused_child ≠ 0 := by simpa using h3
        have hnC : ¬ (shiftMatchesLayout gs.layout d = true
            ∧ (visible = false ∨ gs.layout ≠ .Tabbed)) := by
          intro hC
          rw [hnm] at hC; cases hC.1
        refine ⟨findIdx gs.children gs.focused_child + 1, ?_, hidx hnC hf0,
          fun hC => absurd hC hnC, fun _ _ => rfl⟩
        simp only [if_true, hidx hnC hf0]
      · rw [if_neg h3]
        refine ⟨0, ?_, Nat.zero_le _, fun hC => ?_, fun _ hf0 => ?_⟩
        · simp only [Bool.false_eq_true, if_false]
        · rw [hnm] at hC; cases hC.1
        · exact absurd (by simpa using hf0) h3

theorem breakInto_once (d : ShiftDirection) (visible : Bool) (ns : List Hy3Node) (s : Ptr)
    (S : Hy3Node) (gs : Hy3GroupData) (fuel : Nat)
    (hS : getNode ns s = some S) (hSg : S.data = .group gs) (hne : gs.children ≠ []) :
    breakInto d true true visible (fuel + 1) ns s
      = (insertPos gs.children (breakIntoSelect d true visible gs)).map
          (fun i => InsertOutcome.place s i) := by
  have hemp : gs.children.isEmpty = false := by
    cases h : gs.children with
    | nil => exact absurd h hne
    | cons a t => rfl
  simp only [breakInto, hS, hSg, Hy3NodeData.as_group, Option.bind_eq_bind, Option.some_bind,
    hemp, Bool.false_eq_true, if_false, Bool.and_self, if_true]

/-- The search for the insertion point next to a group that is entered. -/
theorem findInsert_enter (d : ShiftDirection) (visible : Bool) (ns : List Hy3Node)
    (n p s : Ptr) (P S : Hy3Node) (g gs : Hy3GroupData) (f b : Ptr) (iter : Nat)
    (hP : getNode ns p = some P) (hPg : P.data = .group g)
    (hfr : g.children.head? = some f) (hb : g.children.getLast? = some b)
    (hedge : if shiftIsForward d then b ≠ n else f ≠ n)
    (hiter : neighbourIdx d g.children n = some iter)
    (hget : g.children[iter]? = some s)
    (hS : getNode ns s = some S) (hSg : S.data = .group gs)
    (hSd : S.data.isDirectTarget = false) (hne : gs.children ≠ []) :
    findInsert d true true visible ns n n p false
      = (insertPos gs.children (breakIntoSelect d true visible gs)).map
          (fun i => InsertOutcome.place s i) := by
  have hbi := breakInto_once d visible ns s S gs ns.length hS hSg hne
  cases hf : shiftIsForward d
  · simp only [hf, Bool.false_eq_true, if_false] at hedge
    simp only [findInsert, hP, hPg, Hy3NodeData.as_group, hfr, hb, hf, Option.bind_eq_bind,
      Option.some_bind, Bool.false_eq_true, if_false, hiter, hget, hS, hSd,
      and_false, and_true, Ne.symm hedge, Bool.and_false, Bool.or_self, hbi]
  · simp only [hf, if_true] at hedge
    simp only [findInsert, hP, hPg, Hy3NodeData.as_group, hfr, hb, hf, Option.bind_eq_bind,
      Option.some_bind, Bool.true_eq_false, if_false, hiter, hget, hS, hSd,
      and_false, and_true, Ne.symm hedge, Bool.and_false, Bool.or_self, Bool.false_eq_true,
      hbi]

theorem filter_adjacent (d : ShiftDirection) (pre post : List Ptr) (n s : Ptr) (l : List Ptr)
    (hch : l = if shiftIsForward d then pre ++ n :: s :: post else pre ++ s :: n :: post)
    (hnd : l.Nodup) :
    l.filter (fun x => x != n) = pre ++ s :: post ∧ n ≠ s ∧ n ∉ pre ∧ n ∉ post
      ∧ s ∉ pre ∧ s ∉ post ∧ (pre ++ s :: post).Nodup ∧ s ∈ l ∧ n ∈ l := by
  have key : ∀ a b : List Ptr, l = a ++ n :: b →
      l.filter (fun x => x != n) = a ++ b ∧ n ∉ a ∧ n ∉ b := by
    intro a b e
    rw [e] at hnd
    have ha : n ∉ a := not_mem_pre_of_nodup a b n hnd
    have hb : n ∉ b := (List.nodup_cons.1 (List.nodup_append.1 hnd).2.1).1
    refine ⟨?_, ha, hb⟩
    rw [e, List.filter_append, List.filter_cons]
    have e1 : a.filter (fun x => x != n) = a :=
      List.filter_eq_self.2 (fun x hx => by
        simp only [bne_iff_ne, ne_eq]
        exact fun h => ha (h ▸ hx))
    have e2 : b.filter (fun x => x != n) = b :=
      List.filter_eq_self.2 (fun x hx => by
        simp only [bne_iff_ne, ne_eq]
        exact fun h => hb (h ▸ hx))
    simp [e1, e2]
  cases hf : shiftIsForward d
  · simp only [hf, Bool.false_eq_true, if_false] at hch
    obtain ⟨h1, h2, h3⟩ := key (pre ++ [s]) post (by rw [hch]; simp)
    have hnd2 : (pre ++ s :: post).Nodup := by
      have := (@List.nodup_middle _ n (pre ++ [s]) post).1 (by
        rw [hch] at hnd; simpa using hnd)
      have := (List.nodup_cons.1 this).2
      simpa using this
    refine ⟨by simpa using h1, ?_, ?_, h3, ?_, ?_, hnd2, by rw [hch]; simp, by rw [hch]; simp⟩
    · intro e; exact h2 (by rw [e]; simp)
    · intro e; exact h2 (by simp [e])
    · exact not_mem_pre_of_nodup pre post s hnd2
    · exact (List.nodup_cons.1 (List.nodup_append.1 hnd2).2.1).1
  · simp only [hf, if_true] at hch
    obtain ⟨h1, h2, h3⟩ := key pre (s :: post) hch
    have hnd2 : (pre ++ s :: post).Nodup := by
      have := (@List.nodup_middle _ n pre (s :: post)).1 (by
        rw [hch] at hnd; exact hnd)
      exact (List.nodup_cons.1 this).2
    refine ⟨h1, ?_, h2, ?_, ?_, ?_, hnd2, by rw [hch]; simp, by rw [hch]; simp⟩
    · intro e; exact h3 (by rw [e]; simp)
    · intro e; exact h3 (by simp [e])
    · exact not_mem_pre_of_nodup pre post s hnd2
    · exact (List.nodup_cons.1 (List.nodup_append.1 hnd2).2.1).1

/-- Shifting with `shiftNode` and `once` a node whose neighbour in the direction is a group
that is entered, inside a parent oriented along the direction that has a third child: the
node leaves the parent and becomes a child of the neighbour, at the edge it came through
when the neighbour is oriented along the direction, and every node keeps its parent and, up
to the focus marks, its payload. -/
theorem shiftNode_enter (O : NodeOps) (C : Compositor) (self : Nat) (ns : List Hy3Node)
    (d : ShiftDirection) (visible : Bool) (n p s pp : Ptr) (dn : Hy3NodeData)
    (g gs : Hy3GroupData) (pre post chain : List Ptr)
    (hexp : O.getExpandActor ns n = n) (hpa : O.getPlacementActor ns n = n)
    (hN : NodeIs ns n p dn) (hP : NodeIs ns p pp (.group g)) (hS : NodeIs ns s p (.group gs))
    (hp0 : p ≠ 0) (hnp : n ≠ p) (hsp : s ≠ p)
    (hm : shiftMatchesLayout g.layout d = true)
    (hv : visible = false ∨ g.layout ≠ .Tabbed)
    (hch : g.children
      = if shiftIsForward d then pre ++ n :: s :: post else pre ++ s :: n :: post)
    (hnd : g.children.Nodup) (hs0 : s ≠ 0)
    (hSd : (Hy3NodeData.group gs).isDirectTarget = false)
    (hne : gs.children ≠ [])
    (hfc : (shiftMatchesLayout gs.layout d = true ∧ (visible = false ∨ gs.layout ≠ .Tabbed))
      ∨ gs.focused_child = 0 ∨ gs.focused_child ∈ gs.children)
    (hthree : pre ++ post ≠ []
      ∨ (g.layout = .Tabbed ∧ g.locked = true ∧ g.ephemeral = false))
    (hc : parentChain ns p chain) (hnc : n ∉ chain) (hlen : chain.length + 2 ≤ ns.length) :
    ∃ ns1 pos, shiftNode O C self ns n d true visible = some ns1 ∧ addrs ns1 = addrs ns
      ∧ pos ≤ gs.children.length
      ∧ ((shiftMatchesLayout gs.layout d = true ∧ (visible = false ∨ gs.layout ≠ .Tabbed)) →
          pos = if shiftIsForward d then 0 else gs.children.length)
      ∧ (¬ (shiftMatchesLayout gs.layout d = true
            ∧ (visible = false ∨ gs.layout ≠ .Tabbed)) → gs.focused_child ≠ 0 →
          pos = findIdx gs.children gs.focused_child + 1)
      ∧ NodeLike ns1 s p (.group { gs with children := insertAt gs.children pos n })
      ∧ NodeLike ns1 n s dn
      ∧ NodeLike ns1 p pp (.group { g with children := pre ++ s :: post })
      ∧ (∀ x par dat, x ≠ n → x ≠ p → x ≠ s → NodeIs ns x par dat → NodeLike ns1 x par dat)
      ∧ ∀ x X, x ≠ n → getNode ns x = some X → parentAt ns1 x = some X.parent := by
  obtain ⟨hfilt, hns, _, _, _, _, _, _, _⟩ :=
    filter_adjacent d pre post n s g.children hch hnd
  obtain ⟨f, b, iter, hfr, hb, hedge, hiter, hget, _, hmem⟩ :=
    adjacent_facts d pre post n s g.children hch hnd
  obtain ⟨pos, hpos, hle, hposC, hposF⟩ := enterPos_spec d visible gs hne hfc
  have hedge' : (if shiftIsForward d then g.children.getLast? else g.children.head?)
      = some (if shiftIsForward d then b else f) := by
    cases shiftIsForward d <;> simp [hfr, hb]
  have hne' : (if shiftIsForward d then b else f) ≠ n := by
    cases hf : shiftIsForward d <;> simp [hf] at hedge ⊢ <;> exact hedge
  have hrestne : g.children.filter (fun x => x != n) ≠ [] := by rw [hfilt]; simp
  have hone : (∀ c, g.children.filter (fun x => x != n) ≠ [c])
      ∨ (g.layout = .Tabbed ∧ g.locked = true) := by
    rcases hthree with h3 | h3
    · left
      intro c e
      rw [hfilt] at e
      have hl := congrArg List.length e
      simp only [List.length_append, List.length_cons, List.length_nil] at hl
      apply h3
      have h1 : pre.length = 0 := by omega
      have h2 : post.length = 0 := by omega
      rw [List.length_eq_zero.1 h1, List.length_eq_zero.1 h2]
      rfl
    · exact Or.inr ⟨h3.1, h3.2.1⟩
  have hkeep : ¬ (g.ephemeral = true
      ∧ (g.children.filter (fun x => x != n)).length = 1) := by
    intro h
    rcases hthree with h3 | h3
    · rw [hfilt] at h
      have hl := h.2
      simp only [List.length_append, List.length_cons] at hl
      apply h3
      have h1 : pre.length = 0 := by omega
      have h2 : post.length = 0 := by omega
      rw [List.length_eq_zero.1 h1, List.length_eq_zero.1 h2]
      rfl
    · rw [h3.2.2] at h
      cases h.1
  have hchainS : parentChain ns s (p :: chain) :=
    ⟨parentAt_of_nodeIs ns s p _ hS, hp0, hc⟩
  have hncS : n ∉ p :: chain := by
    intro h
    rcases List.mem_cons.1 h with h | h
    · exact hnp h
    · exact hnc h
  obtain ⟨Z, hZ, aZ, tZ, nZ, qZ, oZ, parZ, _⟩ := spliceShift_move O ns n s p p pp pos gs g dn
    (p :: chain) hS hN hP hs0 hp0 (Ne.symm hsp) hns hnp hrestne hkeep
    (Or.inr (Or.inl ⟨rfl, hone⟩)) hchainS hncS (by simpa using hlen)
  obtain ⟨N, hNn, hNp, hNd⟩ := hN
  obtain ⟨P, hPn, hPp, hPd⟩ := hP
  obtain ⟨S, hSn, hSp, hSd2⟩ := hS
  have h1 := breakLoop_stop C self d true true visible ns n p P g _ ns.length hp0 hPn hPd hm hv
    hedge' hne'
  have h2 := findInsert_enter d visible ns n p s P S g gs f b iter hPn hPd hfr hb hedge hiter
    hget hSn hSd2 (by rw [hSd2]; exact hSd) hne
  have hsg : shiftOrGetFocus O C self ns n d true true visible = some (Z, 0) := by
    simp only [shiftOrGetFocus, hexp, hpa, hNn, hNp, Option.bind_eq_bind, Option.some_bind, h1,
      h2, hpos, Option.map_some', hZ]
  have hlen1 : g.children.length ≠ 1 := by
    rw [hch]; cases shiftIsForward d <;> simp <;> omega
  refine ⟨Z, pos, ?_, aZ, hle, hposC, hposF, tZ, nZ, ?_, ?_, parZ⟩
  · simp [shiftNode, hpa, hNn, hNp, hp0, hPn, hPd, Hy3NodeData.as_group, hlen1, hsg]
  · rw [← hfilt]; exact qZ
  · intro x par dat hxn hxp hxs h
    exact oZ x par dat hxn hxp hxs h

/-! ## Leaving a group over its edge -/

/-- The first loop with `once` set leaves the parent of the node, which is not oriented along
the direction or has the node at its edge, and stops in the group above, which is oriented
along the direction. -/
theorem breakLoop_exit (C : Compositor) (self : Nat) (d : ShiftDirection) (visible : Bool)
    (ns : List Hy3Node) (n s p : Ptr) (S P : Hy3Node) (gs g : Hy3GroupData) (fuel : Nat)
    (hs0 : s ≠ 0) (hp0 : p ≠ 0) (hsn : s ≠ n)
    (hS : getNode ns s = some S) (hSg : S.data = .group gs) (hSp : S.parent = p)
    (hP : getNode ns p = some P) (hPg : P.data = .group g)
    (hm : shiftMatchesLayout g.layout d = true)
    (hv : visible = false ∨ g.layout ≠ .Tabbed)
    (hexit : ¬ (shiftMatchesLayout gs.layout d = true
        ∧ (visible = false ∨ gs.layout ≠ .Tabbed))
      ∨ (if shiftIsForward d then gs.children.getLast? else gs.children.head?) = some n) :
    breakLoop C self d true true visible n (fuel + 2) ns n s false
      = some (.go ns s p true) := by
  have hsecond : breakLoop C self d true true visible n (fuel + 1) ns s p false
      = some (.go ns s p true) := by
    simp [breakLoop, hp0, hP, hPg, Hy3NodeData.as_group, hm, hv, hsn]
  have hcondP : (shiftMatchesLayout gs.layout d && (!visible || gs.layout != .Tabbed)) = true
      ↔ (shiftMatchesLayout gs.layout d = true ∧ (visible = false ∨ gs.layout ≠ .Tabbed)) := by
    simp
  by_cases hc : (shiftMatchesLayout gs.layout d && (!visible || gs.layout != .Tabbed)) = true
  · have hedge : (if shiftIsForward d then gs.children.getLast? else gs.children.head?)
        = some n := by
      rcases hexit with h | h
      · exact absurd (hcondP.1 hc) h
      · exact h
    unfold breakLoop
    cases hf : shiftIsForward d <;>
      simp only [hf, if_true, Bool.false_eq_true, if_false] at hedge <;>
      simp only [if_neg hs0, hS, hSg, Hy3NodeData.as_group, Option.bind_eq_bind,
        Option.some_bind, hc, if_true, Bool.and_false, Bool.false_eq_true, if_false, ne_eq,
        not_true_eq_false, Bool.false_and, hf, hedge, bne_self_eq_false, hSp, hp0, hsecond]
  · unfold breakLoop
    simp only [if_neg hs0, hS, hSg, Hy3NodeData.as_group, Option.bind_eq_bind,
      Option.some_bind, hc, Bool.false_eq_true, if_false, hSp, hp0, hsecond]

theorem getElem?_pre_last (pre post : List Ptr) (s : Ptr) (h : pre ≠ []) :
    ∃ c, (pre ++ s :: post)[pre.length - 1]? = some c ∧ c ∈ pre ++ s :: post := by
  have hlt : pre.length - 1 < pre.length := by
    have := List.length_pos.2 h
    omega
  refine ⟨pre[pre.length - 1], ?_, ?_⟩
  · rw [List.getElem?_append_left hlt, List.getElem?_eq_getElem hlt]
  · exact List.mem_append_left _ (List.getElem_mem _)

theorem getElem?_post_head (pre post : List Ptr) (s : Ptr) (h : post ≠ []) :
    ∃ c, (pre ++ s :: post)[pre.length + 1]? = some c ∧ c ∈ pre ++ s :: post := by
  obtain ⟨c, tl, e⟩ := List.exists_cons_of_ne_nil h
  refine ⟨c, ?_, ?_⟩
  · rw [e, List.getElem?_append_right (Nat.le_succ _)]
    simp
  · rw [e]; simp

/-- The search for the insertion point after the first loop has left a group with `once`
set: the place next to that group, on the side of the direction. -/
theorem findInsert_exit (d : ShiftDirection) (visible : Bool) (ns : List Hy3Node)
    (n s p : Ptr) (N P : Hy3Node) (g : Hy3GroupData) (pre post : List Ptr)
    (hN : getNode ns n = some N) (hNp : N.parent = s) (hsp : s ≠ p)
    (hP : getNode ns p = some P) (hPg : P.data = .group g)
    (hch : g.children = pre ++ s :: post) (hnd : g.children.Nodup)
    (hlive : ∀ c ∈ g.children, ∃ X, getNode ns c = some X) :
    findInsert d true true visible ns n s p true
      = some (.place p (if shiftIsForward d then pre.length + 1 else pre.length)) := by
  rw [hch] at hnd hlive
  have hpre : s ∉ pre := not_mem_pre_of_nodup pre post s hnd
  have hpost : s ∉ post := (List.nodup_cons.1 (List.nodup_append.1 hnd).2.1).1
  have hidx : findIdx (pre ++ s :: post) s = pre.length := findIdx_append_cons pre post s hpre
  have hps : ¬ (p = s) := fun e => hsp e.symm
  cases hf : shiftIsForward d
  · -- backward
    cases hpe : pre with
    | nil =>
      simp only [findInsert, hP, hPg, Hy3NodeData.as_group, hch, hpe, List.nil_append,
        List.head?_cons, Option.bind_eq_bind, Option.some_bind, hf, and_self, if_true,
        List.length_nil, Bool.false_eq_true, if_false]
    | cons a t =>
      have hane : ¬ (s = a) := by
        intro e
        apply hpre
        rw [hpe, e]
        exact List.mem_cons_self _ _
      have hne : pre ≠ [] := by rw [hpe]; simp
      obtain ⟨c, hc, hcm⟩ := getElem?_pre_last pre post s hne
      obtain ⟨X, hX⟩ := hlive c hcm
      have hlast : ∃ b, (pre ++ s :: post).getLast? = some b := by
        cases h : (pre ++ s :: post).getLast? with
        | none => simp at h
        | some b => exact ⟨b, rfl⟩
      obtain ⟨b, hb⟩ := hlast
      have hposl : 0 < pre.length := List.length_pos.2 hne
      have hiter : neighbourIdx d (pre ++ s :: post) s = some (pre.length - 1) := by
        unfold neighbourIdx
        simp only [hf, Bool.false_eq_true, if_false, hidx, hposl, if_true]
      have hhead : (pre ++ s :: post).head? = some a := by rw [hpe]; rfl
      have e1 : pre.length - 1 + 1 = pre.length := by omega
      simp only [findInsert, hP, hPg, Hy3NodeData.as_group, hch, hhead, Option.bind_eq_bind,
        Option.some_bind, hf, hane, false_and, if_false, hb, Bool.false_eq_true, and_false,
        hiter, hc, hX, Bool.and_self, Bool.or_true, if_true, hN, hNp, hps, e1]
      rw [hpe]
  · -- forward
    have hhead : ∃ f, (pre ++ s :: post).head? = some f := by
      cases pre <;> simp
    obtain ⟨f, hfr⟩ := hhead
    cases hpe : post with
    | nil =>
      have hb : (pre ++ [s]).getLast? = some s := by simp
      rw [hpe] at hfr
      simp only [findInsert, hP, hPg, Hy3NodeData.as_group, hch, hpe, hfr,
        Option.bind_eq_bind, Option.some_bind, hf, Bool.true_eq_false, and_false, if_false,
        hb, and_self, if_true, List.length_append, List.length_cons, List.length_nil]
    | cons a t =>
      have hne : post ≠ [] := by rw [hpe]; simp
      obtain ⟨c, hc, hcm⟩ := getElem?_post_head pre post s hne
      obtain ⟨X, hX⟩ := hlive c hcm
      have hb : ∃ b, (pre ++ s :: post).getLast? = some b ∧ b ≠ s := by
        have h1 : (pre ++ s :: post).getLast? = post.getLast? := by
          rw [show pre ++ s :: post = (pre ++ [s]) ++ post by simp]
          rw [List.getLast?_append_of_ne_nil _ hne]
        refine ⟨post.getLast hne, ?_, ?_⟩
        · rw [h1, List.getLast?_eq_getLast _ hne]
        · intro e
          exact hpost (e ▸ List.getLast_mem hne)
      obtain ⟨b, hb, hbs⟩ := hb
      have hlt : pre.length < (pre ++ s :: post).length := by simp
      have hiter : neighbourIdx d (pre ++ s :: post) s = some (pre.length + 1) := by
        unfold neighbourIdx
        simp only [hf, if_true, hidx, hlt]
      simp only [findInsert, hP, hPg, Hy3NodeData.as_group, hch, hfr, Option.bind_eq_bind,
        Option.some_bind, hf, Bool.true_eq_false, and_false, if_false, hb, Ne.symm hbs,
        false_and, hiter, hc, hX, Bool.and_self, Bool.or_true, if_true, hN, hNp, hps]

theorem insertAt_beside (d : ShiftDirection) (pre post : List Ptr) (n s : Ptr) :
    insertAt (pre ++ s :: post) (if shiftIsForward d then pre.length + 1 else pre.length) n
      = if shiftIsForward d then pre ++ s :: n :: post else pre ++ n :: s :: post := by
  cases shiftIsForward d
  · simp [insertAt]
  · have e : pre ++ s :: post = (pre ++ [s]) ++ post := by simp
    have e2 : pre.length + 1 = (pre ++ [s]).length := by simp
    simp only [if_true, insertAt]
    rw [e, e2, List.take_left, List.drop_left]
    simp

/-- Shifting with `shiftNode` and `once` a node out of its parent, which is not oriented
along the direction or has the node at its edge in the direction, into the group above, which
is oriented along the direction, when no group is swallowed: the node becomes the neighbour
of its former parent on the side of the direction, and every node keeps its parent and, up to
the focus marks, its payload. -/
theorem shiftNode_exit (O : NodeOps) (C : Compositor) (self : Nat) (ns : List Hy3Node)
    (d : ShiftDirection) (visible : Bool) (n s p pp : Ptr) (dn : Hy3NodeData)
    (gs g : Hy3GroupData) (pre post chain : List Ptr)
    (hexp : O.getExpandActor ns n = n) (hpa : O.getPlacementActor ns n = n)
    (hN : NodeIs ns n s dn) (hS : NodeIs ns s p (.group gs)) (hP : NodeIs ns p pp (.group g))
    (hs0 : s ≠ 0) (hp0 : p ≠ 0) (hns : n ≠ s) (hnp : n ≠ p) (hsp : s ≠ p)
    (hrest : gs.children.filter (fun x => x != n) ≠ []) (hnmem : n ∈ gs.children)
    (hexit : ¬ (shiftMatchesLayout gs.layout d = true
        ∧ (visible = false ∨ gs.layout ≠ .Tabbed))
      ∨ (if shiftIsForward d then gs.children.getLast? else gs.children.head?) = some n)
    (hm : shiftMatchesLayout g.layout d = true)
    (hv : visible = false ∨ g.layout ≠ .Tabbed)
    (hch : g.children = pre ++ s :: post) (hnd : g.children.Nodup)
    (hlive : ∀ c ∈ g.children, ∃ X, getNode ns c = some X)
    (hkeep : ¬ (gs.ephemeral = true ∧ (gs.children.filter (fun x => x != n)).length = 1))
    (hsw : pp = 0 ∨ (pp ≠ s ∧ pp ≠ n ∧ pp ≠ p ∧ ∃ ppp dpp, NodeIs ns pp ppp dpp
      ∧ ∀ g0, dpp = .group g0 →
          (∀ c, g0.children ≠ [c]) ∨ (g0.layout = .Tabbed ∧ g0.locked = true)))
    (hc : parentChain ns p chain) (hnc : n ∉ chain) (hlen : chain.length + 1 ≤ ns.length) :
    ∃ ns1, shiftNode O C self ns n d true visible = some ns1 ∧ addrs ns1 = addrs ns
      ∧ NodeLike ns1 p pp (.group { g with
          children := if shiftIsForward d then pre ++ s :: n :: post
                      else pre ++ n :: s :: post })
      ∧ NodeLike ns1 n p dn
      ∧ NodeLike ns1 s p (.group { gs with
          children := gs.children.filter (fun x => x != n) })
      ∧ (∀ x par dat, x ≠ n → x ≠ s → x ≠ p → NodeIs ns x par dat → NodeLike ns1 x par dat)
      ∧ (∀ x X, x ≠ n → getNode ns x = some X → parentAt ns1 x = some X.parent)
      ∧ (s ∉ chain → NodeIs ns1 s p (.group { gs with
          children := gs.children.filter (fun x => x != n)
          focused_child := if gs.focused_child = n
            then (gs.children.filter (fun x => x != n)).headD 0 else gs.focused_child })) := by
  have hsw' : pp = 0
      ∨ (pp = s ∧ ((∀ c, gs.children.filter (fun x => x != n) ≠ [c])
          ∨ (gs.layout = .Tabbed ∧ gs.locked = true)))
      ∨ (pp ≠ s ∧ pp ≠ n ∧ pp ≠ p ∧ ∃ tpp dtp, NodeIs ns pp tpp dtp
          ∧ ∀ g0, dtp = .group g0 →
              (∀ c, g0.children ≠ [c]) ∨ (g0.layout = .Tabbed ∧ g0.locked = true)) := by
    rcases hsw with h | h
    · exact Or.inl h
    · exact Or.inr (Or.inr h)
  obtain ⟨Z, hZ, aZ, tZ, nZ, qZ, oZ, parZ, exZ⟩ := spliceShift_move O ns n p s pp p
    (if shiftIsForward d then pre.length + 1 else pre.length) g gs dn chain hP hN hS hp0 hs0
    hsp hnp hns hrest hkeep hsw' hc hnc hlen
  have hlen1 : gs.children.length ≠ 1 := by
    intro h
    obtain ⟨c, hc1⟩ := List.length_eq_one.1 h
    rw [hc1] at hnmem hrest
    have : c = n := (List.mem_singleton.1 hnmem).symm
    apply hrest
    rw [this]
    simp
  obtain ⟨N, hNn, hNp, hNd⟩ := hN
  obtain ⟨P, hPn, hPp, hPd⟩ := hP
  obtain ⟨S, hSn, hSp, hSd⟩ := hS
  have h1 := breakLoop_exit C self d visible ns n s p S P gs g (ns.length - 1) hs0 hp0
    (Ne.symm hns) hSn hSd hSp hPn hPd hm hv hexit
  have hfuel : ns.length - 1 + 2 = ns.length + 1 := by
    have := List.length_pos_of_mem (getNode_mem hNn)
    omega
  rw [hfuel] at h1
  have h2 := findInsert_exit d visible ns n s p N P g pre post hNn hNp hsp hPn hPd hch hnd
    hlive
  have hsg : shiftOrGetFocus O C self ns n d true true visible = some (Z, 0) := by
    simp only [shiftOrGetFocus, hexp, hpa, hNn, hNp, Option.bind_eq_bind, Option.some_bind, h1,
      h2, Option.map_some', hZ]
  refine ⟨Z, ?_, aZ, ?_, nZ, qZ, ?_, parZ, exZ⟩
  · simp [shiftNode, hpa, hNn, hNp, hs0, hSn, hSd, Hy3NodeData.as_group, hlen1, hsg]
  · rw [hch, insertAt_beside] at tZ
    exact tZ
  · intro x par dat hxn hxs hxp h
    exact oZ x par dat hxn hxs hxp h

/-! ## Round trips through a neighbouring group -/

theorem nodeLike_group (ns : List Hy3Node) (x par : Ptr) (g : Hy3GroupData)
    (h : NodeLike ns x par (.group g)) :
    ∃ g1, NodeIs ns x par (.group g1) ∧ g1.layout = g.layout ∧ g1.children = g.children
      ∧ g1.ephemeral = g.ephemeral ∧ g1.locked = g.locked
      ∧ g1.expand_focused = g.expand_focused
      ∧ (Hy3NodeData.group g1).unfocus = (Hy3NodeData.group g).unfocus := by
  obtain ⟨dat1, h1, he⟩ := nodeLike_data ns x par _ h
  obtain ⟨g1, hg1, a, b, c, d, e⟩ := unfocus_group dat1 g he
  rw [hg1] at h1 he
  exact ⟨g1, h1, a, b, c, d, e, he⟩

/-- The condition under which `swallowGroups` leaves a node alone does not look at the focus
marks. -/
theorem swallowCond_like (ns1 : List Hy3Node) (x par : Ptr) (dat : Hy3NodeData)
    (h : NodeLike ns1 x par dat)
    (hcond : ∀ g0, dat = .group g0 →
      (∀ c, g0.children ≠ [c]) ∨ (g0.layout = .Tabbed ∧ g0.locked = true)) :
    ∃ dat1, NodeIs ns1 x par dat1 ∧ ∀ g0, dat1 = .group g0 →
      (∀ c, g0.children ≠ [c]) ∨ (g0.layout = .Tabbed ∧ g0.locked = true) := by
  obtain ⟨dat1, h1, he⟩ := nodeLike_data ns1 x par dat h
  refine ⟨dat1, h1, ?_⟩
  intro g0 hg0
  rw [hg0] at he
  obtain ⟨g2, hg2, hl, hc, _, hk, _⟩ := unfocus_group dat g0 he.symm
  rcases hcond g2 hg2 with h3 | h3
  · exact Or.inl (fun c => by rw [← hc]; exact h3 c)
  · exact Or.inr ⟨by rw [← hl]; exact h3.1, by rw [← hk]; exact h3.2⟩

theorem chain_after (ns ns1 : List Hy3Node) (n p : Ptr) (chain : List Ptr)
    (hc : parentChain ns p chain) (hnp : n ≠ p) (hnc : n ∉ chain)
    (hpar : ∀ x X, x ≠ n → getNode ns x = some X → parentAt ns1 x = some X.parent) :
    parentChain ns1 p chain := by
  apply parentChain_congr ns ns1 chain p _ hc
  intro x hx
  obtain ⟨X0, hX0⟩ := parentChain_live ns chain p hc x hx
  have hxn : x ≠ n := by
    rcases List.mem_cons.1 hx with rfl | hx
    · exact Ne.symm hnp
    · exact fun e => hnc (e ▸ hx)
  rw [hpar x X0 hxn hX0]
  simp [parentAt, hX0]

theorem live_after (ns ns1 : List Hy3Node) (n : Ptr) (l : List Ptr)
    (hlive : ∀ c ∈ l, ∃ X, getNode ns c = some X) (hn : n ∉ l)
    (hpar : ∀ x X, x ≠ n → getNode ns x = some X → parentAt ns1 x = some X.parent) :
    ∀ c ∈ l, ∃ X, getNode ns1 c = some X := by
  intro c hc
  obtain ⟨X, hX⟩ := hlive c hc
  have h := hpar c X (fun e => hn (e ▸ hc)) hX
  simp only [parentAt, Option.map_eq_some'] at h
  obtain ⟨X1, hX1, _⟩ := h
  exact ⟨X1, hX1⟩

theorem edge_after_enter (d : ShiftDirection) (cs : List Ptr) (n : Ptr) :
    (if shiftIsForward (reverse d) then
        (insertAt cs (if shiftIsForward d then 0 else cs.length) n).getLast?
      else (insertAt cs (if shiftIsForward d then 0 else cs.length) n).head?) = some n := by
  rw [shiftIsForward_reverse]
  cases shiftIsForward d
  · simp [insertAt]
  · simp [insertAt]

/-- Into the neighbouring group and back: a node whose neighbour in the direction is a group
that is entered, inside a parent oriented along the direction with a third child, goes into
the neighbour with `shiftNode(d, once)` and comes back to its place with
`shiftNode(reverse d, once)`. -/
theorem round_trip_enter (O : NodeOps) (C : Compositor) (self : Nat) (ns : List Hy3Node)
    (d : ShiftDirection) (visible : Bool) (n p s pp : Ptr) (dn : Hy3NodeData)
    (g gs : Hy3GroupData) (pre post chain : List Ptr)
    (hexp : O.getExpandActor ns n = n) (hpa : O.getPlacementActor ns n = n)
    (hact1 : ∀ ns1, shiftNode O C self ns n d true visible = some ns1 →
      O.getExpandActor ns1 n = n ∧ O.getPlacementActor ns1 n = n)
    (hN : NodeIs ns n p dn) (hP : NodeIs ns p pp (.group g)) (hS : NodeIs ns s p (.group gs))
    (hp0 : p ≠ 0) (hs0 : s ≠ 0) (hnp : n ≠ p) (hsp : s ≠ p)
    (hm : shiftMatchesLayout g.layout d = true)
    (hv : visible = false ∨ g.layout ≠ .Tabbed)
    (hch : g.children
      = if shiftIsForward d then pre ++ n :: s :: post else pre ++ s :: n :: post)
    (hnd : g.children.Nodup)
    (hlive : ∀ c ∈ g.children, ∃ X, getNode ns c = some X)
    (hSd : (Hy3NodeData.group gs).isDirectTarget = false)
    (hne : gs.children ≠ [])
    (hfc : gs.focused_child = 0 ∨ gs.focused_child ∈ gs.children)
    (hnS : n ∉ gs.children)
    (hkeepS : ¬ (gs.ephemeral = true ∧ gs.children.length = 1))
    (hthree : pre ++ post ≠ []
      ∨ (g.layout = .Tabbed ∧ g.locked = true ∧ g.ephemeral = false))
    (hsw : pp = 0 ∨ (pp ≠ s ∧ pp ≠ n ∧ pp ≠ p ∧ ∃ ppp dpp, NodeIs ns pp ppp dpp
      ∧ ∀ g0, dpp = .group g0 →
          (∀ c, g0.children ≠ [c]) ∨ (g0.layout = .Tabbed ∧ g0.locked = true)))
    (hc : parentChain ns p chain) (hnc : n ∉ chain) (hlen : chain.length + 2 ≤ ns.length) :
    ∃ ns1 ns2 pos, shiftNode O C self ns n d true visible = some ns1
      ∧ shiftNode O C self ns1 n (reverse d) true visible = some ns2
      ∧ parentAt ns1 n = some s
      ∧ childrenAt ns1 s = some (insertAt gs.children pos n)
      ∧ childrenAt ns1 p = some (pre ++ s :: post)
      ∧ parentAt ns2 n = parentAt ns n
      ∧ childrenAt ns2 p = childrenAt ns p
      ∧ childrenAt ns2 s = childrenAt ns s
      ∧ addrs ns1 = addrs ns ∧ addrs ns2 = addrs ns := by
  obtain ⟨hfilt, hns, hnpre, hnpost, _, _, hnd2, _, _⟩ :=
    filter_adjacent d pre post n s g.children hch hnd
  obtain ⟨ns1, pos, h1, a1, hle, hposC, _, sL, nL, pL, oL, parL⟩ :=
    shiftNode_enter O C self ns d visible n p s pp dn g gs pre post chain hexp hpa hN hP hS hp0
      hnp hsp hm hv hch hnd hs0 hSd hne (Or.inr hfc) hthree hc hnc hlen
  obtain ⟨hexp1, hpa1⟩ := hact1 ns1 h1
  obtain ⟨dn1, n1, _⟩ := nodeLike_data ns1 n s dn nL
  obtain ⟨gs1, s1, hgs1l, hgs1c, hgs1e, _, _, _⟩ := nodeLike_group ns1 s p _ sL
  obtain ⟨g1, p1, hg1l, hg1c, _, _, _, hg1u⟩ := nodeLike_group ns1 p pp _ pL
  simp only at hgs1l hgs1c hgs1e hg1l hg1c
  obtain ⟨_, _, hfilt1⟩ := insertAt_facts gs.children pos n hnS
  have hrest1 : gs1.children.filter (fun x => x != n) ≠ [] := by
    rw [hgs1c, hfilt1]; exact hne
  have hnmem1 : n ∈ gs1.children := by
    rw [hgs1c]; simp [insertAt]
  have hexit1 : ¬ (shiftMatchesLayout gs1.layout (reverse d) = true
        ∧ (visible = false ∨ gs1.layout ≠ .Tabbed))
      ∨ (if shiftIsForward (reverse d) then gs1.children.getLast?
          else gs1.children.head?) = some n := by
    rw [hgs1l, shiftMatchesLayout_reverse, hgs1c]
    by_cases hC : shiftMatchesLayout gs.layout d = true
        ∧ (visible = false ∨ gs.layout ≠ .Tabbed)
    · right
      rw [hposC hC]
      exact edge_after_enter d gs.children n
    · exact Or.inl hC
  have hm1 : shiftMatchesLayout g1.layout (reverse d) = true := by
    rw [hg1l, shiftMatchesLayout_reverse]; exact hm
  have hv1 : visible = false ∨ g1.layout ≠ .Tabbed := by rw [hg1l]; exact hv
  have hnd1 : g1.children.Nodup := by rw [hg1c]; exact hnd2
  have hnl : n ∉ pre ++ s :: post := by
    intro h
    rcases List.mem_append.1 h with h | h
    · exact hnpre h
    · rcases List.mem_cons.1 h with h | h
      · exact hns h
      · exact hnpost h
  have hlive1 : ∀ c ∈ g1.children, ∃ X, getNode ns1 c = some X := by
    rw [hg1c]
    apply live_after ns ns1 n _ _ hnl parL
    intro c hc
    apply hlive c
    rw [hch]
    cases shiftIsForward d
    · simp only [Bool.false_eq_true, if_false]
      rcases List.mem_append.1 hc with h | h
      · exact List.mem_append_left _ h
      · rcases List.mem_cons.1 h with h | h
        · rw [h]; simp
        · simp [h]
    · simp only [if_true]
      rcases List.mem_append.1 hc with h | h
      · exact List.mem_append_left _ h
      · rcases List.mem_cons.1 h with h | h
        · rw [h]; simp
        · simp [h]
  have hkeep1 : ¬ (gs1.ephemeral = true
      ∧ (gs1.children.filter (fun x => x != n)).length = 1) := by
    rw [hgs1e, hgs1c, hfilt1]; exact hkeepS
  have hsw1 : pp = 0 ∨ (pp ≠ s ∧ pp ≠ n ∧ pp ≠ p ∧ ∃ ppp dpp, NodeIs ns1 pp ppp dpp
      ∧ ∀ g0, dpp = .group g0 →
          (∀ c, g0.children ≠ [c]) ∨ (g0.layout = .Tabbed ∧ g0.locked = true)) := by
    rcases hsw with h | ⟨ha, hb, hc', ppp, dpp, hI, hcond⟩
    · exact Or.inl h
    · obtain ⟨dat1, hI1, hcond1⟩ := swallowCond_like ns1 pp ppp dpp
        (oL pp ppp dpp hb hc' ha hI) hcond
      exact Or.inr ⟨ha, hb, hc', ppp, dat1, hI1, hcond1⟩
  have hc1 : parentChain ns1 p chain := chain_after ns ns1 n p chain hc hnp hnc parL
  have hlen1 : chain.length + 1 ≤ ns1.length := by
    rw [length_of_addrs ns1 ns a1]; omega
  obtain ⟨ns2, h2, a2, pL2, nL2, sL2, _, _, _⟩ :=
    shiftNode_exit O C self ns1 (reverse d) visible n s p pp dn1 gs1 g1 pre post chain hexp1
      hpa1 n1 s1 p1 hs0 hp0 hns hnp hsp hrest1 hnmem1 hexit1 hm1 hv1 hg1c hnd1 hlive1 hkeep1
      hsw1 hc1 hnc hlen1
  refine ⟨ns1, ns2, pos, h1, h2, parentAt_of_nodeLike ns1 n s dn nL, ?_, ?_, ?_, ?_, ?_, a1,
    a2.trans a1⟩
  · exact childrenAt_of_nodeLike ns1 s p _ sL
  · exact childrenAt_of_nodeLike ns1 p pp _ pL
  · rw [parentAt_of_nodeLike ns2 n p dn1 nL2, parentAt_of_nodeIs ns n p dn hN]
  · rw [childrenAt_of_nodeLike ns2 p pp _ pL2, childrenAt_of_nodeIs ns p pp _ hP]
    simp only [Hy3NodeData.children, hch, shiftIsForward_reverse]
    cases shiftIsForward d <;> rfl
  · rw [childrenAt_of_nodeLike ns2 s p _ sL2, childrenAt_of_nodeIs ns s p _ hS]
    simp only [Hy3NodeData.children, hgs1c, hfilt1]

theorem edge_child (d : ShiftDirection) (cs l : List Ptr) (n : Ptr)
    (hl : l = if shiftIsForward d then cs ++ [n] else n :: cs) (hnd : l.Nodup) :
    l.filter (fun x => x != n) = cs ∧ n ∉ cs ∧ n ∈ l
      ∧ (if shiftIsForward d then l.getLast? else l.head?) = some n
      ∧ insertAt cs (if shiftIsForward (reverse d) then 0 else cs.length) n = l := by
  have hn : n ∉ cs := by
    cases hf : shiftIsForward d
    · simp only [hf, Bool.false_eq_true, if_false] at hl
      rw [hl] at hnd
      exact (List.nodup_cons.1 hnd).1
    · simp only [hf, if_true] at hl
      rw [hl] at hnd
      exact not_mem_pre_of_nodup cs [] n hnd
  have e : cs.filter (fun x => x != n) = cs :=
    List.filter_eq_self.2 (fun x hx => by
      simp only [bne_iff_ne, ne_eq]
      exact fun h => hn (h ▸ hx))
  rw [shiftIsForward_reverse]
  cases hf : shiftIsForward d
  · simp only [hf, Bool.false_eq_true, if_false] at hl
    subst hl
    refine ⟨?_, hn, by simp, by simp, by simp [insertAt]⟩
    simp [List.filter_cons, e]
  · simp only [hf, if_true] at hl
    subst hl
    refine ⟨?_, hn, by simp, by simp, by simp [insertAt]⟩
    simp [List.filter_append, e]

theorem nodup_beside (d : ShiftDirection) (pre post : List Ptr) (n s : Ptr)
    (hnd : (pre ++ s :: post).Nodup) (hn : n ∉ pre ++ s :: post) :
    (if shiftIsForward d then pre ++ n :: s :: post else pre ++ s :: n :: post).Nodup := by
  have h1 : (n :: (pre ++ s :: post)).Nodup := List.nodup_cons.2 ⟨hn, hnd⟩
  cases shiftIsForward d
  · simp only [Bool.false_eq_true, if_false]
    have h2 := (@List.nodup_middle _ n (pre ++ [s]) post).2 (by simpa using h1)
    simpa using h2
  · simp only [if_true]
    exact (@List.nodup_middle _ n pre (s :: post)).2 h1

/-- Out of the parent and back: a node at the edge of its parent in the direction, where the
parent and the group above are both oriented along the direction, the parent is a group that
is entered, and the group above has another child, leaves the parent with
`shiftNode(d, once)` and comes back to its place with `shiftNode(reverse d, once)`. -/
theorem round_trip_exit (O : NodeOps) (C : Compositor) (self : Nat) (ns : List Hy3Node)
    (d : ShiftDirection) (visible : Bool) (n q r rp : Ptr) (dn : Hy3NodeData)
    (gq gr : Hy3GroupData) (cs pre post chain : List Ptr)
    (hexp : O.getExpandActor ns n = n) (hpa : O.getPlacementActor ns n = n)
    (hact1 : ∀ ns1, shiftNode O C self ns n d true visible = some ns1 →
      O.getExpandActor ns1 n = n ∧ O.getPlacementActor ns1 n = n)
    (hN : NodeIs ns n q dn) (hQ : NodeIs ns q r (.group gq)) (hR : NodeIs ns r rp (.group gr))
    (hq0 : q ≠ 0) (hr0 : r ≠ 0) (hnq : n ≠ q) (hnr : n ≠ r) (hqr : q ≠ r)
    (hmq : shiftMatchesLayout gq.layout d = true)
    (hvq : visible = false ∨ gq.layout ≠ .Tabbed)
    (hcq : gq.children = if shiftIsForward d then cs ++ [n] else n :: cs)
    (hcs : cs ≠ []) (hndq : gq.children.Nodup)
    (hQd : (Hy3NodeData.group gq).isDirectTarget = false)
    (hkeepQ : ¬ (gq.ephemeral = true ∧ cs.length = 1))
    (hmr : shiftMatchesLayout gr.layout d = true)
    (hvr : visible = false ∨ gr.layout ≠ .Tabbed)
    (hcr : gr.children = pre ++ q :: post) (hndr : gr.children.Nodup)
    (hnR : n ∉ gr.children)
    (hlive : ∀ c ∈ gr.children, ∃ X, getNode ns c = some X)
    (hthree : pre ++ post ≠ []
      ∨ (gr.layout = .Tabbed ∧ gr.locked = true ∧ gr.ephemeral = false))
    (hsw : rp = 0 ∨ (rp ≠ q ∧ rp ≠ n ∧ rp ≠ r ∧ ∃ rpp drp, NodeIs ns rp rpp drp
      ∧ ∀ g0, drp = .group g0 →
          (∀ c, g0.children ≠ [c]) ∨ (g0.layout = .Tabbed ∧ g0.locked = true)))
    (hc : parentChain ns r chain) (hnc : n ∉ chain) (hlen : chain.length + 2 ≤ ns.length) :
    ∃ ns1 ns2, shiftNode O C self ns n d true visible = some ns1
      ∧ shiftNode O C self ns1 n (reverse d) true visible = some ns2
      ∧ parentAt ns1 n = some r
      ∧ childrenAt ns1 q = some cs
      ∧ childrenAt ns1 r
          = some (if shiftIsForward d then pre ++ q :: n :: post else pre ++ n :: q :: post)
      ∧ parentAt ns2 n = parentAt ns n
      ∧ childrenAt ns2 q = childrenAt ns q
      ∧ childrenAt ns2 r = childrenAt ns r
      ∧ addrs ns1 = addrs ns ∧ addrs ns2 = addrs ns := by
  obtain ⟨hfilt, hncs, hnmem, hedge, hback⟩ := edge_child d cs gq.children n hcq hndq
  have hrest : gq.children.filter (fun x => x != n) ≠ [] := by rw [hfilt]; exact hcs
  have hkeep : ¬ (gq.ephemeral = true
      ∧ (gq.children.filter (fun x => x != n)).length = 1) := by
    rw [hfilt]; exact hkeepQ
  obtain ⟨ns1, h1, a1, rL, nL, qL, oL, parL, _⟩ :=
    shiftNode_exit O C self ns d visible n q r rp dn gq gr pre post chain hexp hpa hN hQ hR hq0
      hr0 hnq hnr hqr hrest hnmem (Or.inr hedge) hmr hvr hcr hndr hlive hkeep hsw hc hnc
      (by omega)
  obtain ⟨hexp1, hpa1⟩ := hact1 ns1 h1
  obtain ⟨dn1, n1, _⟩ := nodeLike_data ns1 n r dn nL
  obtain ⟨gq1, q1, hq1l, hq1c, _, _, _, hq1u⟩ := nodeLike_group ns1 q r _ qL
  obtain ⟨gr1, r1, hr1l, hr1c, hr1e, hr1k, _, _⟩ := nodeLike_group ns1 r rp _ rL
  simp only at hq1l hq1c hr1l hr1c hr1e hr1k
  have hthree1 : pre ++ post ≠ []
      ∨ (gr1.layout = .Tabbed ∧ gr1.locked = true ∧ gr1.ephemeral = false) := by
    rw [hr1l, hr1e, hr1k]; exact hthree
  rw [hfilt] at hq1c
  have hm1 : shiftMatchesLayout gr1.layout (reverse d) = true := by
    rw [hr1l, shiftMatchesLayout_reverse]; exact hmr
  have hv1 : visible = false ∨ gr1.layout ≠ .Tabbed := by rw [hr1l]; exact hvr
  have hch1 : gr1.children = if shiftIsForward (reverse d) then pre ++ n :: q :: post
      else pre ++ q :: n :: post := by
    rw [hr1c, shiftIsForward_reverse]
    cases shiftIsForward d <;> rfl
  have hnd1 : gr1.children.Nodup := by
    rw [hch1]
    exact nodup_beside (reverse d) pre post n q (by rw [← hcr]; exact hndr)
      (by rw [← hcr]; exact hnR)
  have hSd1 : (Hy3NodeData.group gq1).isDirectTarget = false := by
    rw [unfocus_isDirectTarget _ _ hq1u]
    exact hQd
  have hne1 : gq1.children ≠ [] := by rw [hq1c]; exact hcs
  have hC1 : shiftMatchesLayout gq1.layout (reverse d) = true
      ∧ (visible = false ∨ gq1.layout ≠ .Tabbed) := by
    rw [hq1l, shiftMatchesLayout_reverse]
    exact ⟨hmq, hvq⟩
  have hc1 : parentChain ns1 r chain := chain_after ns ns1 n r chain hc hnr hnc parL
  have hlen1 : chain.length + 2 ≤ ns1.length := by
    rw [length_of_addrs ns1 ns a1]; exact hlen
  obtain ⟨ns2, pos, h2, a2, _, hposC, _, sL2, nL2, pL2, _, _⟩ :=
    shiftNode_enter O C self ns1 (reverse d) visible n r q rp dn1 gr1 gq1 pre post chain hexp1
      hpa1 n1 r1 q1 hr0 hnr hqr hm1 hv1 hch1 hnd1 hq0 hSd1 hne1 (Or.inl hC1) hthree1 hc1 hnc
      hlen1
  have hpos : pos = if shiftIsForward (reverse d) then 0 else cs.length := by
    rw [hposC hC1, hq1c]
  refine ⟨ns1, ns2, h1, h2, parentAt_of_nodeLike ns1 n r dn nL, ?_, ?_, ?_, ?_, ?_, a1,
    a2.trans a1⟩
  · rw [childrenAt_of_nodeLike ns1 q r _ qL]
    simp only [hfilt]
  · exact childrenAt_of_nodeLike ns1 r rp _ rL
  · rw [parentAt_of_nodeLike ns2 n q dn1 nL2, parentAt_of_nodeIs ns n q dn hN]
  · rw [childrenAt_of_nodeLike ns2 q r _ sL2, childrenAt_of_nodeIs ns q r _ hQ]
    simp only [Hy3NodeData.children, hq1c, hpos, hback]
  · rw [childrenAt_of_nodeLike ns2 r rp _ pL2, childrenAt_of_nodeIs ns r rp _ hR]
    simp only [Hy3NodeData.children, hcr]

/-! ## Out of a group that is not oriented along the direction, and back -/

theorem filter_after (a b : List Ptr) (x n : Ptr) (hnd : (a ++ x :: n :: b).Nodup) :
    (a ++ x :: n :: b).filter (fun y => y != n) = a ++ x :: b
      ∧ n ∈ a ++ x :: n :: b ∧ x ∉ a ∧ x ∈ a ++ x :: b ∧ x ≠ n
      ∧ insertAt (a ++ x :: b) (findIdx (a ++ x :: b) x + 1) n = a ++ x :: n :: b := by
  have h1 : ((a ++ [x]) ++ n :: b).Nodup := by simpa using hnd
  have hn1 : n ∉ a ++ [x] := not_mem_pre_of_nodup (a ++ [x]) b n h1
  have hn2 : n ∉ b := (List.nodup_cons.1 (List.nodup_append.1 h1).2.1).1
  have hxa : x ∉ a := not_mem_pre_of_nodup a (n :: b) x hnd
  have hxn : x ≠ n := fun e => hn1 (by rw [e]; simp)
  have e1 : (a ++ [x]).filter (fun y => y != n) = a ++ [x] :=
    List.filter_eq_self.2 (fun y hy => by
      simp only [bne_iff_ne, ne_eq]
      exact fun h => hn1 (h ▸ hy))
  have e2 : b.filter (fun y => y != n) = b :=
    List.filter_eq_self.2 (fun y hy => by
      simp only [bne_iff_ne, ne_eq]
      exact fun h => hn2 (h ▸ hy))
  refine ⟨?_, by simp, hxa, by simp, hxn, ?_⟩
  · have : a ++ x :: n :: b = (a ++ [x]) ++ n :: b := by simp
    rw [this, List.filter_append, e1, List.filter_cons]
    simp [e2]
  · rw [findIdx_append_cons a b x hxa]
    have e : a ++ x :: b = (a ++ [x]) ++ b := by simp
    have e3 : a.length + 1 = (a ++ [x]).length := by simp
    simp only [insertAt]
    rw [e, e3, List.take_left, List.drop_left]
    simp

/-- Out of the parent and back, for a parent that is not oriented along the direction: a node
that stands right after the focused child of its parent (or is the focused child itself and
stands second), where the group above is oriented along the direction, the parent is a group
that is entered, and the group above has another child, leaves the parent with
`shiftNode(d, once)` and comes back to its place with `shiftNode(reverse d, once)`. -/
theorem round_trip_exit_focus (O : NodeOps) (C : Compositor) (self : Nat)
    (ns : List Hy3Node) (d : ShiftDirection) (visible : Bool) (n q r rp x : Ptr)
    (dn : Hy3NodeData) (gq gr : Hy3GroupData) (a b pre post chain : List Ptr)
    (hexp : O.getExpandActor ns n = n) (hpa : O.getPlacementActor ns n = n)
    (hact1 : ∀ ns1, shiftNode O C self ns n d true visible = some ns1 →
      O.getExpandActor ns1 n = n ∧ O.getPlacementActor ns1 n = n)
    (hN : NodeIs ns n q dn) (hQ : NodeIs ns q r (.group gq)) (hR : NodeIs ns r rp (.group gr))
    (hq0 : q ≠ 0) (hr0 : r ≠ 0) (hnq : n ≠ q) (hnr : n ≠ r) (hqr : q ≠ r)
    (hnC : ¬ (shiftMatchesLayout gq.layout d = true
      ∧ (visible = false ∨ gq.layout ≠ .Tabbed)))
    (hcq : gq.children = a ++ x :: n :: b) (hndq : gq.children.Nodup) (hx0 : x ≠ 0)
    (hfoc : gq.focused_child = x ∨ (gq.focused_child = n ∧ a = []))
    (hQd : (Hy3NodeData.group gq).isDirectTarget = false)
    (hkeepQ : ¬ (gq.ephemeral = true ∧ (a ++ x :: b).length = 1))
    (hmr : shiftMatchesLayout gr.layout d = true)
    (hvr : visible = false ∨ gr.layout ≠ .Tabbed)
    (hcr : gr.children = pre ++ q :: post) (hndr : gr.children.Nodup)
    (hnR : n ∉ gr.children)
    (hlive : ∀ c ∈ gr.children, ∃ X, getNode ns c = some X)
    (hthree : pre ++ post ≠ []
      ∨ (gr.layout = .Tabbed ∧ gr.locked = true ∧ gr.ephemeral = false))
    (hsw : rp = 0 ∨ (rp ≠ q ∧ rp ≠ n ∧ rp ≠ r ∧ ∃ rpp drp, NodeIs ns rp rpp drp
      ∧ ∀ g0, drp = .group g0 →
          (∀ c, g0.children ≠ [c]) ∨ (g0.layout = .Tabbed ∧ g0.locked = true)))
    (hc : parentChain ns r chain) (hnc : n ∉ chain) (hqc : q ∉ chain)
    (hlen : chain.length + 2 ≤ ns.length) :
    ∃ ns1 ns2, shiftNode O C self ns n d true visible = some ns1
      ∧ shiftNode O C self ns1 n (reverse d) true visible = some ns2
      ∧ parentAt ns1 n = some r
      ∧ childrenAt ns1 q = some (a ++ x :: b)
      ∧ childrenAt ns1 r
          = some (if shiftIsForward d then pre ++ q :: n :: post else pre ++ n :: q :: post)
      ∧ parentAt ns2 n = parentAt ns n
      ∧ childrenAt ns2 q = childrenAt ns q
      ∧ childrenAt ns2 r = childrenAt ns r
      ∧ addrs ns1 = addrs ns ∧ addrs ns2 = addrs ns := by
  rw [hcq] at hndq
  obtain ⟨hfilt, hnmem, hxa, hxmem, hxn, hins⟩ := filter_after a b x n hndq
  rw [← hcq] at hfilt hnmem
  have hrest : gq.children.filter (fun y => y != n) ≠ [] := by rw [hfilt]; simp
  have hkeep : ¬ (gq.ephemeral = true
      ∧ (gq.children.filter (fun y => y != n)).length = 1) := by
    rw [hfilt]; exact hkeepQ
  obtain ⟨ns1, h1, a1, rL, nL, qL, oL, parL, qE⟩ :=
    shiftNode_exit O C self ns d visible n q r rp dn gq gr pre post chain hexp hpa hN hQ hR hq0
      hr0 hnq hnr hqr hrest hnmem (Or.inl hnC) hmr hvr hcr hndr hlive hkeep hsw hc hnc
      (by omega)
  have q1 := qE hqc
  have hfocus : (if gq.focused_child = n
      then (gq.children.filter (fun y => y != n)).headD 0 else gq.focused_child) = x := by
    rcases hfoc with h | h
    · rw [h, if_neg hxn]
    · rw [h.1, if_pos rfl, hfilt, h.2]
      rfl
  rw [hfocus, hfilt] at q1
  obtain ⟨hexp1, hpa1⟩ := hact1 ns1 h1
  obtain ⟨dn1, n1, _⟩ := nodeLike_data ns1 n r dn nL
  obtain ⟨gr1, r1, hr1l, hr1c, hr1e, hr1k, _, _⟩ := nodeLike_group ns1 r rp _ rL
  simp only at hr1l hr1c hr1e hr1k
  have hthree1 : pre ++ post ≠ []
      ∨ (gr1.layout = .Tabbed ∧ gr1.locked = true ∧ gr1.ephemeral = false) := by
    rw [hr1l, hr1e, hr1k]; exact hthree
  have hm1 : shiftMatchesLayout gr1.layout (reverse d) = true := by
    rw [hr1l, shiftMatchesLayout_reverse]; exact hmr
  have hv1 : visible = false ∨ gr1.layout ≠ .Tabbed := by rw [hr1l]; exact hvr
  have hch1 : gr1.children = if shiftIsForward (reverse d) then pre ++ n :: q :: post
      else pre ++ q :: n :: post := by
    rw [hr1c, shiftIsForward_reverse]
    cases shiftIsForward d <;> rfl
  have hnd1 : gr1.children.Nodup := by
    rw [hch1]
    exact nodup_beside (reverse d) pre post n q (by rw [← hcr]; exact hndr)
      (by rw [← hcr]; exact hnR)
  have hnC1 : ¬ (shiftMatchesLayout gq.layout (reverse d) = true
      ∧ (visible = false ∨ gq.layout ≠ .Tabbed)) := by
    rw [shiftMatchesLayout_reverse]; exact hnC
  have hc1 : parentChain ns1 r chain := chain_after ns ns1 n r chain hc hnr hnc parL
  have hlen1 : chain.length + 2 ≤ ns1.length := by
    rw [length_of_addrs ns1 ns a1]; exact hlen
  obtain ⟨ns2, pos, h2, a2, _, _, hposF, sL2, nL2, pL2, _, _⟩ :=
    shiftNode_enter O C self ns1 (reverse d) visible n r q rp dn1 gr1
      { gq with children := a ++ x :: b, focused_child := x } pre post chain hexp1
      hpa1 n1 r1 q1 hr0 hnr hqr hm1 hv1 hch1 hnd1 hq0 hQd (by simp)
      (Or.inr (Or.inr hxmem)) hthree1 hc1 hnc hlen1
  have hpos : pos = findIdx (a ++ x :: b) x + 1 := hposF hnC1 hx0
  refine ⟨ns1, ns2, h1, h2, parentAt_of_nodeLike ns1 n r dn nL, ?_, ?_, ?_, ?_, ?_, a1,
    a2.trans a1⟩
  · exact childrenAt_of_nodeIs ns1 q r _ q1
  · exact childrenAt_of_nodeLike ns1 r rp _ rL
  · rw [parentAt_of_nodeLike ns2 n q dn1 nL2, parentAt_of_nodeIs ns n q dn hN]
  · rw [childrenAt_of_nodeLike ns2 q r _ sL2, childrenAt_of_nodeIs ns q r _ hQ]
    simp only [Hy3NodeData.children, hpos, hins, hcq]
  · rw [childrenAt_of_nodeLike ns2 r rp _ pL2, childrenAt_of_nodeIs ns r rp _ hR]
    simp only [Hy3NodeData.children, hcr]

/-! ## Round trip through the axis flip of the root -/

theorem axisLayout_matches (d : ShiftDirection) :
    shiftMatchesLayout (axisLayout d) d = true ∧ axisLayout d ≠ .Tabbed := by
  cases d <;> exact ⟨rfl, by decide⟩

/-- Shifting with `shiftNode` a child of a root group that is not `Tabbed`, is not oriented
along the direction and has exactly two children, when the other child lies in the direction
and is not entered: the root gets the axis of the direction and the two change places. -/
theorem shiftNode_flip_swap (O : NodeOps) (C : Compositor) (self : Nat) (ns : List Hy3Node)
    (d : ShiftDirection) (once visible : Bool) (n s r : Ptr) (N R S : Hy3Node)
    (g : Hy3GroupData)
    (hpa : O.getPlacementActor ns n = n)
    (hact : O.getPlacementActor ns (O.getExpandActor ns n) = n)
    (hN : getNode ns n = some N) (hNp : N.parent = r) (hr0 : r ≠ 0)
    (hR : getNode ns r = some R) (hRp : R.parent = 0) (hRg : R.data = .group g)
    (hm : shiftMatchesLayout g.layout d = false) (ht : g.layout ≠ .Tabbed)
    (hch : g.children = if shiftIsForward d then [n, s] else [s, n])
    (hns : n ≠ s) (hn0 : n ≠ 0) (hs0 : s ≠ 0)
    (hS : getNode ns s = some S) (hSd : S.data.isDirectTarget = true) :
    shiftNode O C self ns n d once visible
      = some (recalcSizePosRecursive O
          (modifyGroup (modifyGroup ns r (fun g0 => g0.setLayout (axisLayout d))) r
            (fun g0 => { g0 with children := if shiftIsForward d then [s, n] else [n, s] }))
          r) := by
  have hlen : g.children.length = 2 := by rw [hch]; cases shiftIsForward d <;> rfl
  have hmem : n ∈ g.children := by rw [hch]; cases shiftIsForward d <;> simp
  have hnr : n ≠ r := by
    intro e
    rw [e, hR] at hN
    cases hN
    exact hr0 (hNp ▸ hRp)
  have h1 := breakLoop_flip C self d once visible ns n n r R g false ns.length hr0 hR hRp hRg hm
    ht hlen hmem
  generalize hX : modifyGroup ns r (fun g0 => g0.setLayout (axisLayout d)) = X at h1 ⊢
  have hXr : getNode X r = some (R.mapGroup (fun g0 => g0.setLayout (axisLayout d))) := by
    rw [← hX, getNode_modifyGroup, if_pos rfl, hR]; rfl
  have hXrg : (R.mapGroup (fun g0 => g0.setLayout (axisLayout d))).data
      = .group (g.setLayout (axisLayout d)) := by
    simp [Hy3Node.mapGroup, hRg]
  have hXn : getNode X n = some N := by
    rw [← hX, getNode_modifyGroup, if_neg hnr, hN]
  have hgc : (g.setLayout (axisLayout d)).children = g.children := rfl
  have hadj : g.children
      = if shiftIsForward d then [] ++ n :: s :: [] else [] ++ s :: n :: [] := by
    rw [hch]; cases shiftIsForward d <;> rfl
  have hnd : g.children.Nodup := by
    rw [hch]; cases shiftIsForward d <;> simp [hns, Ne.symm hns]
  have h0 : (0 : Ptr) ∉ g.children := by
    rw [hch]; cases shiftIsForward d <;> simp [Ne.symm hn0, Ne.symm hs0]
  obtain ⟨f, b, iter, hfr, hb, hedge', hiter, hget, hins, _⟩ :=
    adjacent_facts d [] [] n s g.children hadj hnd
  obtain ⟨S1, hS1, hS1d⟩ : ∃ S1, getNode X s = some S1 ∧ S1.data.isDirectTarget = true := by
    rw [← hX, getNode_modifyGroup]
    by_cases hsr : s = r
    · rw [if_pos hsr, hS]
      exact ⟨_, rfl, by rw [setLayout_isDirectTarget]; exact hSd⟩
    · rw [if_neg hsr, hS]
      exact ⟨_, rfl, hSd⟩
  have h2 := findInsert_direct_same_parent d once visible X n r s N _ S1
    (g.setLayout (axisLayout d)) f b iter hXn hNp hXr hXrg hfr hb hedge' hiter hget hS1 hS1d
  have h3 := spliceShift_same_parent O X (O.getExpandActor ns n) n r N _
    (g.setLayout (axisLayout d)) (if shiftIsForward d then iter + 1 else iter) hXn hNp hXr hXrg
    (by rw [hgc]; exact hmem)
  have hrep : reposition g.children (if shiftIsForward d then iter + 1 else iter) n
      = if shiftIsForward d then [s, n] else [n, s] := by
    rw [hins, reposition_adjacent d [] [] n s g.children hadj hnd h0]
    cases shiftIsForward d <;> rfl
  rw [hgc, hrep] at h3
  have hsg : shiftOrGetFocus O C self ns n d true once visible
      = some (recalcSizePosRecursive O (modifyGroup X r (fun g0 =>
          { g0 with children := if shiftIsForward d then [s, n] else [n, s] })) r, 0) := by
    simp only [shiftOrGetFocus, hact, hN, hNp, Option.bind_eq_bind, Option.some_bind, h1,
      h2, h3, Option.map_some']
  have hlen1 : g.children.length ≠ 1 := by rw [hlen]; decide
  cases once <;>
    simp [shiftNode, hpa, hN, hNp, hr0, hR, hRg, Hy3NodeData.as_group, hlen1, hsg]

/-- Round trip through the axis flip of the root: a child of a root group that is not
`Tabbed`, is not oriented along the direction and has exactly two children, the other one
lying in the direction and not being entered, changes places with it and back; the root
keeps the axis of the direction. -/
theorem round_trip_flip (O : NodeOps) (C : Compositor) (self : Nat) (ns : List Hy3Node)
    (d : ShiftDirection) (visible : Bool) (n s r : Ptr) (N R S : Hy3Node)
    (g : Hy3GroupData)
    (hpa : O.getPlacementActor ns n = n)
    (hact : O.getPlacementActor ns (O.getExpandActor ns n) = n)
    (hact1 : ∀ ns1, shiftNode O C self ns n d true visible = some ns1 →
      O.getPlacementActor ns1 n = n ∧ O.getPlacementActor ns1 (O.getExpandActor ns1 n) = n)
    (hN : getNode ns n = some N) (hNp : N.parent = r) (hr0 : r ≠ 0)
    (hR : getNode ns r = some R) (hRp : R.parent = 0) (hRg : R.data = .group g)
    (hm : shiftMatchesLayout g.layout d = false) (ht : g.layout ≠ .Tabbed)
    (hch : g.children = if shiftIsForward d then [n, s] else [s, n])
    (hns : n ≠ s) (hn0 : n ≠ 0) (hs0 : s ≠ 0) (hsr : s ≠ r)
    (hS : getNode ns s = some S) (hSd : S.data.isDirectTarget = true) :
    ∃ ns1 ns2, shiftNode O C self ns n d true visible = some ns1
      ∧ shiftNode O C self ns1 n (reverse d) true visible = some ns2
      ∧ layoutAt ns1 r = some (axisLayout d)
      ∧ childrenAt ns1 r = some (if shiftIsForward d then [s, n] else [n, s])
      ∧ parentAt ns2 n = parentAt ns n
      ∧ childrenAt ns2 r = childrenAt ns r
      ∧ layoutAt ns2 r = some (axisLayout d)
      ∧ addrs ns1 = addrs ns ∧ addrs ns2 = addrs ns := by
  have h1 := shiftNode_flip_swap O C self ns d true visible n s r N R S g hpa hact hN hNp hr0
    hR hRp hRg hm ht hch hns hn0 hs0 hS hSd
  obtain ⟨hpa1, hact2⟩ := hact1 _ h1
  have hnr : n ≠ r := by
    intro e
    rw [e, hR] at hN
    cases hN
    exact hr0 (hNp ▸ hRp)
  generalize hns1 : recalcSizePosRecursive O
      (modifyGroup (modifyGroup ns r (fun g0 => g0.setLayout (axisLayout d))) r
        (fun g0 => { g0 with children := if shiftIsForward d then [s, n] else [n, s] })) r
    = ns1 at h1 hpa1 hact2
  have p1 : NodeIs ns1 r 0 (.group { g.setLayout (axisLayout d) with
      children := if shiftIsForward d then [s, n] else [n, s] }) := by
    rw [← hns1]
    exact nodeIs_recalc O _ r r 0 _ (nodeIs_modifyGroup_self _ r 0 _ _
      (nodeIs_modifyGroup_self ns r 0 g _ ⟨R, hR, hRp, hRg⟩))
  have n1 : NodeIs ns1 n r N.data := by
    rw [← hns1]
    exact nodeIs_recalc O _ r n r _ (nodeIs_modifyGroup_ne _ r n r _ _ hnr
      (nodeIs_modifyGroup_ne ns r n r _ _ hnr ⟨N, hN, hNp, rfl⟩))
  have s1 : NodeIs ns1 s S.parent S.data := by
    rw [← hns1]
    exact nodeIs_recalc O _ r s _ _ (nodeIs_modifyGroup_ne _ r s _ _ _ hsr
      (nodeIs_modifyGroup_ne ns r s _ _ _ hsr ⟨S, hS, rfl, rfl⟩))
  have a1 : addrs ns1 = addrs ns := by
    rw [← hns1, addrs_recalc, addrs_modifyGroup, addrs_modifyGroup]
  obtain ⟨N1, hN1, hN1p, _⟩ := n1
  obtain ⟨R1, hR1, _, hR1g⟩ := p1
  obtain ⟨S1, hS1, _, hS1d⟩ := s1
  obtain ⟨hax, haxt⟩ := axisLayout_matches d
  have hch1 : ({ g.setLayout (axisLayout d) with
      children := if shiftIsForward d then [s, n] else [n, s] } : Hy3GroupData).children
      = if shiftIsForward (reverse d) then [] ++ n :: s :: [] else [] ++ s :: n :: [] := by
    rw [shiftIsForward_reverse]
    cases shiftIsForward d <;> rfl
  have hnd1 : ({ g.setLayout (axisLayout d) with
      children := if shiftIsForward d then [s, n] else [n, s] } : Hy3GroupData).children.Nodup
      := by
    show (if shiftIsForward d then [s, n] else [n, s]).Nodup
    cases shiftIsForward d <;> simp [hns, Ne.symm hns]
  have h01 : (0 : Ptr) ∉ ({ g.setLayout (axisLayout d) with
      children := if shiftIsForward d then [s, n] else [n, s] } : Hy3GroupData).children := by
    show (0 : Ptr) ∉ (if shiftIsForward d then [s, n] else [n, s])
    cases shiftIsForward d <;> simp [Ne.symm hn0, Ne.symm hs0]
  have h2 := shiftNode_swap O C self ns1 (reverse d) true visible n r s N1 R1 S1 _ [] []
    hpa1 hact2 hN1 hN1p hr0 hR1 hR1g
    (by rw [shiftMatchesLayout_reverse]; exact hax) (Or.inr haxt) hch1 hnd1 h01 hS1
    (by rw [hS1d]; exact hSd)
  refine ⟨ns1, _, h1, h2, ?_, ?_, ?_, ?_, ?_, a1, ?_⟩
  · rw [layoutAt_of_nodeIs ns1 r 0 _ ⟨R1, hR1, by assumption, hR1g⟩]
    rfl
  · rw [childrenAt_of_nodeIs ns1 r 0 _ ⟨R1, hR1, by assumption, hR1g⟩]
  · rw [parentAt_recalc, parentAt_modifyGroup]
    simp [parentAt, hN1, hN1p, hN, hNp]
  · rw [childrenAt_recalc, childrenAt_modifyGroup_self ns1 r R1 _ _ hR1 hR1g]
    simp only [childrenAt, hR, Option.map_some', hRg, Hy3NodeData.children, hch,
      shiftIsForward_reverse]
    cases shiftIsForward d <;> rfl
  · rw [layoutAt_recalc, layoutAt_modifyGroup_self ns1 r R1 _ _ hR1 hR1g]
    rfl
  · rw [addrs_recalc, addrs_modifyGroup, a1]

/-! ## The round trip of a shift -/

/-- Past a neighbour and back: a node whose neighbour in the direction is not entered,
inside a parent oriented along the direction, changes places with it and back. -/
theorem round_trip_swap (O : NodeOps) (C : Compositor) (self : Nat)
    (ns : List Hy3Node) (d : ShiftDirection) (visible : Bool) (n p s : Ptr) (N P S : Hy3Node)
    (g : Hy3GroupData) (pre post : List Ptr)
    (hpa : O.getPlacementActor ns n = n)
    (hact : O.getPlacementActor ns (O.getExpandActor ns n) = n)
    (hact1 : ∀ ns1, shiftNode O C self ns n d true visible = some ns1 →
      O.getPlacementActor ns1 n = n ∧ O.getPlacementActor ns1 (O.getExpandActor ns1 n) = n)
    (hN : getNode ns n = some N) (hNp : N.parent = p) (hp0 : p ≠ 0)
    (hP : getNode ns p = some P) (hPg : P.data = .group g)
    (hm : shiftMatchesLayout g.layout d = true)
    (hv : visible = false ∨ g.layout ≠ .Tabbed)
    (hch : g.children
      = if shiftIsForward d then pre ++ n :: s :: post else pre ++ s :: n :: post)
    (hnd : g.children.Nodup) (h0 : (0 : Ptr) ∉ g.children)
    (hS : getNode ns s = some S) (hSw : S.data.isDirectTarget = true) :
    ∃ ns1 ns2, shiftNode O C self ns n d true visible = some ns1
      ∧ shiftNode O C self ns1 n (reverse d) true visible = some ns2
      ∧ childrenAt ns1 p
          = some (if shiftIsForward d then pre ++ s :: n :: post else pre ++ n :: s :: post)
      ∧ childrenAt ns2 p = childrenAt ns p
      ∧ parentAt ns2 n = parentAt ns n
      ∧ addrs ns1 = addrs ns ∧ addrs ns2 = addrs ns := by
  have h1 := shiftNode_swap O C self ns d true visible n p s N P S g pre post hpa hact hN hNp
    hp0 hP hPg hm hv hch hnd h0 hS hSw
  obtain ⟨hpa1, hact1'⟩ := hact1 _ h1
  generalize hns1 : recalcSizePosRecursive O (modifyGroup ns p (fun g0 =>
      { g0 with children :=
          if shiftIsForward d then pre ++ s :: n :: post else pre ++ n :: s :: post })) p
    = ns1 at h1 hpa1 hact1'
  have hc1 : childrenAt ns1 p
      = some (if shiftIsForward d then pre ++ s :: n :: post else pre ++ n :: s :: post) := by
    rw [← hns1, childrenAt_recalc, childrenAt_modifyGroup_self ns p P g _ hP hPg]
  have hp1 : parentAt ns1 n = parentAt ns n := by
    rw [← hns1, parentAt_recalc, parentAt_modifyGroup]
  have ha1 : addrs ns1 = addrs ns := by
    rw [← hns1, addrs_recalc, addrs_modifyGroup]
  obtain ⟨N1, hN1, hN1p⟩ : ∃ N1, getNode ns1 n = some N1 ∧ N1.parent = p := by
    have : parentAt ns1 n = some p := by rw [hp1]; simp [parentAt, hN, hNp]
    simp only [parentAt] at this
    cases h : getNode ns1 n with
    | none => rw [h] at this; cases this
    | some N1 => rw [h] at this; exact ⟨N1, rfl, by simpa using this⟩
  obtain ⟨P1, g1, hP1, hP1g, hg1c, hg1l⟩ : ∃ P1 g1, getNode ns1 p = some P1
      ∧ P1.data = .group g1
      ∧ g1.children
          = (if shiftIsForward d then pre ++ s :: n :: post else pre ++ n :: s :: post)
      ∧ g1.layout = g.layout := by
    rw [← hns1]
    simp [getNode_recalc, getNode_modifyGroup, hP, Hy3Node.mapGroup, hPg]
  obtain ⟨S1, hS1, hS1d⟩ : ∃ S1, getNode ns1 s = some S1 ∧ S1.data.isDirectTarget = true := by
    rw [← hns1]
    simp only [getNode_recalc, getNode_modifyGroup]
    by_cases hsp : s = p
    · subst hsp
      rw [if_pos rfl, hS]
      exact ⟨_, rfl, by
        simp only [Option.map_some']
        rw [mapGroup_isDirectTarget]; exact hSw⟩
    · rw [if_neg hsp, hS]
      exact ⟨_, rfl, hSw⟩
  have hch1 : g1.children
      = if shiftIsForward (reverse d) then pre ++ n :: s :: post
        else pre ++ s :: n :: post := by
    rw [hg1c, shiftIsForward_reverse]
    cases shiftIsForward d <;> rfl
  have hperm : g1.children.Perm g.children := by
    rw [hg1c, hch]
    cases shiftIsForward d
    · exact List.Perm.append_left _ (List.Perm.swap _ _ _)
    · exact List.Perm.append_left _ (List.Perm.swap _ _ _)
  have hnd1 : g1.children.Nodup := hperm.nodup_iff.2 hnd
  have h01 : (0 : Ptr) ∉ g1.children := fun h => h0 (hperm.mem_iff.1 h)
  have hm1 : shiftMatchesLayout g1.layout (reverse d) = true := by
    rw [hg1l, shiftMatchesLayout_reverse]; exact hm
  have hv1 : visible = false ∨ g1.layout ≠ .Tabbed := by rw [hg1l]; exact hv
  have h2 := shiftNode_swap O C self ns1 (reverse d) true visible n p s N1 P1 S1 g1 pre post
    hpa1 hact1' hN1 hN1p hp0 hP1 hP1g hm1 hv1 hch1 hnd1 h01 hS1 hS1d
  refine ⟨ns1, _, h1, h2, hc1, ?_, ?_, ha1, ?_⟩
  · rw [childrenAt_recalc, childrenAt_modifyGroup_self ns1 p P1 g1 _ hP1 hP1g]
    simp only [childrenAt, hP, Option.map_some', hPg, Hy3NodeData.children, hch,
      shiftIsForward_reverse]
    cases shiftIsForward d <;> rfl
  · rw [parentAt_recalc, parentAt_modifyGroup, hp1]
  · rw [addrs_recalc, addrs_modifyGroup, ha1]

theorem live_of_addrs (ns : List Hy3Node) (l : List Ptr) (h : ∀ c ∈ l, c ∈ addrs ns) :
    ∀ c ∈ l, ∃ X, getNode ns c = some X :=
  fun c hc => getNode_of_mem_addrs ns c (h c hc)

/-- C1 (amended): `shiftNode(n, d, once = true)` followed by
`shiftNode(n, reverse d, once = true)`, for a node `n` that is its own placement actor and
the placement actor of its expand actor before each call, and in (b), (c) and (d) its own
expand actor as well.  Both calls return, no node is created or removed, and afterwards
`n` has its original parent and that parent its original children sequence, in each of
these situations.
(a) The neighbour of `n` in the direction, inside a parent oriented along `d`, is not
entered (a window, or an expanded or locked group): the two change places and back.
(b) That neighbour is a group that is entered, and the parent has a third child (or is a
locked `Tabbed` group that is not ephemeral): `n` goes into the neighbour and comes back.
(c) `n` stands at the edge in the direction of its parent, the parent and the group above
are oriented along `d`, the parent is a group that is entered, and the group above has
another child: `n` leaves the parent and comes back.
(d) The parent of `n` is not oriented along `d`, the group above is, and `n` stands right
after the focused child of the parent (or is the focused child and stands second): `n`
leaves the parent and comes back after the focused child.
(e) The parent of `n` is a root that is not `Tabbed`, is not oriented along `d` and has two
children, the other one lying in the direction and not being entered: the root gets the axis
of `d`, the two change places and back, and the root keeps that axis.
In (b), (c) and (d) no group is swallowed: a group that `n` leaves keeps a child and is not
an ephemeral group with one child left, and the parent of the group that takes `n` in is not
a group with exactly one child. -/
theorem shift_round_trip_neighbour (O : NodeOps) (C : Compositor) (self : Nat)
    (ns : List Hy3Node) (d : ShiftDirection) (visible : Bool) (n : Ptr)
    (hpa : O.getPlacementActor ns n = n)
    (hact : O.getPlacementActor ns (O.getExpandActor ns n) = n)
    (hact1 : ∀ ns1, shiftNode O C self ns n d true visible = some ns1 →
      O.getPlacementActor ns1 n = n ∧ O.getPlacementActor ns1 (O.getExpandActor ns1 n) = n) :
    (∀ (p s : Ptr) (N P S : Hy3Node) (g : Hy3GroupData) (pre post : List Ptr),
        getNode ns n = some N → N.parent = p → p ≠ 0 →
        getNode ns p = some P → P.data = .group g →
        shiftMatchesLayout g.layout d = true → (visible = false ∨ g.layout ≠ .Tabbed) →
        g.children
          = (if shiftIsForward d then pre ++ n :: s :: post else pre ++ s :: n :: post) →
        g.children.Nodup → (0 : Ptr) ∉ g.children →
        getNode ns s = some S → S.data.isDirectTarget = true →
        ∃ ns1 ns2, shiftNode O C self ns n d true visible = some ns1
          ∧ shiftNode O C self ns1 n (reverse d) true visible = some ns2
          ∧ childrenAt ns1 p
              = some (if shiftIsForward d then pre ++ s :: n :: post
                      else pre ++ n :: s :: post)
          ∧ childrenAt ns2 p = childrenAt ns p
          ∧ parentAt ns2 n = parentAt ns n
          ∧ addrs ns1 = addrs ns ∧ addrs ns2 = addrs ns)
    ∧ (∀ (p s pp : Ptr) (dn : Hy3NodeData) (g gs : Hy3GroupData)
        (pre post chain : List Ptr),
        O.getExpandActor ns n = n →
        (∀ ns1, shiftNode O C self ns n d true visible = some ns1 →
          O.getExpandActor ns1 n = n) →
        NodeIs ns n p dn → NodeIs ns p pp (.group g) → NodeIs ns s p (.group gs) →
        p ≠ 0 → s ≠ 0 → n ≠ p → s ≠ p →
        shiftMatchesLayout g.layout d = true → (visible = false ∨ g.layout ≠ .Tabbed) →
        g.children
          = (if shiftIsForward d then pre ++ n :: s :: post else pre ++ s :: n :: post) →
        g.children.Nodup → (∀ c ∈ g.children, c ∈ addrs ns) →
        (Hy3NodeData.group gs).isDirectTarget = false →
        gs.children ≠ [] → (gs.focused_child = 0 ∨ gs.focused_child ∈ gs.children) →
        n ∉ gs.children → ¬ (gs.ephemeral = true ∧ gs.children.length = 1) →
        (pre ++ post ≠ [] ∨ (g.layout = .Tabbed ∧ g.locked = true ∧ g.ephemeral = false)) →
        (pp = 0 ∨ (pp ≠ s ∧ pp ≠ n ∧ pp ≠ p ∧ ∃ ppp dpp, NodeIs ns pp ppp dpp
          ∧ ∀ g0, dpp = .group g0 →
              (∀ c, g0.children ≠ [c]) ∨ (g0.layout = .Tabbed ∧ g0.locked = true))) →
        parentChain ns p chain → n ∉ chain → chain.length + 2 ≤ ns.length →
        ∃ ns1 ns2 pos, shiftNode O C self ns n d true visible = some ns1
          ∧ shiftNode O C self ns1 n (reverse d) true visible = some ns2
          ∧ parentAt ns1 n = some s
          ∧ childrenAt ns1 s = some (insertAt gs.children pos n)
          ∧ childrenAt ns1 p = some (pre ++ s :: post)
          ∧ parentAt ns2 n = parentAt ns n
          ∧ childrenAt ns2 p = childrenAt ns p
          ∧ childrenAt ns2 s = childrenAt ns s
          ∧ addrs ns1 = addrs ns ∧ addrs ns2 = addrs ns)
    ∧ (∀ (q r rp : Ptr) (dn : Hy3NodeData) (gq gr : Hy3GroupData)
        (cs pre post chain : List Ptr),
        O.getExpandActor ns n = n →
        (∀ ns1, shiftNode O C self ns n d true visible = some ns1 →
          O.getExpandActor ns1 n = n) →
        NodeIs ns n q dn → NodeIs ns q r (.group gq) → NodeIs ns r rp (.group gr) →
        q ≠ 0 → r ≠ 0 → n ≠ q → n ≠ r → q ≠ r →
        shiftMatchesLayout gq.layout d = true → (visible = false ∨ gq.layout ≠ .Tabbed) →
        gq.children = (if shiftIsForward d then cs ++ [n] else n :: cs) →
        cs ≠ [] → gq.children.Nodup →
        (Hy3NodeData.group gq).isDirectTarget = false →
        ¬ (gq.ephemeral = true ∧ cs.length = 1) →
        shiftMatchesLayout gr.layout d = true → (visible = false ∨ gr.layout ≠ .Tabbed) →
        gr.children = pre ++ q :: post → gr.children.Nodup → n ∉ gr.children →
        (∀ c ∈ gr.children, c ∈ addrs ns) →
        (pre ++ post ≠ []
          ∨ (gr.layout = .Tabbed ∧ gr.locked = true ∧ gr.ephemeral = false)) →
        (rp = 0 ∨ (rp ≠ q ∧ rp ≠ n ∧ rp ≠ r ∧ ∃ rpp drp, NodeIs ns rp rpp drp
          ∧ ∀ g0, drp = .group g0 →
              (∀ c, g0.children ≠ [c]) ∨ (g0.layout = .Tabbed ∧ g0.locked = true))) →
        parentChain ns r chain → n ∉ chain → chain.length + 2 ≤ ns.length →
        ∃ ns1 ns2, shiftNode O C self ns n d true visible = some ns1
          ∧ shiftNode O C self ns1 n (reverse d) true visible = some ns2
          ∧ parentAt ns1 n = some r
          ∧ childrenAt ns1 q = some cs
          ∧ childrenAt ns1 r
              = some (if shiftIsForward d then pre ++ q :: n :: post
                      else pre ++ n :: q :: post)
          ∧ parentAt ns2 n = parentAt ns n
          ∧ childrenAt ns2 q = childrenAt ns q
          ∧ childrenAt ns2 r = childrenAt ns r
          ∧ addrs ns1 = addrs ns ∧ addrs ns2 = addrs ns)
    ∧ (∀ (q r rp x : Ptr) (dn : Hy3NodeData) (gq gr : Hy3GroupData)
        (a b pre post chain : List Ptr),
        O.getExpandActor ns n = n →
        (∀ ns1, shiftNode O C self ns n d true visible = some ns1 →
          O.getExpandActor ns1 n = n) →
        NodeIs ns n q dn → NodeIs ns q r (.group gq) → NodeIs ns r rp (.group gr) →
        q ≠ 0 → r ≠ 0 → n ≠ q → n ≠ r → q ≠ r →
        ¬ (shiftMatchesLayout gq.layout d = true
          ∧ (visible = false ∨ gq.layout ≠ .Tabbed)) →
        gq.children = a ++ x :: n :: b → gq.children.Nodup → x ≠ 0 →
        (gq.focused_child = x ∨ (gq.focused_child = n ∧ a = [])) →
        (Hy3NodeData.group gq).isDirectTarget = false →
        ¬ (gq.ephemeral = true ∧ (a ++ x :: b).length = 1) →
        shiftMatchesLayout gr.layout d = true → (visible = false ∨ gr.layout ≠ .Tabbed) →
        gr.children = pre ++ q :: post → gr.children.Nodup → n ∉ gr.children →
        (∀ c ∈ gr.children, c ∈ addrs ns) →
        (pre ++ post ≠ []
          ∨ (gr.layout = .Tabbed ∧ gr.locked = true ∧ gr.ephemeral = false)) →
        (rp = 0 ∨ (rp ≠ q ∧ rp ≠ n ∧ rp ≠ r ∧ ∃ rpp drp, NodeIs ns rp rpp drp
          ∧ ∀ g0, drp = .group g0 →
              (∀ c, g0.children ≠ [c]) ∨ (g0.layout = .Tabbed ∧ g0.locked = true))) →
        parentChain ns r chain → n ∉ chain → q ∉ chain → chain.length + 2 ≤ ns.length →
        ∃ ns1 ns2, shiftNode O C self ns n d true visible = some ns1
          ∧ shiftNode O C self ns1 n (reverse d) true visible = some ns2
          ∧ parentAt ns1 n = some r
          ∧ childrenAt ns1 q = some (a ++ x :: b)
          ∧ childrenAt ns1 r
              = some (if shiftIsForward d then pre ++ q :: n :: post
                      else pre ++ n :: q :: post)
          ∧ parentAt ns2 n = parentAt ns n
          ∧ childrenAt ns2 q = childrenAt ns q
          ∧ childrenAt ns2 r = childrenAt ns r
          ∧ addrs ns1 = addrs ns ∧ addrs ns2 = addrs ns)
    ∧ (∀ (s r : Ptr) (N R S : Hy3Node) (g : Hy3GroupData),
        getNode ns n = some N → N.parent = r → r ≠ 0 →
        getNode ns r = some R → R.parent = 0 → R.data = .group g →
        shiftMatchesLayout g.layout d = false → g.layout ≠ .Tabbed →
        g.children = (if shiftIsForward d then [n, s] else [s, n]) →
        n ≠ s → n ≠ 0 → s ≠ 0 → s ≠ r →
        getNode ns s = some S → S.data.isDirectTarget = true →
        ∃ ns1 ns2, shiftNode O C self ns n d true visible = some ns1
          ∧ shiftNode O C self ns1 n (reverse d) true visible = some ns2
          ∧ layoutAt ns1 r = some (axisLayout d)
          ∧ childrenAt ns1 r = some (if shiftIsForward d then [s, n] else [n, s])
          ∧ parentAt ns2 n = parentAt ns n
          ∧ childrenAt ns2 r = childrenAt ns r
          ∧ layoutAt ns2 r = some (axisLayout d)
          ∧ addrs ns1 = addrs ns ∧ addrs ns2 = addrs ns) := by
  refine ⟨?_, ?_, ?_, ?_, ?_⟩
  · intro p s N P S g pre post hN hNp hp0 hP hPg hm hv hch hnd h0 hS hSw
    exact round_trip_swap O C self ns d visible n p s N P S g pre post hpa hact hact1
      hN hNp hp0 hP hPg hm hv hch hnd h0 hS hSw
  · intro p s pp dn g gs pre post chain hexp hexp1 hN hP hS hp0 hs0 hnp hsp hm hv hch hnd hlive hSd hne
      hfc hnS hkeepS hthree hsw hc hnc hlen
    exact round_trip_enter O C self ns d visible n p s pp dn g gs pre post chain hexp hpa
      (fun ns1 h => ⟨hexp1 ns1 h, (hact1 ns1 h).1⟩) hN hP hS hp0 hs0 hnp hsp hm hv hch hnd (live_of_addrs ns _ hlive) hSd hne hfc hnS
      hkeepS hthree hsw hc hnc hlen
  · intro q r rp dn gq gr cs pre post chain hexp hexp1 hN hQ hR hq0 hr0 hnq hnr hqr hmq hvq hcq hcs hndq
      hQd hkeepQ hmr hvr hcr hndr hnR hlive hthree hsw hc hnc hlen
    exact round_trip_exit O C self ns d visible n q r rp dn gq gr cs pre post chain hexp hpa
      (fun ns1 h => ⟨hexp1 ns1 h, (hact1 ns1 h).1⟩) hN hQ hR hq0 hr0 hnq hnr hqr hmq hvq hcq hcs hndq hQd hkeepQ hmr hvr hcr hndr hnR
      (live_of_addrs ns _ hlive) hthree hsw hc hnc hlen
  · intro q r rp x dn gq gr a b pre post chain hexp hexp1 hN hQ hR hq0 hr0 hnq hnr hqr hnC hcq hndq hx0
      hfoc hQd hkeepQ hmr hvr hcr hndr hnR hlive hthree hsw hc hnc hqc hlen
    exact round_trip_exit_focus O C self ns d visible n q r rp x dn gq gr a b pre post chain
      hexp hpa (fun ns1 h => ⟨hexp1 ns1 h, (hact1 ns1 h).1⟩) hN hQ hR hq0 hr0 hnq hnr hqr hnC hcq hndq hx0 hfoc hQd hkeepQ hmr hvr hcr
      hndr hnR (live_of_addrs ns _ hlive) hthree hsw hc hnc hqc hlen
  · intro s r N R S g hN hNp hr0 hR hRp hRg hm ht hch hns hn0 hs0 hsr hS hSd
    exact round_trip_flip O C self ns d visible n s r N R S g hpa hact hact1 hN hNp hr0 hR hRp
      hRg hm ht hch hns hn0 hs0 hsr hS hSd

/-- Witness for C1 (amended).  In `root(SplitH)[A, B]`, B goes left past A and back, and A
goes down, which turns the root, and back up.  In `root(SplitH)[A, G(SplitV)[X, Y], B]`, A
goes right into G and back, and Y goes right out of G and back.  In
`root(SplitH)[A, G(SplitH)[X, Y], B]`, Y goes right out of G over its edge and back. -/
theorem shift_round_trip_neighbour_witness :
    (∃ ns1 ns2, shiftNode O0 C0 7 exTwo 3 .Left true false = some ns1
      ∧ shiftNode O0 C0 7 ns1 3 (reverse .Left) true false = some ns2
      ∧ childrenAt ns1 2 = some [3, 1]
      ∧ childrenAt ns2 2 = childrenAt exTwo 2
      ∧ parentAt ns2 3 = parentAt exTwo 3
      ∧ addrs ns1 = addrs exTwo ∧ addrs ns2 = addrs exTwo)
    ∧ (∃ ns1 ns2 pos, shiftNode O0 C0 7 exSide 1 .Right true false = some ns1
      ∧ shiftNode O0 C0 7 ns1 1 (reverse .Right) true false = some ns2
      ∧ parentAt ns1 1 = some 4
      ∧ childrenAt ns1 4 = some (insertAt [5, 6] pos 1)
      ∧ childrenAt ns1 2 = some [4, 3]
      ∧ parentAt ns2 1 = parentAt exSide 1
      ∧ childrenAt ns2 2 = childrenAt exSide 2
      ∧ childrenAt ns2 4 = childrenAt exSide 4
      ∧ addrs ns1 = addrs exSide ∧ addrs ns2 = addrs exSide)
    ∧ (∃ ns1 ns2, shiftNode O0 C0 7 exSideH 6 .Right true false = some ns1
      ∧ shiftNode O0 C0 7 ns1 6 (reverse .Right) true false = some ns2
      ∧ parentAt ns1 6 = some 2
      ∧ childrenAt ns1 4 = some [5]
      ∧ childrenAt ns1 2 = some [1, 4, 6, 3]
      ∧ parentAt ns2 6 = parentAt exSideH 6
      ∧ childrenAt ns2 4 = childrenAt exSideH 4
      ∧ childrenAt ns2 2 = childrenAt exSideH 2
      ∧ addrs ns1 = addrs exSideH ∧ addrs ns2 = addrs exSideH)
    ∧ (∃ ns1 ns2, shiftNode O0 C0 7 exSide 6 .Right true false = some ns1
      ∧ shiftNode O0 C0 7 ns1 6 (reverse .Right) true false = some ns2
      ∧ parentAt ns1 6 = some 2
      ∧ childrenAt ns1 4 = some [5]
      ∧ childrenAt ns1 2 = some [1, 4, 6, 3]
      ∧ parentAt ns2 6 = parentAt exSide 6
      ∧ childrenAt ns2 4 = childrenAt exSide 4
      ∧ childrenAt ns2 2 = childrenAt exSide 2
      ∧ addrs ns1 = addrs exSide ∧ addrs ns2 = addrs exSide)
    ∧ (∃ ns1 ns2, shiftNode O0 C0 7 exTwo 1 .Down true false = some ns1
      ∧ shiftNode O0 C0 7 ns1 1 (reverse .Down) true false = some ns2
      ∧ layoutAt ns1 2 = some .SplitV
      ∧ childrenAt ns1 2 = some [3, 1]
      ∧ parentAt ns2 1 = parentAt exTwo 1
      ∧ childrenAt ns2 2 = childrenAt exTwo 2
      ∧ layoutAt ns2 2 = some .SplitV
      ∧ addrs ns1 = addrs exTwo ∧ addrs ns2 = addrs exTwo) :=
  ⟨(shift_round_trip_neighbour O0 C0 7 exTwo .Left false 3 rfl rfl
      (fun _ _ => ⟨rfl, rfl⟩)).1 2 1 (leaf 3 2 102) (grp 2 0 .SplitH [1, 3] 3) (leaf 1 2 101)
      _ [] [] rfl rfl (by decide) rfl rfl rfl (Or.inl rfl) rfl (by decide) (by decide) rfl rfl,
   (shift_round_trip_neighbour O0 C0 7 exSide .Right false 1 rfl rfl
      (fun _ _ => ⟨rfl, rfl⟩)).2.1 2 4 0 (.window 101) (grpData .SplitH [1, 4, 3] 1)
      (grpData .SplitV [5, 6] 5) [] [3] [] rfl (fun _ _ => rfl) ⟨_, rfl, rfl, rfl⟩
      ⟨_, rfl, rfl, rfl⟩
      ⟨_, rfl, rfl, rfl⟩ (by decide) (by decide) (by decide) (by decide) rfl (Or.inl rfl) rfl
      (by decide) (by decide) rfl (by decide) (Or.inr (by decide)) (by decide) (by decide)
      (Or.inl (by decide)) (Or.inl rfl) rfl (by decide) (by decide),
   (shift_round_trip_neighbour O0 C0 7 exSideH .Right false 6 rfl rfl
      (fun _ _ => ⟨rfl, rfl⟩)).2.2.1 4 2 0 (.window 104) (grpData .SplitH [5, 6] 5)
      (grpData .SplitH [1, 4, 3] 1) [5] [1] [3] [] rfl (fun _ _ => rfl) ⟨_, rfl, rfl, rfl⟩
      ⟨_, rfl, rfl, rfl⟩
      ⟨_, rfl, rfl, rfl⟩ (by decide) (by decide) (by decide) (by decide) (by decide) rfl
      (Or.inl rfl) rfl (by decide) (by decide) rfl (by decide) rfl (Or.inl rfl) rfl
      (by decide) (by decide) (by decide) (Or.inl (by decide)) (Or.inl rfl) rfl (by decide)
      (by decide),
   (shift_round_trip_neighbour O0 C0 7 exSide .Right false 6 rfl rfl
      (fun _ _ => ⟨rfl, rfl⟩)).2.2.2.1 4 2 0 5 (.window 104) (grpData .SplitV [5, 6] 5)
      (grpData .SplitH [1, 4, 3] 1) [] [] [1] [3] [] rfl (fun _ _ => rfl) ⟨_, rfl, rfl, rfl⟩
      ⟨_, rfl, rfl, rfl⟩
      ⟨_, rfl, rfl, rfl⟩ (by decide) (by decide) (by decide) (by decide) (by decide)
      (by decide) rfl (by decide) (by decide) (Or.inl rfl) rfl (by decide) rfl (Or.inl rfl)
      rfl (by decide) (by decide) (by decide) (Or.inl (by decide)) (Or.inl rfl) rfl
      (by decide) (by decide) (by decide),
   (shift_round_trip_neighbour O0 C0 7 exTwo .Down false 1 rfl rfl
      (fun _ _ => ⟨rfl, rfl⟩)).2.2.2.2 3 2 (leaf 1 2 101) (grp 2 0 .SplitH [1, 3] 3)
      (leaf 3 2 102) _ rfl rfl (by decide) rfl rfl rfl rfl (by decide) rfl (by decide)
      (by decide) (by decide) (by decide) rfl rfl⟩

/-- C1 (counterexample): in `root(SplitH)[A, B]`, shifting A to the left with `once = true`
changes nothing because A is already at the left edge of the root, and shifting it back to
the right moves it past B.  Both calls succeed and keep every node (no collapse), the parent
of A is the same, but the children of the root are `[B, A]` instead of `[A, B]`. -/
theorem shift_round_trip_counterexample :
    ∃ ns1 ns2, shiftNode O0 C0 7 exTwo 1 .Left true false = some ns1
      ∧ shiftNode O0 C0 7 ns1 1 (reverse .Left) true false = some ns2
      ∧ addrs ns1 = addrs exTwo ∧ addrs ns2 = addrs exTwo
      ∧ parentAt ns2 1 = parentAt exTwo 1
      ∧ childrenAt exTwo 2 = some [1, 3]
      ∧ childrenAt ns2 2 = some [3, 1] :=
  ⟨_, _, rfl, rfl, rfl, rfl, rfl, rfl, rfl⟩

end Hy3
